import Mathlib

/-!
# MeringueOS memory core: physical frame allocator and kernel heap

A shallow embedding of `src/memory/frame_alloc.c` and `src/memory/kheap.c`,
of the two collaborators `handle_sync_exception` (`src/exceptions/exceptions.c`)
and `uart_putc` (`src/lib/uart.c`), and of three library routines: `kprintf`
(`src/lib/stdio.c`), `simple_strtoull` (`src/lib/stdlib_stubs.c`) and
`is_address_valid` (`src/shell/shell.c`).

* Machine integers are natural numbers reduced modulo `2 ^ 64` wherever the C
  arithmetic is performed on `uint64_t` / `size_t` values.
* RAM is a byte-addressed map `Nat → Nat`; multi-byte fields are little endian
  (AArch64).  The static variables of the two modules are components of the
  state record.
* The frame bitmap is described twice.  In the functions named as in the
  source (`alloc_frame`, `free_frame`, `expand_heap`, `kmalloc`, ...) it is the
  component `frame_bitmap` of the state, which no store to RAM changes: this
  describes the code as long as no frame that holds a byte of the bitmap is
  handed out.  In the functions whose names start with `ram.`
  (`ram.alloc_frame`, `ram.kmalloc`, ...) the bitmap is the RAM from
  `&_pmm_bitmap_start` on, as in `frame_alloc.c` line 17, so that the zeroing
  of a frame and the stores of the heap change it when they reach it: this
  describes the code without restriction.  `ram_run_sim` relates the two.
* The null pointer is the address `0`.
* The linker-defined symbols read by `frame_alloc_init` are parameters
  (`Linker`); `virt_linker` and `low_linker` are two concrete layouts.
* The first-fit loop of `kmalloc` runs on fuel: `kmalloc` yields `none` when
  the walk over the free list does not end within the fuel.
* The invariants of the heap are stated over a ghost list, the physical
  chain; the executable walks `walk_next`, `walk_prev` and `walk_free` follow
  the pointers stored in RAM.
* Runs of `kmalloc` and `kfree` from `kheap_init` are traced on a description
  of the heap (`View`): the blocks in physical order with their sizes and
  flags, and the head of the free list.
* The exception dispatcher works on the saved register frame; the values it
  reads from `ESR_EL1` and `FAR_EL1` are parameters, each `kprintf` call is
  recorded with its format and arguments, and a call of `panic`, which never
  returns, is the outcome `Exit.halted`.
* The PL011 is a function giving the value of each successive read of the
  flag register; `uart_putc` runs on fuel and records the writes to the data
  register.
* A C string is the function giving its character at each index; what lies
  behind the terminating NUL is part of that function, so that a read past the
  NUL is visible.  `stdio.kprintf` is the formatter of `stdio.c`: it yields the
  characters stored in the 1024-byte buffer, the characters emitted and the
  return value, and runs on fuel, like `simple_strtoull`.
-/

namespace MeringueOS

/-! ## Constants of `frame_alloc.h` / `frame_alloc.c` -/

/-- `#define PAGE_SIZE 4096` -/
def PAGE_SIZE : Nat := 4096

/-- `#define PMM_RAM_BASE 0x40000000` -/
def PMM_RAM_BASE : Nat := 0x40000000

/-- `#define PMM_MANAGEABLE_SIZE (1024ULL * 1024ULL * 1024ULL)` -/
def PMM_MANAGEABLE_SIZE : Nat := 1024 * 1024 * 1024

/-- `#define PMM_MAX_ADDRESS (PMM_RAM_BASE + PMM_MANAGEABLE_SIZE)` -/
def PMM_MAX_ADDRESS : Nat := PMM_RAM_BASE + PMM_MANAGEABLE_SIZE

/-- `#define PMM_TOTAL_FRAMES (PMM_MANAGEABLE_SIZE / PAGE_SIZE)` -/
def PMM_TOTAL_FRAMES : Nat := PMM_MANAGEABLE_SIZE / PAGE_SIZE

/-- The largest `uint64_t`. -/
def UINT64_MAX : Nat := 2 ^ 64 - 1

/-- Truncation of an arithmetic result to 64 bits. -/
def u64 (x : Nat) : Nat := x % 2 ^ 64

/-- 64-bit subtraction `a - b` with wrap-around, for `a, b < 2 ^ 64`. -/
def sub64 (a b : Nat) : Nat := (a + 2 ^ 64 - b) % 2 ^ 64

/-! ## Byte-addressed RAM -/

/-- The library routine `memset(p, c, n)`: bytes `p .. p + n - 1` become `c`. -/
def memset (m : Nat → Nat) (p c n : Nat) : Nat → Nat :=
  fun a => if p ≤ a ∧ a < p + n then c else m a

/-- Store of a one-byte object (`bool`). -/
def write8 (m : Nat → Nat) (a v : Nat) : Nat → Nat :=
  fun x => if x = a then v % 256 else m x

/-- Load of a one-byte object. -/
def read8 (m : Nat → Nat) (a : Nat) : Nat := m a % 256

/-- Store of an 8-byte little-endian object (`size_t`, pointer). -/
def write64 (m : Nat → Nat) (a v : Nat) : Nat → Nat :=
  fun x => if a ≤ x ∧ x < a + 8 then (v / 256 ^ (x - a)) % 256 else m x

/-- Load of an 8-byte little-endian object. -/
def read64 (m : Nat → Nat) (a : Nat) : Nat :=
  m a % 256 + 256 * (m (a + 1) % 256) + 256 ^ 2 * (m (a + 2) % 256)
    + 256 ^ 3 * (m (a + 3) % 256) + 256 ^ 4 * (m (a + 4) % 256)
    + 256 ^ 5 * (m (a + 5) % 256) + 256 ^ 6 * (m (a + 6) % 256)
    + 256 ^ 7 * (m (a + 7) % 256)

/-! ## State of the memory subsystem -/

/-- The static variables of `frame_alloc.c` and `kheap.c`, the frame bitmap
(indexed by byte offset from `_pmm_bitmap_start`) and RAM.  In the code the
bitmap is part of RAM (`frame_bitmap = &_pmm_bitmap_start`); the field
`frame_bitmap` holds it apart from `mem` for the functions named as in the
source, and is the copy of the bytes at `&_pmm_bitmap_start` for the functions
of the section on the bitmap in RAM (`load_bitmap`, `store_bitmap`). -/
structure KState where
  /-- `frame_bitmap[k]` for `k = 0, 1, ...` -/
  frame_bitmap : Nat → Nat
  total_memory : Nat
  free_memory : Nat
  highest_usable_address : Nat
  /-- RAM, one byte per address -/
  mem : Nat → Nat
  free_list_head : Nat
  heap_start : Nat
  heap_end : Nat

/-! ## `frame_alloc.c` -/

/-- `frame_bitmap[bit / 8] |= (1 << (bit % 8));` -/
def set_bit (bm : Nat → Nat) (bit : Nat) : Nat → Nat :=
  fun k => if k = bit / 8 then (bm k ||| (1 <<< (bit % 8))) % 256 else bm k

/-- `frame_bitmap[bit / 8] &= ~(1 << (bit % 8));` (the complement is truncated
to the byte that is stored). -/
def clear_bit (bm : Nat → Nat) (bit : Nat) : Nat → Nat :=
  fun k => if k = bit / 8 then (bm k &&& (0xFF ^^^ (1 <<< (bit % 8)))) % 256 else bm k

/-- `return (frame_bitmap[bit / 8] & (1 << (bit % 8))) != 0;` -/
def test_bit (bm : Nat → Nat) (bit : Nat) : Bool :=
  (bm (bit / 8) &&& (1 <<< (bit % 8))) != 0

/-- Body of the `for` loop of `mark_range_used`, run `n` times from index `i`. -/
def mark_used_loop : Nat → Nat → KState → KState
  | 0, _, s => s
  | n + 1, i, s =>
    let s1 : KState :=
      if !test_bit s.frame_bitmap i then
        { s with
          frame_bitmap := set_bit s.frame_bitmap i
          total_memory :=
            if s.total_memory ≥ PAGE_SIZE then s.total_memory - PAGE_SIZE else s.total_memory
          free_memory :=
            if s.free_memory ≥ PAGE_SIZE then s.free_memory - PAGE_SIZE else s.free_memory }
      else s
    mark_used_loop n (i + 1) s1

/-- `static void mark_range_used(uint64_t base_addr, uint64_t size)` -/
def mark_range_used (s : KState) (base_addr size : Nat) : KState :=
  let start_frame :=
    if base_addr ≥ PMM_RAM_BASE then (base_addr - PMM_RAM_BASE) / PAGE_SIZE else UINT64_MAX
  let end_addr := u64 (base_addr + size)
  let end_frame :=
    if end_addr > PMM_RAM_BASE then (end_addr - 1 - PMM_RAM_BASE) / PAGE_SIZE else 0
  if start_frame ≥ PMM_TOTAL_FRAMES then s
  else
    let end_frame := if end_frame ≥ PMM_TOTAL_FRAMES then PMM_TOTAL_FRAMES - 1 else end_frame
    mark_used_loop (end_frame + 1 - start_frame) start_frame s

/-- Body of the `for` loop of `mark_range_free`, run `n` times from index `i`. -/
def mark_free_loop : Nat → Nat → KState → KState
  | 0, _, s => s
  | n + 1, i, s =>
    let s1 : KState :=
      if test_bit s.frame_bitmap i then
        { s with
          total_memory := u64 (s.total_memory + PAGE_SIZE)
          free_memory := u64 (s.free_memory + PAGE_SIZE)
          highest_usable_address :=
            if u64 (PMM_RAM_BASE + (i + 1) * PAGE_SIZE) > s.highest_usable_address then
              u64 (PMM_RAM_BASE + (i + 1) * PAGE_SIZE)
            else s.highest_usable_address }
      else s
    mark_free_loop n (i + 1) { s1 with frame_bitmap := clear_bit s1.frame_bitmap i }

/-- `static void mark_range_free(uint64_t base_addr, uint64_t size)` -/
def mark_range_free (s : KState) (base_addr size : Nat) : KState :=
  let start_frame :=
    if base_addr ≥ PMM_RAM_BASE then (base_addr - PMM_RAM_BASE) / PAGE_SIZE else UINT64_MAX
  let end_addr := u64 (base_addr + size)
  let end_frame :=
    if end_addr > PMM_RAM_BASE then (end_addr - 1 - PMM_RAM_BASE) / PAGE_SIZE else 0
  if start_frame ≥ PMM_TOTAL_FRAMES then s
  else
    let end_frame := if end_frame ≥ PMM_TOTAL_FRAMES then PMM_TOTAL_FRAMES - 1 else end_frame
    mark_free_loop (end_frame + 1 - start_frame) start_frame s

/-- The linker-defined symbols read by `frame_alloc_init` (the linker script is
not part of the sources): the addresses `&_kernel_start`, `&_kernel_end`,
`&_pmm_bitmap_start` and `&_pmm_bitmap_end`, all 64-bit values. -/
structure Linker where
  kernel_start : Nat
  kernel_end : Nat
  pmm_bitmap_start : Nat
  pmm_bitmap_end : Nat

/-- The two fields of `KERNEL_BOOT_PARAMS` that `frame_alloc_init` reads. -/
structure KERNEL_BOOT_PARAMS where
  kernel_phys_start : Nat
  kernel_phys_end : Nat

/-- `void frame_alloc_init(const KERNEL_BOOT_PARAMS *params)`; `none` is the
null `params` pointer. -/
def frame_alloc_init (ld : Linker) (params : Option KERNEL_BOOT_PARAMS) (s : KState) :
    KState :=
  let bitmap_size := sub64 ld.pmm_bitmap_end ld.pmm_bitmap_start
  let s0 : KState :=
    { s with
      frame_bitmap := memset s.frame_bitmap 0 0xFF bitmap_size
      total_memory := 0
      free_memory := 0
      highest_usable_address := PMM_RAM_BASE }
  let s1 : KState :=
    match params with
    | some p =>
      mark_range_used (mark_range_free s0 PMM_RAM_BASE PMM_MANAGEABLE_SIZE)
        p.kernel_phys_start (sub64 p.kernel_phys_end p.kernel_phys_start)
    | none =>
      mark_range_used (mark_range_free s0 PMM_RAM_BASE PMM_MANAGEABLE_SIZE)
        ld.kernel_start (sub64 ld.kernel_end ld.kernel_start)
  mark_range_used s1 ld.pmm_bitmap_start bitmap_size

/-- The scan `for (size_t i = 0; i < PMM_TOTAL_FRAMES; i++) if (!test_bit(i))`
of `alloc_frame`, with `n` iterations left from index `i`: the first index
whose bit is clear, if any. -/
def alloc_scan (bm : Nat → Nat) : Nat → Nat → Option Nat
  | 0, _ => none
  | n + 1, i => if !test_bit bm i then some i else alloc_scan bm n (i + 1)

/-- `void* alloc_frame(void)`: the returned pointer and the new state, with the
bitmap held apart from RAM, so that the zeroing of the frame acts on `mem`
only; `ram.alloc_frame` is the function with the bitmap in RAM. -/
def alloc_frame (s : KState) : Nat × KState :=
  match alloc_scan s.frame_bitmap PMM_TOTAL_FRAMES 0 with
  | some i =>
    let frame_addr := u64 (PMM_RAM_BASE + i * PAGE_SIZE)
    (frame_addr,
      { s with
        frame_bitmap := set_bit s.frame_bitmap i
        free_memory := sub64 s.free_memory PAGE_SIZE
        mem := memset s.mem frame_addr 0 PAGE_SIZE })
  | none => (0, s)

/-- `void free_frame(void *frame)` -/
def free_frame (s : KState) (frame : Nat) : KState :=
  if frame = 0 then s
  else
    let addr := frame
    if addr < PMM_RAM_BASE ∨ addr ≥ PMM_MAX_ADDRESS then s
    else if addr % PAGE_SIZE ≠ 0 then s
    else
      let frame_idx := (addr - PMM_RAM_BASE) / PAGE_SIZE
      if frame_idx ≥ PMM_TOTAL_FRAMES then s
      else if !test_bit s.frame_bitmap frame_idx then s
      else
        { s with
          frame_bitmap := clear_bit s.frame_bitmap frame_idx
          free_memory := u64 (s.free_memory + PAGE_SIZE) }

/-! ## `kheap.c`

`heap_block_t` on AArch64 (LP64): `size` at offset 0, `is_free` (one byte) at
offset 8, `next` at 16, `prev` at 24, `next_free` at 32, `prev_free` at 40;
`sizeof(heap_block_t) = 48`. -/

/-- `#define HEAP_HEADER_SIZE sizeof(heap_block_t)` -/
def HEAP_HEADER_SIZE : Nat := 48

/-- `#define HEAP_MIN_BLOCK_SIZE (HEAP_HEADER_SIZE * 2)` -/
def HEAP_MIN_BLOCK_SIZE : Nat := HEAP_HEADER_SIZE * 2

/-- `block->size` -/
def blk_size (m : Nat → Nat) (b : Nat) : Nat := read64 m b

/-- `block->is_free` -/
def blk_is_free (m : Nat → Nat) (b : Nat) : Bool := read8 m (b + 8) != 0

/-- `block->next` -/
def blk_next (m : Nat → Nat) (b : Nat) : Nat := read64 m (b + 16)

/-- `block->prev` -/
def blk_prev (m : Nat → Nat) (b : Nat) : Nat := read64 m (b + 24)

/-- `block->next_free` -/
def blk_next_free (m : Nat → Nat) (b : Nat) : Nat := read64 m (b + 32)

/-- `block->prev_free` -/
def blk_prev_free (m : Nat → Nat) (b : Nat) : Nat := read64 m (b + 40)

/-- `block->size = v` -/
def set_size (m : Nat → Nat) (b v : Nat) : Nat → Nat := write64 m b v

/-- `block->is_free = v` -/
def set_is_free (m : Nat → Nat) (b : Nat) (v : Bool) : Nat → Nat :=
  write8 m (b + 8) (if v then 1 else 0)

/-- `block->next = v` -/
def set_next (m : Nat → Nat) (b v : Nat) : Nat → Nat := write64 m (b + 16) v

/-- `block->prev = v` -/
def set_prev (m : Nat → Nat) (b v : Nat) : Nat → Nat := write64 m (b + 24) v

/-- `block->next_free = v` -/
def set_next_free (m : Nat → Nat) (b v : Nat) : Nat → Nat := write64 m (b + 32) v

/-- `block->prev_free = v` -/
def set_prev_free (m : Nat → Nat) (b v : Nat) : Nat → Nat := write64 m (b + 40) v

/-- `static void add_to_free_list(heap_block_t *block)` -/
def add_to_free_list (s : KState) (block : Nat) : KState :=
  let m := set_is_free s.mem block true
  let m := set_next_free m block s.free_list_head
  let m := set_prev_free m block 0
  let m := if s.free_list_head ≠ 0 then set_prev_free m s.free_list_head block else m
  { s with mem := m, free_list_head := block }

/-- `static void remove_from_free_list(heap_block_t *block)` -/
def remove_from_free_list (s : KState) (block : Nat) : KState :=
  let s1 : KState :=
    if blk_prev_free s.mem block ≠ 0 then
      { s with
        mem := set_next_free s.mem (blk_prev_free s.mem block) (blk_next_free s.mem block) }
    else { s with free_list_head := blk_next_free s.mem block }
  let m :=
    if blk_next_free s1.mem block ≠ 0 then
      set_prev_free s1.mem (blk_next_free s1.mem block) (blk_prev_free s1.mem block)
    else s1.mem
  let m := set_is_free m block false
  let m := set_next_free m block 0
  let m := set_prev_free m block 0
  { s1 with mem := m }

/-- The `for (size_t i = 0; i < pages_needed; ++i)` loop of `expand_heap` with
`n` iterations left; `new_block` is the loop-carried pointer.  The Boolean is
`false` when the loop was left through `return false`. -/
def expand_pages : Nat → Nat → KState → Bool × Nat × KState
  | 0, new_block, s => (true, new_block, s)
  | n + 1, new_block, s =>
    let r := alloc_frame s
    let frame := r.1
    let s1 := r.2
    if frame = 0 then (false, new_block, s1)
    else
      let current_block := frame
      let m := set_size s1.mem current_block (sub64 PAGE_SIZE HEAP_HEADER_SIZE)
      let m := set_is_free m current_block true
      let m := set_next m current_block 0
      let new_block := if new_block = 0 then current_block else new_block
      let s2 : KState :=
        if s1.heap_end ≠ 0 then
          let m := set_prev m current_block s1.heap_end
          let m := set_next m s1.heap_end current_block
          { s1 with mem := m }
        else
          { s1 with heap_start := current_block, mem := set_prev m current_block 0 }
      expand_pages n new_block { s2 with heap_end := current_block }

/-- `static bool expand_heap(size_t min_expand_size)`, with the bitmap held
apart from RAM (`ram.expand_heap` has it in RAM). -/
def expand_heap (s : KState) (min_expand_size : Nat) : Bool × KState :=
  let pages_needed := u64 (min_expand_size + HEAP_HEADER_SIZE + PAGE_SIZE - 1) / PAGE_SIZE
  let pages_needed := if pages_needed = 0 then 1 else pages_needed
  let r := expand_pages pages_needed 0 s
  let new_block := r.2.1
  let s1 := r.2.2
  if !r.1 then (false, s1)
  else if new_block = 0 then (false, s1)
  else
    let prev_block := blk_prev s1.mem new_block
    if prev_block ≠ 0 ∧ blk_is_free s1.mem prev_block then
      let s2 := remove_from_free_list s1 prev_block
      let m := set_size s2.mem prev_block
        (u64 (blk_size s2.mem prev_block + u64 (blk_size s2.mem new_block + HEAP_HEADER_SIZE)))
      let m := set_next m prev_block (blk_next m new_block)
      let m :=
        if blk_next m new_block ≠ 0 then set_prev m (blk_next m new_block) prev_block else m
      let heap_end := if s2.heap_end = new_block then prev_block else s2.heap_end
      (true, add_to_free_list { s2 with mem := m, heap_end := heap_end } prev_block)
    else (true, add_to_free_list s1 new_block)

/-- `static heap_block_t* coalesce(heap_block_t *block)` -/
def coalesce (s : KState) (block : Nat) : Nat × KState :=
  if block = 0 ∨ !blk_is_free s.mem block then (block, s)
  else
    let current := block
    let s1 : KState :=
      if blk_next s.mem current ≠ 0 ∧ blk_is_free s.mem (blk_next s.mem current) then
        let next_block := blk_next s.mem current
        let s2 := remove_from_free_list s next_block
        let m := set_size s2.mem current
          (u64 (blk_size s2.mem current + u64 (blk_size s2.mem next_block + HEAP_HEADER_SIZE)))
        let m := set_next m current (blk_next m next_block)
        let m := if blk_next m current ≠ 0 then set_prev m (blk_next m current) current else m
        let heap_end := if s2.heap_end = next_block then current else s2.heap_end
        { s2 with mem := memset m next_block 0 HEAP_HEADER_SIZE, heap_end := heap_end }
      else s
    if blk_prev s1.mem current ≠ 0 ∧ blk_is_free s1.mem (blk_prev s1.mem current) then
      let prev_block := blk_prev s1.mem current
      let s2 := remove_from_free_list s1 prev_block
      let m := set_size s2.mem prev_block
        (u64 (blk_size s2.mem prev_block + u64 (blk_size s2.mem current + HEAP_HEADER_SIZE)))
      let m := set_next m prev_block (blk_next m current)
      let m :=
        if blk_next m prev_block ≠ 0 then set_prev m (blk_next m prev_block) prev_block else m
      let heap_end := if s2.heap_end = current then prev_block else s2.heap_end
      (prev_block, { s2 with mem := memset m current 0 HEAP_HEADER_SIZE, heap_end := heap_end })
    else (current, s1)

/-- `void kheap_init()` -/
def kheap_init (s : KState) : KState :=
  (expand_heap { s with free_list_head := 0, heap_start := 0, heap_end := 0 }
    (PAGE_SIZE * 4)).2

/-- The first-fit `while (current_free)` loop of `kmalloc` with `fuel`
iterations allowed: `some b` is the value of `best_fit` when the loop ends
(`0` when no block fits), `none` when the loop does not end within `fuel`
iterations. -/
def first_fit (m : Nat → Nat) (size : Nat) : Nat → Nat → Option Nat
  | 0, _ => none
  | fuel + 1, current_free =>
    if current_free = 0 then some 0
    else if blk_size m current_free ≥ size then some current_free
    else first_fit m size fuel (blk_next_free m current_free)

/-- The part of `kmalloc` after a suitable block `best_fit` was found
(kheap.c lines 223-265); `size` is the rounded size. -/
def kmalloc_take (s : KState) (size best_fit : Nat) : Nat × KState :=
  let s1 := remove_from_free_list s best_fit
  let s2 : KState :=
    if blk_size s1.mem best_fit ≥ u64 (size + HEAP_MIN_BLOCK_SIZE) then
      let remaining_size := sub64 (sub64 (blk_size s1.mem best_fit) size) HEAP_HEADER_SIZE
      let new_free_block := u64 (best_fit + HEAP_HEADER_SIZE + size)
      let m := set_size s1.mem new_free_block remaining_size
      let m := set_is_free m new_free_block true
      let m := set_next m new_free_block (blk_next m best_fit)
      let m := set_prev m new_free_block best_fit
      let s3 : KState :=
        if blk_next m new_free_block ≠ 0 then
          { s1 with mem := set_prev m (blk_next m new_free_block) new_free_block }
        else { s1 with mem := m, heap_end := new_free_block }
      let m := set_size s3.mem best_fit size
      let m := set_next m best_fit new_free_block
      add_to_free_list { s3 with mem := m } new_free_block
    else s1
  let m := set_is_free s2.mem best_fit false
  let data_ptr := u64 (best_fit + HEAP_HEADER_SIZE)
  (data_ptr, { s2 with mem := memset m data_ptr 0 (blk_size m best_fit) })

/-- `void* kmalloc(size_t size)`.  `fuel` bounds the number of iterations of
each free-list walk; the result is `none` when a walk does not end within
that bound, otherwise the returned pointer and the new state.  The bitmap is
held apart from RAM (`ram.kmalloc` has it in RAM). -/
def kmalloc (fuel : Nat) (s : KState) (size : Nat) : Option (Nat × KState) :=
  if size = 0 then some (0, s)
  else
    let alignment := 8
    let size := u64 (size + alignment - 1) &&& (UINT64_MAX ^^^ (alignment - 1))
    let total_size_needed := u64 (size + HEAP_HEADER_SIZE)
    match first_fit s.mem size fuel s.free_list_head with
    | none => none
    | some best_fit =>
      if best_fit = 0 then
        let r := expand_heap s total_size_needed
        if !r.1 then some (0, r.2)
        else
          match first_fit r.2.mem size fuel r.2.free_list_head with
          | none => none
          | some best_fit =>
            if best_fit = 0 then some (0, r.2)
            else some (kmalloc_take r.2 size best_fit)
      else some (kmalloc_take s size best_fit)

/-- `void kfree(void *ptr)` -/
def kfree (s : KState) (ptr : Nat) : KState :=
  if ptr = 0 then s
  else
    let block := sub64 ptr HEAP_HEADER_SIZE
    if blk_is_free s.mem block then s
    else
      let r := coalesce { s with mem := set_is_free s.mem block true } block
      add_to_free_list r.2 r.1

/-! ### Specification-level definitions -/

/-- Number of clear bits among bitmap bits `0 .. n - 1`. -/
def clear_count (bm : Nat → Nat) : Nat → Nat
  | 0 => 0
  | n + 1 => clear_count bm n + (if test_bit bm n then 0 else 1)

/-- A call of the frame allocator's interface after initialisation. -/
inductive PmmOp where
  | alloc : PmmOp
  | free (frame : Nat) : PmmOp

/-- The state after one call. -/
def pmm_step (s : KState) : PmmOp → KState
  | PmmOp.alloc => (alloc_frame s).2
  | PmmOp.free frame => free_frame s frame

/-- The state after a sequence of calls. -/
def pmm_run (s : KState) (ops : List PmmOp) : KState := ops.foldl pmm_step s

/-- Whether `free_frame(frame)` passes every validation and frees the frame. -/
def free_frame_ok (s : KState) (frame : Nat) : Bool :=
  decide (frame ≠ 0) && decide (PMM_RAM_BASE ≤ frame) && decide (frame < PMM_MAX_ADDRESS)
    && decide (frame % PAGE_SIZE = 0) && test_bit s.frame_bitmap ((frame - PMM_RAM_BASE) / PAGE_SIZE)

/-- One call, together with the list of live frames: the addresses returned
by `alloc_frame` that have not since been successfully freed. -/
def pmm_step_live (r : KState × List Nat) : PmmOp → KState × List Nat
  | PmmOp.alloc =>
    ((alloc_frame r.1).2,
      if (alloc_frame r.1).1 = 0 then r.2 else (alloc_frame r.1).1 :: r.2)
  | PmmOp.free frame =>
    (free_frame r.1 frame,
      if free_frame_ok r.1 frame then r.2.filter (fun a => a != frame) else r.2)

/-- A sequence of calls, together with the list of live frames. -/
def pmm_run_live (r : KState × List Nat) (ops : List PmmOp) : KState × List Nat :=
  ops.foldl pmm_step_live r

/-- The counter invariant of the frame allocator: `free_memory` is `PAGE_SIZE`
times the number of clear bits among the `PMM_TOTAL_FRAMES` frame bits. -/
def PInv (s : KState) : Prop :=
  s.free_memory = PAGE_SIZE * clear_count s.frame_bitmap PMM_TOTAL_FRAMES

/-- The state in which every byte and every variable is zero (the contents of
`.bss` before any initialisation). -/
def zero_state : KState where
  frame_bitmap := fun _ => 0
  total_memory := 0
  free_memory := 0
  highest_usable_address := 0
  mem := fun _ => 0
  free_list_head := 0
  heap_start := 0
  heap_end := 0

/-- A layout as on the QEMU `virt` machine: the kernel image occupies
`0x40080000 .. 0x40100000` and the bitmap's 32768 bytes lie inside it. -/
def virt_linker : Linker where
  kernel_start := 0x40080000
  kernel_end := 0x40100000
  pmm_bitmap_start := 0x400F0000
  pmm_bitmap_end := 0x400F8000

/-- Boot parameters matching `virt_linker`. -/
def virt_params : KERNEL_BOOT_PARAMS where
  kernel_phys_start := 0x40080000
  kernel_phys_end := 0x40100000

/-- A consistent state with every frame free. -/
def all_free_state : KState where
  frame_bitmap := fun _ => 0
  total_memory := 1073741824
  free_memory := 1073741824
  highest_usable_address := 0x80000000
  mem := fun _ => 0
  free_list_head := 0
  heap_start := 0
  heap_end := 0

/-- The headers of two blocks coincide or do not overlap. -/
def SepH (a b : Nat) : Prop := a = b ∨ a + 48 ≤ b ∨ b + 48 ≤ a

/-- A set of block addresses whose headers are pairwise apart; no block is at
the null address and every header lies below `2 ^ 63`. -/
structure Hdrs (B : Nat → Prop) : Prop where
  pos : ∀ b, B b → 0 < b ∧ b < 2 ^ 63
  sep : ∀ a b, B a → B b → SepH a b

/-- Consistency of the free-list links among the blocks of `B`, in terms of
the field maps: the head, if any, is a flagged block of `B` without
predecessor; `next_free` and `prev_free` are mutually inverse wherever they
are set; a block that is not flagged free has both links null. -/
structure FLf (nf pf : Nat → Nat) (isf : Nat → Bool) (head : Nat) (B : Nat → Prop) :
    Prop where
  head_ok : head ≠ 0 → B head ∧ pf head = 0 ∧ isf head = true
  nf_ok : ∀ b, B b → nf b ≠ 0 → B (nf b) ∧ pf (nf b) = b
  pf_ok : ∀ b, B b → pf b ≠ 0 → B (pf b) ∧ nf (pf b) = b
  flag_ok : ∀ b, B b → isf b = false → nf b = 0 ∧ pf b = 0

/-- Free-list consistency of a heap state over the block set `B`. -/
def FL (s : KState) (B : Nat → Prop) : Prop :=
  FLf (blk_next_free s.mem) (blk_prev_free s.mem) (blk_is_free s.mem) s.free_list_head B

/-- A block of `B` that is on no list: it is not the head and both of its
free-list links are null. -/
def Detached (s : KState) (z : Nat) : Prop :=
  z ≠ s.free_list_head ∧ blk_next_free s.mem z = 0 ∧ blk_prev_free s.mem z = 0

/-- The last element of a list, `d` for the empty list. -/
def lastD : List Nat → Nat → Nat
  | [], d => d
  | b :: rest, _ => lastD rest b

/-- A segment of the physical chain: the blocks of the list are linked by
`next` and `prev` in list order, `p` is what the first block's `prev` holds and
`nx` what the last block's `next` holds; every block is 8-byte aligned inside
the managed window, its payload size is a multiple of 8, and header plus
payload end at or before the start of the following block (`e` for the last
block). -/
def Seg (m : Nat → Nat) : Nat → List Nat → Nat → Nat → Prop
  | _, [], _, _ => True
  | p, b :: rest, nx, e =>
    blk_prev m b = p ∧ blk_next m b = rest.headD nx ∧
    b + 48 + blk_size m b ≤ rest.headD e ∧
    PMM_RAM_BASE ≤ b ∧ b % 8 = 0 ∧ blk_size m b % 8 = 0 ∧
    Seg m b rest nx e

/-- The physical chain `chain` of a heap state: it runs from `heap_start` to
`heap_end`, ends at or before `lim`, and every frame that starts below `lim`
is marked used in the frame bitmap. -/
structure PhysInv (s : KState) (chain : List Nat) (lim : Nat) : Prop where
  seg : Seg s.mem 0 chain 0 lim
  hstart : s.heap_start = chain.headD 0
  hend : s.heap_end = lastD chain 0
  lim_le : lim ≤ PMM_MAX_ADDRESS
  bits : ∀ i, i < PMM_TOTAL_FRAMES → PMM_RAM_BASE + i * PAGE_SIZE < lim →
    test_bit s.frame_bitmap i = true

/-- The heap invariant: the physical chain is well formed and the free-list
links among its blocks are consistent. -/
structure HeapInv (s : KState) (chain : List Nat) (lim : Nat) : Prop where
  phys : PhysInv s chain lim
  fl : FL s (fun b => b ∈ chain)

/-- The merge of block `y` into its predecessor `x`, the code shared by
`coalesce` (both directions, with the merged-away header cleared) and by
`expand_heap` (header not cleared): `x->size += y->size + HEADER`,
`x->next = y->next`, `if (y->next) y->next->prev = x`,
`if (heap_end == y) heap_end = x`. -/
def absorb (s : KState) (x y : Nat) (clear : Bool) : KState :=
  let m := set_size s.mem x (u64 (blk_size s.mem x + u64 (blk_size s.mem y + HEAP_HEADER_SIZE)))
  let m := set_next m x (blk_next m y)
  let m := if blk_next m y ≠ 0 then set_prev m (blk_next m y) x else m
  { s with
    mem := if clear then memset m y 0 HEAP_HEADER_SIZE else m
    heap_end := if s.heap_end = y then x else s.heap_end }

/-- First half of `coalesce` (kheap.c lines 123-139): the merge with the next
block. -/
def coalesce_fwd (s : KState) (current : Nat) : KState :=
  if blk_next s.mem current ≠ 0 ∧ blk_is_free s.mem (blk_next s.mem current) then
    let next_block := blk_next s.mem current
    let s2 := remove_from_free_list s next_block
    let m := set_size s2.mem current
      (u64 (blk_size s2.mem current + u64 (blk_size s2.mem next_block + HEAP_HEADER_SIZE)))
    let m := set_next m current (blk_next m next_block)
    let m := if blk_next m current ≠ 0 then set_prev m (blk_next m current) current else m
    let heap_end := if s2.heap_end = next_block then current else s2.heap_end
    { s2 with mem := memset m next_block 0 HEAP_HEADER_SIZE, heap_end := heap_end }
  else s

/-- Second half of `coalesce` (kheap.c lines 141-160): the merge with the
previous block, and the returned pointer. -/
def coalesce_bwd (s1 : KState) (current : Nat) : Nat × KState :=
  if blk_prev s1.mem current ≠ 0 ∧ blk_is_free s1.mem (blk_prev s1.mem current) then
    let prev_block := blk_prev s1.mem current
    let s2 := remove_from_free_list s1 prev_block
    let m := set_size s2.mem prev_block
      (u64 (blk_size s2.mem prev_block + u64 (blk_size s2.mem current + HEAP_HEADER_SIZE)))
    let m := set_next m prev_block (blk_next m current)
    let m :=
      if blk_next m prev_block ≠ 0 then set_prev m (blk_next m prev_block) prev_block else m
    let heap_end := if s2.heap_end = current then prev_block else s2.heap_end
    (prev_block, { s2 with mem := memset m current 0 HEAP_HEADER_SIZE, heap_end := heap_end })
  else (current, s1)

/-- The body of the loop of `expand_heap` after a successful `alloc_frame`
(kheap.c lines 72-90): the frame becomes a block linked at the tail. -/
def link_block (s1 : KState) (current_block : Nat) : KState :=
  let m := set_size s1.mem current_block (sub64 PAGE_SIZE HEAP_HEADER_SIZE)
  let m := set_is_free m current_block true
  let m := set_next m current_block 0
  let s2 : KState :=
    if s1.heap_end ≠ 0 then
      let m := set_prev m current_block s1.heap_end
      let m := set_next m s1.heap_end current_block
      { s1 with mem := m }
    else
      { s1 with heap_start := current_block, mem := set_prev m current_block 0 }
  { s2 with heap_end := current_block }

/-- The end of `expand_heap` after a successful loop (kheap.c lines 95-111):
the first new block is merged into its predecessor when that one is flagged
free, and the result is put on the free list. -/
def expand_finish (s1 : KState) (new_block : Nat) : KState :=
  if blk_prev s1.mem new_block ≠ 0 ∧ blk_is_free s1.mem (blk_prev s1.mem new_block) then
    add_to_free_list
      (absorb (remove_from_free_list s1 (blk_prev s1.mem new_block))
        (blk_prev s1.mem new_block) new_block false)
      (blk_prev s1.mem new_block)
  else add_to_free_list s1 new_block

/-- The number of pages `expand_heap(min_expand_size)` asks for. -/
def pages_needed (min_expand_size : Nat) : Nat :=
  if u64 (min_expand_size + HEAP_HEADER_SIZE + PAGE_SIZE - 1) / PAGE_SIZE = 0 then 1
  else u64 (min_expand_size + HEAP_HEADER_SIZE + PAGE_SIZE - 1) / PAGE_SIZE

/-- The split of `kmalloc` (kheap.c lines 229-244), up to but not including
the call of `add_to_free_list`: a new block is carved out of the end of
`best_fit`'s payload and linked into the physical chain. -/
def split_block (s1 : KState) (size best_fit : Nat) : KState :=
  let remaining_size := sub64 (sub64 (blk_size s1.mem best_fit) size) HEAP_HEADER_SIZE
  let new_free_block := u64 (best_fit + HEAP_HEADER_SIZE + size)
  let m := set_size s1.mem new_free_block remaining_size
  let m := set_is_free m new_free_block true
  let m := set_next m new_free_block (blk_next m best_fit)
  let m := set_prev m new_free_block best_fit
  let s3 : KState :=
    if blk_next m new_free_block ≠ 0 then
      { s1 with mem := set_prev m (blk_next m new_free_block) new_free_block }
    else { s1 with mem := m, heap_end := new_free_block }
  let m := set_size s3.mem best_fit size
  let m := set_next m best_fit new_free_block
  { s3 with mem := m }

/-- The rounding of the requested size in `kmalloc`:
`(size + alignment - 1) & ~(alignment - 1)` with `alignment = 8`. -/
def round_size (size : Nat) : Nat := u64 (size + 8 - 1) &&& (UINT64_MAX ^^^ (8 - 1))

/-- The heap states reachable from `kheap_init` (called in state `s0`),
together with the list of live pointers: the non-null pointers returned by
`kmalloc` and not yet passed to `kfree`.  The steps are: a `kmalloc` call that
returns; a `kfree` call on the null pointer or on a live pointer; a `kfree`
call that the function rejects because the header it finds is flagged free;
and a write of the client into the payload of a live pointer (`n` bytes from
address `q` receive the value `c`).  The steps are those of `kmalloc` and
`kfree` with the bitmap held apart from RAM. -/
inductive Reach (s0 : KState) : KState → List Nat → Prop where
  | init : Reach s0 (kheap_init s0) []
  | malloc (s : KState) (live : List Nat) (fuel size ptr : Nat) (s2 : KState) :
      Reach s0 s live → kmalloc fuel s size = some (ptr, s2) →
      Reach s0 s2 (if ptr = 0 then live else ptr :: live)
  | free (s : KState) (live : List Nat) (ptr : Nat) :
      Reach s0 s live → (ptr = 0 ∨ ptr ∈ live) →
      Reach s0 (kfree s ptr) (live.filter (fun q => q != ptr))
  | rejected (s : KState) (live : List Nat) (ptr : Nat) :
      Reach s0 s live → blk_is_free s.mem (sub64 ptr HEAP_HEADER_SIZE) = true →
      Reach s0 (kfree s ptr) live
  | fill (s : KState) (live : List Nat) (ptr q c n : Nat) :
      Reach s0 s live → ptr ∈ live → ptr ≤ q →
      q + n ≤ ptr + blk_size s.mem (ptr - 48) →
      Reach s0 { s with mem := memset s.mem q c n } live

/-- The blocks met by following `next` from `b`, at most `fuel` of them. -/
def walk_next (m : Nat → Nat) : Nat → Nat → List Nat
  | 0, _ => []
  | fuel + 1, b => if b = 0 then [] else b :: walk_next m fuel (blk_next m b)

/-- The blocks met by following `prev` from `b`, at most `fuel` of them. -/
def walk_prev (m : Nat → Nat) : Nat → Nat → List Nat
  | 0, _ => []
  | fuel + 1, b => if b = 0 then [] else b :: walk_prev m fuel (blk_prev m b)

/-- The blocks met by following `next_free` from `b`, at most `fuel` of them. -/
def walk_free (m : Nat → Nat) : Nat → Nat → List Nat
  | 0, _ => []
  | fuel + 1, b => if b = 0 then [] else b :: walk_free m fuel (blk_next_free m b)

/-- The sum of the payload sizes of the blocks of a list that are flagged free. -/
def free_sum_list (m : Nat → Nat) (l : List Nat) : Nat :=
  (l.map (fun b => if blk_is_free m b then blk_size m b else 0)).sum

/-- The sum of the payload sizes of the free blocks of the physical chain,
walked from `heap_start` (at most `fuel` blocks). -/
def free_sum (s : KState) (fuel : Nat) : Nat :=
  free_sum_list s.mem (walk_next s.mem fuel s.heap_start)

/-- The invariant of the reachable heap states: the heap invariant holds for
some chain, and every live pointer is the payload address of a block of the
chain that is not flagged free. -/
def ReachInv (s : KState) (live : List Nat) : Prop :=
  ∃ chain lim, HeapInv s chain lim ∧
    ∀ p, p ∈ live → 48 ≤ p ∧ p - 48 ∈ chain ∧ blk_is_free s.mem (p - 48) = false

/-- The state that `frame_alloc_init` leaves on the `virt` layout, started
from `zero_state`: frames 128 .. 255 (the kernel image, which contains the
bitmap) are in use and every other frame is free. -/
def virt_boot_state : KState where
  frame_bitmap := fun k => if 16 ≤ k ∧ k < 32 then 255 else 0
  total_memory := 1073217536
  free_memory := 1073217536
  highest_usable_address := 0x80000000
  mem := fun _ => 0
  free_list_head := 0
  heap_start := 0
  heap_end := 0

/-- The heap right after boot on the `virt` layout: `frame_alloc_init` run
from `zero_state`, then `kheap_init`. -/
def boot_heap : KState :=
  kheap_init (frame_alloc_init virt_linker (some virt_params) zero_state)

/-- A layout with the kernel image low in RAM: it occupies
`0x40008000 .. 0x40020000` (frames 8 .. 31) and contains the bitmap. -/
def low_linker : Linker where
  kernel_start := 0x40008000
  kernel_end := 0x40020000
  pmm_bitmap_start := 0x40010000
  pmm_bitmap_end := 0x40018000

/-- A layout like `virt_linker` but with a bitmap storage of 4096 bytes only,
one bit for each of the first 32768 frames. -/
def short_bitmap_linker : Linker where
  kernel_start := 0x40080000
  kernel_end := 0x40100000
  pmm_bitmap_start := 0x400F0000
  pmm_bitmap_end := 0x400F1000

/-- Boot parameters matching `low_linker`. -/
def low_params : KERNEL_BOOT_PARAMS where
  kernel_phys_start := 0x40008000
  kernel_phys_end := 0x40020000

/-- The state that `frame_alloc_init` leaves on the `low_linker` layout,
started from `zero_state`: frames 8 .. 31 are in use and every other frame is
free. -/
def low_boot_state : KState where
  frame_bitmap := fun k => if 1 ≤ k ∧ k < 4 then 255 else 0
  total_memory := 1073643520
  free_memory := 1073643520
  highest_usable_address := 0x80000000
  mem := fun _ => 0
  free_list_head := 0
  heap_start := 0
  heap_end := 0

/-- The heap right after boot on the `low_linker` layout. -/
def low_boot_heap : KState :=
  kheap_init (frame_alloc_init low_linker (some low_params) zero_state)


/-- The loop `while (n-- > 0) *p++ = uc;` of `memset` in `lib/string.c`, with
`uc = (unsigned char)c`. -/
def memset_loop (m : Nat → Nat) (p uc : Nat) : Nat → Nat → Nat
  | 0 => m
  | n + 1 => memset_loop (write8 m p uc) (p + 1) uc n

/-- The values held by the frame allocator's variables are values of their C
types: the bitmap is an array of bytes, `free_memory` a `uint64_t`. -/
def PmmTyped (s : KState) : Prop :=
  (∀ k, s.frame_bitmap k < 256) ∧ s.free_memory < 2 ^ 64

/-- A state in which every frame is in use. -/
def full_state : KState where
  frame_bitmap := fun _ => 255
  total_memory := 0
  free_memory := 0
  highest_usable_address := 0x80000000
  mem := fun _ => 0
  free_list_head := 0
  heap_start := 0
  heap_end := 0

/-- A description of the heap by the list of its blocks in physical order,
each with its payload size and its `is_free` flag, and by the head of the
free list: the heap invariant holds for the list of block addresses, and the
headers in RAM hold the listed sizes and flags. -/
def View (s : KState) (bl : List (Nat × Nat × Bool)) (lim head : Nat) : Prop :=
  HeapInv s (bl.map Prod.fst) lim ∧ s.free_list_head = head ∧
    ∀ x, x ∈ bl → blk_size s.mem x.1 = x.2.1 ∧ blk_is_free s.mem x.1 = x.2.2

/-- Frames `i0 .. i0 + n - 1` are free and are the lowest free frames. -/
def FreeRun (s : KState) (i0 n : Nat) : Prop :=
  (∀ j, j < i0 → test_bit s.frame_bitmap j = true) ∧
  (∀ k, k < n → test_bit s.frame_bitmap (i0 + k) = false) ∧
  i0 + n ≤ PMM_TOTAL_FRAMES

/-! ### The frames visited by `mark_range_used` and `mark_range_free` -/

/-- The value of `start_frame` in `mark_range_used` and `mark_range_free`. -/
def start_frame (base_addr : Nat) : Nat :=
  if base_addr ≥ PMM_RAM_BASE then (base_addr - PMM_RAM_BASE) / PAGE_SIZE else UINT64_MAX

/-- The value of `end_frame` in `mark_range_used` and `mark_range_free` when
the loop is entered, that is after the cap to `PMM_TOTAL_FRAMES - 1`. -/
def end_frame (base_addr size : Nat) : Nat :=
  let end_addr := u64 (base_addr + size)
  let end_frame :=
    if end_addr > PMM_RAM_BASE then (end_addr - 1 - PMM_RAM_BASE) / PAGE_SIZE else 0
  if end_frame ≥ PMM_TOTAL_FRAMES then PMM_TOTAL_FRAMES - 1 else end_frame

/-- The number of iterations of the loop
`for (uint64_t i = start_frame; i <= end_frame; ++i)` of `mark_range_used` and
`mark_range_free`; it is 0 when the function returns before the loop. -/
def range_count (base_addr size : Nat) : Nat :=
  if start_frame base_addr ≥ PMM_TOTAL_FRAMES then 0
  else end_frame base_addr size + 1 - start_frame base_addr

/-- Frame `i`, the bytes `[RAM_BASE + i * 4096, RAM_BASE + (i + 1) * 4096)`,
intersects the byte range `[a, b)`. -/
def frame_overlaps (i a b : Nat) : Prop :=
  a < b ∧ a < PMM_RAM_BASE + (i + 1) * PAGE_SIZE ∧ PMM_RAM_BASE + i * PAGE_SIZE < b

instance frame_overlaps_decidable (i a b : Nat) : Decidable (frame_overlaps i a b) := by
  unfold frame_overlaps
  exact inferInstance

/-- Frame `i` is reserved: it intersects the kernel image range of the boot
parameters or the storage of the bitmap. -/
def reserved_frame (ld : Linker) (p : KERNEL_BOOT_PARAMS) (i : Nat) : Prop :=
  frame_overlaps i p.kernel_phys_start p.kernel_phys_end ∨
    frame_overlaps i ld.pmm_bitmap_start ld.pmm_bitmap_end

/-! ## `exceptions.c` -/

/-- `saved_registers_t`: the context saved on the stack by the vector code. -/
structure saved_registers_t where
  /-- `regs[0] .. regs[30]`, the registers x0 .. x30 -/
  regs : Nat → Nat
  spsr_el1 : Nat
  elr_el1 : Nat
  sp_el0 : Nat

/-- An argument of a `kprintf` call: an integer or a string. -/
inductive KArg where
  | num (v : Nat) : KArg
  | str (s : String) : KArg

/-- A call `kprintf(fmt, ...)` with the values of its arguments. -/
structure KPrint where
  fmt : String
  args : List KArg

/-- What a handler can reach: the saved context `*context`, the calls of
`kprintf` made so far (oldest first), and whether `msr daifset, #0xf` was
executed. -/
structure Cpu where
  context : saved_registers_t
  console : List KPrint
  daif_masked : Bool

/-- How a handler ends: it returns to the vector code, or control stays for
ever in the `wfi` loop of `panic`. -/
inductive Exit where
  | returned : Exit
  | halted : Exit

/-- `kprintf(fmt, ...)`, recorded on the console. -/
def kprintf (c : Cpu) (fmt : String) (args : List KArg) : Cpu :=
  { c with console := c.console ++ [{ fmt := fmt, args := args }] }

/-- `void panic(const char *message)`: two lines are printed, the interrupts
are masked and the function never returns. -/
def panic (c : Cpu) (message : String) : Exit × Cpu :=
  let c := kprintf c "\nKERNEL PANIC: %s\n" [KArg.str message]
  let c := kprintf c "System halted.\n" []
  (Exit.halted, { c with daif_masked := true })

/-- `void print_registers(const saved_registers_t *context)`: the loop
`for (int i = 0; i < 31; i += 2)` runs for `i = 0, 2, .., 30`. -/
def print_registers (c : Cpu) (context : saved_registers_t) : Cpu :=
  let c := kprintf c "Saved Registers:\n" []
  let c := (List.range 16).foldl (fun c k =>
    kprintf c "  x%-2d: %016llx   x%-2d: %016llx\n"
      [KArg.num (2 * k), KArg.num (context.regs (2 * k)), KArg.num (2 * k + 1),
        KArg.num (if 2 * k + 1 < 31 then context.regs (2 * k + 1) else 0)]) c
  let c := kprintf c "  SPSR_EL1: %016llx\n" [KArg.num context.spsr_el1]
  let c := kprintf c "  ELR_EL1:  %016llx\n" [KArg.num context.elr_el1]
  kprintf c "  SP_EL0:   %016llx\n" [KArg.num context.sp_el0]

/-- `uint32_t ec = (esr >> 26) & 0x3F;` -/
def decode_ec (esr : Nat) : Nat := ((esr >>> 26) &&& 0x3F) % 2 ^ 32

/-- `uint32_t iss = esr & 0x1FFFFFF;` -/
def decode_iss (esr : Nat) : Nat := (esr &&& 0x1FFFFFF) % 2 ^ 32

/-- `uint16_t svc_imm = iss & 0xFFFF;` -/
def decode_svc_imm (iss : Nat) : Nat := (iss &&& 0xFFFF) % 2 ^ 16

/-- The `switch (ec)` of `handle_sync_exception`: the values of `ec_str` and
`far_valid` after it. -/
def ec_class (ec : Nat) : String × Bool :=
  match ec with
  | 0b000000 => ("Unknown reason", false)
  | 0b000001 => ("Trapped WFI or WFE", false)
  | 0b001110 => ("Illegal Execution State", false)
  | 0b010001 => ("SVC instruction execution in AArch32 state", false)
  | 0b010101 => ("SVC instruction execution in AArch64 state", false)
  | 0b011000 =>
    ("Trapped MSR, MRS or System instruction execution in AArch64 state", false)
  | 0b011001 => ("Access to SVE functionality trapped", false)
  | 0b100000 => ("Instruction Abort from a lower Exception level (AArch32)", true)
  | 0b100001 => ("Instruction Abort from a lower Exception level (AArch64)", true)
  | 0b100010 => ("PC alignment fault exception", false)
  | 0b100100 => ("Data Abort from a lower Exception level (AArch32)", true)
  | 0b100101 => ("Data Abort from a lower Exception level (AArch64)", true)
  | 0b100110 => ("SP alignment fault exception", false)
  | 0b101000 => ("Trapped floating-point exception (AArch32)", false)
  | 0b101100 => ("Trapped floating-point exception (AArch64)", false)
  | 0b110000 => ("SError interrupt", false)
  | 0b110001 => ("Breakpoint exception from a lower Exception level (AArch32)", false)
  | 0b110010 => ("Breakpoint exception from a lower Exception level (AArch64)", false)
  | 0b110100 => ("Step exception from a lower Exception level (AArch32)", false)
  | 0b110101 => ("Step exception from a lower Exception level (AArch64)", false)
  | 0b111000 => ("Watchpoint exception from a lower Exception level (AArch32)", false)
  | 0b111001 => ("Watchpoint exception from a lower Exception level (AArch64)", false)
  | 0b111100 => ("BRK instruction execution in AArch64 state", false)
  | 0b100011 => ("Instruction Abort from current EL", true)
  | 0b100111 => ("Data Abort from current EL", true)
  | _ => ("Unhandled Exception Class", false)

/-- `void handle_sync_exception(saved_registers_t *context)`.  The values that
the function reads from the system registers `ESR_EL1` and `FAR_EL1` are the
parameters `esr` and `far`. -/
def handle_sync_exception (esr far : Nat) (c : Cpu) : Exit × Cpu :=
  let elr := c.context.elr_el1
  let ec := decode_ec esr
  let iss := decode_iss esr
  let c := kprintf c "\n--- Synchronous Exception Taken ---\n" []
  let c := kprintf c " ESR_EL1: %016llx (EC: 0x%x, ISS: 0x%x)\n"
    [KArg.num esr, KArg.num ec, KArg.num iss]
  let c := kprintf c " ELR_EL1: %016llx (Return Address)\n" [KArg.num elr]
  let ec_str := (ec_class ec).1
  let far_valid := (ec_class ec).2
  let c := kprintf c " Type: %s\n" [KArg.str ec_str]
  let c := if far_valid then
      kprintf c " FAR_EL1: %016llx (Faulting Virtual Address)\n" [KArg.num far]
    else c
  let c := print_registers c c.context
  let c := kprintf c "-------------------------------------\n" []
  if ec = 0b111100 then
    let c := kprintf c "BRK instruction encountered. Continuing execution.\n" []
    (Exit.returned,
      { c with context := { c.context with elr_el1 := u64 (c.context.elr_el1 + 4) } })
  else if ec = 0b010101 then
    let svc_imm := decode_svc_imm iss
    let c := kprintf c "SVC instruction encountered (Imm: 0x%x). Implement SVC handler.\n"
      [KArg.num svc_imm]
    (Exit.returned,
      { c with context := { c.context with elr_el1 := u64 (c.context.elr_el1 + 4) } })
  else panic c "Unhandled synchronous exception"

/-- The diagnostic part of `handle_sync_exception` (exceptions.c lines
62-105): the lines printed before the exception class is acted on. -/
def sync_report (esr far : Nat) (c : Cpu) : Cpu :=
  let elr := c.context.elr_el1
  let ec := decode_ec esr
  let iss := decode_iss esr
  let c := kprintf c "\n--- Synchronous Exception Taken ---\n" []
  let c := kprintf c " ESR_EL1: %016llx (EC: 0x%x, ISS: 0x%x)\n"
    [KArg.num esr, KArg.num ec, KArg.num iss]
  let c := kprintf c " ELR_EL1: %016llx (Return Address)\n" [KArg.num elr]
  let ec_str := (ec_class ec).1
  let far_valid := (ec_class ec).2
  let c := kprintf c " Type: %s\n" [KArg.str ec_str]
  let c := if far_valid then
      kprintf c " FAR_EL1: %016llx (Faulting Virtual Address)\n" [KArg.num far]
    else c
  let c := print_registers c c.context
  kprintf c "-------------------------------------\n" []

/-- A saved context with the return address `0x40001000`, an empty console
and the interrupts not masked. -/
def sample_cpu : Cpu where
  context := { regs := fun i => i, spsr_el1 := 0x3C5, elr_el1 := 0x40001000, sp_el0 := 0 }
  console := []
  daif_masked := false

/-- From `c` to `c2` the saved context and the interrupt mask are unchanged and
the console has only grown. -/
def Keeps (c c2 : Cpu) : Prop :=
  c2.context = c.context ∧ c2.daif_masked = c.daif_masked ∧
    ∀ x, x ∈ c.console → x ∈ c2.console

/-! ## `uart.c` -/

/-- `#define UART_FR_TXFF 0x20` -/
def UART_FR_TXFF : Nat := 0x20

/-- The PL011 as `uart_putc` drives it: the number of reads of `UART_FR` made
so far and the values written to `UART_DR`, oldest first.  The device is a
function `fr`: the read number `t` of `UART_FR` returns `fr t`. -/
structure Uart where
  fr_reads : Nat
  dr_writes : List Nat

/-- The loop `while (*UART_FR & UART_FR_TXFF);` with `fuel` reads allowed,
started when `t` reads were made: the number of reads made when the loop
ends, `none` when it does not end within `fuel` reads. -/
def uart_wait (fr : Nat → Nat) : Nat → Nat → Option Nat
  | 0, _ => none
  | fuel + 1, t =>
    if fr t &&& UART_FR_TXFF ≠ 0 then uart_wait fr fuel (t + 1) else some (t + 1)

/-- `void uart_putc(char c)`; `c` is the value of the character (`char` is
unsigned on AArch64), 10 is the newline and 13 the carriage return.  `fuel`
bounds the reads of each wait and the depth of the recursion. -/
def uart_putc (fr : Nat → Nat) : Nat → Uart → Nat → Option Uart
  | 0, _, _ => none
  | fuel + 1, u, c =>
    match uart_wait fr (fuel + 1) u.fr_reads with
    | none => none
    | some t =>
      let u1 : Uart := { fr_reads := t, dr_writes := u.dr_writes ++ [c] }
      if c = 10 then uart_putc fr fuel u1 13 else some u1

/-! ### The split of `kmalloc` -/

/-- The sum of `HEADER + size` over the blocks of the physical chain, walked
from `heap_start` (at most `fuel` blocks). -/
def chain_bytes (s : KState) (fuel : Nat) : Nat :=
  ((walk_next s.mem fuel s.heap_start).map (fun b => HEAP_HEADER_SIZE + blk_size s.mem b)).sum

/-- What `kmalloc` does to the block `bf` that it has chosen in the heap `t`
for the rounded size `r`; `s2` is the state at the return.  With
`S = bf->size` before the call: if `S ≥ r + 2 * HEADER` the block is split,
else it is handed out whole. -/
structure SplitEffect (t s2 : KState) (r bf : Nat) : Prop where
  not_free : blk_is_free s2.mem bf = false
  split : r + 2 * HEAP_HEADER_SIZE ≤ blk_size t.mem bf →
    blk_size s2.mem bf = r ∧
    blk_size s2.mem (bf + HEAP_HEADER_SIZE + r) = blk_size t.mem bf - r - HEAP_HEADER_SIZE ∧
    blk_is_free s2.mem (bf + HEAP_HEADER_SIZE + r) = true ∧
    blk_next s2.mem bf = bf + HEAP_HEADER_SIZE + r ∧
    blk_prev s2.mem (bf + HEAP_HEADER_SIZE + r) = bf ∧
    blk_next s2.mem (bf + HEAP_HEADER_SIZE + r) = blk_next t.mem bf ∧
    (blk_next t.mem bf ≠ 0 →
      blk_prev s2.mem (blk_next t.mem bf) = bf + HEAP_HEADER_SIZE + r) ∧
    s2.free_list_head = bf + HEAP_HEADER_SIZE + r ∧
    s2.heap_end = (if t.heap_end = bf then bf + HEAP_HEADER_SIZE + r else t.heap_end)
  whole : ¬ r + 2 * HEAP_HEADER_SIZE ≤ blk_size t.mem bf →
    blk_size s2.mem bf = blk_size t.mem bf ∧
    s2.heap_end = t.heap_end ∧
    ∀ fuel, walk_next s2.mem fuel s2.heap_start = walk_next t.mem fuel t.heap_start
  total : ∀ fuel, (walk_next t.mem fuel t.heap_start).length < fuel →
    chain_bytes s2 (fuel + 1) = chain_bytes t fuel

/-! ## `shell.c`: address validation -/

/-- `bool is_address_valid(uint64_t addr, size_t len)` of `shell/shell.c`;
`highest_ram` is the value returned by `pmm_get_highest_usable_address()`, the
variable `highest_usable_address`.  Both `return` statements of the inner
block yield `false`. -/
def is_address_valid (s : KState) (addr len : Nat) : Bool :=
  let highest_ram := s.highest_usable_address
  if addr < PMM_RAM_BASE ∨ addr ≥ highest_ram then false
  else if len > 0 ∧ u64 (addr + len - 1) ≥ highest_ram then
    if u64 (addr + len) < addr then false else false
  else true

/-! ## `stdlib_stubs.c` -/

/-- The value of the character `c` as a digit in `simple_strtoull`: `'0'..'9'`,
`'a'..'z'` and `'A'..'Z'` (lines 47-55); `none` is the `break` on an invalid
character. -/
def digit_value (c : Nat) : Option Nat :=
  if 48 ≤ c ∧ c ≤ 57 then some (c - 48)
  else if 97 ≤ c ∧ c ≤ 122 then some (c - 97 + 10)
  else if 65 ≤ c ∧ c ≤ 90 then some (c - 65 + 10)
  else none

/-- The condition of the whitespace loop of `simple_strtoull`: `c` is one of
`' '`, `'\t'`, `'\n'`, `'\r'`, `'\f'`, `'\v'`. -/
def is_space (c : Nat) : Bool :=
  c = 32 ∨ c = 9 ∨ c = 10 ∨ c = 13 ∨ c = 12 ∨ c = 11

/-- The loop that skips leading whitespace (lines 14-17), started at index
`i`: the index of the first character that is not whitespace. -/
def skip_space (nptr : Nat → Nat) : Nat → Nat → Option Nat
  | 0, _ => none
  | fuel + 1, i => if is_space (nptr i) then skip_space nptr fuel (i + 1) else some i

/-- The inner loop of `simple_strtoull` that consumes the remaining valid
digits after an overflow (lines 65-72); `i` is the index before `++nptr`. -/
def skip_digits (nptr : Nat → Nat) (base : Nat) : Nat → Nat → Option Nat
  | 0, _ => none
  | fuel + 1, i =>
    match digit_value (nptr (i + 1)) with
    | none => some (i + 1)
    | some digit => if digit ≥ base then some (i + 1) else skip_digits nptr base fuel (i + 1)

/-- The main loop of `simple_strtoull` (lines 43-78): the value of `result` and
the index `nptr` has reached when the loop is left. -/
def parse_digits (nptr : Nat → Nat) (base cutoff cutlim : Nat) :
    Nat → Nat → Nat → Option (Nat × Nat)
  | 0, _, _ => none
  | fuel + 1, i, result =>
    match digit_value (nptr i) with
    | none => some (result, i)
    | some digit =>
      if digit ≥ base then some (result, i)
      else if result > cutoff ∨ (result = cutoff ∧ digit > cutlim) then
        match skip_digits nptr base fuel i with
        | none => none
        | some j => some (UINT64_MAX, j)
      else parse_digits nptr base cutoff cutlim fuel (i + 1) (u64 (result * base + digit))

/-- `unsigned long long simple_strtoull(const char *nptr, char **endptr, int base)`.
The string is given by its characters `nptr 0, nptr 1, ..`; the result is the
returned value and the index that `*endptr` receives (0 is `orig_nptr`).
`fuel` bounds the number of iterations of each loop; the result is `none`
when a loop does not end within that bound. -/
def simple_strtoull (nptr : Nat → Nat) (base : Int) (fuel : Nat) : Option (Nat × Nat) :=
  match skip_space nptr fuel 0 with
  | none => none
  | some i =>
    let i := if nptr i = 43 then i + 1 else if nptr i = 45 then i + 1 else i
    let pre : Bool := (base = 0 ∨ base = 16) ∧ nptr i = 48 ∧ (nptr (i + 1) = 120 ∨ nptr (i + 1) = 88)
    let i := if pre then i + 2 else i
    let base := if pre then 16 else if base = 0 then 10 else base
    if base < 2 ∨ base > 16 then some (0, 0)
    else
      let cutoff := UINT64_MAX / base.toNat
      let cutlim := UINT64_MAX % base.toNat
      parse_digits nptr base.toNat cutoff cutlim fuel i 0

/-- The characters of a string with the character codes of `l`, followed by
NUL: what is read at index 0, 1, .. -/
def c_chars (l : List Nat) : Nat → Nat := fun i => l.getD i 0

/-- The value of a run of digit characters in base `b`. -/
def digits_value (b : Nat) (ds : List Nat) : Nat :=
  ds.foldl (fun acc c => acc * b + (digit_value c).getD 0) 0

/-- The base in which `simple_strtoull` reads the digits: 16 after a `0x`
prefix `pre`, else 10 for `base = 0`, else `base`. -/
def resulting_base (base : Int) (pre : List Nat) : Nat :=
  if pre = [] then (if base = 0 then 10 else base.toNat) else 16

/-! ## `stdio.c` -/

/-- `#define PRINTF_BUFFER_SIZE 1024` -/
def PRINTF_BUFFER_SIZE : Nat := 1024

/-- The characters of a string literal, read by index: the characters of `s`
and NUL from the end of `s` on. -/
def c_str (s : String) : Nat → Nat := c_chars (s.toList.map Char.toNat)

/-- The digit character for `d < 16`: `"0123456789abcdef"[d]`, or
`"0123456789ABCDEF"[d]` for `upper`. -/
def hex_char (upper : Bool) (d : Nat) : Nat :=
  if d < 10 then 48 + d else if upper then 65 + (d - 10) else 97 + (d - 10)

/-- The `do ... while (value > 0)` loops of `kprintf`, whose body is
`*--num_ptr = digit(value % base); value /= base;`: the characters stored in
`num_buf`, most significant digit first, in front of `acc`.  `fuel` is the
number of iterations allowed; 20 are enough for a 64-bit value. -/
def to_digits (base : Nat) (upper : Bool) : Nat → Nat → List Nat → List Nat
  | 0, _, acc => acc
  | fuel + 1, value, acc =>
    if value / base > 0 then
      to_digits base upper fuel (value / base) (hex_char upper (value % base) :: acc)
    else hex_char upper (value % base) :: acc

/-- The loop of the `%p` conversion, which stores a digit and counts it until
`value` is 0 and 16 digits are stored: 16 iterations for a 64-bit value. -/
def ptr_digits : Nat → Nat → List Nat → List Nat
  | 0, _, acc => acc
  | n + 1, value, acc => ptr_digits n (value / 16) (hex_char false (value % 16) :: acc)

/-- `va_arg(args, T)` for an integer or pointer type `T`: the value of the
next argument and the remaining arguments; `none` when there is no next
argument or it is a string. -/
def va_num : List KArg → Option (Nat × List KArg)
  | KArg.num v :: rest => some (v, rest)
  | _ => none

/-- `va_arg(args, const char*)` followed by the replacement of a null pointer
by `"(null)"`: the characters of the string before its NUL, and the remaining
arguments; `none` when there is no next argument or it is a non-zero number. -/
def va_str : List KArg → Option (List Nat × List KArg)
  | KArg.str s :: rest => some ((s.toList.map Char.toNat).takeWhile (fun c => c != 0), rest)
  | KArg.num v :: rest => if v = 0 then some ([40, 110, 117, 108, 108, 41], rest) else none
  | [] => none

/-- The `switch (*format)` of `kprintf` (stdio.c lines 47-188) for the
conversion character `c` when `pos = buf_ptr - buffer` characters are stored:
the characters appended to the buffer and the remaining arguments.  An
`int` is taken from the low 32 bits of its argument, `long` and `long long`
have 64 bits. -/
def kprintf_conv (c : Nat) (is_long is_longlong : Bool) (args : List KArg) (pos : Nat) :
    Option (List Nat × List KArg) :=
  let room := PRINTF_BUFFER_SIZE - pos - 1
  let w := if is_longlong || is_long then 2 ^ 64 else 2 ^ 32
  if c = 99 then (va_num args).map (fun r => ([r.1 % 256], r.2))
  else if c = 115 then (va_str args).map (fun r => (r.1.take room, r.2))
  else if c = 100 ∨ c = 105 then
    (va_num args).map (fun r =>
      let value := r.1 % w
      let is_negative : Bool := value ≥ w / 2
      let abs_value := if is_negative then w - value else value
      let num := to_digits 10 false 20 abs_value []
      ((if is_negative then 45 :: num else num).take room, r.2))
  else if c = 117 then
    (va_num args).map (fun r => ((to_digits 10 false 20 (r.1 % w) []).take room, r.2))
  else if c = 120 ∨ c = 88 then
    (va_num args).map (fun r => ((to_digits 16 (c = 88) 20 (r.1 % w) []).take room, r.2))
  else if c = 112 then
    (va_num args).map (fun r =>
      let pre := if pos + 2 < PRINTF_BUFFER_SIZE - 1 then [48, 120] else []
      (pre ++ (ptr_digits 16 (r.1 % 2 ^ 64) []).take
        (PRINTF_BUFFER_SIZE - (pos + pre.length) - 1), r.2))
  else if c = 37 then some ([37], args)
  else some ([37, c], args)

/-- The main loop of `kprintf` (stdio.c lines 28-194).  `format i` is the
character `format[i]` of the caller's string, `i` the current position, `buf`
the characters stored in `buffer` so far (`buf_ptr - buffer = buf.length`).
The result is the stored characters and the position at which the loop
condition read `*format` last; `none` when the loop does not end within
`fuel` iterations or a conversion finds no argument of its kind. -/
def kprintf_loop (format : Nat → Nat) : Nat → Nat → List KArg → List Nat →
    Option (List Nat × Nat)
  | 0, _, _, _ => none
  | fuel + 1, i, args, buf =>
    if format i ≠ 0 ∧ buf.length < PRINTF_BUFFER_SIZE - 1 then
      if format i = 37 then
        let i := i + 1
        let l1 : Bool := format i = 108
        let i := if l1 then i + 1 else i
        let is_longlong : Bool := l1 && format i = 108
        let is_long : Bool := l1 && !is_longlong
        let i := if is_longlong then i + 1 else i
        match kprintf_conv (format i) is_long is_longlong args buf.length with
        | none => none
        | some r => kprintf_loop format fuel (i + 1) r.2 (buf ++ r.1)
      else kprintf_loop format fuel (i + 1) args (buf ++ [format i])
    else some (buf, i)

/-- What a call of `kprintf` does: `stored` are the characters stored in
`buffer[0], buffer[1], ..` by the main loop, the terminating NUL goes to
`buffer[stored.length]`; `last_read` is the last position of `format` that
was read; `emitted` are the characters passed to `uart_putc`, those before
the first NUL in the buffer; `ret` is the returned value. -/
structure PrintfOut where
  stored : List Nat
  last_read : Nat
  emitted : List Nat
  ret : Nat

/-- `int kprintf(const char *format, ...)` of `lib/stdio.c`, with the
characters of `format` and the variable arguments as parameters. -/
def stdio.kprintf (format : Nat → Nat) (args : List KArg) (fuel : Nat) : Option PrintfOut :=
  (kprintf_loop format fuel 0 args []).map (fun r =>
    { stored := r.1, last_read := r.2, emitted := r.1.takeWhile (fun c => c != 0),
      ret := r.1.length })

/-- The characters sent to the UART by a list of recorded `kprintf` calls. -/
def console_text (fuel : Nat) : List KPrint → Option (List Nat)
  | [] => some []
  | p :: rest =>
    match stdio.kprintf (c_str p.fmt) p.args fuel, console_text fuel rest with
    | some r, some t => some (r.emitted ++ t)
    | _, _ => none

/-- The character after a `%` is none of the conversions that `kprintf` knows
and not the `l` of a length modifier: the `default` case of the `switch`. -/
def unsupported (c : Nat) : Bool :=
  c != 108 && c != 99 && c != 115 && c != 100 && c != 105 && c != 117 && c != 120 &&
    c != 88 && c != 112 && c != 37

/-- A run of characters without NUL in which every `%` is followed by a
character of the `default` case. -/
def literal_format : List Nat → Bool
  | [] => true
  | [c] => c != 0 && c != 37
  | c :: d :: rest =>
    if c = 37 then d != 0 && unsupported d && literal_format rest
    else c != 0 && literal_format (d :: rest)

/-- The sixteen lower-case hexadecimal digits of a 64-bit value, most
significant first: the rendering that `%016llx` has in C. -/
def hex16 (v : Nat) : List Nat := ptr_digits 16 (v % 2 ^ 64) []

/-- The characters `pat` occur consecutively somewhere in `t`. -/
def occurs_in (pat t : List Nat) : Bool := t.tails.any (fun u => pat.isPrefixOf u)

/-! ## The frame bitmap in RAM

`frame_alloc.c` line 17 is `static uint8_t *frame_bitmap = &_pmm_bitmap_start;`:
the bitmap is no object of its own, byte `k` of it is the byte of RAM at the
address `&_pmm_bitmap_start + k`.  The definitions above keep the bitmap in
the field `frame_bitmap`, apart from `mem`.  They describe the code as long
as no store made through another pointer (the zeroing of a frame, the store
of a heap header, the zeroing of a payload) reaches those bytes, and no heap
header is read from them.  The functions of this section, whose names start
with `ram.`, describe the code without that restriction: the frame allocator
reads the bitmap out of `mem` and writes every byte it changes back into
`mem`.  In their states the field `frame_bitmap` is only the copy of those
bytes taken by the last call of the frame allocator. -/

/-- The bytes `frame_bitmap[k]`, `k = 0, 1, ...`, of a RAM: the bytes from the
address `&_pmm_bitmap_start` on. -/
def bitmap_view (ld : Linker) (m : Nat → Nat) : Nat → Nat :=
  fun k => m (ld.pmm_bitmap_start + k)

/-- Reading the bitmap: `frame_bitmap[k]` is loaded from RAM. -/
def load_bitmap (ld : Linker) (s : KState) : KState :=
  { s with frame_bitmap := bitmap_view ld s.mem }

/-- Writing the bitmap: the value of `frame_bitmap[k]` is stored to RAM at
`&_pmm_bitmap_start + k`. -/
def store_bitmap (ld : Linker) (s : KState) : KState :=
  { s with
    mem := fun a =>
      if ld.pmm_bitmap_start ≤ a then s.frame_bitmap (a - ld.pmm_bitmap_start) else s.mem a }

/-- `void frame_alloc_init(const KERNEL_BOOT_PARAMS *params)` with the bitmap
in RAM: the function stores to the bitmap only. -/
def ram.frame_alloc_init (ld : Linker) (params : Option KERNEL_BOOT_PARAMS) (s : KState) :
    KState :=
  store_bitmap ld (MeringueOS.frame_alloc_init ld params (load_bitmap ld s))

/-- `void* alloc_frame(void)` with the bitmap in RAM: the scan reads the bits
from RAM, `set_bit(i)` stores the changed byte to RAM, and then
`memset(frame_addr, 0, PAGE_SIZE)` zeroes the frame, whatever it holds. -/
def ram.alloc_frame (ld : Linker) (s : KState) : Nat × KState :=
  let s0 := load_bitmap ld s
  match alloc_scan s0.frame_bitmap PMM_TOTAL_FRAMES 0 with
  | some i =>
    let s1 := store_bitmap ld
      { s0 with
        frame_bitmap := set_bit s0.frame_bitmap i
        free_memory := sub64 s0.free_memory PAGE_SIZE }
    let frame_addr := u64 (PMM_RAM_BASE + i * PAGE_SIZE)
    (frame_addr, load_bitmap ld { s1 with mem := memset s1.mem frame_addr 0 PAGE_SIZE })
  | none => (0, s0)

/-- `void free_frame(void *frame)` with the bitmap in RAM: the function stores
to the bitmap only. -/
def ram.free_frame (ld : Linker) (s : KState) (frame : Nat) : KState :=
  store_bitmap ld (MeringueOS.free_frame (load_bitmap ld s) frame)

/-- The state after one call of the frame allocator, bitmap in RAM. -/
def ram.pmm_step (ld : Linker) (s : KState) : PmmOp → KState
  | PmmOp.alloc => (ram.alloc_frame ld s).2
  | PmmOp.free frame => ram.free_frame ld s frame

/-- The state after a sequence of calls, bitmap in RAM. -/
def ram.pmm_run (ld : Linker) (s : KState) (ops : List PmmOp) : KState :=
  ops.foldl (ram.pmm_step ld) s

/-- One call, bitmap in RAM, together with the list of live frames: the
addresses returned by `alloc_frame` that have not since been successfully
freed. -/
def ram.pmm_step_live (ld : Linker) (r : KState × List Nat) : PmmOp → KState × List Nat
  | PmmOp.alloc =>
    ((ram.alloc_frame ld r.1).2,
      if (ram.alloc_frame ld r.1).1 = 0 then r.2 else (ram.alloc_frame ld r.1).1 :: r.2)
  | PmmOp.free frame =>
    (ram.free_frame ld r.1 frame,
      if free_frame_ok (load_bitmap ld r.1) frame then r.2.filter (fun a => a != frame)
      else r.2)

/-- A sequence of calls, bitmap in RAM, together with the list of live
frames. -/
def ram.pmm_run_live (ld : Linker) (r : KState × List Nat) (ops : List PmmOp) :
    KState × List Nat :=
  ops.foldl (ram.pmm_step_live ld) r

/-- Frame `i` holds a byte of the bitmap: it intersects the
`PMM_TOTAL_FRAMES / 8` bytes from `&_pmm_bitmap_start` on. -/
def holds_bitmap (ld : Linker) (i : Nat) : Prop :=
  frame_overlaps i ld.pmm_bitmap_start (ld.pmm_bitmap_start + PMM_TOTAL_FRAMES / 8)

instance holds_bitmap_decidable (ld : Linker) (i : Nat) : Decidable (holds_bitmap ld i) := by
  unfold holds_bitmap
  exact inferInstance

/-- The `for` loop of `expand_heap` (see `expand_pages`) with the bitmap in
RAM. -/
def ram.expand_pages (ld : Linker) : Nat → Nat → KState → Bool × Nat × KState
  | 0, new_block, s => (true, new_block, s)
  | n + 1, new_block, s =>
    let r := ram.alloc_frame ld s
    let frame := r.1
    let s1 := r.2
    if frame = 0 then (false, new_block, s1)
    else
      let current_block := frame
      let m := set_size s1.mem current_block (sub64 PAGE_SIZE HEAP_HEADER_SIZE)
      let m := set_is_free m current_block true
      let m := set_next m current_block 0
      let new_block := if new_block = 0 then current_block else new_block
      let s2 : KState :=
        if s1.heap_end ≠ 0 then
          let m := set_prev m current_block s1.heap_end
          let m := set_next m s1.heap_end current_block
          { s1 with mem := m }
        else
          { s1 with heap_start := current_block, mem := set_prev m current_block 0 }
      ram.expand_pages ld n new_block { s2 with heap_end := current_block }

/-- `static bool expand_heap(size_t min_expand_size)` with the bitmap in RAM. -/
def ram.expand_heap (ld : Linker) (s : KState) (min_expand_size : Nat) : Bool × KState :=
  let pages_needed := u64 (min_expand_size + HEAP_HEADER_SIZE + PAGE_SIZE - 1) / PAGE_SIZE
  let pages_needed := if pages_needed = 0 then 1 else pages_needed
  let r := ram.expand_pages ld pages_needed 0 s
  let new_block := r.2.1
  let s1 := r.2.2
  if !r.1 then (false, s1)
  else if new_block = 0 then (false, s1)
  else
    let prev_block := blk_prev s1.mem new_block
    if prev_block ≠ 0 ∧ blk_is_free s1.mem prev_block then
      let s2 := remove_from_free_list s1 prev_block
      let m := set_size s2.mem prev_block
        (u64 (blk_size s2.mem prev_block + u64 (blk_size s2.mem new_block + HEAP_HEADER_SIZE)))
      let m := set_next m prev_block (blk_next m new_block)
      let m :=
        if blk_next m new_block ≠ 0 then set_prev m (blk_next m new_block) prev_block else m
      let heap_end := if s2.heap_end = new_block then prev_block else s2.heap_end
      (true, add_to_free_list { s2 with mem := m, heap_end := heap_end } prev_block)
    else (true, add_to_free_list s1 new_block)

/-- `void kheap_init()` with the bitmap in RAM. -/
def ram.kheap_init (ld : Linker) (s : KState) : KState :=
  (ram.expand_heap ld { s with free_list_head := 0, heap_start := 0, heap_end := 0 }
    (PAGE_SIZE * 4)).2

/-- `void* kmalloc(size_t size)` with the bitmap in RAM (see `kmalloc` for the
fuel).  `kfree` calls no function of the frame allocator, so it is the same
function in both descriptions. -/
def ram.kmalloc (ld : Linker) (fuel : Nat) (s : KState) (size : Nat) : Option (Nat × KState) :=
  if size = 0 then some (0, s)
  else
    let alignment := 8
    let size := u64 (size + alignment - 1) &&& (UINT64_MAX ^^^ (alignment - 1))
    let total_size_needed := u64 (size + HEAP_HEADER_SIZE)
    match first_fit s.mem size fuel s.free_list_head with
    | none => none
    | some best_fit =>
      if best_fit = 0 then
        let r := ram.expand_heap ld s total_size_needed
        if !r.1 then some (0, r.2)
        else
          match first_fit r.2.mem size fuel r.2.free_list_head with
          | none => none
          | some best_fit =>
            if best_fit = 0 then some (0, r.2)
            else some (kmalloc_take r.2 size best_fit)
      else some (kmalloc_take s size best_fit)

/-- The heap invariant apart from its clause on the frame bitmap: the
physical chain `chain` is well formed (blocks in address order from
`heap_start` to `heap_end`, aligned, linked by `next` and `prev`, none
reaching into the next one) and the free-list links among its blocks are
consistent. -/
def ChainInv (s : KState) (chain : List Nat) (lim : Nat) : Prop :=
  HeapInv { s with frame_bitmap := fun _ => 255 } chain lim

/-- The heap right after boot on the `low_linker` layout, with the bitmap in
RAM: `frame_alloc_init` run from `zero_state`, then `kheap_init`. -/
def low_ram_heap : KState :=
  ram.kheap_init low_linker (ram.frame_alloc_init low_linker (some low_params) zero_state)

/-- The heap right after boot on the `virt` layout, with the bitmap in RAM. -/
def virt_ram_heap : KState :=
  ram.kheap_init virt_linker (ram.frame_alloc_init virt_linker (some virt_params) zero_state)

/-- The call `kmalloc(n)` followed by `kfree` of its result, bitmap in RAM. -/
def ram.round (ld : Linker) (fuel : Nat) (s : KState) (n : Nat) : Option KState :=
  (ram.kmalloc ld fuel s n).map (fun r => kfree r.2 r.1)

/-- A heap of the `low_linker` layout in which a free block lies over the
bitmap.  After boot, `kmalloc(28000)` and `kmalloc(20000)` fail, but each
expands the heap (by frames 5, 6, 7, 32 .. 35 and by frames 36 .. 40); four
rounds of `kmalloc` and `kfree` (8100, 16300, 24500 and 32700 bytes) then
merge the blocks of frames 7 and 32 .. 40 into one free block at `0x40007000`
with payload `40912 = 10 * 4096 - 48`, which ends at `0x40011000` and so
covers the first 4096 bytes of the bitmap at `0x40010000`. -/
def low_grown_heap : Option KState :=
  (ram.kmalloc low_linker 4 low_ram_heap 28000).bind (fun r0 =>
  (ram.kmalloc low_linker 4 r0.2 20000).bind (fun r1 =>
  (ram.round low_linker 4 r1.2 8100).bind (fun s2 =>
  (ram.round low_linker 4 s2 16300).bind (fun s3 =>
  (ram.round low_linker 4 s3 24500).bind (fun s4 =>
  ram.round low_linker 4 s4 32700)))))

theorem and_one_shiftLeft_ne_zero (b k : Nat) :
    ((b &&& (1 <<< k)) != 0) = b.testBit k := by
  rw [Nat.one_shiftLeft]
  cases h : b.testBit k
  · have : b &&& 2 ^ k = 0 := by
      apply Nat.eq_of_testBit_eq
      intro j
      rw [Nat.testBit_and, Nat.testBit_two_pow, Nat.zero_testBit]
      by_cases hj : k = j
      · subst hj; simp [h]
      · simp [hj]
    simp [this]
  · have : (b &&& 2 ^ k).testBit k = true := by
      rw [Nat.testBit_and, Nat.testBit_two_pow_self, h]; rfl
    have hne : b &&& 2 ^ k ≠ 0 := by
      intro h0; rw [h0, Nat.zero_testBit] at this; exact Bool.noConfusion this
    simp [hne]

theorem test_bit_eq (bm : Nat → Nat) (j : Nat) :
    test_bit bm j = (bm (j / 8)).testBit (j % 8) := by
  unfold test_bit; exact and_one_shiftLeft_ne_zero _ _

theorem test_bit_set_bit (bm : Nat → Nat) (i j : Nat) :
    test_bit (set_bit bm i) j = (decide (j = i) || test_bit bm j) := by
  simp only [test_bit_eq, set_bit]
  have h8 : j % 8 < 8 := Nat.mod_lt _ (by decide)
  by_cases hb : j / 8 = i / 8
  · simp only [hb, if_true]
    rw [show (256 : Nat) = 2 ^ 8 from rfl, Nat.testBit_mod_two_pow, Nat.testBit_or,
      Nat.one_shiftLeft, Nat.testBit_two_pow]
    by_cases hk : i % 8 = j % 8
    · have : j = i := by omega
      subst this
      simp [h8]
    · have : j ≠ i := by intro h; subst h; exact hk rfl
      simp [hk, this, h8]
  · have : j ≠ i := by intro h; subst h; exact hb rfl
    simp [hb, this]

theorem test_bit_clear_bit (bm : Nat → Nat) (i j : Nat) :
    test_bit (clear_bit bm i) j = (!decide (j = i) && test_bit bm j) := by
  simp only [test_bit_eq, clear_bit]
  have h8 : j % 8 < 8 := Nat.mod_lt _ (by decide)
  by_cases hb : j / 8 = i / 8
  · simp only [hb, if_true]
    rw [show (256 : Nat) = 2 ^ 8 from rfl, Nat.testBit_mod_two_pow, Nat.testBit_and,
      Nat.testBit_xor, Nat.one_shiftLeft, Nat.testBit_two_pow,
      show (255 : Nat) = 2 ^ 8 - 1 from rfl, Nat.testBit_two_pow_sub_one]
    by_cases hk : i % 8 = j % 8
    · have : j = i := by omega
      subst this
      simp [h8]
    · have : j ≠ i := by intro h; subst h; exact hk rfl
      simp [hk, this, h8]
  · have : j ≠ i := by intro h; subst h; exact hb rfl
    simp [hb, this]

theorem test_bit_memset_ff (bm : Nat → Nat) (n j : Nat) (h : j / 8 < n) :
    test_bit (memset bm 0 0xFF n) j = true := by
  simp only [test_bit_eq, memset]
  have h8 : j % 8 < 8 := Nat.mod_lt _ (by decide)
  have : 0 ≤ j / 8 ∧ j / 8 < 0 + n := by omega
  rw [if_pos this, show (255 : Nat) = 2 ^ 8 - 1 from rfl, Nat.testBit_two_pow_sub_one]
  simp [h8]


/-! ## Counting clear bits -/

theorem clear_count_le (bm : Nat → Nat) (n : Nat) : clear_count bm n ≤ n := by
  induction n with
  | zero => simp [clear_count]
  | succ n ih => simp only [clear_count]; split <;> omega

theorem clear_count_congr (bm bm2 : Nat → Nat) (n : Nat)
    (h : ∀ j, j < n → test_bit bm j = test_bit bm2 j) :
    clear_count bm n = clear_count bm2 n := by
  induction n with
  | zero => rfl
  | succ n ih =>
    simp only [clear_count]
    rw [ih (fun j hj => h j (by omega)), h n (by omega)]

theorem clear_count_eq_zero (bm : Nat → Nat) (n : Nat)
    (h : ∀ j, j < n → test_bit bm j = true) : clear_count bm n = 0 := by
  induction n with
  | zero => rfl
  | succ n ih =>
    simp only [clear_count]
    rw [ih (fun j hj => h j (by omega)), h n (by omega)]; rfl

theorem clear_count_set_bit (bm : Nat → Nat) (n i : Nat) (hi : i < n)
    (hc : test_bit bm i = false) :
    clear_count (set_bit bm i) n + 1 = clear_count bm n := by
  induction n with
  | zero => omega
  | succ n ih =>
    simp only [clear_count, test_bit_set_bit]
    by_cases hin : i = n
    · subst hin
      have : clear_count (set_bit bm i) i = clear_count bm i :=
        clear_count_congr _ _ _ (fun j hj => by
          rw [test_bit_set_bit]; simp [Nat.ne_of_lt hj])
      simp [hc, this]
    · have := ih (by omega)
      have hne : n ≠ i := fun h => hin h.symm
      simp only [hne, decide_False, Bool.false_or]
      omega

theorem clear_count_clear_bit (bm : Nat → Nat) (n i : Nat) (hi : i < n)
    (hc : test_bit bm i = true) :
    clear_count (clear_bit bm i) n = clear_count bm n + 1 := by
  induction n with
  | zero => omega
  | succ n ih =>
    simp only [clear_count, test_bit_clear_bit]
    by_cases hin : i = n
    · subst hin
      have : clear_count (clear_bit bm i) i = clear_count bm i :=
        clear_count_congr _ _ _ (fun j hj => by
          rw [test_bit_clear_bit]; simp [Nat.ne_of_lt hj])
      simp [hc, this]
    · have := ih (by omega)
      have hne : n ≠ i := fun h => hin h.symm
      simp only [hne, decide_False, Bool.not_false, Bool.true_and]
      omega

theorem clear_count_clear_bit_of_clear (bm : Nat → Nat) (n i : Nat)
    (hc : test_bit bm i = false) :
    clear_count (clear_bit bm i) n = clear_count bm n := by
  apply clear_count_congr
  intro j _
  rw [test_bit_clear_bit]
  by_cases h : j = i
  · subst h; simp [hc]
  · simp [h]

/-! ## The scan of `alloc_frame` -/

theorem alloc_scan_some (bm : Nat → Nat) (n i k : Nat) (h : alloc_scan bm n i = some k) :
    i ≤ k ∧ k < i + n ∧ test_bit bm k = false ∧ ∀ j, i ≤ j → j < k → test_bit bm j = true := by
  induction n generalizing i with
  | zero => simp [alloc_scan] at h
  | succ n ih =>
    simp only [alloc_scan] at h
    by_cases hb : test_bit bm i = true
    · simp only [hb, Bool.not_true, Bool.false_eq_true, if_false] at h
      obtain ⟨h1, h2, h3, h4⟩ := ih (i + 1) h
      refine ⟨by omega, by omega, h3, ?_⟩
      intro j hj1 hj2
      by_cases hji : j = i
      · subst hji; exact hb
      · exact h4 j (by omega) hj2
    · have hb2 : test_bit bm i = false := by simpa using hb
      simp only [hb2, Bool.not_false, if_true, Option.some.injEq] at h
      subst h
      exact ⟨le_refl _, by omega, hb2, fun j h1 h2 => by omega⟩

theorem alloc_scan_none (bm : Nat → Nat) (n i : Nat) (h : alloc_scan bm n i = none) :
    ∀ j, i ≤ j → j < i + n → test_bit bm j = true := by
  induction n generalizing i with
  | zero => intro j h1 h2; omega
  | succ n ih =>
    simp only [alloc_scan] at h
    by_cases hb : test_bit bm i = true
    · simp only [hb, Bool.not_true, Bool.false_eq_true, if_false] at h
      intro j hj1 hj2
      by_cases hji : j = i
      · subst hji; exact hb
      · exact ih (i + 1) h j (by omega) (by omega)
    · have hb2 : test_bit bm i = false := by simpa using hb
      simp [hb2] at h

/-- The scan finds the least clear bit below `n`, when there is one. -/
theorem alloc_scan_least (bm : Nat → Nat) (n k : Nat) (hk : k < n)
    (hc : test_bit bm k = false) (hlow : ∀ j, j < k → test_bit bm j = true) :
    alloc_scan bm n 0 = some k := by
  cases h : alloc_scan bm n 0 with
  | none =>
    have := alloc_scan_none bm n 0 h k (by omega) (by omega)
    rw [hc] at this; exact Bool.noConfusion this
  | some k2 =>
    obtain ⟨_, h2, h3, h4⟩ := alloc_scan_some bm n 0 k2 h
    have : k2 = k := by
      rcases Nat.lt_trichotomy k2 k with hlt | heq | hgt
      · have := hlow k2 hlt; rw [h3] at this; exact Bool.noConfusion this
      · exact heq
      · have := h4 k (by omega) hgt; rw [hc] at this; exact Bool.noConfusion this
    rw [this]

/-! ## The counter invariant of the frame allocator -/

theorem mark_free_loop_inv (n i : Nat) (s : KState) (h : PInv s)
    (hn : i + n ≤ PMM_TOTAL_FRAMES) : PInv (mark_free_loop n i s) := by
  induction n generalizing i s with
  | zero => exact h
  | succ n ih =>
    simp only [mark_free_loop]
    apply ih
    · unfold PInv at *
      have hi : i < PMM_TOTAL_FRAMES := by omega
      by_cases hb : test_bit s.frame_bitmap i = true
      · simp only [hb, if_true]
        rw [clear_count_clear_bit _ _ _ hi hb, h]
        have := clear_count_le s.frame_bitmap PMM_TOTAL_FRAMES
        simp only [u64, PAGE_SIZE, PMM_TOTAL_FRAMES, PMM_MANAGEABLE_SIZE] at *
        omega
      · have hb2 : test_bit s.frame_bitmap i = false := by simpa using hb
        simp only [hb2, Bool.false_eq_true, if_false]
        rw [clear_count_clear_bit_of_clear _ _ _ hb2, h]
    · omega

theorem mark_used_loop_inv (n i : Nat) (s : KState) (h : PInv s)
    (hn : i + n ≤ PMM_TOTAL_FRAMES) : PInv (mark_used_loop n i s) := by
  induction n generalizing i s with
  | zero => exact h
  | succ n ih =>
    simp only [mark_used_loop]
    apply ih
    · unfold PInv at *
      have hi : i < PMM_TOTAL_FRAMES := by omega
      by_cases hb : test_bit s.frame_bitmap i = true
      · simp only [hb, Bool.not_true, Bool.false_eq_true, if_false]; exact h
      · have hb2 : test_bit s.frame_bitmap i = false := by simpa using hb
        simp only [hb2, Bool.not_false, if_true]
        have h1 := clear_count_set_bit _ _ _ hi hb2
        simp only [PAGE_SIZE] at *
        split <;> omega
    · omega

theorem mark_range_free_inv (s : KState) (base size : Nat) (h : PInv s) :
    PInv (mark_range_free s base size) := by
  unfold mark_range_free
  simp only
  generalize (if base ≥ PMM_RAM_BASE then (base - PMM_RAM_BASE) / PAGE_SIZE else UINT64_MAX) = sf
  generalize (if u64 (base + size) > PMM_RAM_BASE then
    (u64 (base + size) - 1 - PMM_RAM_BASE) / PAGE_SIZE else 0) = ef
  by_cases hsf : sf ≥ PMM_TOTAL_FRAMES
  · rw [if_pos hsf]; exact h
  · rw [if_neg hsf]
    apply mark_free_loop_inv _ _ _ h
    split <;> simp only [PMM_TOTAL_FRAMES, PMM_MANAGEABLE_SIZE, PAGE_SIZE] at * <;> omega

theorem mark_range_used_inv (s : KState) (base size : Nat) (h : PInv s) :
    PInv (mark_range_used s base size) := by
  unfold mark_range_used
  simp only
  generalize (if base ≥ PMM_RAM_BASE then (base - PMM_RAM_BASE) / PAGE_SIZE else UINT64_MAX) = sf
  generalize (if u64 (base + size) > PMM_RAM_BASE then
    (u64 (base + size) - 1 - PMM_RAM_BASE) / PAGE_SIZE else 0) = ef
  by_cases hsf : sf ≥ PMM_TOTAL_FRAMES
  · rw [if_pos hsf]; exact h
  · rw [if_neg hsf]
    apply mark_used_loop_inv _ _ _ h
    split <;> simp only [PMM_TOTAL_FRAMES, PMM_MANAGEABLE_SIZE, PAGE_SIZE] at * <;> omega

theorem frame_alloc_init_inv (ld : Linker) (params : Option KERNEL_BOOT_PARAMS) (s : KState)
    (hsize : PMM_TOTAL_FRAMES / 8 ≤ sub64 ld.pmm_bitmap_end ld.pmm_bitmap_start) :
    PInv (frame_alloc_init ld params s) := by
  unfold frame_alloc_init
  simp only
  apply mark_range_used_inv
  have h0 : PInv { s with
      frame_bitmap := memset s.frame_bitmap 0 0xFF (sub64 ld.pmm_bitmap_end ld.pmm_bitmap_start)
      total_memory := 0, free_memory := 0, highest_usable_address := PMM_RAM_BASE } := by
    unfold PInv
    simp only
    rw [clear_count_eq_zero]
    · rfl
    · intro j hj
      apply test_bit_memset_ff
      simp only [PMM_TOTAL_FRAMES, PMM_MANAGEABLE_SIZE, PAGE_SIZE] at *
      omega
  cases params with
  | none => exact mark_range_used_inv _ _ _ (mark_range_free_inv _ _ _ h0)
  | some p => exact mark_range_used_inv _ _ _ (mark_range_free_inv _ _ _ h0)

theorem alloc_frame_inv (s : KState) (h : PInv s) : PInv (alloc_frame s).2 := by
  unfold alloc_frame
  cases hs : alloc_scan s.frame_bitmap PMM_TOTAL_FRAMES 0 with
  | none => exact h
  | some i =>
    obtain ⟨_, h2, h3, _⟩ := alloc_scan_some _ _ _ _ hs
    unfold PInv at *
    simp only
    have h1 := clear_count_set_bit s.frame_bitmap PMM_TOTAL_FRAMES i (by omega) h3
    have := clear_count_le s.frame_bitmap PMM_TOTAL_FRAMES
    simp only [sub64, PAGE_SIZE, PMM_TOTAL_FRAMES, PMM_MANAGEABLE_SIZE] at *
    omega

theorem free_frame_inv (s : KState) (frame : Nat) (h : PInv s) :
    PInv (free_frame s frame) := by
  unfold free_frame
  simp only
  split
  · exact h
  split
  · exact h
  split
  · exact h
  split
  · exact h
  split
  · exact h
  rename_i h1 h2 h3 h4 h5
  unfold PInv at *
  simp only
  have hb : test_bit s.frame_bitmap ((frame - PMM_RAM_BASE) / PAGE_SIZE) = true := by
    simpa using h5
  rw [clear_count_clear_bit _ _ _ (by omega) hb, h]
  have := clear_count_le s.frame_bitmap PMM_TOTAL_FRAMES
  simp only [u64, PAGE_SIZE, PMM_TOTAL_FRAMES, PMM_MANAGEABLE_SIZE] at *
  omega

theorem pmm_run_inv (s : KState) (ops : List PmmOp) (h : PInv s) : PInv (pmm_run s ops) := by
  induction ops generalizing s with
  | nil => exact h
  | cons op ops ih =>
    simp only [pmm_run, List.foldl_cons] at *
    apply ih
    cases op with
    | alloc => exact alloc_frame_inv s h
    | free f => exact free_frame_inv s f h

/-! ## Bits after the range-marking loops -/

theorem mark_free_loop_bits (n i : Nat) (s : KState) (j : Nat) :
    test_bit (mark_free_loop n i s).frame_bitmap j
      = if i ≤ j ∧ j < i + n then false else test_bit s.frame_bitmap j := by
  induction n generalizing i s with
  | zero =>
    have : ¬ (i ≤ j ∧ j < i + 0) := by omega
    rw [if_neg this]; rfl
  | succ n ih =>
    simp only [mark_free_loop]
    rw [ih]
    have hbm : ∀ s1 : KState, s1.frame_bitmap = s.frame_bitmap →
        test_bit (clear_bit s1.frame_bitmap i) j = (!decide (j = i) && test_bit s.frame_bitmap j) := by
      intro s1 h1; rw [h1, test_bit_clear_bit]
    by_cases h1 : i + 1 ≤ j ∧ j < i + 1 + n
    · have h2 : i ≤ j ∧ j < i + (n + 1) := by omega
      rw [if_pos h1, if_pos h2]
    · rw [if_neg h1]
      simp only
      rw [hbm _ (by split <;> rfl)]
      by_cases hji : j = i
      · subst hji
        have h2 : j ≤ j ∧ j < j + (n + 1) := by omega
        rw [if_pos h2]; simp
      · have h2 : ¬ (i ≤ j ∧ j < i + (n + 1)) := by omega
        rw [if_neg h2]; simp [hji]

theorem mark_used_loop_bits (n i : Nat) (s : KState) (j : Nat) :
    test_bit (mark_used_loop n i s).frame_bitmap j
      = if i ≤ j ∧ j < i + n then true else test_bit s.frame_bitmap j := by
  induction n generalizing i s with
  | zero =>
    have : ¬ (i ≤ j ∧ j < i + 0) := by omega
    rw [if_neg this]; rfl
  | succ n ih =>
    simp only [mark_used_loop]
    rw [ih]
    by_cases h1 : i + 1 ≤ j ∧ j < i + 1 + n
    · have h2 : i ≤ j ∧ j < i + (n + 1) := by omega
      rw [if_pos h1, if_pos h2]
    · rw [if_neg h1]
      by_cases hji : j = i
      · subst hji
        have h2 : j ≤ j ∧ j < j + (n + 1) := by omega
        rw [if_pos h2]
        by_cases hb : test_bit s.frame_bitmap j = true
        · simp [hb]
        · have hb2 : test_bit s.frame_bitmap j = false := by simpa using hb
          simp [hb2, test_bit_set_bit]
      · have h2 : ¬ (i ≤ j ∧ j < i + (n + 1)) := by omega
        rw [if_neg h2]
        by_cases hb : test_bit s.frame_bitmap i = true
        · simp [hb]
        · have hb2 : test_bit s.frame_bitmap i = false := by simpa using hb
          simp [hb2, test_bit_set_bit, hji]

/-- On the `virt` layout, frame 0 is free after initialisation. -/
theorem virt_init_bit0 (s : KState) :
    test_bit (frame_alloc_init virt_linker (some virt_params) s).frame_bitmap 0 = false := by
  have e1 : ∀ t : KState, mark_range_used t 0x400F0000 (sub64 0x400F8000 0x400F0000)
      = mark_used_loop 8 240 t := fun t => by
    simp [mark_range_used, sub64, u64, PMM_RAM_BASE, PAGE_SIZE, UINT64_MAX, PMM_TOTAL_FRAMES,
      PMM_MANAGEABLE_SIZE]
  have e2 : ∀ t : KState, mark_range_used t 0x40080000 (sub64 0x40100000 0x40080000)
      = mark_used_loop 128 128 t := fun t => by
    simp [mark_range_used, sub64, u64, PMM_RAM_BASE, PAGE_SIZE, UINT64_MAX, PMM_TOTAL_FRAMES,
      PMM_MANAGEABLE_SIZE]
  have e3 : ∀ t : KState, mark_range_free t PMM_RAM_BASE PMM_MANAGEABLE_SIZE
      = mark_free_loop 262144 0 t := fun t => by
    simp [mark_range_free, sub64, u64, PMM_RAM_BASE, PAGE_SIZE, UINT64_MAX, PMM_TOTAL_FRAMES,
      PMM_MANAGEABLE_SIZE]
  simp only [frame_alloc_init, virt_linker, virt_params, e1, e2, e3, mark_used_loop_bits,
    mark_free_loop_bits]
  simp

/-! ## `alloc_frame` on a state with a clear bit -/

theorem alloc_frame_of_least (s : KState) (i : Nat) (hi : i < PMM_TOTAL_FRAMES)
    (hc : test_bit s.frame_bitmap i = false)
    (hmin : ∀ j, j < i → test_bit s.frame_bitmap j = true) :
    alloc_frame s = (PMM_RAM_BASE + i * PAGE_SIZE,
      { s with
        frame_bitmap := set_bit s.frame_bitmap i
        free_memory := sub64 s.free_memory PAGE_SIZE
        mem := memset s.mem (PMM_RAM_BASE + i * PAGE_SIZE) 0 PAGE_SIZE }) := by
  unfold alloc_frame
  rw [alloc_scan_least _ _ _ hi hc hmin]
  have : u64 (PMM_RAM_BASE + i * PAGE_SIZE) = PMM_RAM_BASE + i * PAGE_SIZE := by
    simp only [u64, PMM_RAM_BASE, PAGE_SIZE, PMM_TOTAL_FRAMES, PMM_MANAGEABLE_SIZE] at *
    omega
  simp only [this]

/-- Some bit below `n` is clear: then there is a least one. -/
theorem exists_least_clear (bm : Nat → Nat) (n : Nat)
    (h : ∃ i, i < n ∧ test_bit bm i = false) :
    ∃ i, i < n ∧ test_bit bm i = false ∧ ∀ j, j < i → test_bit bm j = true := by
  cases hs : alloc_scan bm n 0 with
  | none =>
    obtain ⟨i, hi, hc⟩ := h
    have := alloc_scan_none bm n 0 hs i (by omega) (by omega)
    rw [hc] at this; exact Bool.noConfusion this
  | some k =>
    obtain ⟨_, h2, h3, h4⟩ := alloc_scan_some bm n 0 k hs
    exact ⟨k, by omega, h3, fun j hj => h4 j (by omega) hj⟩

theorem alloc_frame_ne_zero (s : KState)
    (h : ∃ i, i < PMM_TOTAL_FRAMES ∧ test_bit s.frame_bitmap i = false) :
    (alloc_frame s).1 ≠ 0 := by
  obtain ⟨i, hi, hc, hmin⟩ := exists_least_clear _ _ h
  rw [alloc_frame_of_least s i hi hc hmin]
  simp only [PMM_RAM_BASE]
  omega

/-- With the bitmap held apart from RAM: in every state in which bit `i` is
the lowest clear bit among bits `0 .. N - 1`, `alloc_frame` returns
`RAM_BASE + i * PAGE_SIZE`, sets exactly bit `i` (every other bit keeps its
value), replaces `free_memory` by `free_memory - PAGE_SIZE` modulo `2 ^ 64`,
which is a decrease by exactly `PAGE_SIZE` whenever
`PAGE_SIZE ≤ free_memory < 2 ^ 64`, and leaves `total_memory` and
`highest_usable_address` unchanged. -/
theorem alloc_frame_lowest_clear (s : KState) (i : Nat) (hi : i < 262144)
    (hc : test_bit s.frame_bitmap i = false)
    (hmin : ∀ j, j < i → test_bit s.frame_bitmap j = true) :
    (alloc_frame s).1 = PMM_RAM_BASE + i * PAGE_SIZE ∧
    test_bit (alloc_frame s).2.frame_bitmap i = true ∧
    (∀ j, j ≠ i → test_bit (alloc_frame s).2.frame_bitmap j = test_bit s.frame_bitmap j) ∧
    (alloc_frame s).2.free_memory = (s.free_memory + 2 ^ 64 - PAGE_SIZE) % 2 ^ 64 ∧
    (PAGE_SIZE ≤ s.free_memory → s.free_memory < 2 ^ 64 →
      (alloc_frame s).2.free_memory + PAGE_SIZE = s.free_memory) ∧
    (alloc_frame s).2.total_memory = s.total_memory ∧
    (alloc_frame s).2.highest_usable_address = s.highest_usable_address := by
  rw [alloc_frame_of_least s i hi hc hmin]
  refine ⟨rfl, ?_, ?_, rfl, ?_, rfl, rfl⟩
  · simp [test_bit_set_bit]
  · intro j hj; simp [test_bit_set_bit, hj]
  · intro h1 h2
    simp only [sub64, PAGE_SIZE] at *
    omega

/-! ## Live frames -/

theorem free_frame_bits (s : KState) (f : Nat) (j : Nat)
    (hj : PMM_RAM_BASE + j * PAGE_SIZE ≠ f) :
    test_bit (free_frame s f).frame_bitmap j = test_bit s.frame_bitmap j := by
  unfold free_frame
  simp only
  split
  · rfl
  split
  · rfl
  split
  · rfl
  split
  · rfl
  split
  · rfl
  rename_i h1 h2 h3 h4 h5
  simp only [test_bit_clear_bit]
  have h3a : f % PAGE_SIZE = 0 := by simpa using h3
  have : j ≠ (f - PMM_RAM_BASE) / PAGE_SIZE := by
    intro hEq
    apply hj
    simp only [PMM_RAM_BASE, PAGE_SIZE, PMM_MAX_ADDRESS, PMM_MANAGEABLE_SIZE] at *
    omega
  simp [this]

theorem pmm_run_live_free_one (t : KState) (f : Nat) :
    (pmm_run_live (t, []) [PmmOp.free f]).1 = free_frame t f := rfl

theorem virt_free_kernel_bit0 :
    test_bit (pmm_run_live (frame_alloc_init virt_linker (some virt_params) zero_state, [])
      [PmmOp.free 0x40080000]).1.frame_bitmap 0 = false := by
  rw [pmm_run_live_free_one, free_frame_bits _ _ _ (by decide)]
  exact virt_init_bit0 zero_state

/-! ## Loads and stores -/

theorem read64_lt (m : Nat → Nat) (a : Nat) : read64 m a < 2 ^ 64 := by
  unfold read64
  have h0 := Nat.mod_lt (m a) (show 0 < 256 by decide)
  have h1 := Nat.mod_lt (m (a + 1)) (show 0 < 256 by decide)
  have h2 := Nat.mod_lt (m (a + 2)) (show 0 < 256 by decide)
  have h3 := Nat.mod_lt (m (a + 3)) (show 0 < 256 by decide)
  have h4 := Nat.mod_lt (m (a + 4)) (show 0 < 256 by decide)
  have h5 := Nat.mod_lt (m (a + 5)) (show 0 < 256 by decide)
  have h6 := Nat.mod_lt (m (a + 6)) (show 0 < 256 by decide)
  have h7 := Nat.mod_lt (m (a + 7)) (show 0 < 256 by decide)
  norm_num
  omega

theorem read64_congr (m m2 : Nat → Nat) (a : Nat)
    (h : ∀ x, a ≤ x → x < a + 8 → m2 x = m x) : read64 m2 a = read64 m a := by
  unfold read64
  rw [h a (by omega) (by omega), h (a + 1) (by omega) (by omega),
    h (a + 2) (by omega) (by omega), h (a + 3) (by omega) (by omega),
    h (a + 4) (by omega) (by omega), h (a + 5) (by omega) (by omega),
    h (a + 6) (by omega) (by omega), h (a + 7) (by omega) (by omega)]

theorem read64_write64_same (m : Nat → Nat) (a v : Nat) :
    read64 (write64 m a v) a = v % 2 ^ 64 := by
  unfold read64 write64
  have e0 : a ≤ a ∧ a < a + 8 := by omega
  have e1 : a ≤ a + 1 ∧ a + 1 < a + 8 := by omega
  have e2 : a ≤ a + 2 ∧ a + 2 < a + 8 := by omega
  have e3 : a ≤ a + 3 ∧ a + 3 < a + 8 := by omega
  have e4 : a ≤ a + 4 ∧ a + 4 < a + 8 := by omega
  have e5 : a ≤ a + 5 ∧ a + 5 < a + 8 := by omega
  have e6 : a ≤ a + 6 ∧ a + 6 < a + 8 := by omega
  have e7 : a ≤ a + 7 ∧ a + 7 < a + 8 := by omega
  simp only [if_pos e0, if_pos e1, if_pos e2, if_pos e3, if_pos e4, if_pos e5, if_pos e6,
    if_pos e7, Nat.sub_self, Nat.add_sub_cancel_left, Nat.mod_mod]
  norm_num
  omega

theorem read64_write64_disj (m : Nat → Nat) (a v b : Nat) (h : b + 8 ≤ a ∨ a + 8 ≤ b) :
    read64 (write64 m a v) b = read64 m b := by
  apply read64_congr
  intro x h1 h2
  unfold write64
  rw [if_neg (by omega)]

theorem read64_write8_disj (m : Nat → Nat) (a v b : Nat) (h : a < b ∨ b + 8 ≤ a) :
    read64 (write8 m a v) b = read64 m b := by
  apply read64_congr
  intro x h1 h2
  unfold write8
  rw [if_neg (by omega)]

theorem read64_memset_disj (m : Nat → Nat) (p c n b : Nat) (h : b + 8 ≤ p ∨ p + n ≤ b) :
    read64 (memset m p c n) b = read64 m b := by
  apply read64_congr
  intro x h1 h2
  unfold memset
  rw [if_neg (by omega)]

theorem read64_memset_zero (m : Nat → Nat) (p n b : Nat) (h : p ≤ b ∧ b + 8 ≤ p + n) :
    read64 (memset m p 0 n) b = 0 := by
  unfold read64 memset
  rw [if_pos (by omega), if_pos (by omega), if_pos (by omega), if_pos (by omega),
    if_pos (by omega), if_pos (by omega), if_pos (by omega), if_pos (by omega)]
  norm_num

theorem read8_write8_same (m : Nat → Nat) (a v : Nat) : read8 (write8 m a v) a = v % 256 := by
  simp [read8, write8]

theorem read8_write8_ne (m : Nat → Nat) (a v b : Nat) (h : b ≠ a) :
    read8 (write8 m a v) b = read8 m b := by
  simp [read8, write8, h]

theorem read8_write64_disj (m : Nat → Nat) (a v b : Nat) (h : b < a ∨ a + 8 ≤ b) :
    read8 (write64 m a v) b = read8 m b := by
  unfold read8 write64
  rw [if_neg (by omega)]

theorem read8_memset_disj (m : Nat → Nat) (p c n b : Nat) (h : b < p ∨ p + n ≤ b) :
    read8 (memset m p c n) b = read8 m b := by
  unfold read8 memset
  rw [if_neg (by omega)]

theorem read8_memset_zero (m : Nat → Nat) (p n b : Nat) (h : p ≤ b ∧ b < p + n) :
    read8 (memset m p 0 n) b = 0 := by
  unfold read8 memset
  rw [if_pos h]

theorem read64_mod (m : Nat → Nat) (a : Nat) : read64 m a % 2 ^ 64 = read64 m a :=
  Nat.mod_eq_of_lt (read64_lt m a)

theorem mod64_of_lt (v : Nat) (h : v < 2 ^ 64) : v % 2 ^ 64 = v := Nat.mod_eq_of_lt h

/-! ## Free-list links: steps on the field maps -/

section
variable {nf pf nf2 pf2 : Nat → Nat} {isf isf2 : Nat → Bool} {head : Nat} {B B0 : Nat → Prop}

theorem FLf_congr (h : FLf nf pf isf head B)
    (hnf : ∀ b, B b → nf2 b = nf b) (hpf : ∀ b, B b → pf2 b = pf b)
    (hisf : ∀ b, B b → isf2 b = isf b) : FLf nf2 pf2 isf2 head B := by
  refine ⟨?_, ?_, ?_, ?_⟩
  · intro h0
    obtain ⟨h1, h2, h3⟩ := h.head_ok h0
    exact ⟨h1, by rw [hpf _ h1]; exact h2, by rw [hisf _ h1]; exact h3⟩
  · intro b hb hne
    rw [hnf b hb] at hne ⊢
    obtain ⟨h1, h2⟩ := h.nf_ok b hb hne
    exact ⟨h1, by rw [hpf _ h1]; exact h2⟩
  · intro b hb hne
    rw [hpf b hb] at hne ⊢
    obtain ⟨h1, h2⟩ := h.pf_ok b hb hne
    exact ⟨h1, by rw [hnf _ h1]; exact h2⟩
  · intro b hb hf
    rw [hisf b hb] at hf
    rw [hnf b hb, hpf b hb]
    exact h.flag_ok b hb hf

theorem FLf_set (h : FLf nf pf isf head B) (hB : ∀ b, B b ↔ B0 b) :
    FLf nf pf isf head B0 := by
  refine ⟨?_, ?_, ?_, ?_⟩
  · intro h0
    obtain ⟨h1, h2, h3⟩ := h.head_ok h0
    exact ⟨(hB _).1 h1, h2, h3⟩
  · intro b hb hne
    obtain ⟨h1, h2⟩ := h.nf_ok b ((hB _).2 hb) hne
    exact ⟨(hB _).1 h1, h2⟩
  · intro b hb hne
    obtain ⟨h1, h2⟩ := h.pf_ok b ((hB _).2 hb) hne
    exact ⟨(hB _).1 h1, h2⟩
  · intro b hb hf
    exact h.flag_ok b ((hB _).2 hb) hf

/-- Removing a block that is on no list from the block set. -/
theorem FLf_erase (h : FLf nf pf isf head B) (hB0 : ¬ B 0) (y : Nat)
    (hy1 : y ≠ head) (hy2 : nf y = 0) (hy3 : pf y = 0) :
    FLf nf pf isf head (fun b => B b ∧ b ≠ y) := by
  refine ⟨?_, ?_, ?_, ?_⟩
  · intro h0
    obtain ⟨h1, h2, h3⟩ := h.head_ok h0
    exact ⟨⟨h1, fun e => hy1 e.symm⟩, h2, h3⟩
  · intro b hb hne
    obtain ⟨h1, h2⟩ := h.nf_ok b hb.1 hne
    refine ⟨⟨h1, ?_⟩, h2⟩
    intro e
    rw [e, hy3] at h2
    exact hB0 (h2 ▸ hb.1)
  · intro b hb hne
    obtain ⟨h1, h2⟩ := h.pf_ok b hb.1 hne
    refine ⟨⟨h1, ?_⟩, h2⟩
    intro e
    rw [e, hy2] at h2
    exact hB0 (h2 ▸ hb.1)
  · intro b hb hf
    exact h.flag_ok b hb.1 hf

/-- Adding a block with null links to the block set. -/
theorem FLf_insert (h : FLf nf pf isf head B0) (z : Nat)
    (hz2 : nf z = 0) (hz3 : pf z = 0) (hB : ∀ b, B b ↔ B0 b ∨ b = z) :
    FLf nf pf isf head B := by
  refine ⟨?_, ?_, ?_, ?_⟩
  · intro h0
    obtain ⟨h1, h2, h3⟩ := h.head_ok h0
    exact ⟨(hB _).2 (Or.inl h1), h2, h3⟩
  · intro b hb hne
    rcases (hB _).1 hb with hb0 | hbz
    · obtain ⟨h1, h2⟩ := h.nf_ok b hb0 hne
      exact ⟨(hB _).2 (Or.inl h1), h2⟩
    · subst hbz; exact absurd hz2 hne
  · intro b hb hne
    rcases (hB _).1 hb with hb0 | hbz
    · obtain ⟨h1, h2⟩ := h.pf_ok b hb0 hne
      exact ⟨(hB _).2 (Or.inl h1), h2⟩
    · subst hbz; exact absurd hz3 hne
  · intro b hb hf
    rcases (hB _).1 hb with hb0 | hbz
    · exact h.flag_ok b hb0 hf
    · subst hbz; exact ⟨hz2, hz3⟩

/-- The effect of `add_to_free_list(z)` on the links. -/
theorem FLf_add (h : FLf nf pf isf head B0) (hB0 : ¬ B 0) (z : Nat) (hz : ¬ B0 z)
    (hB : ∀ b, B b ↔ B0 b ∨ b = z)
    (hnf : ∀ b, B b → nf2 b = if b = z then head else nf b)
    (hpf : ∀ b, B b → pf2 b = if b = z then 0 else if head ≠ 0 ∧ b = head then z else pf b)
    (hisf : ∀ b, B b → isf2 b = if b = z then true else isf b) :
    FLf nf2 pf2 isf2 z B := by
  have hBz : B z := (hB z).2 (Or.inr rfl)
  have hne0 : ∀ b, B b → b ≠ 0 := fun b hb e => hB0 (e ▸ hb)
  have hsub : ∀ b, B0 b → B b ∧ b ≠ z := fun b hb =>
    ⟨(hB b).2 (Or.inl hb), fun e => hz (e ▸ hb)⟩
  refine ⟨?_, ?_, ?_, ?_⟩
  · intro _
    exact ⟨hBz, by rw [hpf z hBz, if_pos rfl], by rw [hisf z hBz, if_pos rfl]⟩
  · intro b hb hne
    rw [hnf b hb] at hne ⊢
    by_cases hbz : b = z
    · subst hbz
      rw [if_pos rfl] at hne ⊢
      obtain ⟨h1, h2, h3⟩ := h.head_ok hne
      obtain ⟨h4, h5⟩ := hsub _ h1
      refine ⟨h4, ?_⟩
      rw [hpf _ h4, if_neg h5, if_pos ⟨hne, rfl⟩]
    · rw [if_neg hbz] at hne ⊢
      have hb0 : B0 b := by
        rcases (hB b).1 hb with h1 | h1
        · exact h1
        · exact absurd h1 hbz
      obtain ⟨h1, h2⟩ := h.nf_ok b hb0 hne
      obtain ⟨h4, h5⟩ := hsub _ h1
      refine ⟨h4, ?_⟩
      rw [hpf _ h4, if_neg h5]
      by_cases hh : head ≠ 0 ∧ nf b = head
      · exfalso
        obtain ⟨_, h6, _⟩ := h.head_ok hh.1
        rw [← hh.2, h2] at h6
        exact hne0 b hb h6
      · rw [if_neg hh]; exact h2
  · intro b hb hne
    rw [hpf b hb] at hne ⊢
    by_cases hbz : b = z
    · subst hbz; rw [if_pos rfl] at hne; exact absurd rfl hne
    · rw [if_neg hbz] at hne ⊢
      have hb0 : B0 b := by
        rcases (hB b).1 hb with h1 | h1
        · exact h1
        · exact absurd h1 hbz
      by_cases hh : head ≠ 0 ∧ b = head
      · rw [if_pos hh]
        refine ⟨hBz, ?_⟩
        rw [hnf z hBz, if_pos rfl]; exact hh.2.symm
      · rw [if_neg hh] at hne ⊢
        obtain ⟨h1, h2⟩ := h.pf_ok b hb0 hne
        obtain ⟨h4, h5⟩ := hsub _ h1
        refine ⟨h4, ?_⟩
        rw [hnf _ h4, if_neg h5]; exact h2
  · intro b hb hf
    rw [hisf b hb] at hf
    by_cases hbz : b = z
    · subst hbz; rw [if_pos rfl] at hf; exact Bool.noConfusion hf
    · rw [if_neg hbz] at hf
      have hb0 : B0 b := by
        rcases (hB b).1 hb with h1 | h1
        · exact h1
        · exact absurd h1 hbz
      obtain ⟨h1, h2⟩ := h.flag_ok b hb0 hf
      rw [hnf b hb, hpf b hb, if_neg hbz, if_neg hbz]
      refine ⟨h1, ?_⟩
      by_cases hh : head ≠ 0 ∧ b = head
      · exfalso
        obtain ⟨_, _, h6⟩ := h.head_ok hh.1
        rw [← hh.2, hf] at h6
        exact Bool.noConfusion h6
      · rw [if_neg hh]; exact h2

end

section
variable {nf pf nf2 pf2 : Nat → Nat} {isf isf2 : Nat → Bool} {head head2 : Nat} {B : Nat → Prop}

/-- The effect of `remove_from_free_list(y)` on the links. -/
theorem FLf_remove (h : FLf nf pf isf head B) (hB0 : ¬ B 0) (y : Nat) (hy : B y)
    (hnf : ∀ b, B b → nf2 b = if b = y then 0 else if pf y ≠ 0 ∧ b = pf y then nf y else nf b)
    (hpf : ∀ b, B b → pf2 b = if b = y then 0 else if nf y ≠ 0 ∧ b = nf y then pf y else pf b)
    (hisf : ∀ b, B b → isf2 b = if b = y then false else isf b)
    (hhead : head2 = if pf y ≠ 0 then head else nf y) :
    FLf nf2 pf2 isf2 head2 B ∧ head2 ≠ y ∧
    (∀ z, B z → z ≠ y → z ≠ head → nf z = 0 → pf z = 0 →
      z ≠ head2 ∧ nf2 z = 0 ∧ pf2 z = 0) := by
  have hne0 : ∀ b, B b → b ≠ 0 := fun b hb e => hB0 (e ▸ hb)
  have hy0 : y ≠ 0 := hne0 y hy
  have hP : pf y ≠ 0 → B (pf y) ∧ nf (pf y) = y := h.pf_ok y hy
  have hQ : nf y ≠ 0 → B (nf y) ∧ pf (nf y) = y := h.nf_ok y hy
  -- the successor of `y` is `y` itself only on a self loop
  have hQy : nf y = y → pf y = y := fun e => by
    have := (hQ (by rw [e]; exact hy0)).2
    rw [e] at this; exact this
  have hPy : pf y = y → nf y = y := fun e => by
    have := (hP (by rw [e]; exact hy0)).2
    rw [e] at this; exact this
  have hhy : head2 ≠ y := by
    rw [hhead]
    by_cases hp : pf y ≠ 0
    · rw [if_pos hp]
      intro e
      have := (h.head_ok (by rw [e]; exact hy0)).2.1
      rw [e] at this; exact hp this
    · rw [if_neg hp]
      intro e
      exact hp (by rw [hQy e]; exact hy0)
  refine ⟨⟨?_, ?_, ?_, ?_⟩, hhy, ?_⟩
  · intro h0
    by_cases hp : pf y ≠ 0
    · have e : head2 = head := by rw [hhead, if_pos hp]
      rw [e] at h0 hhy ⊢
      obtain ⟨h1, h2, h3⟩ := h.head_ok h0
      refine ⟨h1, ?_, ?_⟩
      · rw [hpf _ h1, if_neg hhy]
        by_cases hq : nf y ≠ 0 ∧ head = nf y
        · exfalso
          have := (hQ hq.1).2
          rw [← hq.2, h2] at this
          exact hy0 this.symm
        · rw [if_neg hq]; exact h2
      · rw [hisf _ h1, if_neg hhy]; exact h3
    · have e : head2 = nf y := by rw [hhead, if_neg hp]
      rw [e] at h0 hhy ⊢
      obtain ⟨h1, h2⟩ := hQ h0
      refine ⟨h1, ?_, ?_⟩
      · rw [hpf _ h1, if_neg hhy, if_pos ⟨h0, rfl⟩]
        exact not_not.1 hp
      · rw [hisf _ h1, if_neg hhy]
        cases hf : isf (nf y) with
        | true => rfl
        | false =>
          have := (h.flag_ok _ h1 hf).2
          rw [h2] at this; exact absurd this hy0
  · intro b hb hne
    rw [hnf b hb] at hne ⊢
    by_cases hby : b = y
    · rw [if_pos hby] at hne; exact absurd rfl hne
    · rw [if_neg hby] at hne ⊢
      by_cases hp : pf y ≠ 0 ∧ b = pf y
      · rw [if_pos hp] at hne ⊢
        obtain ⟨h1, h2⟩ := hQ hne
        have hqy : nf y ≠ y := fun e => hby (by rw [hp.2, hQy e])
        refine ⟨h1, ?_⟩
        rw [hpf _ h1, if_neg hqy, if_pos ⟨hne, rfl⟩]
        exact hp.2.symm
      · rw [if_neg hp] at hne ⊢
        obtain ⟨h1, h2⟩ := h.nf_ok b hb hne
        have hcy : nf b ≠ y := fun e => by
          rw [e] at h2
          exact hp ⟨by rw [h2]; exact hne0 b hb, h2.symm⟩
        refine ⟨h1, ?_⟩
        rw [hpf _ h1, if_neg hcy]
        by_cases hq : nf y ≠ 0 ∧ nf b = nf y
        · exfalso
          have := (hQ hq.1).2
          rw [← hq.2, h2] at this
          exact hby this
        · rw [if_neg hq]; exact h2
  · intro b hb hne
    rw [hpf b hb] at hne ⊢
    by_cases hby : b = y
    · rw [if_pos hby] at hne; exact absurd rfl hne
    · rw [if_neg hby] at hne ⊢
      by_cases hq : nf y ≠ 0 ∧ b = nf y
      · rw [if_pos hq] at hne ⊢
        obtain ⟨h1, h2⟩ := hP hne
        have hpy : pf y ≠ y := fun e => hby (by rw [hq.2, hPy e])
        refine ⟨h1, ?_⟩
        rw [hnf _ h1, if_neg hpy, if_pos ⟨hne, rfl⟩]
        exact hq.2.symm
      · rw [if_neg hq] at hne ⊢
        obtain ⟨h1, h2⟩ := h.pf_ok b hb hne
        have hcy : pf b ≠ y := fun e => by
          rw [e] at h2
          exact hq ⟨by rw [h2]; exact hne0 b hb, h2.symm⟩
        refine ⟨h1, ?_⟩
        rw [hnf _ h1, if_neg hcy]
        by_cases hp : pf y ≠ 0 ∧ pf b = pf y
        · exfalso
          have := (hP hp.1).2
          rw [← hp.2, h2] at this
          exact hby this
        · rw [if_neg hp]; exact h2
  · intro b hb hf
    rw [hisf b hb] at hf
    rw [hnf b hb, hpf b hb]
    by_cases hby : b = y
    · rw [if_pos hby, if_pos hby]; exact ⟨rfl, rfl⟩
    · rw [if_neg hby] at hf
      rw [if_neg hby, if_neg hby]
      obtain ⟨h1, h2⟩ := h.flag_ok b hb hf
      constructor
      · by_cases hp : pf y ≠ 0 ∧ b = pf y
        · exfalso
          have := (hP hp.1).2
          rw [← hp.2, h1] at this
          exact hy0 this.symm
        · rw [if_neg hp]; exact h1
      · by_cases hq : nf y ≠ 0 ∧ b = nf y
        · exfalso
          have := (hQ hq.1).2
          rw [← hq.2, h2] at this
          exact hy0 this.symm
        · rw [if_neg hq]; exact h2
  · intro z hz hzy hzh hz1 hz2
    refine ⟨?_, ?_, ?_⟩
    · rw [hhead]
      by_cases hp : pf y ≠ 0
      · rw [if_pos hp]; exact hzh
      · rw [if_neg hp]
        intro e
        have := (hQ (by rw [← e]; exact hne0 z hz)).2
        rw [← e, hz2] at this
        exact hy0 this.symm
    · rw [hnf z hz, if_neg hzy]
      by_cases hp : pf y ≠ 0 ∧ z = pf y
      · exfalso
        have := (hP hp.1).2
        rw [← hp.2, hz1] at this
        exact hy0 this.symm
      · rw [if_neg hp]; exact hz1
    · rw [hpf z hz, if_neg hzy]
      by_cases hq : nf y ≠ 0 ∧ z = nf y
      · exfalso
        have := (hQ hq.1).2
        rw [← hq.2, hz2] at this
        exact hy0 this.symm
      · rw [if_neg hq]; exact hz2

/-- Changing the flag of a block that is on no list. -/
theorem FLf_flag (h : FLf nf pf isf head B) (x : Nat) (v : Bool)
    (hx : v = false → x ≠ head ∧ nf x = 0 ∧ pf x = 0)
    (hisf : ∀ b, B b → isf2 b = if b = x then v else isf b) :
    FLf nf pf isf2 head B := by
  refine ⟨?_, h.nf_ok, h.pf_ok, ?_⟩
  · intro h0
    obtain ⟨h1, h2, h3⟩ := h.head_ok h0
    refine ⟨h1, h2, ?_⟩
    rw [hisf _ h1]
    by_cases e : head = x
    · rw [if_pos e]
      cases v with
      | true => rfl
      | false => exact absurd e.symm (hx rfl).1
    · rw [if_neg e]; exact h3
  · intro b hb hf
    rw [hisf b hb] at hf
    by_cases e : b = x
    · rw [if_pos e] at hf
      rw [e]; exact (hx hf).2
    · rw [if_neg e] at hf
      exact h.flag_ok b hb hf

end

/-! ## Header fields after a store to a header field

`c` is the block written, `b` the block read; their headers coincide or are
apart (`SepH c b`). -/

theorem SepH_refl (a : Nat) : SepH a a := Or.inl rfl

theorem SepH_symm {a b : Nat} (h : SepH a b) : SepH b a := by
  unfold SepH at *; omega

theorem blk_size_lt (m : Nat → Nat) (b : Nat) : blk_size m b < 2 ^ 64 := read64_lt _ _

theorem blk_size_mod (m : Nat → Nat) (b : Nat) : blk_size m b % 2 ^ 64 = blk_size m b :=
  Nat.mod_eq_of_lt (read64_lt _ _)

theorem blk_next_lt (m : Nat → Nat) (b : Nat) : blk_next m b < 2 ^ 64 := read64_lt _ _

theorem blk_next_mod (m : Nat → Nat) (b : Nat) : blk_next m b % 2 ^ 64 = blk_next m b :=
  Nat.mod_eq_of_lt (read64_lt _ _)

theorem blk_prev_lt (m : Nat → Nat) (b : Nat) : blk_prev m b < 2 ^ 64 := read64_lt _ _

theorem blk_prev_mod (m : Nat → Nat) (b : Nat) : blk_prev m b % 2 ^ 64 = blk_prev m b :=
  Nat.mod_eq_of_lt (read64_lt _ _)

theorem blk_next_free_lt (m : Nat → Nat) (b : Nat) : blk_next_free m b < 2 ^ 64 := read64_lt _ _

theorem blk_next_free_mod (m : Nat → Nat) (b : Nat) : blk_next_free m b % 2 ^ 64 = blk_next_free m b :=
  Nat.mod_eq_of_lt (read64_lt _ _)

theorem blk_prev_free_lt (m : Nat → Nat) (b : Nat) : blk_prev_free m b < 2 ^ 64 := read64_lt _ _

theorem blk_prev_free_mod (m : Nat → Nat) (b : Nat) : blk_prev_free m b % 2 ^ 64 = blk_prev_free m b :=
  Nat.mod_eq_of_lt (read64_lt _ _)

theorem blk_size_set_size (m : Nat → Nat) (c v b : Nat) (h : SepH c b) :
    blk_size (set_size m c v) b = if b = c then v % 2 ^ 64 else blk_size m b := by
  unfold SepH at h
  unfold blk_size set_size
  by_cases e : b = c
  · subst e; rw [if_pos rfl, read64_write64_same]
  · rw [if_neg e, read64_write64_disj]; omega

theorem blk_size_set_next (m : Nat → Nat) (c v b : Nat) (h : SepH c b) :
    blk_size (set_next m c v) b = blk_size m b := by
  unfold SepH at h
  unfold blk_size set_next
  rw [read64_write64_disj]; omega

theorem blk_size_set_prev (m : Nat → Nat) (c v b : Nat) (h : SepH c b) :
    blk_size (set_prev m c v) b = blk_size m b := by
  unfold SepH at h
  unfold blk_size set_prev
  rw [read64_write64_disj]; omega

theorem blk_size_set_next_free (m : Nat → Nat) (c v b : Nat) (h : SepH c b) :
    blk_size (set_next_free m c v) b = blk_size m b := by
  unfold SepH at h
  unfold blk_size set_next_free
  rw [read64_write64_disj]; omega

theorem blk_size_set_prev_free (m : Nat → Nat) (c v b : Nat) (h : SepH c b) :
    blk_size (set_prev_free m c v) b = blk_size m b := by
  unfold SepH at h
  unfold blk_size set_prev_free
  rw [read64_write64_disj]; omega

theorem blk_size_set_is_free (m : Nat → Nat) (c : Nat) (v : Bool) (b : Nat) (h : SepH c b) :
    blk_size (set_is_free m c v) b = blk_size m b := by
  unfold SepH at h
  unfold blk_size set_is_free
  rw [read64_write8_disj]; omega

theorem blk_size_memset (m : Nat → Nat) (p c n b : Nat) (h : p + n ≤ b ∨ b + 48 ≤ p) :
    blk_size (memset m p c n) b = blk_size m b := by
  unfold blk_size
  rw [read64_memset_disj]; omega

theorem blk_size_memset_zero (m : Nat → Nat) (p n b : Nat) (h : p ≤ b ∧ b + 48 ≤ p + n) :
    blk_size (memset m p 0 n) b = 0 := by
  unfold blk_size
  rw [read64_memset_zero]; omega

theorem blk_next_set_size (m : Nat → Nat) (c v b : Nat) (h : SepH c b) :
    blk_next (set_size m c v) b = blk_next m b := by
  unfold SepH at h
  unfold blk_next set_size
  rw [read64_write64_disj]; omega

theorem blk_next_set_next (m : Nat → Nat) (c v b : Nat) (h : SepH c b) :
    blk_next (set_next m c v) b = if b = c then v % 2 ^ 64 else blk_next m b := by
  unfold SepH at h
  unfold blk_next set_next
  by_cases e : b = c
  · subst e; rw [if_pos rfl, read64_write64_same]
  · rw [if_neg e, read64_write64_disj]; omega

theorem blk_next_set_prev (m : Nat → Nat) (c v b : Nat) (h : SepH c b) :
    blk_next (set_prev m c v) b = blk_next m b := by
  unfold SepH at h
  unfold blk_next set_prev
  rw [read64_write64_disj]; omega

theorem blk_next_set_next_free (m : Nat → Nat) (c v b : Nat) (h : SepH c b) :
    blk_next (set_next_free m c v) b = blk_next m b := by
  unfold SepH at h
  unfold blk_next set_next_free
  rw [read64_write64_disj]; omega

theorem blk_next_set_prev_free (m : Nat → Nat) (c v b : Nat) (h : SepH c b) :
    blk_next (set_prev_free m c v) b = blk_next m b := by
  unfold SepH at h
  unfold blk_next set_prev_free
  rw [read64_write64_disj]; omega

theorem blk_next_set_is_free (m : Nat → Nat) (c : Nat) (v : Bool) (b : Nat) (h : SepH c b) :
    blk_next (set_is_free m c v) b = blk_next m b := by
  unfold SepH at h
  unfold blk_next set_is_free
  rw [read64_write8_disj]; omega

theorem blk_next_memset (m : Nat → Nat) (p c n b : Nat) (h : p + n ≤ b ∨ b + 48 ≤ p) :
    blk_next (memset m p c n) b = blk_next m b := by
  unfold blk_next
  rw [read64_memset_disj]; omega

theorem blk_next_memset_zero (m : Nat → Nat) (p n b : Nat) (h : p ≤ b ∧ b + 48 ≤ p + n) :
    blk_next (memset m p 0 n) b = 0 := by
  unfold blk_next
  rw [read64_memset_zero]; omega

theorem blk_prev_set_size (m : Nat → Nat) (c v b : Nat) (h : SepH c b) :
    blk_prev (set_size m c v) b = blk_prev m b := by
  unfold SepH at h
  unfold blk_prev set_size
  rw [read64_write64_disj]; omega

theorem blk_prev_set_next (m : Nat → Nat) (c v b : Nat) (h : SepH c b) :
    blk_prev (set_next m c v) b = blk_prev m b := by
  unfold SepH at h
  unfold blk_prev set_next
  rw [read64_write64_disj]; omega

theorem blk_prev_set_prev (m : Nat → Nat) (c v b : Nat) (h : SepH c b) :
    blk_prev (set_prev m c v) b = if b = c then v % 2 ^ 64 else blk_prev m b := by
  unfold SepH at h
  unfold blk_prev set_prev
  by_cases e : b = c
  · subst e; rw [if_pos rfl, read64_write64_same]
  · rw [if_neg e, read64_write64_disj]; omega

theorem blk_prev_set_next_free (m : Nat → Nat) (c v b : Nat) (h : SepH c b) :
    blk_prev (set_next_free m c v) b = blk_prev m b := by
  unfold SepH at h
  unfold blk_prev set_next_free
  rw [read64_write64_disj]; omega

theorem blk_prev_set_prev_free (m : Nat → Nat) (c v b : Nat) (h : SepH c b) :
    blk_prev (set_prev_free m c v) b = blk_prev m b := by
  unfold SepH at h
  unfold blk_prev set_prev_free
  rw [read64_write64_disj]; omega

theorem blk_prev_set_is_free (m : Nat → Nat) (c : Nat) (v : Bool) (b : Nat) (h : SepH c b) :
    blk_prev (set_is_free m c v) b = blk_prev m b := by
  unfold SepH at h
  unfold blk_prev set_is_free
  rw [read64_write8_disj]; omega

theorem blk_prev_memset (m : Nat → Nat) (p c n b : Nat) (h : p + n ≤ b ∨ b + 48 ≤ p) :
    blk_prev (memset m p c n) b = blk_prev m b := by
  unfold blk_prev
  rw [read64_memset_disj]; omega

theorem blk_prev_memset_zero (m : Nat → Nat) (p n b : Nat) (h : p ≤ b ∧ b + 48 ≤ p + n) :
    blk_prev (memset m p 0 n) b = 0 := by
  unfold blk_prev
  rw [read64_memset_zero]; omega

theorem blk_next_free_set_size (m : Nat → Nat) (c v b : Nat) (h : SepH c b) :
    blk_next_free (set_size m c v) b = blk_next_free m b := by
  unfold SepH at h
  unfold blk_next_free set_size
  rw [read64_write64_disj]; omega

theorem blk_next_free_set_next (m : Nat → Nat) (c v b : Nat) (h : SepH c b) :
    blk_next_free (set_next m c v) b = blk_next_free m b := by
  unfold SepH at h
  unfold blk_next_free set_next
  rw [read64_write64_disj]; omega

theorem blk_next_free_set_prev (m : Nat → Nat) (c v b : Nat) (h : SepH c b) :
    blk_next_free (set_prev m c v) b = blk_next_free m b := by
  unfold SepH at h
  unfold blk_next_free set_prev
  rw [read64_write64_disj]; omega

theorem blk_next_free_set_next_free (m : Nat → Nat) (c v b : Nat) (h : SepH c b) :
    blk_next_free (set_next_free m c v) b = if b = c then v % 2 ^ 64 else blk_next_free m b := by
  unfold SepH at h
  unfold blk_next_free set_next_free
  by_cases e : b = c
  · subst e; rw [if_pos rfl, read64_write64_same]
  · rw [if_neg e, read64_write64_disj]; omega

theorem blk_next_free_set_prev_free (m : Nat → Nat) (c v b : Nat) (h : SepH c b) :
    blk_next_free (set_prev_free m c v) b = blk_next_free m b := by
  unfold SepH at h
  unfold blk_next_free set_prev_free
  rw [read64_write64_disj]; omega

theorem blk_next_free_set_is_free (m : Nat → Nat) (c : Nat) (v : Bool) (b : Nat) (h : SepH c b) :
    blk_next_free (set_is_free m c v) b = blk_next_free m b := by
  unfold SepH at h
  unfold blk_next_free set_is_free
  rw [read64_write8_disj]; omega

theorem blk_next_free_memset (m : Nat → Nat) (p c n b : Nat) (h : p + n ≤ b ∨ b + 48 ≤ p) :
    blk_next_free (memset m p c n) b = blk_next_free m b := by
  unfold blk_next_free
  rw [read64_memset_disj]; omega

theorem blk_next_free_memset_zero (m : Nat → Nat) (p n b : Nat) (h : p ≤ b ∧ b + 48 ≤ p + n) :
    blk_next_free (memset m p 0 n) b = 0 := by
  unfold blk_next_free
  rw [read64_memset_zero]; omega

theorem blk_prev_free_set_size (m : Nat → Nat) (c v b : Nat) (h : SepH c b) :
    blk_prev_free (set_size m c v) b = blk_prev_free m b := by
  unfold SepH at h
  unfold blk_prev_free set_size
  rw [read64_write64_disj]; omega

theorem blk_prev_free_set_next (m : Nat → Nat) (c v b : Nat) (h : SepH c b) :
    blk_prev_free (set_next m c v) b = blk_prev_free m b := by
  unfold SepH at h
  unfold blk_prev_free set_next
  rw [read64_write64_disj]; omega

theorem blk_prev_free_set_prev (m : Nat → Nat) (c v b : Nat) (h : SepH c b) :
    blk_prev_free (set_prev m c v) b = blk_prev_free m b := by
  unfold SepH at h
  unfold blk_prev_free set_prev
  rw [read64_write64_disj]; omega

theorem blk_prev_free_set_next_free (m : Nat → Nat) (c v b : Nat) (h : SepH c b) :
    blk_prev_free (set_next_free m c v) b = blk_prev_free m b := by
  unfold SepH at h
  unfold blk_prev_free set_next_free
  rw [read64_write64_disj]; omega

theorem blk_prev_free_set_prev_free (m : Nat → Nat) (c v b : Nat) (h : SepH c b) :
    blk_prev_free (set_prev_free m c v) b = if b = c then v % 2 ^ 64 else blk_prev_free m b := by
  unfold SepH at h
  unfold blk_prev_free set_prev_free
  by_cases e : b = c
  · subst e; rw [if_pos rfl, read64_write64_same]
  · rw [if_neg e, read64_write64_disj]; omega

theorem blk_prev_free_set_is_free (m : Nat → Nat) (c : Nat) (v : Bool) (b : Nat) (h : SepH c b) :
    blk_prev_free (set_is_free m c v) b = blk_prev_free m b := by
  unfold SepH at h
  unfold blk_prev_free set_is_free
  rw [read64_write8_disj]; omega

theorem blk_prev_free_memset (m : Nat → Nat) (p c n b : Nat) (h : p + n ≤ b ∨ b + 48 ≤ p) :
    blk_prev_free (memset m p c n) b = blk_prev_free m b := by
  unfold blk_prev_free
  rw [read64_memset_disj]; omega

theorem blk_prev_free_memset_zero (m : Nat → Nat) (p n b : Nat) (h : p ≤ b ∧ b + 48 ≤ p + n) :
    blk_prev_free (memset m p 0 n) b = 0 := by
  unfold blk_prev_free
  rw [read64_memset_zero]; omega

theorem blk_is_free_set_size (m : Nat → Nat) (c v b : Nat) (h : SepH c b) :
    blk_is_free (set_size m c v) b = blk_is_free m b := by
  unfold SepH at h
  unfold blk_is_free set_size
  rw [read8_write64_disj]; omega

theorem blk_is_free_set_next (m : Nat → Nat) (c v b : Nat) (h : SepH c b) :
    blk_is_free (set_next m c v) b = blk_is_free m b := by
  unfold SepH at h
  unfold blk_is_free set_next
  rw [read8_write64_disj]; omega

theorem blk_is_free_set_prev (m : Nat → Nat) (c v b : Nat) (h : SepH c b) :
    blk_is_free (set_prev m c v) b = blk_is_free m b := by
  unfold SepH at h
  unfold blk_is_free set_prev
  rw [read8_write64_disj]; omega

theorem blk_is_free_set_next_free (m : Nat → Nat) (c v b : Nat) (h : SepH c b) :
    blk_is_free (set_next_free m c v) b = blk_is_free m b := by
  unfold SepH at h
  unfold blk_is_free set_next_free
  rw [read8_write64_disj]; omega

theorem blk_is_free_set_prev_free (m : Nat → Nat) (c v b : Nat) (h : SepH c b) :
    blk_is_free (set_prev_free m c v) b = blk_is_free m b := by
  unfold SepH at h
  unfold blk_is_free set_prev_free
  rw [read8_write64_disj]; omega

theorem blk_is_free_set_is_free (m : Nat → Nat) (c : Nat) (v : Bool) (b : Nat) :
    blk_is_free (set_is_free m c v) b = if b = c then v else blk_is_free m b := by
  unfold blk_is_free set_is_free
  by_cases e : b = c
  · subst e
    rw [if_pos rfl, read8_write8_same]
    cases v <;> rfl
  · rw [if_neg e, read8_write8_ne]
    omega

theorem blk_is_free_memset (m : Nat → Nat) (p c n b : Nat) (h : p + n ≤ b ∨ b + 48 ≤ p) :
    blk_is_free (memset m p c n) b = blk_is_free m b := by
  unfold blk_is_free
  rw [read8_memset_disj]; omega

theorem blk_is_free_memset_zero (m : Nat → Nat) (p n b : Nat) (h : p ≤ b ∧ b + 48 ≤ p + n) :
    blk_is_free (memset m p 0 n) b = false := by
  unfold blk_is_free
  rw [read8_memset_zero]
  · rfl
  · omega

/-! ## Effect of the free-list routines on the header fields -/

theorem add_to_free_list_state (s : KState) (z : Nat) :
    (add_to_free_list s z).free_list_head = z ∧
    (add_to_free_list s z).heap_start = s.heap_start ∧
    (add_to_free_list s z).heap_end = s.heap_end ∧
    (add_to_free_list s z).frame_bitmap = s.frame_bitmap ∧
    (add_to_free_list s z).free_memory = s.free_memory ∧
    (add_to_free_list s z).total_memory = s.total_memory ∧
    (add_to_free_list s z).highest_usable_address = s.highest_usable_address :=
  ⟨rfl, rfl, rfl, rfl, rfl, rfl, rfl⟩

theorem add_to_free_list_fields (s : KState) (z b : Nat)
    (hzb : SepH z b) (hhb : s.free_list_head ≠ 0 → SepH s.free_list_head b)
    (hzh : z ≠ s.free_list_head) (hz64 : z < 2 ^ 64) (hh64 : s.free_list_head < 2 ^ 64) :
    blk_size (add_to_free_list s z).mem b = blk_size s.mem b ∧
    blk_next (add_to_free_list s z).mem b = blk_next s.mem b ∧
    blk_prev (add_to_free_list s z).mem b = blk_prev s.mem b ∧
    blk_next_free (add_to_free_list s z).mem b
      = (if b = z then s.free_list_head else blk_next_free s.mem b) ∧
    blk_prev_free (add_to_free_list s z).mem b
      = (if b = z then 0
         else if s.free_list_head ≠ 0 ∧ b = s.free_list_head then z
         else blk_prev_free s.mem b) ∧
    blk_is_free (add_to_free_list s z).mem b = (if b = z then true else blk_is_free s.mem b) := by
  unfold add_to_free_list
  by_cases hh0 : s.free_list_head = 0
  · simp (disch := first | assumption | exact SepH_refl _) only [hh0, ne_eq, not_true,
      not_false_eq_true, if_false, if_true, false_and, true_and, Nat.zero_mod, mod64_of_lt,
      blk_size_set_size, blk_size_set_next, blk_size_set_prev, blk_size_set_next_free,
          blk_size_set_prev_free, blk_size_set_is_free, blk_next_set_size, blk_next_set_next,
          blk_next_set_prev, blk_next_set_next_free, blk_next_set_prev_free,
          blk_next_set_is_free, blk_prev_set_size, blk_prev_set_next, blk_prev_set_prev,
          blk_prev_set_next_free, blk_prev_set_prev_free, blk_prev_set_is_free,
          blk_next_free_set_size, blk_next_free_set_next, blk_next_free_set_prev,
          blk_next_free_set_next_free, blk_next_free_set_prev_free, blk_next_free_set_is_free,
          blk_prev_free_set_size, blk_prev_free_set_next, blk_prev_free_set_prev,
          blk_prev_free_set_next_free, blk_prev_free_set_prev_free, blk_prev_free_set_is_free,
          blk_is_free_set_size, blk_is_free_set_next, blk_is_free_set_prev,
          blk_is_free_set_next_free, blk_is_free_set_prev_free, blk_is_free_set_is_free,
          blk_size_mod, blk_next_mod, blk_prev_mod, blk_next_free_mod, blk_prev_free_mod]
  · have hhb2 := hhb hh0
    simp (disch := first | assumption | exact SepH_refl _) only [hh0, ne_eq, not_true,
      not_false_eq_true, if_false, if_true, false_and, true_and, Nat.zero_mod, mod64_of_lt,
      blk_size_set_size, blk_size_set_next, blk_size_set_prev, blk_size_set_next_free,
          blk_size_set_prev_free, blk_size_set_is_free, blk_next_set_size, blk_next_set_next,
          blk_next_set_prev, blk_next_set_next_free, blk_next_set_prev_free,
          blk_next_set_is_free, blk_prev_set_size, blk_prev_set_next, blk_prev_set_prev,
          blk_prev_set_next_free, blk_prev_set_prev_free, blk_prev_set_is_free,
          blk_next_free_set_size, blk_next_free_set_next, blk_next_free_set_prev,
          blk_next_free_set_next_free, blk_next_free_set_prev_free, blk_next_free_set_is_free,
          blk_prev_free_set_size, blk_prev_free_set_next, blk_prev_free_set_prev,
          blk_prev_free_set_next_free, blk_prev_free_set_prev_free, blk_prev_free_set_is_free,
          blk_is_free_set_size, blk_is_free_set_next, blk_is_free_set_prev,
          blk_is_free_set_next_free, blk_is_free_set_prev_free, blk_is_free_set_is_free,
          blk_size_mod, blk_next_mod, blk_prev_mod, blk_next_free_mod, blk_prev_free_mod]
    by_cases e1 : b = z
    · have : ¬ z = s.free_list_head := hzh
      simp [e1, this]
    · simp [e1]

theorem remove_from_free_list_state (s : KState) (y : Nat) :
    (remove_from_free_list s y).free_list_head
      = (if blk_prev_free s.mem y ≠ 0 then s.free_list_head else blk_next_free s.mem y) ∧
    (remove_from_free_list s y).heap_start = s.heap_start ∧
    (remove_from_free_list s y).heap_end = s.heap_end ∧
    (remove_from_free_list s y).frame_bitmap = s.frame_bitmap ∧
    (remove_from_free_list s y).free_memory = s.free_memory ∧
    (remove_from_free_list s y).total_memory = s.total_memory ∧
    (remove_from_free_list s y).highest_usable_address = s.highest_usable_address := by
  unfold remove_from_free_list
  by_cases h : blk_prev_free s.mem y ≠ 0
  · simp only [h, if_true, ne_eq, not_false_eq_true, and_self]
  · simp only [h, if_false, ne_eq, not_false_eq_true, and_self]

theorem remove_from_free_list_fields (s : KState) (y b : Nat)
    (hyb : SepH y b)
    (hP : blk_prev_free s.mem y ≠ 0 →
      SepH (blk_prev_free s.mem y) b ∧ SepH (blk_prev_free s.mem y) y)
    (hQ : blk_next_free s.mem y ≠ 0 →
      SepH (blk_next_free s.mem y) b ∧ SepH (blk_next_free s.mem y) y) :
    blk_size (remove_from_free_list s y).mem b = blk_size s.mem b ∧
    blk_next (remove_from_free_list s y).mem b = blk_next s.mem b ∧
    blk_prev (remove_from_free_list s y).mem b = blk_prev s.mem b ∧
    blk_next_free (remove_from_free_list s y).mem b
      = (if b = y then 0
         else if blk_prev_free s.mem y ≠ 0 ∧ b = blk_prev_free s.mem y then blk_next_free s.mem y
         else blk_next_free s.mem b) ∧
    blk_prev_free (remove_from_free_list s y).mem b
      = (if b = y then 0
         else if blk_next_free s.mem y ≠ 0 ∧ b = blk_next_free s.mem y then blk_prev_free s.mem y
         else blk_prev_free s.mem b) ∧
    blk_is_free (remove_from_free_list s y).mem b
      = (if b = y then false else blk_is_free s.mem b) := by
  unfold remove_from_free_list
  by_cases hP0 : blk_prev_free s.mem y = 0 <;> by_cases hQ0 : blk_next_free s.mem y = 0
  · simp (disch := first | assumption | exact SepH_refl _) only [hP0, hQ0, ne_eq, not_true,
      not_false_eq_true, if_false, if_true, false_and, true_and, Nat.zero_mod, ite_self,
      blk_size_set_size, blk_size_set_next, blk_size_set_prev, blk_size_set_next_free,
          blk_size_set_prev_free, blk_size_set_is_free, blk_next_set_size, blk_next_set_next,
          blk_next_set_prev, blk_next_set_next_free, blk_next_set_prev_free,
          blk_next_set_is_free, blk_prev_set_size, blk_prev_set_next, blk_prev_set_prev,
          blk_prev_set_next_free, blk_prev_set_prev_free, blk_prev_set_is_free,
          blk_next_free_set_size, blk_next_free_set_next, blk_next_free_set_prev,
          blk_next_free_set_next_free, blk_next_free_set_prev_free, blk_next_free_set_is_free,
          blk_prev_free_set_size, blk_prev_free_set_next, blk_prev_free_set_prev,
          blk_prev_free_set_next_free, blk_prev_free_set_prev_free, blk_prev_free_set_is_free,
          blk_is_free_set_size, blk_is_free_set_next, blk_is_free_set_prev,
          blk_is_free_set_next_free, blk_is_free_set_prev_free, blk_is_free_set_is_free,
          blk_size_mod, blk_next_mod, blk_prev_mod, blk_next_free_mod, blk_prev_free_mod]
  · obtain ⟨hQb, hQy⟩ := hQ hQ0
    simp (disch := first | assumption | exact SepH_refl _) only [hP0, hQ0, ne_eq, not_true,
      not_false_eq_true, if_false, if_true, false_and, true_and, Nat.zero_mod, ite_self,
      blk_size_set_size, blk_size_set_next, blk_size_set_prev, blk_size_set_next_free,
          blk_size_set_prev_free, blk_size_set_is_free, blk_next_set_size, blk_next_set_next,
          blk_next_set_prev, blk_next_set_next_free, blk_next_set_prev_free,
          blk_next_set_is_free, blk_prev_set_size, blk_prev_set_next, blk_prev_set_prev,
          blk_prev_set_next_free, blk_prev_set_prev_free, blk_prev_set_is_free,
          blk_next_free_set_size, blk_next_free_set_next, blk_next_free_set_prev,
          blk_next_free_set_next_free, blk_next_free_set_prev_free, blk_next_free_set_is_free,
          blk_prev_free_set_size, blk_prev_free_set_next, blk_prev_free_set_prev,
          blk_prev_free_set_next_free, blk_prev_free_set_prev_free, blk_prev_free_set_is_free,
          blk_is_free_set_size, blk_is_free_set_next, blk_is_free_set_prev,
          blk_is_free_set_next_free, blk_is_free_set_prev_free, blk_is_free_set_is_free,
          blk_size_mod, blk_next_mod, blk_prev_mod, blk_next_free_mod, blk_prev_free_mod]
  · obtain ⟨hPb, hPy⟩ := hP hP0
    simp (disch := first | assumption | exact SepH_refl _) only [hP0, hQ0, ne_eq, not_true,
      not_false_eq_true, if_false, if_true, false_and, true_and, Nat.zero_mod, ite_self,
      blk_size_set_size, blk_size_set_next, blk_size_set_prev, blk_size_set_next_free,
          blk_size_set_prev_free, blk_size_set_is_free, blk_next_set_size, blk_next_set_next,
          blk_next_set_prev, blk_next_set_next_free, blk_next_set_prev_free,
          blk_next_set_is_free, blk_prev_set_size, blk_prev_set_next, blk_prev_set_prev,
          blk_prev_set_next_free, blk_prev_set_prev_free, blk_prev_set_is_free,
          blk_next_free_set_size, blk_next_free_set_next, blk_next_free_set_prev,
          blk_next_free_set_next_free, blk_next_free_set_prev_free, blk_next_free_set_is_free,
          blk_prev_free_set_size, blk_prev_free_set_next, blk_prev_free_set_prev,
          blk_prev_free_set_next_free, blk_prev_free_set_prev_free, blk_prev_free_set_is_free,
          blk_is_free_set_size, blk_is_free_set_next, blk_is_free_set_prev,
          blk_is_free_set_next_free, blk_is_free_set_prev_free, blk_is_free_set_is_free,
          blk_size_mod, blk_next_mod, blk_prev_mod, blk_next_free_mod, blk_prev_free_mod]
  · obtain ⟨hPb, hPy⟩ := hP hP0
    obtain ⟨hQb, hQy⟩ := hQ hQ0
    simp (disch := first | assumption | exact SepH_refl _) only [hP0, hQ0, ne_eq, not_true,
      not_false_eq_true, if_false, if_true, false_and, true_and, Nat.zero_mod, ite_self,
      blk_size_set_size, blk_size_set_next, blk_size_set_prev, blk_size_set_next_free,
          blk_size_set_prev_free, blk_size_set_is_free, blk_next_set_size, blk_next_set_next,
          blk_next_set_prev, blk_next_set_next_free, blk_next_set_prev_free,
          blk_next_set_is_free, blk_prev_set_size, blk_prev_set_next, blk_prev_set_prev,
          blk_prev_set_next_free, blk_prev_set_prev_free, blk_prev_set_is_free,
          blk_next_free_set_size, blk_next_free_set_next, blk_next_free_set_prev,
          blk_next_free_set_next_free, blk_next_free_set_prev_free, blk_next_free_set_is_free,
          blk_prev_free_set_size, blk_prev_free_set_next, blk_prev_free_set_prev,
          blk_prev_free_set_next_free, blk_prev_free_set_prev_free, blk_prev_free_set_is_free,
          blk_is_free_set_size, blk_is_free_set_next, blk_is_free_set_prev,
          blk_is_free_set_next_free, blk_is_free_set_prev_free, blk_is_free_set_is_free,
          blk_size_mod, blk_next_mod, blk_prev_mod, blk_next_free_mod, blk_prev_free_mod]

/-! ## Segments of the physical chain -/

theorem Seg_congr (m m2 : Nat → Nat) (l : List Nat) (p nx e : Nat)
    (h : ∀ b, b ∈ l → blk_size m2 b = blk_size m b ∧ blk_next m2 b = blk_next m b ∧
      blk_prev m2 b = blk_prev m b)
    (hs : Seg m p l nx e) : Seg m2 p l nx e := by
  induction l generalizing p with
  | nil => trivial
  | cons b rest ih =>
    obtain ⟨h1, h2, h3, h4, h5, h6, h7⟩ := hs
    obtain ⟨e1, e2, e3⟩ := h b (List.mem_cons_self _ _)
    refine ⟨by rw [e3]; exact h1, by rw [e2]; exact h2, by rw [e1]; exact h3, h4, h5,
      by rw [e1]; exact h6, ?_⟩
    exact ih b (fun c hc => h c (List.mem_cons_of_mem _ hc)) h7

theorem headD_append (l1 l2 : List Nat) (d : Nat) :
    (l1 ++ l2).headD d = l1.headD (l2.headD d) := by
  cases l1 <;> rfl

theorem lastD_append (l1 l2 : List Nat) (d : Nat) :
    lastD (l1 ++ l2) d = lastD l2 (lastD l1 d) := by
  induction l1 generalizing d with
  | nil => rfl
  | cons b rest ih => exact ih b

theorem Seg_append (m : Nat → Nat) (l1 l2 : List Nat) (p nx e : Nat) :
    Seg m p (l1 ++ l2) nx e ↔
      Seg m p l1 (l2.headD nx) (l2.headD e) ∧ Seg m (lastD l1 p) l2 nx e := by
  induction l1 generalizing p with
  | nil =>
    show Seg m p l2 nx e ↔ True ∧ Seg m p l2 nx e
    simp
  | cons b rest ih =>
    show (blk_prev m b = p ∧ blk_next m b = (rest ++ l2).headD nx ∧
        b + 48 + blk_size m b ≤ (rest ++ l2).headD e ∧
        PMM_RAM_BASE ≤ b ∧ b % 8 = 0 ∧ blk_size m b % 8 = 0 ∧ Seg m b (rest ++ l2) nx e) ↔
      (blk_prev m b = p ∧ blk_next m b = rest.headD (l2.headD nx) ∧
        b + 48 + blk_size m b ≤ rest.headD (l2.headD e) ∧
        PMM_RAM_BASE ≤ b ∧ b % 8 = 0 ∧ blk_size m b % 8 = 0 ∧
        Seg m b rest (l2.headD nx) (l2.headD e)) ∧ Seg m (lastD rest b) l2 nx e
    rw [headD_append, headD_append, ih b]
    tauto

theorem Seg_bounds (m : Nat → Nat) (l : List Nat) (p nx e : Nat) (hs : Seg m p l nx e) :
    ∀ b, b ∈ l → PMM_RAM_BASE ≤ b ∧ b % 8 = 0 ∧ blk_size m b % 8 = 0 ∧
      b + 48 + blk_size m b ≤ e ∧ l.headD e ≤ b := by
  induction l generalizing p with
  | nil => intro b hb; simp at hb
  | cons c rest ih =>
    obtain ⟨h1, h2, h3, h4, h5, h6, h7⟩ := hs
    have hrest := ih c h7
    have hce : c + 48 + blk_size m c ≤ e := by
      cases rest with
      | nil => simpa using h3
      | cons d r =>
        have := (hrest d (List.mem_cons_self _ _)).2.2.2.1
        simp only [List.headD_cons] at h3
        omega
    intro b hb
    rcases List.mem_cons.1 hb with hb | hb
    · subst hb
      exact ⟨h4, h5, h6, hce, by simp⟩
    · obtain ⟨g1, g2, g3, g4, g5⟩ := hrest b hb
      refine ⟨g1, g2, g3, g4, ?_⟩
      simp only [List.headD_cons]
      cases rest with
      | nil => simp at hb
      | cons d r =>
        simp only [List.headD_cons] at h3 g5
        omega

/-- Blocks of a segment are pairwise apart: an earlier block ends before a
later one starts. -/
theorem Seg_pairwise (m : Nat → Nat) (l : List Nat) (p nx e : Nat) (hs : Seg m p l nx e) :
    l.Pairwise (fun a b => a + 48 + blk_size m a ≤ b) := by
  induction l generalizing p with
  | nil => exact List.Pairwise.nil
  | cons c rest ih =>
    obtain ⟨h1, h2, h3, h4, h5, h6, h7⟩ := hs
    refine List.Pairwise.cons ?_ (ih c h7)
    intro b hb
    have := (Seg_bounds m rest c nx e h7 b hb).2.2.2.2
    cases rest with
    | nil => simp at hb
    | cons d r =>
      simp only [List.headD_cons] at h3 this
      omega

theorem pairwise_trichotomy (R : Nat → Nat → Prop) (l : List Nat) (h : l.Pairwise R) :
    ∀ a b, a ∈ l → b ∈ l → a = b ∨ R a b ∨ R b a := by
  induction l with
  | nil => intro a b ha; simp at ha
  | cons c rest ih =>
    obtain ⟨h1, h2⟩ := List.pairwise_cons.1 h
    intro a b ha hb
    rcases List.mem_cons.1 ha with ha1 | ha1 <;> rcases List.mem_cons.1 hb with hb1 | hb1
    · exact Or.inl (ha1.trans hb1.symm)
    · rw [ha1]; exact Or.inr (Or.inl (h1 b hb1))
    · rw [hb1]; exact Or.inr (Or.inr (h1 a ha1))
    · exact ih h2 a b ha1 hb1

theorem Seg_sep (m : Nat → Nat) (l : List Nat) (p nx e : Nat) (hs : Seg m p l nx e) :
    ∀ a b, a ∈ l → b ∈ l → SepH a b := by
  have hp := Seg_pairwise m l p nx e hs
  have hp2 : l.Pairwise (fun a b => a + 48 ≤ b) := hp.imp (fun h => by omega)
  intro a b ha hb
  exact pairwise_trichotomy _ l hp2 a b ha hb

theorem Seg_nodup (m : Nat → Nat) (l : List Nat) (p nx e : Nat) (hs : Seg m p l nx e) :
    l.Nodup := by
  have hp := Seg_pairwise m l p nx e hs
  exact hp.imp (fun h => by omega)

/-! ## Invariant steps: free-list routines -/

theorem PhysInv.hdrs {s : KState} {chain : List Nat} {lim : Nat} (h : PhysInv s chain lim) :
    Hdrs (fun b => b ∈ chain) := by
  refine ⟨?_, ?_⟩
  · intro b hb
    obtain ⟨h1, _, _, h4, _⟩ := Seg_bounds _ _ _ _ _ h.seg b hb
    have := h.lim_le
    simp only [PMM_RAM_BASE, PMM_MAX_ADDRESS, PMM_MANAGEABLE_SIZE] at *
    omega
  · exact Seg_sep _ _ _ _ _ h.seg

theorem PhysInv.bound {s : KState} {chain : List Nat} {lim : Nat} (h : PhysInv s chain lim)
    (b : Nat) (hb : b ∈ chain) :
    1073741824 ≤ b ∧ b % 8 = 0 ∧ blk_size s.mem b % 8 = 0 ∧
      b + 48 + blk_size s.mem b ≤ lim ∧ lim ≤ 2147483648 := by
  obtain ⟨h1, h2, h3, h4, _⟩ := Seg_bounds _ _ _ _ _ h.seg b hb
  have := h.lim_le
  simp only [PMM_RAM_BASE, PMM_MAX_ADDRESS, PMM_MANAGEABLE_SIZE] at *
  omega

theorem PhysInv_congr {s s2 : KState} {chain : List Nat} {lim : Nat} (h : PhysInv s chain lim)
    (hf : ∀ b, b ∈ chain → blk_size s2.mem b = blk_size s.mem b ∧
      blk_next s2.mem b = blk_next s.mem b ∧ blk_prev s2.mem b = blk_prev s.mem b)
    (h1 : s2.heap_start = s.heap_start) (h2 : s2.heap_end = s.heap_end)
    (h3 : s2.frame_bitmap = s.frame_bitmap) : PhysInv s2 chain lim :=
  ⟨Seg_congr _ _ _ _ _ _ hf h.seg, by rw [h1]; exact h.hstart, by rw [h2]; exact h.hend,
    h.lim_le, by rw [h3]; exact h.bits⟩

theorem not_mem_zero {s : KState} {chain : List Nat} {lim : Nat} (h : PhysInv s chain lim) :
    ¬ (0 ∈ chain) := fun h0 => by
  have := (h.bound 0 h0).1
  omega

theorem remove_from_free_list_inv {s : KState} {chain : List Nat} {lim : Nat}
    (h : HeapInv s chain lim) (y : Nat) (hy : y ∈ chain) :
    HeapInv (remove_from_free_list s y) chain lim ∧
    Detached (remove_from_free_list s y) y ∧
    (∀ z, z ∈ chain → z ≠ y → Detached s z → Detached (remove_from_free_list s y) z) ∧
    (∀ b, b ∈ chain →
      blk_size (remove_from_free_list s y).mem b = blk_size s.mem b ∧
      blk_next (remove_from_free_list s y).mem b = blk_next s.mem b ∧
      blk_prev (remove_from_free_list s y).mem b = blk_prev s.mem b ∧
      blk_is_free (remove_from_free_list s y).mem b
        = (if b = y then false else blk_is_free s.mem b)) := by
  have hH := h.phys.hdrs
  have hfl : FLf _ _ _ _ _ := h.fl
  have hst := remove_from_free_list_state s y
  have hfields : ∀ b, b ∈ chain → _ := fun b hb =>
    remove_from_free_list_fields s y b (hH.sep y b hy hb)
      (fun hp => ⟨hH.sep _ _ (hfl.pf_ok y hy hp).1 hb, hH.sep _ _ (hfl.pf_ok y hy hp).1 hy⟩)
      (fun hq => ⟨hH.sep _ _ (hfl.nf_ok y hy hq).1 hb, hH.sep _ _ (hfl.nf_ok y hy hq).1 hy⟩)
  obtain ⟨r1, r2, r3⟩ := @FLf_remove _ _ (blk_next_free (remove_from_free_list s y).mem)
    (blk_prev_free (remove_from_free_list s y).mem) _
    (blk_is_free (remove_from_free_list s y).mem) _
    (remove_from_free_list s y).free_list_head _
    hfl (not_mem_zero h.phys) y hy
    (fun b hb => (hfields b hb).2.2.2.1) (fun b hb => (hfields b hb).2.2.2.2.1)
    (fun b hb => (hfields b hb).2.2.2.2.2) hst.1
  refine ⟨⟨?_, r1⟩, ?_, ?_, ?_⟩
  · exact PhysInv_congr h.phys
      (fun b hb => ⟨(hfields b hb).1, (hfields b hb).2.1, (hfields b hb).2.2.1⟩)
      hst.2.1 hst.2.2.1 hst.2.2.2.1
  · refine ⟨fun e => r2 e.symm, ?_, ?_⟩
    · rw [(hfields y hy).2.2.2.1, if_pos rfl]
    · rw [(hfields y hy).2.2.2.2.1, if_pos rfl]
  · intro z hz hzy hd
    obtain ⟨d1, d2, d3⟩ := r3 z hz hzy hd.1 hd.2.1 hd.2.2
    exact ⟨d1, d2, d3⟩
  · intro b hb
    exact ⟨(hfields b hb).1, (hfields b hb).2.1, (hfields b hb).2.2.1, (hfields b hb).2.2.2.2.2⟩

theorem add_to_free_list_inv {s : KState} {chain : List Nat} {lim : Nat}
    (hp : PhysInv s chain lim) (z : Nat) (hz : z ∈ chain)
    (hfl : FL s (fun b => b ∈ chain ∧ b ≠ z)) :
    HeapInv (add_to_free_list s z) chain lim ∧
    (add_to_free_list s z).free_list_head = z ∧
    (∀ b, b ∈ chain →
      blk_size (add_to_free_list s z).mem b = blk_size s.mem b ∧
      blk_next (add_to_free_list s z).mem b = blk_next s.mem b ∧
      blk_prev (add_to_free_list s z).mem b = blk_prev s.mem b ∧
      blk_is_free (add_to_free_list s z).mem b
        = (if b = z then true else blk_is_free s.mem b)) := by
  have hH := hp.hdrs
  have hfl2 : FLf _ _ _ _ _ := hfl
  have hst := add_to_free_list_state s z
  have hhead : s.free_list_head ≠ 0 → s.free_list_head ∈ chain ∧ s.free_list_head ≠ z :=
    fun h0 => (hfl2.head_ok h0).1
  have hzh : z ≠ s.free_list_head := by
    intro e
    by_cases h0 : s.free_list_head = 0
    · rw [h0] at e; rw [e] at hz; exact not_mem_zero hp hz
    · exact (hhead h0).2 e.symm
  have hh64 : s.free_list_head < 2 ^ 64 := by
    by_cases h0 : s.free_list_head = 0
    · rw [h0]; norm_num
    · have := (hH.pos _ (hhead h0).1).2
      omega
  have hfields : ∀ b, b ∈ chain → _ := fun b hb =>
    add_to_free_list_fields s z b (hH.sep z b hz hb)
      (fun h0 => hH.sep _ _ (hhead h0).1 hb) hzh (by have := (hH.pos z hz).2; omega) hh64
  have r1 := @FLf_add _ _ (blk_next_free (add_to_free_list s z).mem)
    (blk_prev_free (add_to_free_list s z).mem) _
    (blk_is_free (add_to_free_list s z).mem) _ (fun b => b ∈ chain) _
    hfl2 (not_mem_zero hp) z (fun hh => hh.2 rfl)
    (fun b => ⟨fun hb => by
        by_cases e : b = z
        · exact Or.inr e
        · exact Or.inl ⟨hb, e⟩, fun hb => by
        rcases hb with hb | hb
        · exact hb.1
        · rw [hb]; exact hz⟩)
    (fun b hb => (hfields b hb).2.2.2.1) (fun b hb => (hfields b hb).2.2.2.2.1)
    (fun b hb => (hfields b hb).2.2.2.2.2)
  refine ⟨⟨?_, ?_⟩, hst.1, ?_⟩
  · exact PhysInv_congr hp
      (fun b hb => ⟨(hfields b hb).1, (hfields b hb).2.1, (hfields b hb).2.2.1⟩)
      hst.2.1 hst.2.2.1 hst.2.2.2.1
  · show FLf _ _ _ _ _
    rw [hst.1]; exact r1
  · intro b hb
    exact ⟨(hfields b hb).1, (hfields b hb).2.1, (hfields b hb).2.2.1, (hfields b hb).2.2.2.2.2⟩

/-- A block of the chain that is on no list can be left out of the block set. -/
theorem FL_erase {s : KState} {chain : List Nat} {lim : Nat}
    (h : HeapInv s chain lim) (z : Nat) (hd : Detached s z) :
    FL s (fun b => b ∈ chain ∧ b ≠ z) :=
  FLf_erase h.fl (not_mem_zero h.phys) z hd.1 hd.2.1 hd.2.2

/-! ## Invariant steps: merging a block into its predecessor -/

theorem Seg_head_prev (m : Nat → Nat) (l : List Nat) (p nx e : Nat) (c : Nat) (r : List Nat)
    (hl : l = c :: r) (hs : Seg m p l nx e) : blk_prev m c = p := by
  subst hl; exact hs.1

/-- A segment whose first block has its `prev` field rewritten. -/
theorem Seg_set_first_prev (m m2 : Nat → Nat) (l : List Nat) (p p2 nx e : Nat)
    (hs : Seg m p l nx e)
    (hf : ∀ b, b ∈ l → blk_size m2 b = blk_size m b ∧ blk_next m2 b = blk_next m b ∧
      blk_prev m2 b = (if b = l.headD 0 then p2 else blk_prev m b))
    (hnd : l.Nodup) : Seg m2 p2 l nx e := by
  cases l with
  | nil => trivial
  | cons c r =>
    obtain ⟨h1, h2, h3, h4, h5, h6, h7⟩ := hs
    obtain ⟨e1, e2, e3⟩ := hf c (List.mem_cons_self _ _)
    simp only [List.headD_cons, if_true] at e3
    refine ⟨e3, by rw [e2]; exact h2, by rw [e1]; exact h3, h4, h5, by rw [e1]; exact h6, ?_⟩
    apply Seg_congr m m2 r c nx e _ h7
    intro b hb
    obtain ⟨g1, g2, g3⟩ := hf b (List.mem_cons_of_mem _ hb)
    have hbc : b ≠ c := fun e => (List.nodup_cons.1 hnd).1 (e ▸ hb)
    simp only [List.headD_cons, if_neg hbc] at g3
    exact ⟨g1, g2, g3⟩

theorem lastD_mem (l : List Nat) (d : Nat) (hl : l ≠ []) : lastD l d ∈ l := by
  induction l generalizing d with
  | nil => exact absurd rfl hl
  | cons b rest ih =>
    show lastD rest b ∈ b :: rest
    cases rest with
    | nil => exact List.mem_cons_self _ _
    | cons c r => exact List.mem_cons_of_mem _ (ih b (by simp))

/-- The merge of block `y` into its predecessor `x` (`x.size += y.size + H`,
`x.next = y.next`, `y.next->prev = x`, `heap_end` moved off `y`), described by
its effect on the header fields, keeps the invariant on the chain without `y`. -/
theorem absorb_inv {s s2 : KState} {lim : Nat} (pre post : List Nat) (x y : Nat)
    (h : HeapInv s (pre ++ x :: y :: post) lim) (hd : Detached s y)
    (hsize : ∀ b, b ∈ pre ++ x :: post → blk_size s2.mem b
      = (if b = x then blk_size s.mem x + blk_size s.mem y + 48 else blk_size s.mem b))
    (hnext : ∀ b, b ∈ pre ++ x :: post → blk_next s2.mem b
      = (if b = x then blk_next s.mem y else blk_next s.mem b))
    (hprev : ∀ b, b ∈ pre ++ x :: post → blk_prev s2.mem b
      = (if blk_next s.mem y ≠ 0 ∧ b = blk_next s.mem y then x else blk_prev s.mem b))
    (hnf : ∀ b, b ∈ pre ++ x :: post → blk_next_free s2.mem b = blk_next_free s.mem b)
    (hpf : ∀ b, b ∈ pre ++ x :: post → blk_prev_free s2.mem b = blk_prev_free s.mem b)
    (hisf : ∀ b, b ∈ pre ++ x :: post → blk_is_free s2.mem b = blk_is_free s.mem b)
    (hhead : s2.free_list_head = s.free_list_head)
    (hstart : s2.heap_start = s.heap_start)
    (hend : s2.heap_end = if s.heap_end = y then x else s.heap_end)
    (hbm : s2.frame_bitmap = s.frame_bitmap) :
    HeapInv s2 (pre ++ x :: post) lim := by
  have hnd := Seg_nodup _ _ _ _ _ h.phys.seg
  have hseg := h.phys.seg
  rw [Seg_append] at hseg
  obtain ⟨hs1, hs2⟩ := hseg
  obtain ⟨x1, x2, x3, x4, x5, x6, hs3⟩ := hs2
  obtain ⟨y1, y2, y3, y4, y5, y6, hs4⟩ := hs3
  simp only [List.headD_cons] at hs1 x2 x3
  have hnd1 : (pre ++ x :: y :: post).Nodup := hnd
  rw [List.nodup_append] at hnd1
  obtain ⟨n1, n2, n3⟩ := hnd1
  obtain ⟨n4, n5⟩ := List.nodup_cons.1 n2
  obtain ⟨n6, n7⟩ := List.nodup_cons.1 n5
  have hxy : x ≠ y := fun e => n4 (e ▸ List.mem_cons_self _ _)
  have hpre_ne : ∀ b, b ∈ pre → b ≠ x ∧ b ≠ y ∧ b ∉ post := fun b hb =>
    ⟨fun e => n3 hb (e ▸ List.mem_cons_self _ _),
     fun e => n3 hb (e ▸ List.mem_cons_of_mem _ (List.mem_cons_self _ _)),
     fun hp => n3 hb (List.mem_cons_of_mem _ (List.mem_cons_of_mem _ hp))⟩
  have hpost_ne : ∀ b, b ∈ post → b ≠ x ∧ b ≠ y := fun b hb =>
    ⟨fun e => n4 (e ▸ List.mem_cons_of_mem _ hb), fun e => n6 (e ▸ hb)⟩
  have hynext : blk_next s.mem y = post.headD 0 := y2
  have hpost0 : ∀ b, b ∈ post → b ≠ 0 := fun b hb e => by
    have := (Seg_bounds _ _ _ _ _ hs4 b hb).1
    rw [e] at this; simp [PMM_RAM_BASE] at this
  refine ⟨⟨?_, ?_, ?_, h.phys.lim_le, by rw [hbm]; exact h.phys.bits⟩, ?_⟩
  · rw [Seg_append]
    constructor
    · apply Seg_congr s.mem s2.mem pre 0 _ _ _ hs1
      intro b hb
      have hbm := List.mem_append_left (x :: post) hb
      obtain ⟨bx, bY, bp⟩ := hpre_ne b hb
      rw [hsize b hbm, hnext b hbm, hprev b hbm, if_neg bx, if_neg bx]
      refine ⟨rfl, rfl, ?_⟩
      rw [if_neg]
      rintro ⟨g1, g2⟩
      rw [hynext] at g1 g2
      cases post with
      | nil => exact g1 rfl
      | cons c r => exact bp (g2 ▸ List.mem_cons_self _ _)
    · have hxm : x ∈ pre ++ x :: post := List.mem_append_right _ (List.mem_cons_self _ _)
      refine ⟨?_, ?_, ?_, x4, x5, ?_, ?_⟩
      · rw [hprev x hxm, if_neg]
        · exact x1
        · rintro ⟨g1, g2⟩
          rw [hynext] at g1 g2
          cases post with
          | nil => exact g1 rfl
          | cons c r => exact n4 (g2 ▸ List.mem_cons_of_mem _ (List.mem_cons_self _ _))
      · rw [hnext x hxm, if_pos rfl]; exact hynext
      · rw [hsize x hxm, if_pos rfl]; omega
      · rw [hsize x hxm, if_pos rfl]; omega
      · apply Seg_set_first_prev s.mem s2.mem post y x 0 lim hs4 _ n7
        intro b hb
        have hbm := List.mem_append_right pre (List.mem_cons_of_mem x hb)
        obtain ⟨bx, bY⟩ := hpost_ne b hb
        rw [hsize b hbm, hnext b hbm, hprev b hbm, if_neg bx, if_neg bx, hynext]
        refine ⟨rfl, rfl, ?_⟩
        by_cases e : b = post.headD 0
        · rw [if_pos ⟨by rw [← e]; exact hpost0 b hb, e⟩, if_pos e]
        · rw [if_neg (fun g => e g.2), if_neg e]
  · rw [hstart, h.phys.hstart, headD_append, headD_append]
    rfl
  · rw [hend, h.phys.hend, lastD_append, lastD_append]
    show (if lastD post y = y then x else lastD post y) = lastD post x
    cases post with
    | nil => simp [lastD]
    | cons c r =>
      show (if lastD r c = y then x else lastD r c) = lastD r c
      rw [if_neg]
      intro e
      have : lastD (c :: r) 0 ∈ c :: r := lastD_mem _ _ (by simp)
      exact n6 (e ▸ this)
  · have hB : ∀ b, (b ∈ pre ++ x :: y :: post ∧ b ≠ y) ↔ b ∈ pre ++ x :: post := by
      intro b
      simp only [List.mem_append, List.mem_cons]
      constructor
      · rintro ⟨h1 | h1 | h1 | h1, h2⟩
        · exact Or.inl h1
        · exact Or.inr (Or.inl h1)
        · exact absurd h1 h2
        · exact Or.inr (Or.inr h1)
      · rintro (h1 | h1 | h1)
        · exact ⟨Or.inl h1, (hpre_ne b h1).2.1⟩
        · exact ⟨Or.inr (Or.inl h1), h1 ▸ hxy⟩
        · exact ⟨Or.inr (Or.inr (Or.inr h1)), (hpost_ne b h1).2⟩
    have hfl1 : FLf _ _ _ _ _ := FL_erase h y hd
    have hfl2 := FLf_set hfl1 hB
    show FLf _ _ _ _ _
    rw [hhead]
    exact FLf_congr hfl2 hnf hpf hisf

theorem absorb_state (s : KState) (x y : Nat) (clear : Bool) :
    (absorb s x y clear).free_list_head = s.free_list_head ∧
    (absorb s x y clear).heap_start = s.heap_start ∧
    (absorb s x y clear).heap_end = (if s.heap_end = y then x else s.heap_end) ∧
    (absorb s x y clear).frame_bitmap = s.frame_bitmap ∧
    (absorb s x y clear).free_memory = s.free_memory ∧
    (absorb s x y clear).total_memory = s.total_memory ∧
    (absorb s x y clear).highest_usable_address = s.highest_usable_address :=
  ⟨rfl, rfl, rfl, rfl, rfl, rfl, rfl⟩

theorem absorb_fields (s : KState) (x y : Nat) (clear : Bool) (b : Nat)
    (hxy : SepH x y) (hne : x ≠ y) (hxb : SepH x b) (hyb : SepH y b) (hby : b ≠ y)
    (hN : blk_next s.mem y ≠ 0 → SepH (blk_next s.mem y) b)
    (hbound : blk_size s.mem x + blk_size s.mem y + 48 < 2 ^ 64) (hx64 : x < 2 ^ 64) :
    blk_size (absorb s x y clear).mem b
      = (if b = x then blk_size s.mem x + blk_size s.mem y + 48 else blk_size s.mem b) ∧
    blk_next (absorb s x y clear).mem b
      = (if b = x then blk_next s.mem y else blk_next s.mem b) ∧
    blk_prev (absorb s x y clear).mem b
      = (if blk_next s.mem y ≠ 0 ∧ b = blk_next s.mem y then x else blk_prev s.mem b) ∧
    blk_next_free (absorb s x y clear).mem b = blk_next_free s.mem b ∧
    blk_prev_free (absorb s x y clear).mem b = blk_prev_free s.mem b ∧
    blk_is_free (absorb s x y clear).mem b = blk_is_free s.mem b := by
  have hm : y + HEAP_HEADER_SIZE ≤ b ∨ b + 48 ≤ y := by
    unfold SepH at hyb; unfold HEAP_HEADER_SIZE; omega
  have hu : u64 (blk_size s.mem x + u64 (blk_size s.mem y + HEAP_HEADER_SIZE))
      = blk_size s.mem x + blk_size s.mem y + 48 := by
    unfold u64 HEAP_HEADER_SIZE; omega
  have hyx : ¬ y = x := fun e => hne e.symm
  unfold absorb
  by_cases hN0 : blk_next s.mem y = 0 <;> cases clear
  all_goals
    first
    | have hNb := hN hN0
    | skip
  all_goals
    simp (disch := first | assumption | exact SepH_refl _) only [hu, hN0, hyx, ne_eq, not_true,
      not_false_eq_true, if_false, if_true, false_and, true_and, mod64_of_lt, Bool.false_eq_true,
      blk_size_memset, blk_next_memset, blk_prev_memset, blk_next_free_memset,
        blk_prev_free_memset, blk_is_free_memset,
      blk_size_set_size, blk_size_set_next, blk_size_set_prev, blk_size_set_next_free,
        blk_size_set_prev_free, blk_size_set_is_free, blk_next_set_size, blk_next_set_next,
        blk_next_set_prev, blk_next_set_next_free, blk_next_set_prev_free, blk_next_set_is_free,
        blk_prev_set_size, blk_prev_set_next, blk_prev_set_prev, blk_prev_set_next_free,
        blk_prev_set_prev_free, blk_prev_set_is_free, blk_next_free_set_size,
        blk_next_free_set_next, blk_next_free_set_prev, blk_next_free_set_next_free,
        blk_next_free_set_prev_free, blk_next_free_set_is_free, blk_prev_free_set_size,
        blk_prev_free_set_next, blk_prev_free_set_prev, blk_prev_free_set_next_free,
        blk_prev_free_set_prev_free, blk_prev_free_set_is_free, blk_is_free_set_size,
        blk_is_free_set_next, blk_is_free_set_prev, blk_is_free_set_next_free,
        blk_is_free_set_prev_free, blk_is_free_set_is_free, blk_size_mod, blk_next_mod,
        blk_prev_mod, blk_next_free_mod, blk_prev_free_mod]
  all_goals
    by_cases e1 : b = x
    · simp [e1, mod64_of_lt _ hbound]
    · simp [e1]

theorem Seg_split_next (m : Nat → Nat) (l : List Nat) (p nx e b : Nat)
    (hs : Seg m p l nx e) (hb : b ∈ l) (hn : blk_next m b ≠ nx) :
    ∃ pre post, l = pre ++ b :: blk_next m b :: post := by
  induction l generalizing p with
  | nil => simp at hb
  | cons c r ih =>
    obtain ⟨h1, h2, h3, h4, h5, h6, h7⟩ := hs
    rcases List.mem_cons.1 hb with hb1 | hb1
    · subst hb1
      cases r with
      | nil => exact absurd h2 hn
      | cons d r2 =>
        simp only [List.headD_cons] at h2
        exact ⟨[], r2, by rw [h2]; rfl⟩
    · obtain ⟨pre, post, hl⟩ := ih c h7 hb1
      exact ⟨c :: pre, post, by rw [hl]; rfl⟩

theorem Seg_split_prev (m : Nat → Nat) (l : List Nat) (p nx e b : Nat)
    (hs : Seg m p l nx e) (hb : b ∈ l) :
    b = l.headD 0 ∨ ∃ pre post, l = pre ++ blk_prev m b :: b :: post := by
  induction l generalizing p with
  | nil => simp at hb
  | cons c r ih =>
    obtain ⟨h1, h2, h3, h4, h5, h6, h7⟩ := hs
    rcases List.mem_cons.1 hb with hb1 | hb1
    · exact Or.inl hb1
    · right
      rcases ih c h7 hb1 with h8 | ⟨pre, post, hl⟩
      · cases r with
        | nil => simp at hb1
        | cons d r2 =>
          simp only [List.headD_cons] at h8
          subst h8
          exact ⟨[], r2, by rw [h7.1]; rfl⟩
      · exact ⟨c :: pre, post, by rw [hl]; rfl⟩

theorem chain_split_next {s : KState} {chain : List Nat} {lim : Nat} (h : PhysInv s chain lim)
    (b : Nat) (hb : b ∈ chain) (hn : blk_next s.mem b ≠ 0) :
    ∃ pre post, chain = pre ++ b :: blk_next s.mem b :: post :=
  Seg_split_next _ _ _ _ _ _ h.seg hb hn

theorem chain_split_prev {s : KState} {chain : List Nat} {lim : Nat} (h : PhysInv s chain lim)
    (b : Nat) (hb : b ∈ chain) (hn : blk_prev s.mem b ≠ 0) :
    ∃ pre post, chain = pre ++ blk_prev s.mem b :: b :: post := by
  rcases Seg_split_prev _ _ _ _ _ _ h.seg hb with h1 | h1
  · exfalso
    cases chain with
    | nil => simp at hb
    | cons c r =>
      simp only [List.headD_cons] at h1
      subst h1
      exact hn h.seg.1
  · exact h1

/-- The merge of `y` into its predecessor `x` keeps the invariant, on the chain
without `y`; the blocks that stay keep their links and flags. -/
theorem absorb_step {s : KState} {lim : Nat} (pre post : List Nat) (x y : Nat) (clear : Bool)
    (h : HeapInv s (pre ++ x :: y :: post) lim) (hd : Detached s y) :
    HeapInv (absorb s x y clear) (pre ++ x :: post) lim ∧
    (∀ b, b ∈ pre ++ x :: post →
      blk_size (absorb s x y clear).mem b
        = (if b = x then blk_size s.mem x + blk_size s.mem y + 48 else blk_size s.mem b) ∧
      blk_next_free (absorb s x y clear).mem b = blk_next_free s.mem b ∧
      blk_prev_free (absorb s x y clear).mem b = blk_prev_free s.mem b ∧
      blk_is_free (absorb s x y clear).mem b = blk_is_free s.mem b) := by
  have hH := h.phys.hdrs
  have hnd := Seg_nodup _ _ _ _ _ h.phys.seg
  have hxm : x ∈ pre ++ x :: y :: post := by simp
  have hym : y ∈ pre ++ x :: y :: post := by simp
  have hsub : ∀ b, b ∈ pre ++ x :: post → b ∈ pre ++ x :: y :: post ∧ b ≠ y := by
    intro b hb
    have hbm : b ∈ pre ++ x :: y :: post := by
      simp only [List.mem_append, List.mem_cons] at hb ⊢
      tauto
    refine ⟨hbm, ?_⟩
    intro e
    subst e
    rw [List.nodup_append] at hnd
    obtain ⟨n1, n2, n3⟩ := hnd
    obtain ⟨n4, n5⟩ := List.nodup_cons.1 n2
    obtain ⟨n6, n7⟩ := List.nodup_cons.1 n5
    simp only [List.mem_append, List.mem_cons] at hb
    rcases hb with hb | hb | hb
    · exact n3 hb (by simp)
    · exact n4 (by rw [hb]; simp)
    · exact n6 hb
  have hxy : x ≠ y := (hsub x (by simp)).2
  have hseg := h.phys.seg
  rw [Seg_append] at hseg
  obtain ⟨_, _, x2, x3, _, _, _, _, y2, y3, _, _, _, hs4⟩ := hseg
  have hynext : blk_next s.mem y = post.headD 0 := y2
  have hNm : blk_next s.mem y ≠ 0 → blk_next s.mem y ∈ pre ++ x :: y :: post := by
    intro h0
    rw [hynext] at h0 ⊢
    cases post with
    | nil => exact absurd rfl h0
    | cons c r => simp
  have hbx := h.phys.bound x hxm
  have hby := h.phys.bound y hym
  have hfields : ∀ b, b ∈ pre ++ x :: post → _ := fun b hb =>
    absorb_fields s x y clear b (hH.sep x y hxm hym) hxy (hH.sep x b hxm (hsub b hb).1)
      (hH.sep y b hym (hsub b hb).1) (hsub b hb).2
      (fun h0 => hH.sep _ _ (hNm h0) (hsub b hb).1) (by omega) (by omega)
  have hst := absorb_state s x y clear
  refine ⟨?_, ?_⟩
  · exact absorb_inv pre post x y h hd (fun b hb => (hfields b hb).1)
      (fun b hb => (hfields b hb).2.1) (fun b hb => (hfields b hb).2.2.1)
      (fun b hb => (hfields b hb).2.2.2.1) (fun b hb => (hfields b hb).2.2.2.2.1)
      (fun b hb => (hfields b hb).2.2.2.2.2) hst.1 hst.2.1 hst.2.2.1 hst.2.2.2.1
  · intro b hb
    exact ⟨(hfields b hb).1, (hfields b hb).2.2.2.1, (hfields b hb).2.2.2.2.1,
      (hfields b hb).2.2.2.2.2⟩

/-! ## `coalesce` and `kfree` -/

theorem coalesce_eq (s : KState) (block : Nat) :
    coalesce s block =
      if block = 0 ∨ !blk_is_free s.mem block then (block, s)
      else coalesce_bwd (coalesce_fwd s block) block := rfl

theorem next_after_set (m : Nat → Nat) (x y : Nat) (h : SepH x y) (hne : ¬ y = x) :
    blk_next (set_next m x (blk_next m y)) x = blk_next (set_next m x (blk_next m y)) y := by
  rw [blk_next_set_next _ _ _ _ (SepH_refl x), if_pos rfl, blk_next_mod,
    blk_next_set_next _ _ _ _ h, if_neg hne]

theorem coalesce_fwd_eq (s : KState) (x : Nat)
    (h : blk_next s.mem x ≠ 0 → SepH x (blk_next s.mem x) ∧ ¬ blk_next s.mem x = x) :
    coalesce_fwd s x =
      if blk_next s.mem x ≠ 0 ∧ blk_is_free s.mem (blk_next s.mem x) then
        absorb (remove_from_free_list s (blk_next s.mem x)) x (blk_next s.mem x) true
      else s := by
  unfold coalesce_fwd absorb
  by_cases hc : blk_next s.mem x ≠ 0 ∧ blk_is_free s.mem (blk_next s.mem x)
  · obtain ⟨h1, h2⟩ := h hc.1
    rw [if_pos hc, if_pos hc]
    simp only [next_after_set _ x (blk_next s.mem x) h1 h2, if_true]
  · simp only [hc, if_false]

theorem coalesce_bwd_eq (s : KState) (x : Nat)
    (h : blk_prev s.mem x ≠ 0 → SepH (blk_prev s.mem x) x ∧ ¬ x = blk_prev s.mem x) :
    coalesce_bwd s x =
      if blk_prev s.mem x ≠ 0 ∧ blk_is_free s.mem (blk_prev s.mem x) then
        (blk_prev s.mem x,
          absorb (remove_from_free_list s (blk_prev s.mem x)) (blk_prev s.mem x) x true)
      else (x, s) := by
  unfold coalesce_bwd absorb
  by_cases hc : blk_prev s.mem x ≠ 0 ∧ blk_is_free s.mem (blk_prev s.mem x)
  · obtain ⟨h1, h2⟩ := h hc.1
    rw [if_pos hc, if_pos hc]
    simp only [next_after_set _ (blk_prev s.mem x) x h1 h2, if_true]
  · simp only [hc, if_false]

theorem detached_of_not_free {s : KState} {chain : List Nat} {lim : Nat}
    (h : HeapInv s chain lim) (x : Nat) (hx : x ∈ chain)
    (hf : blk_is_free s.mem x = false) : Detached s x := by
  have hfl : FLf _ _ _ _ _ := h.fl
  obtain ⟨h1, h2⟩ := hfl.flag_ok x hx hf
  refine ⟨?_, h1, h2⟩
  intro e
  by_cases h0 : s.free_list_head = 0
  · rw [h0] at e; rw [e] at hx; exact not_mem_zero h.phys hx
  · have := (hfl.head_ok h0).2.2
    rw [← e, hf] at this
    exact Bool.noConfusion this

/-- Setting or clearing the `is_free` flag of a block that is on no list. -/
theorem set_is_free_inv {s : KState} {chain : List Nat} {lim : Nat}
    (h : HeapInv s chain lim) (x : Nat) (hx : x ∈ chain) (v : Bool)
    (hd : v = false → Detached s x) :
    HeapInv { s with mem := set_is_free s.mem x v } chain lim := by
  have hH := h.phys.hdrs
  refine ⟨?_, ?_⟩
  · refine PhysInv_congr h.phys ?_ rfl rfl rfl
    intro b hb
    have hs := hH.sep x b hx hb
    exact ⟨blk_size_set_is_free _ _ _ _ hs, blk_next_set_is_free _ _ _ _ hs,
      blk_prev_set_is_free _ _ _ _ hs⟩
  · have hfl : FLf _ _ _ _ _ := h.fl
    have h1 : FLf (blk_next_free s.mem) (blk_prev_free s.mem)
        (blk_is_free (set_is_free s.mem x v)) s.free_list_head (fun b => b ∈ chain) :=
      FLf_flag hfl x v hd (fun b _ => blk_is_free_set_is_free _ _ _ _)
    exact FLf_congr h1
      (fun b hb => blk_next_free_set_is_free _ _ _ _ (hH.sep x b hx hb))
      (fun b hb => blk_prev_free_set_is_free _ _ _ _ (hH.sep x b hx hb))
      (fun b _ => rfl)

theorem coalesce_fwd_step {s : KState} {chain : List Nat} {lim : Nat}
    (h : HeapInv s chain lim) (x : Nat) (hx : x ∈ chain) (hd : Detached s x) :
    ∃ chain2, HeapInv (coalesce_fwd s x) chain2 lim ∧ x ∈ chain2 ∧
      Detached (coalesce_fwd s x) x ∧
      (∀ b, b ∈ chain2 → b ∈ chain) ∧
      (∀ b, b ∈ chain → blk_is_free s.mem b = false → b ∈ chain2) ∧
      (∀ b, b ∈ chain2 → blk_is_free (coalesce_fwd s x).mem b = blk_is_free s.mem b) := by
  have hH := h.phys.hdrs
  have hnd := Seg_nodup _ _ _ _ _ h.phys.seg
  have hsplit := chain_split_next h.phys x hx
  have hpre : blk_next s.mem x ≠ 0 → SepH x (blk_next s.mem x) ∧ ¬ blk_next s.mem x = x := by
    intro h0
    obtain ⟨pre, post, hc⟩ := hsplit h0
    have hN : blk_next s.mem x ∈ chain := by rw [hc]; simp
    refine ⟨hH.sep _ _ hx hN, ?_⟩
    intro e
    rw [hc, e] at hnd
    have := (List.nodup_append.1 hnd).2.1
    simp at this
  rw [coalesce_fwd_eq s x hpre]
  by_cases hc : blk_next s.mem x ≠ 0 ∧ blk_is_free s.mem (blk_next s.mem x)
  · rw [if_pos hc]
    obtain ⟨pre, post, hch⟩ := hsplit hc.1
    have hN : blk_next s.mem x ∈ chain := by rw [hch]; simp
    have hNx : x ≠ blk_next s.mem x := fun e => (hpre hc.1).2 e.symm
    obtain ⟨r1, r2, r3, r4⟩ := remove_from_free_list_inv h (blk_next s.mem x) hN
    have r1' := r1
    rw [hch] at r1'
    obtain ⟨a1, a2⟩ := absorb_step pre post x (blk_next s.mem x) true r1' r2
    have hsub : ∀ b, b ∈ pre ++ x :: post → b ∈ chain ∧ b ≠ blk_next s.mem x := by
      intro b hb
      have hbm : b ∈ chain := by
        rw [hch]; simp only [List.mem_append, List.mem_cons] at hb ⊢; tauto
      refine ⟨hbm, ?_⟩
      intro e
      rw [hch] at hnd
      rw [List.nodup_append] at hnd
      obtain ⟨n1, n2, n3⟩ := hnd
      obtain ⟨n4, n5⟩ := List.nodup_cons.1 n2
      obtain ⟨n6, n7⟩ := List.nodup_cons.1 n5
      simp only [List.mem_append, List.mem_cons] at hb
      rcases hb with hb | hb | hb
      · exact n3 hb (by rw [e]; simp)
      · exact hNx (hb ▸ e)
      · exact n6 (e ▸ hb)
    have hxm : x ∈ pre ++ x :: post := by simp
    have hdx := r3 x hx hNx hd
    refine ⟨pre ++ x :: post, a1, hxm, ?_, fun b hb => (hsub b hb).1, ?_, ?_⟩
    · refine ⟨hdx.1, ?_, ?_⟩
      · rw [(a2 x hxm).2.1]; exact hdx.2.1
      · rw [(a2 x hxm).2.2.1]; exact hdx.2.2
    · intro b hb hf
      have hbN : b ≠ blk_next s.mem x := by
        intro e; rw [e, hc.2] at hf; exact Bool.noConfusion hf
      rw [hch] at hb
      simp only [List.mem_append, List.mem_cons] at hb ⊢
      tauto
    · intro b hb
      rw [(a2 b hb).2.2.2, (r4 b (hsub b hb).1).2.2.2, if_neg (hsub b hb).2]
  · rw [if_neg hc]
    exact ⟨chain, h, hx, hd, fun b hb => hb, fun b hb _ => hb, fun b _ => rfl⟩

theorem coalesce_bwd_step {s : KState} {chain : List Nat} {lim : Nat}
    (h : HeapInv s chain lim) (x : Nat) (hx : x ∈ chain) (hd : Detached s x) :
    ∃ chain2, HeapInv (coalesce_bwd s x).2 chain2 lim ∧ (coalesce_bwd s x).1 ∈ chain2 ∧
      Detached (coalesce_bwd s x).2 (coalesce_bwd s x).1 ∧
      (∀ b, b ∈ chain2 → b ∈ chain) ∧
      (∀ b, b ∈ chain → b ≠ x → blk_is_free s.mem b = false →
        b ∈ chain2 ∧ b ≠ (coalesce_bwd s x).1) ∧
      (∀ b, b ∈ chain2 → b ≠ (coalesce_bwd s x).1 →
        blk_is_free (coalesce_bwd s x).2.mem b = blk_is_free s.mem b) := by
  have hH := h.phys.hdrs
  have hnd := Seg_nodup _ _ _ _ _ h.phys.seg
  have hsplit := chain_split_prev h.phys x hx
  have hpre : blk_prev s.mem x ≠ 0 → SepH (blk_prev s.mem x) x ∧ ¬ x = blk_prev s.mem x := by
    intro h0
    obtain ⟨pre, post, hc⟩ := hsplit h0
    have hN : blk_prev s.mem x ∈ chain := by rw [hc]; simp
    refine ⟨hH.sep _ _ hN hx, ?_⟩
    intro e
    rw [hc] at hnd
    have := (List.nodup_append.1 hnd).2.1
    rw [← e] at this
    simp at this
  rw [coalesce_bwd_eq s x hpre]
  by_cases hc : blk_prev s.mem x ≠ 0 ∧ blk_is_free s.mem (blk_prev s.mem x)
  · rw [if_pos hc]
    obtain ⟨pre, post, hch⟩ := hsplit hc.1
    have hN : blk_prev s.mem x ∈ chain := by rw [hch]; simp
    have hNx : x ≠ blk_prev s.mem x := (hpre hc.1).2
    obtain ⟨r1, r2, r3, r4⟩ := remove_from_free_list_inv h (blk_prev s.mem x) hN
    have r1' := r1
    rw [hch] at r1'
    have hdx := r3 x hx hNx hd
    obtain ⟨a1, a2⟩ := absorb_step pre post (blk_prev s.mem x) x true r1' hdx
    have hsub : ∀ b, b ∈ pre ++ blk_prev s.mem x :: post → b ∈ chain ∧ b ≠ x := by
      intro b hb
      have hbm : b ∈ chain := by
        rw [hch]; simp only [List.mem_append, List.mem_cons] at hb ⊢; tauto
      refine ⟨hbm, ?_⟩
      intro e
      rw [hch] at hnd
      rw [List.nodup_append] at hnd
      obtain ⟨n1, n2, n3⟩ := hnd
      obtain ⟨n4, n5⟩ := List.nodup_cons.1 n2
      obtain ⟨n6, n7⟩ := List.nodup_cons.1 n5
      simp only [List.mem_append, List.mem_cons] at hb
      rcases hb with hb | hb | hb
      · exact n3 hb (by rw [e]; simp)
      · exact hNx (e ▸ hb)
      · exact n6 (e ▸ hb)
    have hpm : blk_prev s.mem x ∈ pre ++ blk_prev s.mem x :: post := by simp
    refine ⟨pre ++ blk_prev s.mem x :: post, a1, hpm, ?_, fun b hb => (hsub b hb).1, ?_, ?_⟩
    · refine ⟨r2.1, ?_, ?_⟩
      · rw [(a2 _ hpm).2.1]; exact r2.2.1
      · rw [(a2 _ hpm).2.2.1]; exact r2.2.2
    · intro b hb hbx hf
      have hbN : b ≠ blk_prev s.mem x := by
        intro e; rw [e, hc.2] at hf; exact Bool.noConfusion hf
      refine ⟨?_, hbN⟩
      rw [hch] at hb
      simp only [List.mem_append, List.mem_cons] at hb ⊢
      tauto
    · intro b hb hbp
      rw [(a2 b hb).2.2.2, (r4 b (hsub b hb).1).2.2.2, if_neg hbp]
  · rw [if_neg hc]
    refine ⟨chain, h, hx, hd, fun b hb => hb, fun b hb hbx _ => ⟨hb, hbx⟩, fun b _ _ => rfl⟩

/-- `kfree` of the payload pointer of a block of the chain keeps the heap
invariant; no block is added, and every other block that is not flagged free
stays in the chain, still not flagged free. -/
theorem kfree_inv {s : KState} {chain : List Nat} {lim : Nat}
    (h : HeapInv s chain lim) (p : Nat) (hp : p ≠ 0 → sub64 p HEAP_HEADER_SIZE ∈ chain) :
    ∃ chain2, HeapInv (kfree s p) chain2 lim ∧ (∀ b, b ∈ chain2 → b ∈ chain) ∧
      (∀ b, b ∈ chain → b ≠ sub64 p HEAP_HEADER_SIZE → blk_is_free s.mem b = false →
        b ∈ chain2 ∧ blk_is_free (kfree s p).mem b = false) := by
  unfold kfree
  by_cases hp0 : p = 0
  · rw [if_pos hp0]
    exact ⟨chain, h, fun b hb => hb, fun b hb _ hf => ⟨hb, hf⟩⟩
  rw [if_neg hp0]
  simp only
  have hx := hp hp0
  generalize sub64 p HEAP_HEADER_SIZE = x at hx ⊢
  by_cases hf : blk_is_free s.mem x = true
  · rw [if_pos hf]
    exact ⟨chain, h, fun b hb => hb, fun b hb _ hf => ⟨hb, hf⟩⟩
  rw [if_neg hf]
  have hf2 : blk_is_free s.mem x = false := by simpa using hf
  have hH := h.phys.hdrs
  have hx0 : x ≠ 0 := fun e => not_mem_zero h.phys (e ▸ hx)
  have hd := detached_of_not_free h x hx hf2
  have h0 := set_is_free_inv h x hx true (fun e => Bool.noConfusion e)
  generalize hs0 : ({ s with mem := set_is_free s.mem x true } : KState) = s0 at h0 ⊢
  have hm0 : s0.mem = set_is_free s.mem x true := by rw [← hs0]
  have hh0 : s0.free_list_head = s.free_list_head := by rw [← hs0]
  have hisf0 : ∀ b, blk_is_free s0.mem b = if b = x then true else blk_is_free s.mem b := by
    intro b; rw [hm0]; exact blk_is_free_set_is_free _ _ _ _
  have hd0 : Detached s0 x := by
    refine ⟨by rw [hh0]; exact hd.1, ?_, ?_⟩
    · rw [hm0, blk_next_free_set_is_free _ _ _ _ (SepH_refl x)]; exact hd.2.1
    · rw [hm0, blk_prev_free_set_is_free _ _ _ _ (SepH_refl x)]; exact hd.2.2
  have hco : coalesce s0 x = coalesce_bwd (coalesce_fwd s0 x) x := by
    rw [coalesce_eq, if_neg]
    rw [hisf0 x, if_pos rfl]
    simp [hx0]
  rw [hco]
  obtain ⟨chain1, f1, f2, f3, f4, f5, f6⟩ := coalesce_fwd_step h0 x hx hd0
  obtain ⟨chain2, g1, g2, g3, g4, g5, g6⟩ := coalesce_bwd_step f1 x f2 f3
  obtain ⟨a1, a2, a3⟩ := add_to_free_list_inv g1.phys _ g2 (FL_erase g1 _ g3)
  refine ⟨chain2, a1, fun b hb => f4 b (g4 b hb), ?_⟩
  intro b hb hbx hbf
  have e0 : blk_is_free s0.mem b = false := by rw [hisf0 b, if_neg hbx]; exact hbf
  have hb1 := f5 b hb e0
  have e1 : blk_is_free (coalesce_fwd s0 x).mem b = false := by rw [f6 b hb1]; exact e0
  obtain ⟨hb2, hbz⟩ := g5 b hb1 hbx e1
  refine ⟨hb2, ?_⟩
  rw [(a3 b hb2).2.2.2, if_neg hbz, g6 b hb2 hbz]
  exact e1

/-! ## Heap expansion -/

theorem expand_pages_succ (n nb : Nat) (s : KState) :
    expand_pages (n + 1) nb s =
      if (alloc_frame s).1 = 0 then (false, nb, (alloc_frame s).2)
      else expand_pages n (if nb = 0 then (alloc_frame s).1 else nb)
        (link_block (alloc_frame s).2 (alloc_frame s).1) := rfl

theorem link_block_state (s1 : KState) (f : Nat) :
    (link_block s1 f).free_list_head = s1.free_list_head ∧
    (link_block s1 f).heap_start = (if s1.heap_end ≠ 0 then s1.heap_start else f) ∧
    (link_block s1 f).heap_end = f ∧
    (link_block s1 f).frame_bitmap = s1.frame_bitmap ∧
    (link_block s1 f).free_memory = s1.free_memory ∧
    (link_block s1 f).total_memory = s1.total_memory ∧
    (link_block s1 f).highest_usable_address = s1.highest_usable_address := by
  unfold link_block
  by_cases h : s1.heap_end ≠ 0
  · simp only [h, if_true, ne_eq, not_false_eq_true, and_self]
  · simp only [h, if_false, ne_eq, not_false_eq_true, and_self]

theorem link_block_fields (s1 : KState) (f b : Nat)
    (hfb : SepH f b) (heb : s1.heap_end ≠ 0 → SepH s1.heap_end b ∧ ¬ f = s1.heap_end)
    (hf64 : f < 2 ^ 64) (he64 : s1.heap_end < 2 ^ 64) :
    blk_size (link_block s1 f).mem b = (if b = f then 4048 else blk_size s1.mem b) ∧
    blk_next (link_block s1 f).mem b
      = (if s1.heap_end ≠ 0 ∧ b = s1.heap_end then f
         else if b = f then 0 else blk_next s1.mem b) ∧
    blk_prev (link_block s1 f).mem b = (if b = f then s1.heap_end else blk_prev s1.mem b) ∧
    blk_next_free (link_block s1 f).mem b = blk_next_free s1.mem b ∧
    blk_prev_free (link_block s1 f).mem b = blk_prev_free s1.mem b ∧
    blk_is_free (link_block s1 f).mem b = (if b = f then true else blk_is_free s1.mem b) := by
  have h48 : sub64 PAGE_SIZE HEAP_HEADER_SIZE % 2 ^ 64 = 4048 := by decide
  unfold link_block
  by_cases he : s1.heap_end = 0
  · simp (disch := first | assumption | exact SepH_refl _) only [he, h48, ne_eq, not_true,
      not_false_eq_true, if_false, if_true, false_and, true_and, mod64_of_lt, Nat.zero_mod,
      blk_size_set_size, blk_size_set_next, blk_size_set_prev, blk_size_set_next_free,
        blk_size_set_prev_free, blk_size_set_is_free, blk_next_set_size, blk_next_set_next,
        blk_next_set_prev, blk_next_set_next_free, blk_next_set_prev_free, blk_next_set_is_free,
        blk_prev_set_size, blk_prev_set_next, blk_prev_set_prev, blk_prev_set_next_free,
        blk_prev_set_prev_free, blk_prev_set_is_free, blk_next_free_set_size,
        blk_next_free_set_next, blk_next_free_set_prev, blk_next_free_set_next_free,
        blk_next_free_set_prev_free, blk_next_free_set_is_free, blk_prev_free_set_size,
        blk_prev_free_set_next, blk_prev_free_set_prev, blk_prev_free_set_next_free,
        blk_prev_free_set_prev_free, blk_prev_free_set_is_free, blk_is_free_set_size,
        blk_is_free_set_next, blk_is_free_set_prev, blk_is_free_set_next_free,
        blk_is_free_set_prev_free, blk_is_free_set_is_free, blk_size_mod, blk_next_mod,
        blk_prev_mod, blk_next_free_mod, blk_prev_free_mod]
  · obtain ⟨h1, h2⟩ := heb he
    simp (disch := first | assumption | exact SepH_refl _) only [he, h48, ne_eq, not_true,
      not_false_eq_true, if_false, if_true, false_and, true_and, mod64_of_lt, Nat.zero_mod,
      blk_size_set_size, blk_size_set_next, blk_size_set_prev, blk_size_set_next_free,
        blk_size_set_prev_free, blk_size_set_is_free, blk_next_set_size, blk_next_set_next,
        blk_next_set_prev, blk_next_set_next_free, blk_next_set_prev_free, blk_next_set_is_free,
        blk_prev_set_size, blk_prev_set_next, blk_prev_set_prev, blk_prev_set_next_free,
        blk_prev_set_prev_free, blk_prev_set_is_free, blk_next_free_set_size,
        blk_next_free_set_next, blk_next_free_set_prev, blk_next_free_set_next_free,
        blk_next_free_set_prev_free, blk_next_free_set_is_free, blk_prev_free_set_size,
        blk_prev_free_set_next, blk_prev_free_set_prev, blk_prev_free_set_next_free,
        blk_prev_free_set_prev_free, blk_prev_free_set_is_free, blk_is_free_set_size,
        blk_is_free_set_next, blk_is_free_set_prev, blk_is_free_set_next_free,
        blk_is_free_set_prev_free, blk_is_free_set_is_free, blk_size_mod, blk_next_mod,
        blk_prev_mod, blk_next_free_mod, blk_prev_free_mod]

theorem alloc_frame_cases (s : KState) :
    alloc_frame s = (0, s) ∨
    ∃ i, i < PMM_TOTAL_FRAMES ∧ test_bit s.frame_bitmap i = false ∧
      (∀ j, j < i → test_bit s.frame_bitmap j = true) ∧
      alloc_frame s = (PMM_RAM_BASE + i * PAGE_SIZE,
        { s with
          frame_bitmap := set_bit s.frame_bitmap i
          free_memory := sub64 s.free_memory PAGE_SIZE
          mem := memset s.mem (PMM_RAM_BASE + i * PAGE_SIZE) 0 PAGE_SIZE }) := by
  cases hs : alloc_scan s.frame_bitmap PMM_TOTAL_FRAMES 0 with
  | none => left; simp [alloc_frame, hs]
  | some k =>
    right
    obtain ⟨_, h2, h3, h4⟩ := alloc_scan_some _ _ _ _ hs
    exact ⟨k, by omega, h3, fun j hj => h4 j (by omega) hj,
      alloc_frame_of_least s k (by omega) h3 (fun j hj => h4 j (by omega) hj)⟩

/-- A segment whose last block has its `next` field rewritten and whose end
bound is raised. -/
theorem Seg_set_last_next (m m2 : Nat → Nat) (l : List Nat) (p nx nx2 e e2 : Nat)
    (hs : Seg m p l nx e) (he : e ≤ e2)
    (hf : ∀ b, b ∈ l → blk_size m2 b = blk_size m b ∧ blk_prev m2 b = blk_prev m b ∧
      blk_next m2 b = (if b = lastD l 0 then nx2 else blk_next m b))
    (hnd : l.Nodup) : Seg m2 p l nx2 e2 := by
  induction l generalizing p with
  | nil => trivial
  | cons c r ih =>
    obtain ⟨h1, h2, h3, h4, h5, h6, h7⟩ := hs
    obtain ⟨e1, e2', e3⟩ := hf c (List.mem_cons_self _ _)
    obtain ⟨n1, n2⟩ := List.nodup_cons.1 hnd
    cases r with
    | nil =>
      have : lastD [c] 0 = c := rfl
      rw [this, if_pos rfl] at e3
      simp only [List.headD_nil] at h3 ⊢
      exact ⟨by rw [e2']; exact h1, e3, by rw [e1]; simp only [List.headD_nil]; omega, h4, h5,
        by rw [e1]; exact h6, trivial⟩
    | cons d r2 =>
      have hl : lastD (c :: d :: r2) 0 = lastD (d :: r2) 0 := rfl
      have hlm : lastD (d :: r2) 0 ∈ d :: r2 := lastD_mem _ _ (by simp)
      have hcl : c ≠ lastD (d :: r2) 0 := fun e => n1 (e ▸ hlm)
      rw [hl, if_neg hcl] at e3
      refine ⟨by rw [e2']; exact h1, by rw [e3]; exact h2, by rw [e1]; exact h3, h4, h5,
        by rw [e1]; exact h6, ?_⟩
      apply ih c h7 _ n2
      intro b hb
      have := hf b (List.mem_cons_of_mem _ hb)
      rw [hl] at this
      exact this

theorem lastD_eq_zero {s : KState} {chain : List Nat} {lim : Nat} (h : PhysInv s chain lim)
    (h0 : lastD chain 0 = 0) : chain = [] := by
  cases chain with
  | nil => rfl
  | cons c r =>
    exfalso
    have := lastD_mem (c :: r) 0 (by simp)
    rw [h0] at this
    exact not_mem_zero h this

/-- One iteration of the loop of `expand_heap`: the frame found by
`alloc_frame` becomes a block appended to the chain. -/
theorem link_step {s : KState} {chain : List Nat} {lim : Nat} (h : HeapInv s chain lim)
    (i : Nat) (hi : i < PMM_TOTAL_FRAMES) (hc : test_bit s.frame_bitmap i = false)
    (hmin : ∀ j, j < i → test_bit s.frame_bitmap j = true) (s1 : KState)
    (hs1 : s1 = { s with
      frame_bitmap := set_bit s.frame_bitmap i
      free_memory := sub64 s.free_memory PAGE_SIZE
      mem := memset s.mem (PMM_RAM_BASE + i * PAGE_SIZE) 0 PAGE_SIZE }) :
    HeapInv (link_block s1 (PMM_RAM_BASE + i * PAGE_SIZE)) (chain ++ [PMM_RAM_BASE + i * PAGE_SIZE])
      (PMM_RAM_BASE + i * PAGE_SIZE + 4096) ∧
    PMM_RAM_BASE + i * PAGE_SIZE ∉ chain ∧
    Detached (link_block s1 (PMM_RAM_BASE + i * PAGE_SIZE)) (PMM_RAM_BASE + i * PAGE_SIZE) ∧
    (link_block s1 (PMM_RAM_BASE + i * PAGE_SIZE)).free_list_head = s.free_list_head ∧
    (∀ b, b ∈ chain →
      blk_size (link_block s1 (PMM_RAM_BASE + i * PAGE_SIZE)).mem b = blk_size s.mem b ∧
      blk_next_free (link_block s1 (PMM_RAM_BASE + i * PAGE_SIZE)).mem b
        = blk_next_free s.mem b ∧
      blk_prev_free (link_block s1 (PMM_RAM_BASE + i * PAGE_SIZE)).mem b
        = blk_prev_free s.mem b ∧
      blk_is_free (link_block s1 (PMM_RAM_BASE + i * PAGE_SIZE)).mem b
        = blk_is_free s.mem b) := by
  generalize hfd : PMM_RAM_BASE + i * PAGE_SIZE = f at *
  have hH := h.phys.hdrs
  have hnd := Seg_nodup _ _ _ _ _ h.phys.seg
  have hflim : lim ≤ f := by
    by_contra hlt
    have := h.phys.bits i hi (by rw [hfd]; omega)
    rw [hc] at this; exact Bool.noConfusion this
  have hfb : ∀ b, b ∈ chain → b + 48 ≤ f := fun b hb => by
    have := h.phys.bound b hb; omega
  have hfn : f ∉ chain := fun hm => by have := hfb f hm; omega
  have hfr : PMM_RAM_BASE ≤ f ∧ f % 8 = 0 ∧ f + 4096 ≤ PMM_MAX_ADDRESS := by
    simp only [PMM_RAM_BASE, PAGE_SIZE, PMM_MAX_ADDRESS, PMM_MANAGEABLE_SIZE,
      PMM_TOTAL_FRAMES] at *
    omega
  have hm1 : s1.mem = memset s.mem f 0 PAGE_SIZE := by rw [hs1]
  have he1 : s1.heap_end = s.heap_end := by rw [hs1]
  have hst1 : s1.heap_start = s.heap_start := by rw [hs1]
  have hh1 : s1.free_list_head = s.free_list_head := by rw [hs1]
  have hb1 : s1.frame_bitmap = set_bit s.frame_bitmap i := by rw [hs1]
  have hend : s.heap_end ≠ 0 → s.heap_end ∈ chain := by
    intro h0
    rw [h.phys.hend] at h0 ⊢
    apply lastD_mem
    intro e; rw [e] at h0; exact h0 rfl
  have hst := link_block_state s1 f
  have hfM : PMM_MAX_ADDRESS = 2147483648 := by decide
  have hfields : ∀ b, b ∈ chain ∨ b = f → _ := fun b hb =>
    link_block_fields s1 f b
      (by
        rcases hb with hb | hb
        · have := hfb b hb; unfold SepH; omega
        · rw [hb]; exact SepH_refl f)
      (fun h0 => by
        rw [he1] at h0 ⊢
        have hem := hend h0
        constructor
        · rcases hb with hb | hb
          · exact hH.sep _ _ hem hb
          · rw [hb]; have := hfb _ hem; unfold SepH; omega
        · intro e; rw [← e] at hem; exact hfn hem)
      (by omega)
      (by
        rw [he1]
        by_cases h0 : s.heap_end = 0
        · rw [h0]; norm_num
        · have := hfb _ (hend h0); omega)
  have hold : ∀ b, b ∈ chain →
      blk_size s1.mem b = blk_size s.mem b ∧ blk_next s1.mem b = blk_next s.mem b ∧
      blk_prev s1.mem b = blk_prev s.mem b ∧ blk_next_free s1.mem b = blk_next_free s.mem b ∧
      blk_prev_free s1.mem b = blk_prev_free s.mem b ∧
      blk_is_free s1.mem b = blk_is_free s.mem b := by
    intro b hb
    have := hfb b hb
    rw [hm1]
    exact ⟨blk_size_memset _ _ _ _ _ (by omega), blk_next_memset _ _ _ _ _ (by omega),
      blk_prev_memset _ _ _ _ _ (by omega), blk_next_free_memset _ _ _ _ _ (by omega),
      blk_prev_free_memset _ _ _ _ _ (by omega), blk_is_free_memset _ _ _ _ _ (by omega)⟩
  have hnew : blk_next_free s1.mem f = 0 ∧ blk_prev_free s1.mem f = 0 := by
    rw [hm1]
    exact ⟨blk_next_free_memset_zero _ _ _ _ (by unfold PAGE_SIZE; omega),
      blk_prev_free_memset_zero _ _ _ _ (by unfold PAGE_SIZE; omega)⟩
  have hne : ∀ b, b ∈ chain → b ≠ f := fun b hb e => hfn (e ▸ hb)
  refine ⟨⟨⟨?_, ?_, ?_, ?_, ?_⟩, ?_⟩, hfn, ?_, ?_, ?_⟩
  · rw [Seg_append]
    constructor
    · apply Seg_set_last_next s.mem _ chain 0 0 f lim f h.phys.seg hflim _ hnd
      intro b hb
      obtain ⟨g1, g2, g3, _⟩ := hfields b (Or.inl hb)
      obtain ⟨o1, o2, o3, _⟩ := hold b hb
      rw [g1, g2, g3, if_neg (hne b hb), if_neg (hne b hb), if_neg (hne b hb), o1, o2, o3, he1,
        h.phys.hend]
      refine ⟨rfl, rfl, ?_⟩
      by_cases e : b = lastD chain 0
      · rw [if_pos ⟨by rw [← e]; exact fun e0 => not_mem_zero h.phys (e0 ▸ hb), e⟩, if_pos e]
      · rw [if_neg (fun g => e g.2), if_neg e]
    · obtain ⟨g1, g2, g3, _⟩ := hfields f (Or.inr rfl)
      rw [if_pos rfl] at g1 g3
      refine ⟨?_, ?_, ?_, hfr.1, hfr.2.1, ?_, trivial⟩
      · rw [g3, he1, h.phys.hend]
      · rw [g2, if_neg, if_pos rfl]
        · rfl
        · rintro ⟨h0, e⟩
          rw [he1] at h0 e
          exact hfn (e ▸ hend h0)
      · rw [g1]; simp only [List.headD_nil]; omega
      · rw [g1]
  · rw [hst.2.1, he1, hst1, h.phys.hstart, headD_append]
    by_cases h0 : s.heap_end = 0
    · rw [if_neg (by simpa using h0)]
      rw [h.phys.hend] at h0
      rw [lastD_eq_zero h.phys h0]
      rfl
    · rw [if_pos h0]
      cases chain with
      | nil => exact absurd h.phys.hend h0
      | cons c r => rfl
  · rw [hst.2.2.1, lastD_append]; rfl
  · omega
  · intro j hj hlt
    rw [hst.2.2.2.1, hb1, test_bit_set_bit]
    by_cases e : j = i
    · simp [e]
    · have hji : j < i := by
        simp only [PMM_RAM_BASE, PAGE_SIZE] at hfd hlt
        omega
      simp [hmin j hji]
  · have hfl : FLf _ _ _ _ _ := h.fl
    have hfl1 : FLf (blk_next_free (link_block s1 f).mem) (blk_prev_free (link_block s1 f).mem)
        (blk_is_free (link_block s1 f).mem) s.free_list_head (fun b => b ∈ chain) :=
      FLf_congr hfl
        (fun b hb => by rw [(hfields b (Or.inl hb)).2.2.2.1, (hold b hb).2.2.2.1])
        (fun b hb => by rw [(hfields b (Or.inl hb)).2.2.2.2.1, (hold b hb).2.2.2.2.1])
        (fun b hb => by
          rw [(hfields b (Or.inl hb)).2.2.2.2.2, if_neg (hne b hb), (hold b hb).2.2.2.2.2])
    show FLf _ _ _ _ _
    rw [hst.1, hh1]
    apply FLf_insert hfl1 f
    · rw [(hfields f (Or.inr rfl)).2.2.2.1]; exact hnew.1
    · rw [(hfields f (Or.inr rfl)).2.2.2.2.1]; exact hnew.2
    · intro b; simp
  · refine ⟨?_, ?_, ?_⟩
    · rw [hst.1, hh1]
      intro e
      by_cases h0 : s.free_list_head = 0
      · rw [h0] at e; simp only [PMM_RAM_BASE] at hfr; omega
      · have hfl : FLf _ _ _ _ _ := h.fl
        exact hfn (e ▸ (hfl.head_ok h0).1)
    · rw [(hfields f (Or.inr rfl)).2.2.2.1]; exact hnew.1
    · rw [(hfields f (Or.inr rfl)).2.2.2.2.1]; exact hnew.2
  · rw [hst.1, hh1]
  · intro b hb
    obtain ⟨g1, _, _, g4, g5, g6⟩ := hfields b (Or.inl hb)
    obtain ⟨o1, _, _, o4, o5, o6⟩ := hold b hb
    rw [g1, g4, g5, g6, if_neg (hne b hb), if_neg (hne b hb), o1, o4, o5, o6]
    exact ⟨rfl, rfl, rfl, rfl⟩

/-- The loop of `expand_heap` appends blocks to the chain and keeps the
invariant; the blocks already there keep their size, links and flag, and the
loop-carried pointer ends up null or at a block that is on no list. -/
theorem expand_pages_inv (n : Nat) : ∀ (nb : Nat) (s : KState) (chain : List Nat) (lim : Nat),
    HeapInv s chain lim → (nb = 0 ∨ (nb ∈ chain ∧ Detached s nb)) →
    ∃ new lim2, HeapInv (expand_pages n nb s).2.2 (chain ++ new) lim2 ∧
      ((expand_pages n nb s).2.1 = 0 ∨
        ((expand_pages n nb s).2.1 ∈ chain ++ new ∧
          Detached (expand_pages n nb s).2.2 (expand_pages n nb s).2.1)) ∧
      (nb ≠ 0 → (expand_pages n nb s).2.1 = nb) ∧
      (nb = 0 → (expand_pages n nb s).2.1 ≠ 0 → (expand_pages n nb s).2.1 ∈ new) ∧
      (expand_pages n nb s).2.2.free_list_head = s.free_list_head ∧
      (∀ b, b ∈ chain →
        blk_size (expand_pages n nb s).2.2.mem b = blk_size s.mem b ∧
        blk_next_free (expand_pages n nb s).2.2.mem b = blk_next_free s.mem b ∧
        blk_prev_free (expand_pages n nb s).2.2.mem b = blk_prev_free s.mem b ∧
        blk_is_free (expand_pages n nb s).2.2.mem b = blk_is_free s.mem b) := by
  induction n with
  | zero =>
    intro nb s chain lim h hnb
    refine ⟨[], lim, by rw [List.append_nil]; exact h, ?_, fun _ => rfl, ?_, rfl,
      fun b _ => ⟨rfl, rfl, rfl, rfl⟩⟩
    · rcases hnb with h0 | h1
      · exact Or.inl h0
      · right; rw [List.append_nil]; exact h1
    · intro h0 h1; exact absurd h0 h1
  | succ n ih =>
    intro nb s chain lim h hnb
    rw [expand_pages_succ]
    rcases alloc_frame_cases s with hfail | ⟨i, hi, hc, hmin, hok⟩
    · rw [hfail, if_pos rfl]
      refine ⟨[], lim, by rw [List.append_nil]; exact h, ?_, fun _ => rfl, ?_, rfl,
        fun b _ => ⟨rfl, rfl, rfl, rfl⟩⟩
      · rcases hnb with h0 | h1
        · exact Or.inl h0
        · right; rw [List.append_nil]; exact h1
      · intro h0 h1; exact absurd h0 h1
    · rw [hok]
      dsimp only
      have hf0 : PMM_RAM_BASE + i * PAGE_SIZE ≠ 0 := by simp only [PMM_RAM_BASE]; omega
      rw [if_neg hf0]
      obtain ⟨l1, l2, l3, l4, l5⟩ := link_step h i hi hc hmin _ rfl
      generalize hfd : PMM_RAM_BASE + i * PAGE_SIZE = f at *
      generalize hs2 : link_block _ f = s2 at *
      have hnb2 : (if nb = 0 then f else nb) = 0 ∨
          ((if nb = 0 then f else nb) ∈ chain ++ [f] ∧ Detached s2 (if nb = 0 then f else nb)) := by
        right
        by_cases e : nb = 0
        · rw [if_pos e]; exact ⟨by simp, l3⟩
        · rw [if_neg e]
          rcases hnb with h0 | ⟨h1, h2⟩
          · exact absurd h0 e
          · refine ⟨by simp [h1], ?_, ?_, ?_⟩
            · rw [l4]; exact h2.1
            · rw [(l5 nb h1).2.1]; exact h2.2.1
            · rw [(l5 nb h1).2.2.1]; exact h2.2.2
      obtain ⟨new, lim2, r1, r2, r3, r4, r5, r6⟩ := ih _ s2 (chain ++ [f]) _ l1 hnb2
      refine ⟨f :: new, lim2, by simpa using r1, ?_, ?_, ?_, by rw [r5, l4], ?_⟩
      · rcases r2 with r2 | r2
        · exact Or.inl r2
        · right; simpa using r2
      · intro e
        have e2 : (if nb = 0 then f else nb) = nb := if_neg e
        rw [e2] at r3
        rw [e2]
        exact r3 e
      · intro e _
        have e2 : (if nb = 0 then f else nb) = f := if_pos e
        rw [e2] at r3
        rw [e2, r3 hf0]; simp
      · intro b hb
        obtain ⟨q1, q2, q3, q4⟩ := r6 b (by simp [hb])
        obtain ⟨o1, o2, o3, o4⟩ := l5 b hb
        exact ⟨by rw [q1, o1], by rw [q2, o2], by rw [q3, o3], by rw [q4, o4]⟩

theorem expand_heap_eq (s : KState) (n : Nat) :
    expand_heap s n =
      if !(expand_pages (pages_needed n) 0 s).1 then (false, (expand_pages (pages_needed n) 0 s).2.2)
      else if (expand_pages (pages_needed n) 0 s).2.1 = 0 then
        (false, (expand_pages (pages_needed n) 0 s).2.2)
      else (true, expand_finish (expand_pages (pages_needed n) 0 s).2.2
        (expand_pages (pages_needed n) 0 s).2.1) := by
  unfold expand_heap expand_finish absorb
  simp only
  have hp : (if u64 (n + HEAP_HEADER_SIZE + PAGE_SIZE - 1) / PAGE_SIZE = 0 then 1
      else u64 (n + HEAP_HEADER_SIZE + PAGE_SIZE - 1) / PAGE_SIZE) = pages_needed n := rfl
  rw [hp]
  generalize expand_pages (pages_needed n) 0 s = r
  by_cases h1 : (!r.1) = true
  · rw [if_pos h1, if_pos h1]
  · rw [if_neg h1, if_neg h1]
    by_cases h2 : r.2.1 = 0
    · rw [if_pos h2, if_pos h2]
    · rw [if_neg h2, if_neg h2]
      by_cases h3 : blk_prev r.2.2.mem r.2.1 ≠ 0 ∧
          blk_is_free r.2.2.mem (blk_prev r.2.2.mem r.2.1) = true
      · rw [if_pos h3, if_pos h3]
        simp only [Bool.false_eq_true, if_false]
      · rw [if_neg h3, if_neg h3]

theorem expand_finish_inv {s : KState} {chain : List Nat} {lim : Nat}
    (h : HeapInv s chain lim) (nb : Nat) (hnb : nb ∈ chain) (hd : Detached s nb) :
    ∃ chain2, HeapInv (expand_finish s nb) chain2 lim ∧ (∀ b, b ∈ chain2 → b ∈ chain) ∧
      (∀ b, b ∈ chain → b ≠ nb → blk_is_free s.mem b = false →
        b ∈ chain2 ∧ blk_is_free (expand_finish s nb).mem b = false) := by
  have hnd := Seg_nodup _ _ _ _ _ h.phys.seg
  unfold expand_finish
  by_cases hc : blk_prev s.mem nb ≠ 0 ∧ blk_is_free s.mem (blk_prev s.mem nb)
  · rw [if_pos hc]
    obtain ⟨pre, post, hch⟩ := chain_split_prev h.phys nb hnb hc.1
    have hN : blk_prev s.mem nb ∈ chain := by rw [hch]; simp
    have hNx : nb ≠ blk_prev s.mem nb := by
      intro e
      rw [hch] at hnd
      have := (List.nodup_append.1 hnd).2.1
      rw [← e] at this
      simp at this
    obtain ⟨r1, r2, r3, r4⟩ := remove_from_free_list_inv h (blk_prev s.mem nb) hN
    have r1' := r1
    rw [hch] at r1'
    have hdx := r3 nb hnb hNx hd
    obtain ⟨a1, a2⟩ := absorb_step pre post (blk_prev s.mem nb) nb false r1' hdx
    have hsub : ∀ b, b ∈ pre ++ blk_prev s.mem nb :: post → b ∈ chain ∧ b ≠ nb := by
      intro b hb
      have hbm : b ∈ chain := by
        rw [hch]; simp only [List.mem_append, List.mem_cons] at hb ⊢; tauto
      refine ⟨hbm, ?_⟩
      intro e
      rw [hch] at hnd
      rw [List.nodup_append] at hnd
      obtain ⟨n1, n2, n3⟩ := hnd
      obtain ⟨n4, n5⟩ := List.nodup_cons.1 n2
      obtain ⟨n6, n7⟩ := List.nodup_cons.1 n5
      simp only [List.mem_append, List.mem_cons] at hb
      rcases hb with hb | hb | hb
      · exact n3 hb (by rw [e]; simp)
      · exact hNx (e ▸ hb)
      · exact n6 (e ▸ hb)
    have hpm : blk_prev s.mem nb ∈ pre ++ blk_prev s.mem nb :: post := by simp
    have hdp : Detached (absorb (remove_from_free_list s (blk_prev s.mem nb))
        (blk_prev s.mem nb) nb false) (blk_prev s.mem nb) := by
      refine ⟨r2.1, ?_, ?_⟩
      · rw [(a2 _ hpm).2.1]; exact r2.2.1
      · rw [(a2 _ hpm).2.2.1]; exact r2.2.2
    obtain ⟨b1, b2, b3⟩ := add_to_free_list_inv a1.phys _ hpm (FL_erase a1 _ hdp)
    refine ⟨pre ++ blk_prev s.mem nb :: post, b1, fun b hb => (hsub b hb).1, ?_⟩
    intro b hb hbx hf
    have hbN : b ≠ blk_prev s.mem nb := by
      intro e; rw [e, hc.2] at hf; exact Bool.noConfusion hf
    have hb2 : b ∈ pre ++ blk_prev s.mem nb :: post := by
      rw [hch] at hb
      simp only [List.mem_append, List.mem_cons] at hb ⊢
      tauto
    refine ⟨hb2, ?_⟩
    rw [(b3 b hb2).2.2.2, if_neg hbN, (a2 b hb2).2.2.2, (r4 b hb).2.2.2, if_neg hbN]
    exact hf
  · rw [if_neg hc]
    obtain ⟨b1, b2, b3⟩ := add_to_free_list_inv h.phys nb hnb (FL_erase h nb hd)
    refine ⟨chain, b1, fun b hb => hb, ?_⟩
    intro b hb hbx hf
    refine ⟨hb, ?_⟩
    rw [(b3 b hb).2.2.2, if_neg hbx]
    exact hf

/-- `expand_heap` keeps the heap invariant; every block that is not flagged
free stays in the chain, still not flagged free. -/
theorem expand_heap_inv {s : KState} {chain : List Nat} {lim : Nat}
    (h : HeapInv s chain lim) (n : Nat) :
    ∃ chain2 lim2, HeapInv (expand_heap s n).2 chain2 lim2 ∧
      (∀ b, b ∈ chain → blk_is_free s.mem b = false →
        b ∈ chain2 ∧ blk_is_free (expand_heap s n).2.mem b = false) := by
  rw [expand_heap_eq]
  obtain ⟨new, lim2, r1, r2, r3, r4, r5, r6⟩ :=
    expand_pages_inv (pages_needed n) 0 s chain lim h (Or.inl rfl)
  have hkeep : ∀ b, b ∈ chain → blk_is_free s.mem b = false →
      b ∈ chain ++ new ∧ blk_is_free (expand_pages (pages_needed n) 0 s).2.2.mem b = false :=
    fun b hb hf => ⟨List.mem_append_left _ hb, by rw [(r6 b hb).2.2.2]; exact hf⟩
  split
  · exact ⟨chain ++ new, lim2, r1, hkeep⟩
  · split
    · exact ⟨chain ++ new, lim2, r1, hkeep⟩
    · rename_i hnz
      rcases r2 with r2 | ⟨r2, r2d⟩
      · exact absurd r2 hnz
      · have hnew := r4 rfl hnz
        have hnd := Seg_nodup _ _ _ _ _ r1.phys.seg
        obtain ⟨chain2, f1, f2, f3⟩ := expand_finish_inv r1 _ r2 r2d
        refine ⟨chain2, lim2, f1, ?_⟩
        intro b hb hf
        obtain ⟨k1, k2⟩ := hkeep b hb hf
        refine f3 b k1 ?_ k2
        intro e
        rw [List.nodup_append] at hnd
        exact hnd.2.2 hb (e ▸ hnew)

/-! ## `kmalloc` -/

theorem align_mask (x : Nat) (hx : x < 2 ^ 64) : x &&& (UINT64_MAX ^^^ 7) = 8 * (x / 8) := by
  apply Nat.eq_of_testBit_eq
  intro i
  have hM : UINT64_MAX ^^^ 7 = 2 ^ 64 - (7 + 1) := by decide
  have h7 : (7 : Nat) = 2 ^ 3 - 1 := by decide
  have h8 : (8 : Nat) = 2 ^ 3 := by decide
  rw [Nat.testBit_and, hM, Nat.testBit_two_pow_sub_succ (by norm_num : 7 < 2 ^ 64), h7,
    Nat.testBit_two_pow_sub_one, h8, Nat.testBit_mul_pow_two, ← Nat.shiftRight_eq_div_pow,
    Nat.testBit_shiftRight]
  by_cases h3 : i < 3
  · have : ¬ i ≥ 3 := by omega
    simp [h3, this]
  · have hge : i ≥ 3 := by omega
    have e : 3 + (i - 3) = i := by omega
    rw [e]
    by_cases h64 : i < 64
    · simp [h3, hge, h64]
    · have : x.testBit i = false :=
        Nat.testBit_lt_two_pow (lt_of_lt_of_le hx (Nat.pow_le_pow_right (by decide) (by omega)))
      simp [this]

theorem round_size_spec (n : Nat) :
    round_size n % 8 = 0 ∧ round_size n < 2 ^ 64 ∧ (n + 8 ≤ 2 ^ 64 → n ≤ round_size n) := by
  unfold round_size
  have hlt : u64 (n + 8 - 1) < 2 ^ 64 := Nat.mod_lt _ (by norm_num)
  rw [show (8 - 1 : Nat) = 7 from rfl, align_mask _ hlt]
  refine ⟨by omega, by omega, ?_⟩
  intro hn
  unfold u64 at *
  omega

theorem first_fit_spec {s : KState} {chain : List Nat} {lim : Nat} (h : HeapInv s chain lim)
    (size fuel cur bf : Nat) (hcur : cur ≠ 0 → cur ∈ chain)
    (hff : first_fit s.mem size fuel cur = some bf) (hbf : bf ≠ 0) :
    bf ∈ chain ∧ size ≤ blk_size s.mem bf := by
  induction fuel generalizing cur with
  | zero => simp [first_fit] at hff
  | succ fuel ih =>
    simp only [first_fit] at hff
    by_cases h0 : cur = 0
    · rw [if_pos h0] at hff
      exact absurd (Option.some.inj hff).symm hbf
    · rw [if_neg h0] at hff
      by_cases hsz : blk_size s.mem cur ≥ size
      · rw [if_pos hsz] at hff
        have := Option.some.inj hff
        subst this
        exact ⟨hcur h0, hsz⟩
      · rw [if_neg hsz] at hff
        have hfl : FLf _ _ _ _ _ := h.fl
        exact ih _ (fun hn => (hfl.nf_ok cur (hcur h0) hn).1) hff

theorem kmalloc_take_eq (s : KState) (size bf : Nat) :
    kmalloc_take s size bf =
      (u64 (bf + HEAP_HEADER_SIZE),
        { (if blk_size (remove_from_free_list s bf).mem bf ≥ u64 (size + HEAP_MIN_BLOCK_SIZE) then
            add_to_free_list (split_block (remove_from_free_list s bf) size bf)
              (u64 (bf + HEAP_HEADER_SIZE + size))
          else remove_from_free_list s bf) with
          mem := memset
            (set_is_free
              (if blk_size (remove_from_free_list s bf).mem bf
                  ≥ u64 (size + HEAP_MIN_BLOCK_SIZE) then
                add_to_free_list (split_block (remove_from_free_list s bf) size bf)
                  (u64 (bf + HEAP_HEADER_SIZE + size))
              else remove_from_free_list s bf).mem bf false)
            (u64 (bf + HEAP_HEADER_SIZE)) 0
            (blk_size (set_is_free
              (if blk_size (remove_from_free_list s bf).mem bf
                  ≥ u64 (size + HEAP_MIN_BLOCK_SIZE) then
                add_to_free_list (split_block (remove_from_free_list s bf) size bf)
                  (u64 (bf + HEAP_HEADER_SIZE + size))
              else remove_from_free_list s bf).mem bf false) bf) }) := rfl

theorem split_block_state (s1 : KState) (size bf : Nat) :
    (split_block s1 size bf).free_list_head = s1.free_list_head ∧
    (split_block s1 size bf).heap_start = s1.heap_start ∧
    (split_block s1 size bf).frame_bitmap = s1.frame_bitmap ∧
    (split_block s1 size bf).free_memory = s1.free_memory ∧
    (split_block s1 size bf).total_memory = s1.total_memory ∧
    (split_block s1 size bf).highest_usable_address = s1.highest_usable_address := by
  unfold split_block
  simp only
  split <;> exact ⟨rfl, rfl, rfl, rfl, rfl, rfl⟩

theorem split_block_fields (s1 : KState) (size bf nfb b : Nat)
    (hnfb : nfb = bf + 48 + size) (hsz : size + 96 ≤ blk_size s1.mem bf)
    (hb64 : bf + 48 + blk_size s1.mem bf < 2 ^ 64)
    (hnb : SepH nfb b) (hbb : SepH bf b) (hnbf : SepH nfb bf)
    (hN : blk_next s1.mem bf ≠ 0 → SepH (blk_next s1.mem bf) b ∧ SepH (blk_next s1.mem bf) nfb ∧
      SepH (blk_next s1.mem bf) bf ∧ ¬ blk_next s1.mem bf = nfb) :
    blk_size (split_block s1 size bf).mem b
      = (if b = bf then size else if b = nfb then blk_size s1.mem bf - size - 48
         else blk_size s1.mem b) ∧
    blk_next (split_block s1 size bf).mem b
      = (if b = bf then nfb else if b = nfb then blk_next s1.mem bf else blk_next s1.mem b) ∧
    blk_prev (split_block s1 size bf).mem b
      = (if blk_next s1.mem bf ≠ 0 ∧ b = blk_next s1.mem bf then nfb
         else if b = nfb then bf else blk_prev s1.mem b) ∧
    (b ≠ nfb → blk_next_free (split_block s1 size bf).mem b = blk_next_free s1.mem b) ∧
    (b ≠ nfb → blk_prev_free (split_block s1 size bf).mem b = blk_prev_free s1.mem b) ∧
    blk_is_free (split_block s1 size bf).mem b = (if b = nfb then true else blk_is_free s1.mem b) ∧
    (split_block s1 size bf).heap_end
      = (if blk_next s1.mem bf ≠ 0 then s1.heap_end else nfb) := by
  have hu : u64 (bf + HEAP_HEADER_SIZE + size) = nfb := by
    unfold u64 HEAP_HEADER_SIZE; omega
  have hr : sub64 (sub64 (blk_size s1.mem bf) size) HEAP_HEADER_SIZE % 2 ^ 64
      = blk_size s1.mem bf - size - 48 := by
    unfold sub64 HEAP_HEADER_SIZE; omega
  have hne : ¬ bf = nfb := by omega
  have hne2 : ¬ nfb = bf := by omega
  have hs64 : size < 2 ^ 64 := by omega
  have hn64 : nfb < 2 ^ 64 := by omega
  have hbf64 : bf < 2 ^ 64 := by omega
  have hbn := SepH_symm hnbf
  unfold split_block
  by_cases hN0 : blk_next s1.mem bf = 0
  · simp (disch := first | assumption | exact SepH_refl _) only [hu, hr, hN0, hne, hne2, ne_eq,
      not_true, not_false_eq_true, if_false, if_true, false_and, true_and, mod64_of_lt,
      Nat.zero_mod,
      blk_size_set_size, blk_size_set_next, blk_size_set_prev, blk_size_set_next_free,
        blk_size_set_prev_free, blk_size_set_is_free, blk_next_set_size, blk_next_set_next,
        blk_next_set_prev, blk_next_set_next_free, blk_next_set_prev_free, blk_next_set_is_free,
        blk_prev_set_size, blk_prev_set_next, blk_prev_set_prev, blk_prev_set_next_free,
        blk_prev_set_prev_free, blk_prev_set_is_free, blk_next_free_set_size,
        blk_next_free_set_next, blk_next_free_set_prev, blk_next_free_set_next_free,
        blk_next_free_set_prev_free, blk_next_free_set_is_free, blk_prev_free_set_size,
        blk_prev_free_set_next, blk_prev_free_set_prev, blk_prev_free_set_next_free,
        blk_prev_free_set_prev_free, blk_prev_free_set_is_free, blk_is_free_set_size,
        blk_is_free_set_next, blk_is_free_set_prev, blk_is_free_set_next_free,
        blk_is_free_set_prev_free, blk_is_free_set_is_free, blk_size_mod, blk_next_mod,
        blk_prev_mod, blk_next_free_mod, blk_prev_free_mod]
    exact ⟨fun _ => trivial, fun _ => trivial, trivial⟩
  · obtain ⟨hNb, hNn, hNf, hNne⟩ := hN hN0
    have hN64 := blk_next_lt s1.mem bf
    simp (disch := first | assumption | exact SepH_refl _) only [hu, hr, hN0, hne, hne2, hNne,
      ne_eq, not_true, not_false_eq_true, if_false, if_true, false_and, true_and, mod64_of_lt,
      Nat.zero_mod,
      blk_size_set_size, blk_size_set_next, blk_size_set_prev, blk_size_set_next_free,
        blk_size_set_prev_free, blk_size_set_is_free, blk_next_set_size, blk_next_set_next,
        blk_next_set_prev, blk_next_set_next_free, blk_next_set_prev_free, blk_next_set_is_free,
        blk_prev_set_size, blk_prev_set_next, blk_prev_set_prev, blk_prev_set_next_free,
        blk_prev_set_prev_free, blk_prev_set_is_free, blk_next_free_set_size,
        blk_next_free_set_next, blk_next_free_set_prev, blk_next_free_set_next_free,
        blk_next_free_set_prev_free, blk_next_free_set_is_free, blk_prev_free_set_size,
        blk_prev_free_set_next, blk_prev_free_set_prev, blk_prev_free_set_next_free,
        blk_prev_free_set_prev_free, blk_prev_free_set_is_free, blk_is_free_set_size,
        blk_is_free_set_next, blk_is_free_set_prev, blk_is_free_set_next_free,
        blk_is_free_set_prev_free, blk_is_free_set_is_free, blk_size_mod, blk_next_mod,
        blk_prev_mod, blk_next_free_mod, blk_prev_free_mod]
    exact ⟨fun _ => trivial, fun _ => trivial, trivial⟩

/-! ## Membership in a chain with one block inserted or removed -/

theorem mem_mid_iff (pre post : List Nat) (x y b : Nat) :
    b ∈ pre ++ x :: y :: post ↔ (b ∈ pre ++ x :: post ∨ b = y) := by
  simp only [List.mem_append, List.mem_cons]
  tauto

theorem nodup_mid (pre post : List Nat) (x y : Nat) (h : (pre ++ x :: y :: post).Nodup) :
    y ∉ pre ++ x :: post ∧ x ≠ y := by
  rw [List.nodup_append] at h
  obtain ⟨n1, n2, n3⟩ := h
  obtain ⟨n4, n5⟩ := List.nodup_cons.1 n2
  obtain ⟨n6, n7⟩ := List.nodup_cons.1 n5
  have hxy : x ≠ y := fun e => n4 (e ▸ List.mem_cons_self _ _)
  refine ⟨?_, hxy⟩
  intro hm
  rcases List.mem_append.1 hm with hm | hm
  · exact n3 hm (List.mem_cons_of_mem _ (List.mem_cons_self _ _))
  · rcases List.mem_cons.1 hm with hm | hm
    · exact hxy hm.symm
    · exact n6 hm

theorem mem_mid_ne (pre post : List Nat) (x y : Nat) (h : (pre ++ x :: y :: post).Nodup)
    (b : Nat) : b ∈ pre ++ x :: post ↔ (b ∈ pre ++ x :: y :: post ∧ b ≠ y) := by
  have hn := nodup_mid pre post x y h
  rw [mem_mid_iff]
  constructor
  · intro hb
    exact ⟨Or.inl hb, fun e => hn.1 (e ▸ hb)⟩
  · rintro ⟨hb | hb, hne⟩
    · exact hb
    · exact absurd hb hne

theorem chain_apart {s : KState} {chain : List Nat} {lim : Nat} (h : PhysInv s chain lim)
    (a b : Nat) (ha : a ∈ chain) (hb : b ∈ chain) :
    a = b ∨ a + 48 + blk_size s.mem a ≤ b ∨ b + 48 + blk_size s.mem b ≤ a :=
  pairwise_trichotomy _ _ (Seg_pairwise _ _ _ _ _ h.seg) a b ha hb

set_option maxHeartbeats 2000000 in
/-- The split of a block of the chain: the new block is inserted after it. -/
theorem split_step {s1 : KState} {lim : Nat} (pre post : List Nat) (bf size : Nat)
    (h : HeapInv s1 (pre ++ bf :: post) lim) (h8 : size % 8 = 0)
    (hsz : size + 96 ≤ blk_size s1.mem bf) :
    PhysInv (split_block s1 size bf) (pre ++ bf :: (bf + 48 + size) :: post) lim ∧
    FL (split_block s1 size bf) (fun b => b ∈ pre ++ bf :: (bf + 48 + size) :: post ∧
      b ≠ bf + 48 + size) ∧
    bf + 48 + size ∉ pre ++ bf :: post ∧
    (∀ b, b ∈ pre ++ bf :: post →
      blk_size (split_block s1 size bf).mem b = (if b = bf then size else blk_size s1.mem b) ∧
      blk_next_free (split_block s1 size bf).mem b = blk_next_free s1.mem b ∧
      blk_prev_free (split_block s1 size bf).mem b = blk_prev_free s1.mem b ∧
      blk_is_free (split_block s1 size bf).mem b = blk_is_free s1.mem b) ∧
    blk_size (split_block s1 size bf).mem (bf + 48 + size) = blk_size s1.mem bf - size - 48 := by
  generalize hnd : bf + 48 + size = nfb
  have hH := h.phys.hdrs
  have hnodup := Seg_nodup _ _ _ _ _ h.phys.seg
  have hbfm : bf ∈ pre ++ bf :: post := by simp
  have hbfb := h.phys.bound bf hbfm
  have hseg := h.phys.seg
  rw [Seg_append] at hseg
  obtain ⟨hs1, x1, x2, x3, x4, x5, x6, hs4⟩ := hseg
  simp only [List.headD_cons] at hs1
  have hnodup1 := hnodup
  rw [List.nodup_append] at hnodup1
  obtain ⟨n1, n2, n3⟩ := hnodup1
  obtain ⟨n4, n5⟩ := List.nodup_cons.1 n2
  have hapart : ∀ b, b ∈ pre ++ bf :: post → b = bf ∨ b + 48 ≤ bf ∨
      bf + 48 + blk_size s1.mem bf ≤ b := by
    intro b hb
    rcases chain_apart h.phys b bf hb hbfm with e | e | e
    · exact Or.inl e
    · right; left; omega
    · right; right; exact e
  have hsepn : ∀ b, b ∈ pre ++ bf :: post → SepH nfb b ∧ b ≠ nfb := by
    intro b hb
    unfold SepH
    rcases hapart b hb with e | e | e
    · subst e; constructor <;> omega
    · constructor <;> omega
    · constructor <;> omega
  have hnfn : nfb ∉ pre ++ bf :: post := fun hm => (hsepn nfb hm).2 rfl
  have hNm : blk_next s1.mem bf ≠ 0 → blk_next s1.mem bf ∈ pre ++ bf :: post := by
    intro h0
    rw [x2] at h0 ⊢
    cases post with
    | nil => exact absurd rfl h0
    | cons c r => simp
  have hfields : ∀ b, b ∈ pre ++ bf :: post ∨ b = nfb → _ := fun b hb =>
    split_block_fields s1 size bf nfb b hnd.symm hsz (by omega)
      (by
        rcases hb with hb | hb
        · exact (hsepn b hb).1
        · rw [hb]; exact SepH_refl _)
      (by
        rcases hb with hb | hb
        · exact hH.sep _ _ hbfm hb
        · rw [hb]; exact SepH_symm (hsepn bf hbfm).1)
      ((hsepn bf hbfm).1)
      (fun h0 => by
        have hm := hNm h0
        refine ⟨?_, SepH_symm (hsepn _ hm).1, hH.sep _ _ hm hbfm, (hsepn _ hm).2⟩
        rcases hb with hb | hb
        · exact hH.sep _ _ hm hb
        · rw [hb]; exact SepH_symm (hsepn _ hm).1)
  have hst := split_block_state s1 size bf
  have hpre_ne : ∀ b, b ∈ pre → b ≠ bf ∧ b ∉ post ∧ b ≠ nfb := fun b hb =>
    ⟨fun e => n3 hb (e ▸ List.mem_cons_self _ _),
     fun hp => n3 hb (List.mem_cons_of_mem _ hp),
     (hsepn b (List.mem_append_left _ hb)).2⟩
  have hpost_ne : ∀ b, b ∈ post → b ≠ bf ∧ b ≠ nfb := fun b hb =>
    ⟨fun e => n4 (e ▸ hb), (hsepn b (List.mem_append_right _ (List.mem_cons_of_mem _ hb))).2⟩
  have hpost0 : ∀ b, b ∈ post → b ≠ 0 := fun b hb e => by
    have := (Seg_bounds _ _ _ _ _ hs4 b hb).1
    rw [e] at this; simp [PMM_RAM_BASE] at this
  refine ⟨⟨?_, ?_, ?_, h.phys.lim_le, by rw [hst.2.2.1]; exact h.phys.bits⟩, ?_, ?_, ?_, ?_⟩
  · rw [Seg_append]
    constructor
    · apply Seg_congr s1.mem _ pre 0 _ _ _ hs1
      intro b hb
      obtain ⟨bx, bp, bn⟩ := hpre_ne b hb
      obtain ⟨g1, g2, g3, _⟩ := hfields b (Or.inl (List.mem_append_left _ hb))
      rw [g1, g2, g3, if_neg bx, if_neg bn, if_neg bx, if_neg bn, if_neg bn]
      refine ⟨rfl, rfl, ?_⟩
      rw [if_neg]
      rintro ⟨q1, q2⟩
      rw [x2] at q1 q2
      cases post with
      | nil => exact q1 rfl
      | cons c r => exact bp (q2 ▸ List.mem_cons_self _ _)
    · obtain ⟨g1, g2, g3, _⟩ := hfields bf (Or.inl hbfm)
      obtain ⟨k1, k2, k3, _⟩ := hfields nfb (Or.inr rfl)
      have hbn : bf ≠ nfb := (hsepn bf hbfm).2
      rw [if_pos rfl] at g1 g2
      rw [if_neg hbn.symm, if_pos rfl] at k1 k2
      refine ⟨?_, ?_, ?_, x4, x5, ?_, ?_, ?_, ?_, ?_, ?_, ?_, ?_⟩
      · rw [g3, if_neg hbn, if_neg]
        · exact x1
        · rintro ⟨q1, q2⟩
          rw [x2] at q1 q2
          cases post with
          | nil => exact q1 rfl
          | cons c r => exact n4 (q2 ▸ List.mem_cons_self _ _)
      · rw [g2]; rfl
      · rw [g1]; simp only [List.headD_cons]; omega
      · rw [g1]; exact h8
      · rw [k3, if_neg, if_pos rfl]
        rintro ⟨q1, q2⟩
        exact hnfn (q2 ▸ hNm q1)
      · rw [k2]; exact x2
      · rw [k1]; omega
      · simp only [PMM_RAM_BASE] at *; omega
      · omega
      · rw [k1]; omega
      · apply Seg_set_first_prev s1.mem _ post bf nfb 0 lim hs4 _ n5
        intro b hb
        obtain ⟨bx, bn⟩ := hpost_ne b hb
        obtain ⟨q1, q2, q3, _⟩ :=
          hfields b (Or.inl (List.mem_append_right _ (List.mem_cons_of_mem _ hb)))
        rw [q1, q2, q3, if_neg bx, if_neg bn, if_neg bx, if_neg bn, if_neg bn, x2]
        refine ⟨rfl, rfl, ?_⟩
        by_cases e : b = post.headD 0
        · rw [if_pos ⟨by rw [← e]; exact hpost0 b hb, e⟩, if_pos e]
        · rw [if_neg (fun g => e g.2), if_neg e]
  · rw [hst.2.1, h.phys.hstart, headD_append, headD_append]
    rfl
  · rw [(hfields bf (Or.inl hbfm)).2.2.2.2.2.2, h.phys.hend, lastD_append, lastD_append, x2]
    show (if post.headD 0 ≠ 0 then lastD post bf else nfb) = lastD post nfb
    cases post with
    | nil => simp [lastD]
    | cons c r =>
      have : c ≠ 0 := hpost0 c (List.mem_cons_self _ _)
      simp only [List.headD_cons, ne_eq, this, not_false_eq_true, if_true]
      rfl
  · have hB : ∀ b, b ∈ pre ++ bf :: post ↔
        (b ∈ pre ++ bf :: nfb :: post ∧ b ≠ nfb) := by
      intro b
      rw [mem_mid_iff]
      constructor
      · intro hb
        exact ⟨Or.inl hb, (hsepn b hb).2⟩
      · rintro ⟨hb | hb, hne⟩
        · exact hb
        · exact absurd hb hne
    have hfl : FLf _ _ _ _ _ := h.fl
    have hfl2 := FLf_set hfl hB
    show FLf _ _ _ _ _
    rw [hst.1]
    apply FLf_congr hfl2
    · intro b hb
      exact (hfields b (Or.inl ((hB b).2 hb))).2.2.2.1 hb.2
    · intro b hb
      exact (hfields b (Or.inl ((hB b).2 hb))).2.2.2.2.1 hb.2
    · intro b hb
      rw [(hfields b (Or.inl ((hB b).2 hb))).2.2.2.2.2.1, if_neg hb.2]
  · exact hnfn
  · intro b hb
    obtain ⟨g1, _, _, g4, g5, g6, _⟩ := hfields b (Or.inl hb)
    have hbn := (hsepn b hb).2
    refine ⟨?_, g4 hbn, g5 hbn, by rw [g6, if_neg hbn]⟩
    rw [g1]
    by_cases e : b = bf
    · rw [if_pos e, if_pos e]
    · rw [if_neg e, if_neg e, if_neg hbn]
  · have hbn : bf ≠ nfb := (hsepn bf hbfm).2
    rw [(hfields nfb (Or.inr rfl)).1, if_neg hbn.symm, if_pos rfl]

/-- Clearing memory that overlaps no header of the chain. -/
theorem memset_inv {s : KState} {chain : List Nat} {lim : Nat} (h : HeapInv s chain lim)
    (p c n : Nat) (hdisj : ∀ b, b ∈ chain → p + n ≤ b ∨ b + 48 ≤ p) :
    HeapInv { s with mem := memset s.mem p c n } chain lim := by
  refine ⟨PhysInv_congr h.phys ?_ rfl rfl rfl, ?_⟩
  · intro b hb
    exact ⟨blk_size_memset _ _ _ _ _ (hdisj b hb), blk_next_memset _ _ _ _ _ (hdisj b hb),
      blk_prev_memset _ _ _ _ _ (hdisj b hb)⟩
  · have hfl : FLf _ _ _ _ _ := h.fl
    exact FLf_congr hfl (fun b hb => blk_next_free_memset _ _ _ _ _ (hdisj b hb))
      (fun b hb => blk_prev_free_memset _ _ _ _ _ (hdisj b hb))
      (fun b hb => blk_is_free_memset _ _ _ _ _ (hdisj b hb))

/-- `add_to_free_list(z)` leaves every other block that is on no list on no
list. -/
theorem add_to_free_list_detached {s : KState} {chain : List Nat} {lim : Nat}
    (hp : PhysInv s chain lim) (z : Nat) (hz : z ∈ chain)
    (hhead : s.free_list_head ≠ 0 → s.free_list_head ∈ chain ∧ s.free_list_head ≠ z)
    (y : Nat) (hy : y ∈ chain) (hyz : y ≠ z) (hd : Detached s y) :
    Detached (add_to_free_list s z) y := by
  have hH := hp.hdrs
  have hzh : z ≠ s.free_list_head := by
    intro e
    by_cases h0 : s.free_list_head = 0
    · rw [h0] at e; rw [e] at hz; exact not_mem_zero hp hz
    · exact (hhead h0).2 e.symm
  have hh64 : s.free_list_head < 2 ^ 64 := by
    by_cases h0 : s.free_list_head = 0
    · rw [h0]; norm_num
    · have := (hH.pos _ (hhead h0).1).2
      omega
  obtain ⟨_, _, _, g4, g5, _⟩ := add_to_free_list_fields s z y (hH.sep z y hz hy)
    (fun h0 => hH.sep _ _ (hhead h0).1 hy) hzh (by have := (hH.pos z hz).2; omega) hh64
  refine ⟨?_, ?_, ?_⟩
  · show y ≠ z
    exact hyz
  · rw [g4, if_neg hyz]; exact hd.2.1
  · rw [g5, if_neg hyz, if_neg]
    · exact hd.2.2
    · rintro ⟨_, e⟩; exact hd.1 e

/-- The part of `kmalloc` that takes the block found by the first-fit walk. -/
theorem kmalloc_take_inv {s : KState} {chain : List Nat} {lim : Nat}
    (h : HeapInv s chain lim) (size bf : Nat) (hbf : bf ∈ chain) (h8 : size % 8 = 0)
    (hsz : size ≤ blk_size s.mem bf) :
    ∃ chain2, HeapInv (kmalloc_take s size bf).2 chain2 lim ∧
      (kmalloc_take s size bf).1 = bf + 48 ∧ bf ∈ chain2 ∧
      blk_is_free (kmalloc_take s size bf).2.mem bf = false ∧
      size ≤ blk_size (kmalloc_take s size bf).2.mem bf ∧
      (∀ b, b ∈ chain → blk_is_free s.mem b = false →
        b ∈ chain2 ∧ blk_is_free (kmalloc_take s size bf).2.mem b = false) := by
  have hbnd := h.phys.bound bf hbf
  obtain ⟨r1, r2, r3, r4⟩ := remove_from_free_list_inv h bf hbf
  have hsize1 : blk_size (remove_from_free_list s bf).mem bf = blk_size s.mem bf := (r4 bf hbf).1
  have hu1 : u64 (bf + HEAP_HEADER_SIZE) = bf + 48 := by unfold u64 HEAP_HEADER_SIZE; omega
  have hu2 : u64 (size + HEAP_MIN_BLOCK_SIZE) = size + 96 := by
    unfold u64 HEAP_MIN_BLOCK_SIZE HEAP_HEADER_SIZE; omega
  have hu3 : u64 (bf + HEAP_HEADER_SIZE + size) = bf + 48 + size := by
    unfold u64 HEAP_HEADER_SIZE; omega
  rw [kmalloc_take_eq, hu1, hu2, hu3, hsize1]
  -- the state before the flag is cleared
  have hmid : ∃ chain2 s2,
      (if blk_size s.mem bf ≥ size + 96 then
        add_to_free_list (split_block (remove_from_free_list s bf) size bf) (bf + 48 + size)
      else remove_from_free_list s bf) = s2 ∧
      HeapInv s2 chain2 lim ∧ bf ∈ chain2 ∧ Detached s2 bf ∧
      size ≤ blk_size s2.mem bf ∧ blk_size s2.mem bf ≤ blk_size s.mem bf ∧
      (∀ b, b ∈ chain → b ∈ chain2) ∧
      (∀ b, b ∈ chain → b ≠ bf → blk_is_free s2.mem b = blk_is_free s.mem b) := by
    by_cases hc : blk_size s.mem bf ≥ size + 96
    · rw [if_pos hc]
      obtain ⟨pre, post, hch⟩ := List.append_of_mem hbf
      subst hch
      obtain ⟨p1, p2, p3, p4, p5⟩ := split_step pre post bf size r1 h8 (by rw [hsize1]; exact hc)
      have hnm : bf + 48 + size ∈ pre ++ bf :: (bf + 48 + size) :: post := by simp
      obtain ⟨a1, a2, a3⟩ := add_to_free_list_inv p1 _ hnm p2
      have hsub : ∀ b, b ∈ pre ++ bf :: post → b ∈ pre ++ bf :: (bf + 48 + size) :: post ∧
          b ≠ bf + 48 + size := fun b hb =>
        ⟨(mem_mid_iff _ _ _ _ _).2 (Or.inl hb), fun e => p3 (e ▸ hb)⟩
      have hst := split_block_state (remove_from_free_list s bf) size bf
      have hd2 : Detached (split_block (remove_from_free_list s bf) size bf) bf := by
        refine ⟨by rw [hst.1]; exact r2.1, ?_, ?_⟩
        · rw [(p4 bf hbf).2.1]; exact r2.2.1
        · rw [(p4 bf hbf).2.2.1]; exact r2.2.2
      have hfl2 : FLf _ _ _ _ _ := p2
      have hd3 := add_to_free_list_detached p1 _ hnm
        (fun h0 => (hfl2.head_ok h0).1) bf (hsub bf hbf).1 (hsub bf hbf).2 hd2
      refine ⟨_, _, rfl, a1, (hsub bf hbf).1, hd3, ?_, ?_, fun b hb => (hsub b hb).1, ?_⟩
      · rw [(a3 bf (hsub bf hbf).1).1, (p4 bf hbf).1, if_pos rfl]
      · rw [(a3 bf (hsub bf hbf).1).1, (p4 bf hbf).1, if_pos rfl]; exact hsz
      · intro b hb hne
        rw [(a3 b (hsub b hb).1).2.2.2, if_neg (hsub b hb).2, (p4 b hb).2.2.2,
          (r4 b hb).2.2.2, if_neg hne]
    · rw [if_neg hc]
      refine ⟨chain, _, rfl, r1, hbf, r2, ?_, ?_, fun b hb => hb, ?_⟩
      · rw [hsize1]; exact hsz
      · rw [hsize1]
      · intro b hb hne
        rw [(r4 b hb).2.2.2, if_neg hne]
  obtain ⟨chain2, s2, hs2, m1, m2, m3, m4, m5, m6, m7⟩ := hmid
  rw [hs2]
  have hH := m1.phys.hdrs
  have f1 := set_is_free_inv m1 bf m2 false (fun _ => m3)
  have hsz2 : blk_size (set_is_free s2.mem bf false) bf = blk_size s2.mem bf :=
    blk_size_set_is_free _ _ _ _ (SepH_refl bf)
  rw [hsz2]
  have f2 := memset_inv f1 (bf + 48) 0 (blk_size s2.mem bf) (by
    intro b hb
    rcases chain_apart m1.phys bf b m2 hb with e | e | e
    · right; omega
    · left; omega
    · right; omega)
  have hflag : ∀ b, b ∈ chain2 →
      blk_is_free (memset (set_is_free s2.mem bf false) (bf + 48) 0 (blk_size s2.mem bf)) b
        = (if b = bf then false else blk_is_free s2.mem b) := by
    intro b hb
    rw [blk_is_free_memset, blk_is_free_set_is_free]
    rcases chain_apart m1.phys bf b m2 hb with e | e | e
    · right; omega
    · left; omega
    · right; omega
  refine ⟨chain2, f2, rfl, m2, ?_, ?_, ?_⟩
  · show blk_is_free (memset _ _ _ _) bf = false
    rw [hflag bf m2, if_pos rfl]
  · show size ≤ blk_size (memset _ _ _ _) bf
    rw [blk_size_memset _ _ _ _ _ (by right; omega), hsz2]
    exact m4
  · intro b hb hf
    refine ⟨m6 b hb, ?_⟩
    show blk_is_free (memset _ _ _ _) b = false
    rw [hflag b (m6 b hb)]
    by_cases e : b = bf
    · rw [if_pos e]
    · rw [if_neg e, m7 b hb e]; exact hf

theorem kmalloc_eq (fuel : Nat) (s : KState) (n : Nat) :
    kmalloc fuel s n =
      if n = 0 then some (0, s)
      else
        match first_fit s.mem (round_size n) fuel s.free_list_head with
        | none => none
        | some best_fit =>
          if best_fit = 0 then
            if !(expand_heap s (u64 (round_size n + HEAP_HEADER_SIZE))).1 then
              some (0, (expand_heap s (u64 (round_size n + HEAP_HEADER_SIZE))).2)
            else
              match first_fit (expand_heap s (u64 (round_size n + HEAP_HEADER_SIZE))).2.mem
                  (round_size n) fuel
                  (expand_heap s (u64 (round_size n + HEAP_HEADER_SIZE))).2.free_list_head with
              | none => none
              | some best_fit =>
                if best_fit = 0 then
                  some (0, (expand_heap s (u64 (round_size n + HEAP_HEADER_SIZE))).2)
                else some (kmalloc_take (expand_heap s (u64 (round_size n + HEAP_HEADER_SIZE))).2
                  (round_size n) best_fit)
          else some (kmalloc_take s (round_size n) best_fit) := rfl

/-- `kmalloc` keeps the heap invariant.  A non-null result is the payload
address of a block of the chain that is not flagged free and whose payload
size is at least the rounded request; every block that was not flagged free
stays in the chain, still not flagged free. -/
theorem kmalloc_inv {s : KState} {chain : List Nat} {lim : Nat} (h : HeapInv s chain lim)
    (fuel n p : Nat) (s2 : KState) (hk : kmalloc fuel s n = some (p, s2)) :
    ∃ chain2 lim2, HeapInv s2 chain2 lim2 ∧
      (p ≠ 0 → 48 ≤ p ∧ p - 48 ∈ chain2 ∧ blk_is_free s2.mem (p - 48) = false ∧
        round_size n ≤ blk_size s2.mem (p - 48)) ∧
      (∀ b, b ∈ chain → blk_is_free s.mem b = false →
        b ∈ chain2 ∧ blk_is_free s2.mem b = false) := by
  have hfl : FLf _ _ _ _ _ := h.fl
  have hr8 := (round_size_spec n).1
  rw [kmalloc_eq] at hk
  by_cases hn : n = 0
  · rw [if_pos hn] at hk
    obtain ⟨e1, e2⟩ := Prod.mk.inj (Option.some.inj hk)
    subst e1; subst e2
    exact ⟨chain, lim, h, fun h0 => absurd rfl h0, fun b hb hf => ⟨hb, hf⟩⟩
  rw [if_neg hn] at hk
  have htake : ∀ (t : KState) (c : List Nat) (l : Nat) (bf : Nat), HeapInv t c l → bf ∈ c →
      round_size n ≤ blk_size t.mem bf →
      (∀ b, b ∈ chain → blk_is_free s.mem b = false → b ∈ c ∧ blk_is_free t.mem b = false) →
      some (kmalloc_take t (round_size n) bf) = some (p, s2) →
      ∃ chain2 lim2, HeapInv s2 chain2 lim2 ∧
        (p ≠ 0 → 48 ≤ p ∧ p - 48 ∈ chain2 ∧ blk_is_free s2.mem (p - 48) = false ∧
          round_size n ≤ blk_size s2.mem (p - 48)) ∧
        (∀ b, b ∈ chain → blk_is_free s.mem b = false →
          b ∈ chain2 ∧ blk_is_free s2.mem b = false) := by
    intro t c l bf ht hbf hsz hkeep heq
    obtain ⟨chain2, k1, k2, k3, k4, k5, k6⟩ := kmalloc_take_inv ht (round_size n) bf hbf hr8 hsz
    have heq2 := Option.some.inj heq
    have e1 : p = bf + 48 := by rw [← k2, heq2]
    have e2 : s2 = (kmalloc_take t (round_size n) bf).2 := by rw [heq2]
    subst e2
    refine ⟨chain2, l, k1, ?_, ?_⟩
    · intro _
      have e3 : p - 48 = bf := by omega
      rw [e3]
      exact ⟨by omega, k3, k4, k5⟩
    · intro b hb hf
      obtain ⟨q1, q2⟩ := hkeep b hb hf
      exact k6 b q1 q2
  cases hff : first_fit s.mem (round_size n) fuel s.free_list_head with
  | none => rw [hff] at hk; exact absurd hk (by simp)
  | some bf =>
    rw [hff] at hk
    simp only at hk
    by_cases hbf0 : bf = 0
    · rw [if_pos hbf0] at hk
      obtain ⟨c1, l1, x1, x2⟩ := expand_heap_inv h (u64 (round_size n + HEAP_HEADER_SIZE))
      generalize expand_heap s (u64 (round_size n + HEAP_HEADER_SIZE)) = r at *
      by_cases hok : (!r.1) = true
      · rw [if_pos hok] at hk
        obtain ⟨e1, e2⟩ := Prod.mk.inj (Option.some.inj hk)
        subst e1; subst e2
        exact ⟨c1, l1, x1, fun h0 => absurd rfl h0, x2⟩
      · rw [if_neg hok] at hk
        have hfl1 : FLf _ _ _ _ _ := x1.fl
        cases hff2 : first_fit r.2.mem (round_size n) fuel r.2.free_list_head with
        | none => rw [hff2] at hk; exact absurd hk (by simp)
        | some bf2 =>
          rw [hff2] at hk
          simp only at hk
          by_cases hbf2 : bf2 = 0
          · rw [if_pos hbf2] at hk
            obtain ⟨e1, e2⟩ := Prod.mk.inj (Option.some.inj hk)
            subst e1; subst e2
            exact ⟨c1, l1, x1, fun h0 => absurd rfl h0, x2⟩
          · rw [if_neg hbf2] at hk
            obtain ⟨y1, y2⟩ := first_fit_spec x1 (round_size n) fuel _ bf2
              (fun h0 => (hfl1.head_ok h0).1) hff2 hbf2
            exact htake r.2 c1 l1 bf2 x1 y1 y2 x2 hk
    · rw [if_neg hbf0] at hk
      obtain ⟨y1, y2⟩ := first_fit_spec h (round_size n) fuel _ bf
        (fun h0 => (hfl.head_ok h0).1) hff hbf0
      exact htake s chain lim bf h y1 y2 (fun b hb hf => ⟨hb, hf⟩) hk

theorem kheap_init_inv (s : KState) : ∃ chain lim, HeapInv (kheap_init s) chain lim := by
  have h0 : HeapInv { s with free_list_head := 0, heap_start := 0, heap_end := 0 } [] 0 := by
    refine ⟨⟨trivial, rfl, rfl, Nat.zero_le _, ?_⟩, ⟨?_, ?_, ?_, ?_⟩⟩
    · intro i _ hlt; omega
    · intro h; exact absurd rfl h
    · intro b hb; simp at hb
    · intro b hb; simp at hb
    · intro b hb; simp at hb
  obtain ⟨c, l, h1, _⟩ := expand_heap_inv h0 (PAGE_SIZE * 4)
  exact ⟨c, l, h1⟩

/-- Every reachable heap state satisfies the heap invariant, and its live
pointers are payload addresses of blocks that are not flagged free. -/
theorem reach_inv {s0 s : KState} {live : List Nat} (h : Reach s0 s live) : ReachInv s live := by
  induction h with
  | init =>
    obtain ⟨c, l, h1⟩ := kheap_init_inv s0
    exact ⟨c, l, h1, fun p hp => by simp at hp⟩
  | malloc s live fuel size ptr s2 _ hk ih =>
    obtain ⟨c, l, h1, h2⟩ := ih
    obtain ⟨c2, l2, k1, k2, k3⟩ := kmalloc_inv h1 fuel size ptr s2 hk
    refine ⟨c2, l2, k1, ?_⟩
    intro p hp
    by_cases h0 : ptr = 0
    · rw [if_pos h0] at hp
      obtain ⟨a1, a2, a3⟩ := h2 p hp
      exact ⟨a1, k3 _ a2 a3⟩
    · rw [if_neg h0] at hp
      rcases List.mem_cons.1 hp with hp | hp
      · subst hp
        obtain ⟨b1, b2, b3, _⟩ := k2 h0
        exact ⟨b1, b2, b3⟩
      · obtain ⟨a1, a2, a3⟩ := h2 p hp
        exact ⟨a1, k3 _ a2 a3⟩
  | free s live ptr _ hp ih =>
    obtain ⟨c, l, h1, h2⟩ := ih
    have hsub : ptr ≠ 0 → sub64 ptr HEAP_HEADER_SIZE = ptr - 48 ∧ ptr ∈ live := by
      intro h0
      rcases hp with hp | hp
      · exact absurd hp h0
      · obtain ⟨a1, a2, _⟩ := h2 ptr hp
        have := h1.phys.bound _ a2
        refine ⟨?_, hp⟩
        unfold sub64 HEAP_HEADER_SIZE
        omega
    obtain ⟨c2, k1, k2, k3⟩ := kfree_inv h1 ptr (fun h0 => by
      rw [(hsub h0).1]; exact (h2 ptr (hsub h0).2).2.1)
    refine ⟨c2, l, k1, ?_⟩
    intro p hpm
    obtain ⟨hpl, hne⟩ := List.mem_filter.1 hpm
    have hne2 : p ≠ ptr := by simpa using hne
    obtain ⟨a1, a2, a3⟩ := h2 p hpl
    refine ⟨a1, k3 _ a2 ?_ a3⟩
    by_cases h0 : ptr = 0
    · rw [h0]
      intro e
      have : sub64 0 HEAP_HEADER_SIZE = 18446744073709551568 := by decide
      rw [this] at e
      have := h1.phys.bound _ a2
      omega
    · rw [(hsub h0).1]
      have := (h2 ptr (hsub h0).2).1
      omega
  | rejected s live ptr _ hf ih =>
    have e : kfree s ptr = s := by
      unfold kfree
      by_cases h0 : ptr = 0
      · rw [if_pos h0]
      · rw [if_neg h0]
        simp only
        rw [if_pos hf]
    rw [e]
    exact ih
  | fill s live ptr q c n _ hp hq hn ih =>
    obtain ⟨chain, l, h1, h2⟩ := ih
    obtain ⟨a1, a2, a3⟩ := h2 ptr hp
    have hdisj : ∀ b, b ∈ chain → q + n ≤ b ∨ b + 48 ≤ q := by
      intro b hb
      rcases chain_apart h1.phys (ptr - 48) b a2 hb with e | e | e
      · right; omega
      · left; omega
      · right; omega
    refine ⟨chain, l, memset_inv h1 q c n hdisj, ?_⟩
    intro p hpl
    obtain ⟨b1, b2, b3⟩ := h2 p hpl
    refine ⟨b1, b2, ?_⟩
    show blk_is_free (memset s.mem q c n) (p - 48) = false
    rw [blk_is_free_memset _ _ _ _ _ (hdisj _ b2)]
    exact b3

/-! ## Walks over the physical chain and the free list -/

theorem walk_next_zero (m : Nat → Nat) (fuel : Nat) : walk_next m fuel 0 = [] := by
  cases fuel <;> rfl

theorem walk_prev_zero (m : Nat → Nat) (fuel : Nat) : walk_prev m fuel 0 = [] := by
  cases fuel <;> rfl

theorem walk_next_seg (m : Nat → Nat) (c : List Nat) (p e fuel : Nat) (hs : Seg m p c 0 e) :
    walk_next m fuel (c.headD 0) = c.take fuel := by
  induction c generalizing p fuel with
  | nil => rw [List.take_nil]; exact walk_next_zero m fuel
  | cons b rest ih =>
    obtain ⟨_, h2, _, h4, _, _, h7⟩ := hs
    cases fuel with
    | zero => rfl
    | succ f =>
      have hb : b ≠ 0 := by unfold PMM_RAM_BASE at h4; omega
      show (if b = 0 then [] else b :: walk_next m f (blk_next m b)) = b :: rest.take f
      rw [if_neg hb, h2, ih b f h7]

theorem walk_prev_seg (m : Nat → Nat) (c : List Nat) (nx e fuel : Nat) (hs : Seg m 0 c nx e)
    (hf : c.length ≤ fuel) : walk_prev m fuel (lastD c 0) = c.reverse := by
  induction c using List.reverseRecOn generalizing nx e fuel with
  | nil => exact walk_prev_zero m fuel
  | append_singleton l b ih =>
    obtain ⟨h1, h2⟩ := (Seg_append m l [b] 0 nx e).1 hs
    obtain ⟨g1, _, _, g4, _⟩ := h2
    have hb : b ≠ 0 := by unfold PMM_RAM_BASE at g4; omega
    rw [List.length_append] at hf
    cases fuel with
    | zero => simp at hf
    | succ f =>
      have hl : lastD (l ++ [b]) 0 = b := by rw [lastD_append]; rfl
      rw [hl, List.reverse_append]
      show (if b = 0 then [] else b :: walk_prev m f (blk_prev m b)) = b :: l.reverse
      rw [if_neg hb, g1, ih _ _ f h1 (by simp at hf; omega)]

theorem walk_free_mem {nf pf : Nat → Nat} {isf : Nat → Bool} {head : Nat} {B : Nat → Prop}
    (m : Nat → Nat) (hnf : nf = blk_next_free m) (h : FLf nf pf isf head B) (fuel : Nat) :
    ∀ c, (c ≠ 0 → B c) → ∀ b, b ∈ walk_free m fuel c → B b := by
  induction fuel with
  | zero => intro c _ b hb; simp [walk_free] at hb
  | succ f ih =>
    intro c hc b hb
    by_cases h0 : c = 0
    · simp [walk_free, h0] at hb
    · have hb2 : b ∈ c :: walk_free m f (blk_next_free m c) := by
        simpa [walk_free, h0] using hb
      rcases List.mem_cons.1 hb2 with e | hm
      · rw [e]; exact hc h0
      · refine ih _ ?_ b hm
        intro hne
        have := h.nf_ok c (hc h0) (by rw [hnf]; exact hne)
        rw [hnf] at this
        exact this.1

/-- With the bitmap held apart from RAM: in every heap state reachable from
`kheap_init` by `kmalloc` and `kfree` calls, every block address and every
block payload size is a multiple of 8, for the blocks of the physical chain
and of the free list alike, and every pointer returned by `kmalloc`, live or
returned by the next call, is 8-byte aligned. -/
theorem reach_blocks_aligned {s0 s : KState} {live : List Nat}
    (hr : Reach s0 s live) :
    (∀ fuel b, b ∈ walk_next s.mem fuel s.heap_start → b % 8 = 0 ∧ blk_size s.mem b % 8 = 0) ∧
    (∀ fuel b, b ∈ walk_free s.mem fuel s.free_list_head →
      b % 8 = 0 ∧ blk_size s.mem b % 8 = 0) ∧
    (∀ p, p ∈ live → p % 8 = 0) ∧
    (∀ fuel n p s2, kmalloc fuel s n = some (p, s2) → p % 8 = 0) := by
  obtain ⟨chain, lim, h1, h2⟩ := reach_inv hr
  refine ⟨?_, ?_, ?_, ?_⟩
  · intro fuel b hb
    rw [h1.phys.hstart, walk_next_seg _ _ _ _ fuel h1.phys.seg] at hb
    obtain ⟨_, a2, a3, _⟩ := h1.phys.bound b (List.mem_of_mem_take hb)
    exact ⟨a2, a3⟩
  · intro fuel b hb
    have hfl : FLf _ _ _ _ _ := h1.fl
    have hm := walk_free_mem s.mem rfl hfl fuel s.free_list_head
      (fun h0 => (hfl.head_ok h0).1) b hb
    obtain ⟨_, a2, a3, _⟩ := h1.phys.bound b hm
    exact ⟨a2, a3⟩
  · intro p hp
    obtain ⟨a1, a2, _⟩ := h2 p hp
    obtain ⟨_, b2, _⟩ := h1.phys.bound _ a2
    omega
  · intro fuel n p s2 hk
    obtain ⟨c2, l2, k1, k2, _⟩ := kmalloc_inv h1 fuel n p s2 hk
    by_cases h0 : p = 0
    · rw [h0]
    · obtain ⟨a1, a2, _⟩ := k2 h0
      obtain ⟨_, b2, _⟩ := k1.phys.bound _ a2
      omega

theorem lastD_eq_reverse_headD (l : List Nat) (d : Nat) : lastD l d = l.reverse.headD d := by
  induction l using List.reverseRecOn with
  | nil => rfl
  | append_singleton l b _ =>
    rw [lastD_append, List.reverse_append]
    rfl

/-- With the bitmap held apart from RAM: in every heap state reachable from
`kheap_init` by `kmalloc` calls and `kfree` calls on live pointers there is a
finite sequence of blocks, starting with `heap_start` and ending with
`heap_end`, such that, with enough fuel, following `next` from `heap_start`
visits exactly that sequence and stops at a null `next`, and following `prev`
from `heap_end` visits exactly the reversed sequence and stops at a null
`prev`; `heap_start` and `heap_end` are both null exactly when the sequence is
empty, and otherwise `heap_start->prev` and `heap_end->next` are null. -/
theorem reach_walks_mirror {s0 s : KState} {live : List Nat} (hr : Reach s0 s live) :
    ∃ chain : List Nat,
      chain.headD 0 = s.heap_start ∧ chain.reverse.headD 0 = s.heap_end ∧
      (∀ fuel, chain.length ≤ fuel →
        walk_next s.mem fuel s.heap_start = chain ∧
        walk_prev s.mem fuel s.heap_end = chain.reverse) ∧
      (chain = [] → s.heap_start = 0 ∧ s.heap_end = 0) ∧
      (chain ≠ [] → s.heap_start ≠ 0 ∧ s.heap_end ≠ 0 ∧
        blk_prev s.mem s.heap_start = 0 ∧ blk_next s.mem s.heap_end = 0) := by
  obtain ⟨chain, lim, h1, _⟩ := reach_inv hr
  refine ⟨chain, h1.phys.hstart.symm, ?_, ?_, ?_, ?_⟩
  · rw [← lastD_eq_reverse_headD]; exact h1.phys.hend.symm
  · intro fuel hf
    constructor
    · rw [h1.phys.hstart, walk_next_seg _ _ _ _ fuel h1.phys.seg, List.take_of_length_le hf]
    · rw [h1.phys.hend]
      exact walk_prev_seg _ _ _ _ fuel h1.phys.seg hf
  · intro hc
    rw [h1.phys.hstart, h1.phys.hend, hc]
    exact ⟨rfl, rfl⟩
  · intro hc
    have hseg := h1.phys.seg
    have hs := h1.phys.hstart
    have he := h1.phys.hend
    have hl := lastD_mem chain 0 hc
    have hlb := (h1.phys.bound _ hl).1
    obtain ⟨l, b, e⟩ : ∃ l b, chain = l ++ [b] := by
      rcases List.eq_nil_or_concat chain with h | ⟨l, b, h⟩
      · exact absurd h hc
      · exact ⟨l, b, by rw [h]; simp⟩
    have hlast : lastD chain 0 = b := by rw [e, lastD_append]; rfl
    have hnext : blk_next s.mem b = 0 := by
      rw [e] at hseg
      exact ((Seg_append _ l [b] 0 0 lim).1 hseg).2.2.1
    cases hch : chain with
    | nil => exact absurd hch hc
    | cons a rest =>
      rw [hch] at hseg hs
      have ha := (h1.phys.bound a (by rw [hch]; exact List.mem_cons_self _ _)).1
      have hs2 : s.heap_start = a := hs
      refine ⟨by omega, by omega, ?_, ?_⟩
      · rw [hs2]; exact hseg.1
      · rw [he, hlast]; exact hnext

/-! ## The state after `frame_alloc_init` on the `virt` layout -/

theorem KState.ext_fields (s t : KState) (h1 : s.frame_bitmap = t.frame_bitmap)
    (h2 : s.total_memory = t.total_memory) (h3 : s.free_memory = t.free_memory)
    (h4 : s.highest_usable_address = t.highest_usable_address) (h5 : s.mem = t.mem)
    (h6 : s.free_list_head = t.free_list_head) (h7 : s.heap_start = t.heap_start)
    (h8 : s.heap_end = t.heap_end) : s = t := by
  cases s; cases t
  simp only at h1 h2 h3 h4 h5 h6 h7 h8
  subst h1 h2 h3 h4 h5 h6 h7 h8
  rfl

theorem byte_ext (a b : Nat) (ha : a < 256) (hb : b < 256)
    (h : ∀ j, j < 8 → a.testBit j = b.testBit j) : a = b := by
  apply Nat.eq_of_testBit_eq
  intro j
  by_cases hj : j < 8
  · exact h j hj
  · have h2 : 256 ≤ 2 ^ j := by
      have : 2 ^ 8 ≤ 2 ^ j := Nat.pow_le_pow_right (by decide) (by omega)
      simpa using this
    rw [Nat.testBit_eq_false_of_lt (by omega), Nat.testBit_eq_false_of_lt (by omega)]

theorem bitmap_byte_ext (bm bm2 : Nat → Nat) (k : Nat) (ha : bm k < 256) (hb : bm2 k < 256)
    (h : ∀ j, j < 8 → test_bit bm (8 * k + j) = test_bit bm2 (8 * k + j)) : bm k = bm2 k := by
  apply byte_ext _ _ ha hb
  intro j hj
  have := h j hj
  rw [test_bit_eq, test_bit_eq] at this
  have e1 : (8 * k + j) / 8 = k := by omega
  have e2 : (8 * k + j) % 8 = j := by omega
  rw [e1, e2] at this
  exact this

/-- The free loop over frames whose bits are all set adds one page per frame
to both counters and raises `highest_usable_address` to the end of the last
frame; values outside the bitmap are untouched. -/
theorem mark_free_loop_all_set (n i : Nat) (s : KState)
    (hset : ∀ j, i ≤ j → j < i + n → test_bit s.frame_bitmap j = true)
    (ht : s.total_memory + n * PAGE_SIZE < 2 ^ 64)
    (hf : s.free_memory + n * PAGE_SIZE < 2 ^ 64)
    (hh : s.highest_usable_address ≤ PMM_RAM_BASE + i * PAGE_SIZE)
    (hb : PMM_RAM_BASE + (i + n) * PAGE_SIZE < 2 ^ 64) :
    (mark_free_loop n i s).total_memory = s.total_memory + n * PAGE_SIZE ∧
    (mark_free_loop n i s).free_memory = s.free_memory + n * PAGE_SIZE ∧
    (mark_free_loop n i s).highest_usable_address =
      (if n = 0 then s.highest_usable_address else PMM_RAM_BASE + (i + n) * PAGE_SIZE) ∧
    (mark_free_loop n i s).mem = s.mem ∧
    (mark_free_loop n i s).free_list_head = s.free_list_head ∧
    (mark_free_loop n i s).heap_start = s.heap_start ∧
    (mark_free_loop n i s).heap_end = s.heap_end := by
  induction n generalizing i s with
  | zero => exact ⟨by simp [mark_free_loop], by simp [mark_free_loop], rfl, rfl, rfl, rfl, rfl⟩
  | succ n ih =>
    have hi := hset i (Nat.le_refl _) (by omega)
    simp only [PAGE_SIZE, PMM_RAM_BASE] at ht hf hh hb
    have e1 : u64 (s.total_memory + PAGE_SIZE) = s.total_memory + 4096 := by
      simp only [u64, PAGE_SIZE]; omega
    have e2 : u64 (s.free_memory + PAGE_SIZE) = s.free_memory + 4096 := by
      simp only [u64, PAGE_SIZE]; omega
    have e3 : u64 (PMM_RAM_BASE + (i + 1) * PAGE_SIZE) = 1073741824 + (i + 1) * 4096 := by
      simp only [u64, PAGE_SIZE, PMM_RAM_BASE]; omega
    have e4 : 1073741824 + (i + 1) * 4096 > s.highest_usable_address := by omega
    simp only [mark_free_loop, hi, if_true, e1, e2, e3, if_pos e4]
    obtain ⟨r1, r2, r3, r4, r5, r6, r7⟩ := ih (i + 1)
      { s with
        total_memory := s.total_memory + 4096
        free_memory := s.free_memory + 4096
        highest_usable_address := 1073741824 + (i + 1) * 4096
        frame_bitmap := clear_bit s.frame_bitmap i }
      (by
        intro j h1 h2
        show test_bit (clear_bit s.frame_bitmap i) j = true
        rw [test_bit_clear_bit, hset j (by omega) (by omega)]
        have : j ≠ i := by omega
        simp [this])
      (by simp only [PAGE_SIZE]; omega) (by simp only [PAGE_SIZE]; omega)
      (by simp only [PAGE_SIZE, PMM_RAM_BASE]; omega)
      (by simp only [PAGE_SIZE, PMM_RAM_BASE]; omega)
    refine ⟨?_, ?_, ?_, r4, r5, r6, r7⟩
    · rw [r1]; simp only [PAGE_SIZE]; omega
    · rw [r2]; simp only [PAGE_SIZE]; omega
    · rw [r3]
      simp only [PAGE_SIZE, PMM_RAM_BASE]
      have hn1 : n + 1 ≠ 0 := by omega
      rw [if_neg hn1]
      by_cases hn : n = 0
      · rw [if_pos hn, hn]
      · rw [if_neg hn]; omega

/-- The used loop over frames whose bits are all clear takes one page per
frame from both counters. -/
theorem mark_used_loop_all_clear (n i : Nat) (s : KState)
    (hclr : ∀ j, i ≤ j → j < i + n → test_bit s.frame_bitmap j = false)
    (ht : n * PAGE_SIZE ≤ s.total_memory) (hf : n * PAGE_SIZE ≤ s.free_memory) :
    (mark_used_loop n i s).total_memory = s.total_memory - n * PAGE_SIZE ∧
    (mark_used_loop n i s).free_memory = s.free_memory - n * PAGE_SIZE ∧
    (mark_used_loop n i s).highest_usable_address = s.highest_usable_address ∧
    (mark_used_loop n i s).mem = s.mem ∧
    (mark_used_loop n i s).free_list_head = s.free_list_head ∧
    (mark_used_loop n i s).heap_start = s.heap_start ∧
    (mark_used_loop n i s).heap_end = s.heap_end := by
  induction n generalizing i s with
  | zero => exact ⟨by simp [mark_used_loop], by simp [mark_used_loop], rfl, rfl, rfl, rfl, rfl⟩
  | succ n ih =>
    have hi := hclr i (Nat.le_refl _) (by omega)
    simp only [PAGE_SIZE] at ht hf
    have e1 : s.total_memory ≥ PAGE_SIZE := by simp only [PAGE_SIZE]; omega
    have e2 : s.free_memory ≥ PAGE_SIZE := by simp only [PAGE_SIZE]; omega
    simp only [mark_used_loop, hi, Bool.not_false, if_true, if_pos e1, if_pos e2]
    obtain ⟨r1, r2, r3, r4, r5, r6, r7⟩ := ih (i + 1)
      { s with
        frame_bitmap := set_bit s.frame_bitmap i
        total_memory := s.total_memory - PAGE_SIZE
        free_memory := s.free_memory - PAGE_SIZE }
      (by
        intro j h1 h2
        show test_bit (set_bit s.frame_bitmap i) j = false
        rw [test_bit_set_bit, hclr j (by omega) (by omega)]
        have : j ≠ i := by omega
        simp [this])
      (by simp only [PAGE_SIZE]; omega) (by simp only [PAGE_SIZE]; omega)
    refine ⟨?_, ?_, r3, r4, r5, r6, r7⟩
    · rw [r1]; simp only [PAGE_SIZE]; omega
    · rw [r2]; simp only [PAGE_SIZE]; omega

/-- The used loop over frames whose bits are all set changes nothing. -/
theorem mark_used_loop_all_set (n i : Nat) (s : KState)
    (hset : ∀ j, i ≤ j → j < i + n → test_bit s.frame_bitmap j = true) :
    mark_used_loop n i s = s := by
  induction n generalizing i with
  | zero => rfl
  | succ n ih =>
    have hi := hset i (Nat.le_refl _) (by omega)
    simp only [mark_used_loop, hi, Bool.not_true]
    exact ih (i + 1) (fun j h1 h2 => hset j (by omega) (by omega))

theorem mark_free_loop_byte (n i : Nat) (s : KState) (k : Nat) :
    (mark_free_loop n i s).frame_bitmap k < 256 ∨
      (mark_free_loop n i s).frame_bitmap k = s.frame_bitmap k := by
  induction n generalizing i s with
  | zero => right; rfl
  | succ n ih =>
    simp only [mark_free_loop]
    rcases ih (i + 1) _ with h | h
    · left; exact h
    · rw [h]
      show clear_bit _ i k < 256 ∨ clear_bit _ i k = s.frame_bitmap k
      unfold clear_bit
      by_cases hk : k = i / 8
      · left; rw [if_pos hk]; exact Nat.mod_lt _ (by decide)
      · right; rw [if_neg hk]; split <;> rfl

theorem mark_used_loop_byte (n i : Nat) (s : KState) (k : Nat) :
    (mark_used_loop n i s).frame_bitmap k < 256 ∨
      (mark_used_loop n i s).frame_bitmap k = s.frame_bitmap k := by
  induction n generalizing i s with
  | zero => right; rfl
  | succ n ih =>
    simp only [mark_used_loop]
    rcases ih (i + 1) _ with h | h
    · left; exact h
    · rw [h]
      split
      · show set_bit _ i k < 256 ∨ set_bit _ i k = s.frame_bitmap k
        unfold set_bit
        by_cases hk : k = i / 8
        · left; rw [if_pos hk]; exact Nat.mod_lt _ (by decide)
        · right; rw [if_neg hk]
      · right; rfl

theorem frame_alloc_init_virt (s : KState) :
    frame_alloc_init virt_linker (some virt_params) s =
      mark_used_loop 8 240 (mark_used_loop 128 128 (mark_free_loop 262144 0
        { s with
          frame_bitmap := memset s.frame_bitmap 0 0xFF 32768
          total_memory := 0
          free_memory := 0
          highest_usable_address := PMM_RAM_BASE })) := by
  have e1 : ∀ t : KState, mark_range_used t 0x400F0000 (sub64 0x400F8000 0x400F0000)
      = mark_used_loop 8 240 t := fun t => by
    simp [mark_range_used, sub64, u64, PMM_RAM_BASE, PAGE_SIZE, UINT64_MAX, PMM_TOTAL_FRAMES,
      PMM_MANAGEABLE_SIZE]
  have e2 : ∀ t : KState, mark_range_used t 0x40080000 (sub64 0x40100000 0x40080000)
      = mark_used_loop 128 128 t := fun t => by
    simp [mark_range_used, sub64, u64, PMM_RAM_BASE, PAGE_SIZE, UINT64_MAX, PMM_TOTAL_FRAMES,
      PMM_MANAGEABLE_SIZE]
  have e3 : ∀ t : KState, mark_range_free t PMM_RAM_BASE PMM_MANAGEABLE_SIZE
      = mark_free_loop 262144 0 t := fun t => by
    simp [mark_range_free, sub64, u64, PMM_RAM_BASE, PAGE_SIZE, UINT64_MAX, PMM_TOTAL_FRAMES,
      PMM_MANAGEABLE_SIZE]
  have e4 : sub64 0x400F8000 0x400F0000 = 32768 := by decide
  simp only [frame_alloc_init, virt_linker, virt_params, e1, e2, e3]
  rw [e4]

/-- The three loops of `frame_alloc_init`, run from `zero_state` with a
32768-byte bitmap, when the kernel image occupies frames `8 * a` to
`8 * (a + c) - 1` and the bitmap's frames lie inside the kernel image: the
bitmap bytes `a .. a + c - 1` are `0xFF`, the others 0, and both counters are
the size of the window minus the kernel image. -/
theorem init_loops_eq (a c ib nb : Nat) (hk : 8 * (a + c) ≤ 262144) (hb1 : 8 * a ≤ ib)
    (hb2 : ib + nb ≤ 8 * (a + c)) :
    mark_used_loop nb ib (mark_used_loop (8 * c) (8 * a) (mark_free_loop 262144 0
      { zero_state with
        frame_bitmap := memset zero_state.frame_bitmap 0 0xFF 32768
        total_memory := 0
        free_memory := 0
        highest_usable_address := PMM_RAM_BASE }))
      = { frame_bitmap := fun k => if a ≤ k ∧ k < a + c then 255 else 0
          total_memory := 1073741824 - c * 32768
          free_memory := 1073741824 - c * 32768
          highest_usable_address := 0x80000000
          mem := fun _ => 0
          free_list_head := 0
          heap_start := 0
          heap_end := 0 } := by
  generalize hs0 : ({ zero_state with
      frame_bitmap := memset zero_state.frame_bitmap 0 0xFF 32768
      total_memory := 0
      free_memory := 0
      highest_usable_address := PMM_RAM_BASE } : KState) = s0
  have b0 : s0.frame_bitmap = memset (fun _ => 0) 0 0xFF 32768 := by rw [← hs0]; rfl
  have c0 : s0.total_memory = 0 ∧ s0.free_memory = 0 ∧ s0.highest_usable_address = PMM_RAM_BASE ∧
      s0.mem = (fun _ => 0) ∧ s0.free_list_head = 0 ∧ s0.heap_start = 0 ∧ s0.heap_end = 0 := by
    rw [← hs0]; exact ⟨rfl, rfl, rfl, rfl, rfl, rfl, rfl⟩
  obtain ⟨c1, c2, c3, c4, c5, c6, c7⟩ := c0
  have bits0 : ∀ j, test_bit s0.frame_bitmap j = decide (j < 262144) := by
    intro j
    by_cases hj : j < 262144
    · rw [b0, test_bit_memset_ff _ _ _ (by omega)]; simp [hj]
    · rw [b0, test_bit_eq]
      have : ¬ (0 ≤ j / 8 ∧ j / 8 < 0 + 32768) := by omega
      simp only [memset, if_neg this, Nat.zero_testBit]
      simp [hj]
  have byte0 : ∀ k, s0.frame_bitmap k < 256 := by
    intro k; rw [b0]; unfold memset; split
    · decide
    · show 0 < 256; decide
  generalize hA : mark_free_loop 262144 0 s0 = A
  have bitsA : ∀ j, test_bit A.frame_bitmap j = false := by
    intro j
    rw [← hA, mark_free_loop_bits, bits0]
    by_cases hj : j < 262144
    · rw [if_pos ⟨by omega, by omega⟩]
    · rw [if_neg (by omega)]; simp [hj]
  have byteA : ∀ k, A.frame_bitmap k < 256 := by
    intro k
    rcases mark_free_loop_byte 262144 0 s0 k with h | h
    · rw [← hA]; exact h
    · rw [← hA, h]; exact byte0 k
  obtain ⟨a1, a2, a3, a4, a5, a6, a7⟩ := mark_free_loop_all_set 262144 0 s0
    (fun j _ hj => by rw [bits0]; simp; omega)
    (by rw [c1]; decide) (by rw [c2]; decide) (by rw [c3]; decide) (by decide)
  rw [hA] at a1 a2 a3 a4 a5 a6 a7
  rw [c1] at a1; rw [c2] at a2; rw [c4] at a4; rw [c5] at a5; rw [c6] at a6; rw [c7] at a7
  generalize hB : mark_used_loop (8 * c) (8 * a) A = B
  have bitsB : ∀ j, test_bit B.frame_bitmap j = decide (8 * a ≤ j ∧ j < 8 * (a + c)) := by
    intro j
    rw [← hB, mark_used_loop_bits, bitsA]
    by_cases hj : 8 * a ≤ j ∧ j < 8 * a + 8 * c
    · rw [if_pos hj]; simp; omega
    · rw [if_neg hj]; simp; omega
  have byteB : ∀ k, B.frame_bitmap k < 256 := by
    intro k
    rcases mark_used_loop_byte (8 * c) (8 * a) A k with h | h
    · rw [← hB]; exact h
    · rw [← hB, h]; exact byteA k
  obtain ⟨d1, d2, d3, d4, d5, d6, d7⟩ := mark_used_loop_all_clear (8 * c) (8 * a) A
    (fun j _ _ => bitsA j) (by rw [a1]; simp only [PAGE_SIZE]; omega)
    (by rw [a2]; simp only [PAGE_SIZE]; omega)
  rw [hB] at d1 d2 d3 d4 d5 d6 d7
  rw [a1] at d1; rw [a2] at d2; rw [a3] at d3; rw [a4] at d4; rw [a5] at d5; rw [a6] at d6
  rw [a7] at d7
  rw [mark_used_loop_all_set nb ib B (fun j h1 h2 => by rw [bitsB]; simp; omega)]
  apply KState.ext_fields
  · funext k
    apply bitmap_byte_ext _ _ k (byteB k)
    · show (if a ≤ k ∧ k < a + c then 255 else 0) < 256
      split <;> decide
    · intro j hj
      rw [bitsB, test_bit_eq]
      have e1 : (8 * k + j) / 8 = k := by omega
      have e2 : (8 * k + j) % 8 = j := by omega
      rw [e1, e2]
      show _ = (if a ≤ k ∧ k < a + c then 255 else 0).testBit j
      by_cases hk : a ≤ k ∧ k < a + c
      · rw [if_pos hk, show (255 : Nat) = 2 ^ 8 - 1 from rfl, Nat.testBit_two_pow_sub_one]
        simp [hj]; omega
      · rw [if_neg hk, Nat.zero_testBit]; simp; omega
  · rw [d1]; show 0 + 262144 * PAGE_SIZE - 8 * c * PAGE_SIZE = 1073741824 - c * 32768
    simp only [PAGE_SIZE]; omega
  · rw [d2]; show 0 + 262144 * PAGE_SIZE - 8 * c * PAGE_SIZE = 1073741824 - c * 32768
    simp only [PAGE_SIZE]; omega
  · rw [d3]; rfl
  · rw [d4]
  · rw [d5]
  · rw [d6]
  · rw [d7]

/-- On the `virt` layout `frame_alloc_init`, started from `zero_state`, leaves
exactly `virt_boot_state`. -/
theorem frame_alloc_init_virt_eq :
    frame_alloc_init virt_linker (some virt_params) zero_state = virt_boot_state := by
  rw [frame_alloc_init_virt]
  exact init_loops_eq 16 16 240 8 (by decide) (by decide) (by decide)

theorem frame_alloc_init_low (s : KState) :
    frame_alloc_init low_linker (some low_params) s =
      mark_used_loop 8 16 (mark_used_loop 24 8 (mark_free_loop 262144 0
        { s with
          frame_bitmap := memset s.frame_bitmap 0 0xFF 32768
          total_memory := 0
          free_memory := 0
          highest_usable_address := PMM_RAM_BASE })) := by
  have e1 : ∀ t : KState, mark_range_used t 0x40010000 (sub64 0x40018000 0x40010000)
      = mark_used_loop 8 16 t := fun t => by
    simp [mark_range_used, sub64, u64, PMM_RAM_BASE, PAGE_SIZE, UINT64_MAX, PMM_TOTAL_FRAMES,
      PMM_MANAGEABLE_SIZE]
  have e2 : ∀ t : KState, mark_range_used t 0x40008000 (sub64 0x40020000 0x40008000)
      = mark_used_loop 24 8 t := fun t => by
    simp [mark_range_used, sub64, u64, PMM_RAM_BASE, PAGE_SIZE, UINT64_MAX, PMM_TOTAL_FRAMES,
      PMM_MANAGEABLE_SIZE]
  have e3 : ∀ t : KState, mark_range_free t PMM_RAM_BASE PMM_MANAGEABLE_SIZE
      = mark_free_loop 262144 0 t := fun t => by
    simp [mark_range_free, sub64, u64, PMM_RAM_BASE, PAGE_SIZE, UINT64_MAX, PMM_TOTAL_FRAMES,
      PMM_MANAGEABLE_SIZE]
  have e4 : sub64 0x40018000 0x40010000 = 32768 := by decide
  simp only [frame_alloc_init, low_linker, low_params, e1, e2, e3]
  rw [e4]

/-- On the `low_linker` layout `frame_alloc_init`, started from `zero_state`,
leaves exactly `low_boot_state`. -/
theorem frame_alloc_init_low_eq :
    frame_alloc_init low_linker (some low_params) zero_state = low_boot_state := by
  rw [frame_alloc_init_low]
  exact init_loops_eq 1 3 16 8 (by decide) (by decide) (by decide)

theorem low_boot_heap_eq : low_boot_heap = kheap_init low_boot_state := by
  unfold low_boot_heap
  rw [frame_alloc_init_low_eq]

/-! ## Exact effect of `kmalloc` followed by `kfree` -/

theorem first_fit_flagged {s : KState} {chain : List Nat} {lim : Nat} (h : HeapInv s chain lim)
    (size fuel cur bf : Nat)
    (hcur : cur ≠ 0 → cur ∈ chain ∧ blk_is_free s.mem cur = true)
    (hff : first_fit s.mem size fuel cur = some bf) (hbf : bf ≠ 0) :
    blk_is_free s.mem bf = true := by
  induction fuel generalizing cur with
  | zero => simp [first_fit] at hff
  | succ fuel ih =>
    simp only [first_fit] at hff
    by_cases h0 : cur = 0
    · rw [if_pos h0] at hff
      exact absurd (Option.some.inj hff).symm hbf
    · rw [if_neg h0] at hff
      by_cases hsz : blk_size s.mem cur ≥ size
      · rw [if_pos hsz] at hff
        have := Option.some.inj hff
        subst this
        exact (hcur h0).2
      · rw [if_neg hsz] at hff
        have hfl : FLf _ _ _ _ _ := h.fl
        refine ih _ ?_ hff
        intro hn
        obtain ⟨q1, q2⟩ := hfl.nf_ok cur (hcur h0).1 hn
        refine ⟨q1, ?_⟩
        cases hq : blk_is_free s.mem (blk_next_free s.mem cur) with
        | true => rfl
        | false =>
          have := (hfl.flag_ok _ q1 hq).2
          rw [q2] at this
          exact absurd this h0

theorem Seg_mid (m : Nat → Nat) (pre post : List Nat) (x p nx e : Nat)
    (hs : Seg m p (pre ++ x :: post) nx e) :
    blk_prev m x = lastD pre p ∧ blk_next m x = post.headD nx := by
  obtain ⟨_, h2⟩ := (Seg_append m pre (x :: post) p nx e).1 hs
  exact ⟨h2.1, h2.2.1⟩

/-- The end of `kmalloc`: the flag of the block is cleared and its payload
is zeroed. -/
theorem take_finish {s2 : KState} {chain2 : List Nat} {lim : Nat} (m1 : HeapInv s2 chain2 lim)
    (bf : Nat) (m2 : bf ∈ chain2) (m3 : Detached s2 bf) :
    HeapInv { s2 with
      mem := (memset (set_is_free s2.mem bf false) (bf + 48) 0 (blk_size s2.mem bf)) }
      chain2 lim ∧
    (∀ b, b ∈ chain2 →
      blk_size (memset (set_is_free s2.mem bf false) (bf + 48) 0 (blk_size s2.mem bf)) b
        = blk_size s2.mem b ∧
      blk_is_free (memset (set_is_free s2.mem bf false) (bf + 48) 0 (blk_size s2.mem bf)) b
        = (if b = bf then false else blk_is_free s2.mem b)) := by
  have hH := m1.phys.hdrs
  have f1 := set_is_free_inv m1 bf m2 false (fun _ => m3)
  have hd : ∀ b, b ∈ chain2 → bf + 48 + blk_size s2.mem bf ≤ b ∨ b + 48 ≤ bf + 48 := by
    intro b hb
    rcases chain_apart m1.phys bf b m2 hb with e | e | e
    · right; omega
    · left; omega
    · right; omega
  have f2 := memset_inv f1 (bf + 48) 0 (blk_size s2.mem bf) hd
  refine ⟨f2, ?_⟩
  intro b hb
  constructor
  · rw [blk_size_memset _ _ _ _ _ (hd b hb), blk_size_set_is_free _ _ _ _ (hH.sep bf b m2 hb)]
  · rw [blk_is_free_memset _ _ _ _ _ (hd b hb), blk_is_free_set_is_free]

theorem kmalloc_take_exact {s : KState} {lim : Nat} (pre post : List Nat) (bf size : Nat)
    (h : HeapInv s (pre ++ bf :: post) lim) (h8 : size % 8 = 0)
    (hsz : size ≤ blk_size s.mem bf) :
    (kmalloc_take s size bf).1 = bf + 48 ∧
    (∀ b, b ∈ pre ++ bf :: post →
      blk_is_free (kmalloc_take s size bf).2.mem b
        = (if b = bf then false else blk_is_free s.mem b)) ∧
    (size + 96 ≤ blk_size s.mem bf →
      HeapInv (kmalloc_take s size bf).2 (pre ++ bf :: (bf + 48 + size) :: post) lim ∧
      (∀ b, b ∈ pre ++ bf :: post →
        blk_size (kmalloc_take s size bf).2.mem b
          = (if b = bf then size else blk_size s.mem b)) ∧
      blk_size (kmalloc_take s size bf).2.mem (bf + 48 + size)
        = blk_size s.mem bf - size - 48 ∧
      blk_is_free (kmalloc_take s size bf).2.mem (bf + 48 + size) = true) ∧
    (¬ size + 96 ≤ blk_size s.mem bf →
      HeapInv (kmalloc_take s size bf).2 (pre ++ bf :: post) lim ∧
      (∀ b, b ∈ pre ++ bf :: post →
        blk_size (kmalloc_take s size bf).2.mem b = blk_size s.mem b)) := by
  have hbf : bf ∈ pre ++ bf :: post := by simp
  have hbnd := h.phys.bound bf hbf
  obtain ⟨r1, r2, r3, r4⟩ := remove_from_free_list_inv h bf hbf
  have hsize1 : blk_size (remove_from_free_list s bf).mem bf = blk_size s.mem bf := (r4 bf hbf).1
  have hu1 : u64 (bf + HEAP_HEADER_SIZE) = bf + 48 := by unfold u64 HEAP_HEADER_SIZE; omega
  have hu2 : u64 (size + HEAP_MIN_BLOCK_SIZE) = size + 96 := by
    unfold u64 HEAP_MIN_BLOCK_SIZE HEAP_HEADER_SIZE; omega
  have hu3 : u64 (bf + HEAP_HEADER_SIZE + size) = bf + 48 + size := by
    unfold u64 HEAP_HEADER_SIZE; omega
  rw [kmalloc_take_eq, hu1, hu2, hu3, hsize1]
  generalize hs2 : (if blk_size s.mem bf ≥ size + 96 then
      add_to_free_list (split_block (remove_from_free_list s bf) size bf) (bf + 48 + size)
    else remove_from_free_list s bf) = s2
  have hsz2 : blk_size (set_is_free s2.mem bf false) bf = blk_size s2.mem bf :=
    blk_size_set_is_free _ _ _ _ (SepH_refl bf)
  rw [hsz2]
  by_cases hc : blk_size s.mem bf ≥ size + 96
  · rw [if_pos hc] at hs2
    obtain ⟨p1, p2, p3, p4, p5⟩ := split_step pre post bf size r1 h8 (by rw [hsize1]; exact hc)
    have hnm : bf + 48 + size ∈ pre ++ bf :: (bf + 48 + size) :: post := by simp
    obtain ⟨a1, a2, a3⟩ := add_to_free_list_inv p1 _ hnm p2
    have hsub : ∀ b, b ∈ pre ++ bf :: post → b ∈ pre ++ bf :: (bf + 48 + size) :: post ∧
        b ≠ bf + 48 + size := fun b hb =>
      ⟨(mem_mid_iff _ _ _ _ _).2 (Or.inl hb), fun e => p3 (e ▸ hb)⟩
    have hst := split_block_state (remove_from_free_list s bf) size bf
    have hd2 : Detached (split_block (remove_from_free_list s bf) size bf) bf := by
      refine ⟨by rw [hst.1]; exact r2.1, ?_, ?_⟩
      · rw [(p4 bf hbf).2.1]; exact r2.2.1
      · rw [(p4 bf hbf).2.2.1]; exact r2.2.2
    have hfl2 : FLf _ _ _ _ _ := p2
    have hd3 := add_to_free_list_detached p1 _ hnm
      (fun h0 => (hfl2.head_ok h0).1) bf (hsub bf hbf).1 (hsub bf hbf).2 hd2
    rw [hs2] at a1 a3 hd3
    obtain ⟨f1, f2⟩ := take_finish a1 bf (hsub bf hbf).1 hd3
    have hne : bf + 48 + size ≠ bf := by omega
    refine ⟨rfl, ?_, ?_, fun hn => absurd hc hn⟩
    · intro b hb
      refine ((f2 b (hsub b hb).1).2).trans ?_
      by_cases e : b = bf
      · rw [if_pos e, if_pos e]
      · rw [if_neg e, if_neg e, (a3 b (hsub b hb).1).2.2.2, if_neg (hsub b hb).2,
          (p4 b hb).2.2.2, (r4 b hb).2.2.2, if_neg e]
    · intro _
      refine ⟨f1, ?_, ?_, ?_⟩
      · intro b hb
        refine ((f2 b (hsub b hb).1).1).trans ?_
        rw [(a3 b (hsub b hb).1).1, (p4 b hb).1]
        by_cases e : b = bf
        · rw [if_pos e, if_pos e]
        · rw [if_neg e, if_neg e, (r4 b hb).1]
      · refine ((f2 _ hnm).1).trans ?_
        rw [(a3 _ hnm).1, p5, hsize1]
      · refine ((f2 _ hnm).2).trans ?_
        rw [if_neg hne, (a3 _ hnm).2.2.2, if_pos rfl]
  · rw [if_neg hc] at hs2
    rw [hs2] at r1 r2 r4
    obtain ⟨f1, f2⟩ := take_finish r1 bf hbf r2
    refine ⟨rfl, ?_, fun hn => absurd hn hc, ?_⟩
    · intro b hb
      refine ((f2 b hb).2).trans ?_
      by_cases e : b = bf
      · rw [if_pos e, if_pos e]
      · rw [if_neg e, if_neg e, (r4 b hb).2.2.2, if_neg e]
    · intro _
      refine ⟨f1, ?_⟩
      intro b hb
      exact ((f2 b hb).1).trans (r4 b hb).1

theorem coalesce_fwd_none (s : KState) (x : Nat)
    (hn : blk_next s.mem x = 0 ∨ blk_is_free s.mem (blk_next s.mem x) = false) :
    coalesce_fwd s x = s := by
  unfold coalesce_fwd
  rw [if_neg]
  rintro ⟨h1, h2⟩
  rcases hn with e | e
  · exact h1 e
  · rw [e] at h2; exact Bool.noConfusion h2

theorem coalesce_bwd_none (s : KState) (x : Nat)
    (hn : blk_prev s.mem x = 0 ∨ blk_is_free s.mem (blk_prev s.mem x) = false) :
    coalesce_bwd s x = (x, s) := by
  unfold coalesce_bwd
  rw [if_neg]
  rintro ⟨h1, h2⟩
  rcases hn with e | e
  · exact h1 e
  · rw [e] at h2; exact Bool.noConfusion h2

theorem lastD_ne_of_nodup (pre post : List Nat) (x : Nat) (hnd : (pre ++ x :: post).Nodup)
    (h0 : x ≠ 0) : lastD pre 0 ≠ x ∧ post.headD 0 ≠ x ∧
      (lastD pre 0 ≠ 0 → lastD pre 0 ∈ pre ++ x :: post) ∧
      (post.headD 0 ≠ 0 → post.headD 0 ∈ pre ++ x :: post) := by
  rw [List.nodup_append] at hnd
  obtain ⟨n1, n2, n3⟩ := hnd
  obtain ⟨n4, n5⟩ := List.nodup_cons.1 n2
  have hl : pre ≠ [] → lastD pre 0 ∈ pre := lastD_mem pre 0
  have hh : post ≠ [] → post.headD 0 ∈ post := by
    intro hp
    cases post with
    | nil => exact absurd rfl hp
    | cons a r => exact List.mem_cons_self _ _
  refine ⟨?_, ?_, ?_, ?_⟩
  · intro e
    by_cases hp : pre = []
    · rw [hp] at e; exact h0 e.symm
    · exact n3 (hl hp) (by rw [e]; exact List.mem_cons_self _ _)
  · intro e
    by_cases hp : post = []
    · rw [hp] at e; exact h0 e.symm
    · exact n4 (e ▸ hh hp)
  · intro hne
    by_cases hp : pre = []
    · rw [hp] at hne; exact absurd rfl hne
    · exact List.mem_append_left _ (hl hp)
  · intro hne
    by_cases hp : post = []
    · rw [hp] at hne; exact absurd rfl hne
    · exact List.mem_append_right _ (List.mem_cons_of_mem _ (hh hp))

/-- The first steps of `kfree` on the payload pointer of a block of the chain
that is not flagged free. -/
theorem kfree_unfold {s : KState} {chain : List Nat} {lim : Nat} (h : HeapInv s chain lim)
    (x : Nat) (hx : x ∈ chain) (hf : blk_is_free s.mem x = false) :
    kfree s (x + 48) =
      add_to_free_list
        (coalesce_bwd (coalesce_fwd { s with mem := set_is_free s.mem x true } x) x).2
        (coalesce_bwd (coalesce_fwd { s with mem := set_is_free s.mem x true } x) x).1 ∧
    HeapInv { s with mem := set_is_free s.mem x true } chain lim ∧
    Detached { s with mem := set_is_free s.mem x true } x := by
  have hbnd := h.phys.bound x hx
  have hH := h.phys.hdrs
  have hx0 : x ≠ 0 := fun e => not_mem_zero h.phys (e ▸ hx)
  have hd := detached_of_not_free h x hx hf
  have h0 := set_is_free_inv h x hx true (fun e => Bool.noConfusion e)
  have hd0 : Detached { s with mem := set_is_free s.mem x true } x := by
    refine ⟨hd.1, ?_, ?_⟩
    · show blk_next_free (set_is_free s.mem x true) x = 0
      rw [blk_next_free_set_is_free _ _ _ _ (SepH_refl x)]; exact hd.2.1
    · show blk_prev_free (set_is_free s.mem x true) x = 0
      rw [blk_prev_free_set_is_free _ _ _ _ (SepH_refl x)]; exact hd.2.2
  refine ⟨?_, h0, hd0⟩
  have hsub : sub64 (x + 48) HEAP_HEADER_SIZE = x := by
    unfold sub64 HEAP_HEADER_SIZE; omega
  unfold kfree
  rw [if_neg (by omega), hsub]
  simp only
  rw [if_neg (by rw [hf]; exact Bool.noConfusion)]
  have hco : coalesce { s with mem := set_is_free s.mem x true } x
      = coalesce_bwd (coalesce_fwd { s with mem := set_is_free s.mem x true } x) x := by
    rw [coalesce_eq, if_neg]
    have : blk_is_free (set_is_free s.mem x true) x = true := by
      rw [blk_is_free_set_is_free, if_pos rfl]
    simp [hx0, this]
  rw [hco]

/-- `kfree` of a block neither of whose physical neighbours is flagged free:
the block is flagged free and nothing else changes in the chain. -/
theorem kfree_exact_none {s : KState} {chain : List Nat} {lim : Nat} (h : HeapInv s chain lim)
    (x : Nat) (hx : x ∈ chain) (hf : blk_is_free s.mem x = false)
    (hprev : blk_prev s.mem x = 0 ∨ blk_prev s.mem x ≠ x ∧
      blk_is_free s.mem (blk_prev s.mem x) = false)
    (hnext : blk_next s.mem x = 0 ∨ blk_next s.mem x ≠ x ∧
      blk_is_free s.mem (blk_next s.mem x) = false) :
    HeapInv (kfree s (x + 48)) chain lim ∧
    (∀ b, b ∈ chain →
      blk_size (kfree s (x + 48)).mem b = blk_size s.mem b ∧
      blk_is_free (kfree s (x + 48)).mem b = (if b = x then true else blk_is_free s.mem b)) := by
  obtain ⟨e, h0, hd0⟩ := kfree_unfold h x hx hf
  have hH := h.phys.hdrs
  have hflag : ∀ b, blk_is_free (set_is_free s.mem x true) b
      = (if b = x then true else blk_is_free s.mem b) :=
    fun b => blk_is_free_set_is_free _ _ _ _
  have hn : blk_next (set_is_free s.mem x true) x = blk_next s.mem x :=
    blk_next_set_is_free _ _ _ _ (SepH_refl x)
  have hp : blk_prev (set_is_free s.mem x true) x = blk_prev s.mem x :=
    blk_prev_set_is_free _ _ _ _ (SepH_refl x)
  have e1 : coalesce_fwd { s with mem := set_is_free s.mem x true } x
      = { s with mem := set_is_free s.mem x true } := by
    apply coalesce_fwd_none
    show blk_next (set_is_free s.mem x true) x = 0 ∨
      blk_is_free (set_is_free s.mem x true) (blk_next (set_is_free s.mem x true) x) = false
    rw [hn, hflag]
    rcases hnext with a | ⟨a, b⟩
    · left; exact a
    · right; rw [if_neg a]; exact b
  have e2 : coalesce_bwd { s with mem := set_is_free s.mem x true } x
      = (x, { s with mem := set_is_free s.mem x true }) := by
    apply coalesce_bwd_none
    show blk_prev (set_is_free s.mem x true) x = 0 ∨
      blk_is_free (set_is_free s.mem x true) (blk_prev (set_is_free s.mem x true) x) = false
    rw [hp, hflag]
    rcases hprev with a | ⟨a, b⟩
    · left; exact a
    · right; rw [if_neg a]; exact b
  rw [e, e1, e2]
  obtain ⟨a1, _, a3⟩ := add_to_free_list_inv h0.phys x hx (FL_erase h0 x hd0)
  refine ⟨a1, ?_⟩
  intro b hb
  refine ⟨((a3 b hb).1).trans (blk_size_set_is_free _ _ _ _ (hH.sep x b hx hb)), ?_⟩
  refine ((a3 b hb).2.2.2).trans ?_
  by_cases hbx : b = x
  · rw [if_pos hbx, if_pos hbx]
  · rw [if_neg hbx, if_neg hbx]
    exact (hflag b).trans (if_neg hbx)

/-- `kfree` of a block whose successor is flagged free and whose predecessor
is not: the successor is merged into the block. -/
theorem kfree_exact_merge {s : KState} {lim : Nat} (pre post : List Nat) (x y : Nat)
    (h : HeapInv s (pre ++ x :: y :: post) lim) (hf : blk_is_free s.mem x = false)
    (hy : blk_is_free s.mem y = true)
    (hprev : blk_prev s.mem x = 0 ∨ blk_is_free s.mem (blk_prev s.mem x) = false) :
    HeapInv (kfree s (x + 48)) (pre ++ x :: post) lim ∧
    (∀ b, b ∈ pre ++ x :: post →
      blk_size (kfree s (x + 48)).mem b
        = (if b = x then blk_size s.mem x + blk_size s.mem y + 48 else blk_size s.mem b) ∧
      blk_is_free (kfree s (x + 48)).mem b = (if b = x then true else blk_is_free s.mem b)) := by
  have hx : x ∈ pre ++ x :: y :: post := by simp
  have hym : y ∈ pre ++ x :: y :: post := by simp
  obtain ⟨e, h0, hd0⟩ := kfree_unfold h x hx hf
  have hH := h.phys.hdrs
  have hnd := Seg_nodup _ _ _ _ _ h.phys.seg
  have hx0 : x ≠ 0 := fun e => not_mem_zero h.phys (e ▸ hx)
  have hy0 : y ≠ 0 := fun e => not_mem_zero h.phys (e ▸ hym)
  obtain ⟨hyn, hxy⟩ := nodup_mid pre post x y hnd
  have hflag : ∀ b, blk_is_free (set_is_free s.mem x true) b
      = (if b = x then true else blk_is_free s.mem b) :=
    fun b => blk_is_free_set_is_free _ _ _ _
  generalize hs0 : ({ s with mem := set_is_free s.mem x true } : KState) = s0 at e h0 hd0
  have hm0 : s0.mem = set_is_free s.mem x true := by rw [← hs0]
  have hsz0 : ∀ b, b ∈ pre ++ x :: y :: post → blk_size s0.mem b = blk_size s.mem b := by
    intro b hb; rw [hm0]; exact blk_size_set_is_free _ _ _ _ (hH.sep x b hx hb)
  have hfl0 : ∀ b, blk_is_free s0.mem b = (if b = x then true else blk_is_free s.mem b) := by
    intro b; rw [hm0]; exact hflag b
  -- forward merge
  have hnx : blk_next s0.mem x = y := (Seg_mid _ pre (y :: post) x 0 0 lim h0.phys.seg).2
  have hfy : blk_is_free s0.mem y = true := by rw [hfl0, if_neg (Ne.symm hxy)]; exact hy
  have efwd : coalesce_fwd s0 x = absorb (remove_from_free_list s0 y) x y true := by
    rw [coalesce_fwd_eq s0 x (by
      intro _
      rw [hnx]
      exact ⟨h0.phys.hdrs.sep x y hx hym, Ne.symm hxy⟩)]
    rw [hnx, if_pos ⟨hy0, hfy⟩]
  obtain ⟨r1, r2, r3, r4⟩ := remove_from_free_list_inv h0 y hym
  obtain ⟨a1, a2⟩ := absorb_step pre post x y true r1 r2
  have hsub : ∀ b, b ∈ pre ++ x :: post → b ∈ pre ++ x :: y :: post ∧ b ≠ y :=
    fun b hb => (mem_mid_ne pre post x y hnd b).1 hb
  have hxm : x ∈ pre ++ x :: post := by simp
  have hdx := r3 x hx hxy hd0
  have hst := absorb_state (remove_from_free_list s0 y) x y true
  have hdF : Detached (absorb (remove_from_free_list s0 y) x y true) x := by
    refine ⟨by rw [hst.1]; exact hdx.1, ?_, ?_⟩
    · rw [(a2 x hxm).2.1]; exact hdx.2.1
    · rw [(a2 x hxm).2.2.1]; exact hdx.2.2
  -- no backward merge
  have hnd2 := Seg_nodup _ _ _ _ _ a1.phys.seg
  obtain ⟨l1, _, l3, _⟩ := lastD_ne_of_nodup pre post x hnd2 hx0
  have hpF : blk_prev (absorb (remove_from_free_list s0 y) x y true).mem x = lastD pre 0 :=
    (Seg_mid _ pre post x 0 0 lim a1.phys.seg).1
  have hpS : blk_prev s.mem x = lastD pre 0 :=
    (Seg_mid _ pre (y :: post) x 0 0 lim h.phys.seg).1
  have ebwd : coalesce_bwd (absorb (remove_from_free_list s0 y) x y true) x
      = (x, absorb (remove_from_free_list s0 y) x y true) := by
    apply coalesce_bwd_none
    rw [hpF]
    rw [hpS] at hprev
    by_cases hz : lastD pre 0 = 0
    · left; exact hz
    · right
      have a : blk_is_free s.mem (lastD pre 0) = false := by
        rcases hprev with a | a
        · exact absurd a hz
        · exact a
      have hm := l3 hz
      rw [(a2 _ hm).2.2.2, (r4 _ (hsub _ hm).1).2.2.2, if_neg (hsub _ hm).2, hfl0,
        if_neg l1]
      exact a
  rw [e, efwd, ebwd]
  obtain ⟨b1, _, b3⟩ := add_to_free_list_inv a1.phys x hxm (FL_erase a1 x hdF)
  refine ⟨b1, ?_⟩
  intro b hb
  constructor
  · refine ((b3 b hb).1).trans ?_
    rw [(a2 b hb).1, (r4 x hx).1, (r4 y hym).1, (r4 b (hsub b hb).1).1, hsz0 x hx, hsz0 y hym,
      hsz0 b (hsub b hb).1]
  · refine ((b3 b hb).2.2.2).trans ?_
    by_cases hbx : b = x
    · rw [if_pos hbx, if_pos hbx]
    · rw [if_neg hbx, if_neg hbx, (a2 b hb).2.2.2, (r4 b (hsub b hb).1).2.2.2,
        if_neg (hsub b hb).2, hfl0, if_neg hbx]

theorem free_sum_list_congr (m m2 : Nat → Nat) (l : List Nat)
    (h : ∀ b, b ∈ l → blk_size m2 b = blk_size m b ∧ blk_is_free m2 b = blk_is_free m b) :
    free_sum_list m2 l = free_sum_list m l := by
  unfold free_sum_list
  congr 1
  apply List.map_congr_left
  intro b hb
  rw [(h b hb).1, (h b hb).2]

theorem free_sum_chain {s : KState} {chain : List Nat} {lim : Nat} (h : HeapInv s chain lim)
    (fuel : Nat) : free_sum s fuel = free_sum_list s.mem (chain.take fuel) := by
  unfold free_sum
  rw [h.phys.hstart, walk_next_seg _ _ _ _ fuel h.phys.seg]

/-- A block taken from the free list by `kmalloc` and given back by `kfree`
right away: when no neighbour of the block other than the remainder split off
by `kmalloc` is flagged free, the chain, the sizes and the flags are as
before. -/
theorem malloc_free_chain {s : KState} {chain : List Nat} {lim : Nat} (h : HeapInv s chain lim)
    (size bf : Nat) (hbf : bf ∈ chain) (hflag : blk_is_free s.mem bf = true)
    (h8 : size % 8 = 0) (hsz : size ≤ blk_size s.mem bf)
    (hprev : blk_prev s.mem bf = 0 ∨ blk_is_free s.mem (blk_prev s.mem bf) = false)
    (hnext : size + 96 ≤ blk_size s.mem bf ∨ blk_next s.mem bf = 0 ∨
      blk_is_free s.mem (blk_next s.mem bf) = false) :
    HeapInv (kfree (kmalloc_take s size bf).2 (kmalloc_take s size bf).1) chain lim ∧
    (∀ b, b ∈ chain →
      blk_size (kfree (kmalloc_take s size bf).2 (kmalloc_take s size bf).1).mem b
        = blk_size s.mem b ∧
      blk_is_free (kfree (kmalloc_take s size bf).2 (kmalloc_take s size bf).1).mem b
        = blk_is_free s.mem b) := by
  obtain ⟨pre, post, hch⟩ := List.append_of_mem hbf
  subst hch
  have hnd := Seg_nodup _ _ _ _ _ h.phys.seg
  have hbf0 : bf ≠ 0 := fun e => not_mem_zero h.phys (e ▸ hbf)
  obtain ⟨l1, l2, l3, l4⟩ := lastD_ne_of_nodup pre post bf hnd hbf0
  obtain ⟨hpS, hnS⟩ := Seg_mid _ pre post bf 0 0 lim h.phys.seg
  rw [hpS] at hprev
  rw [hnS] at hnext
  obtain ⟨k1, k2, k3, k4⟩ := kmalloc_take_exact pre post bf size h h8 hsz
  rw [k1]
  have hfbf : blk_is_free (kmalloc_take s size bf).2.mem bf = false := by
    rw [k2 bf hbf, if_pos rfl]
  have hprevT : lastD pre 0 ≠ 0 →
      blk_is_free (kmalloc_take s size bf).2.mem (lastD pre 0) = false := by
    intro hz
    rw [k2 _ (l3 hz), if_neg l1]
    rcases hprev with a | a
    · exact absurd a hz
    · exact a
  by_cases hc : size + 96 ≤ blk_size s.mem bf
  · obtain ⟨t1, t2, t3, t4⟩ := k3 hc
    obtain ⟨hpT, _⟩ := Seg_mid _ pre ((bf + 48 + size) :: post) bf 0 0 lim t1.phys.seg
    obtain ⟨f1, f2⟩ := kfree_exact_merge pre post bf (bf + 48 + size) t1 hfbf t4 (by
      rw [hpT]
      by_cases hz : lastD pre 0 = 0
      · left; exact hz
      · right; exact hprevT hz)
    refine ⟨f1, ?_⟩
    intro b hb
    obtain ⟨g1, g2⟩ := f2 b hb
    rw [g1, g2]
    by_cases e : b = bf
    · rw [if_pos e, if_pos e, (t2 bf hbf), if_pos rfl, t3, e, hflag]
      exact ⟨by omega, rfl⟩
    · rw [if_neg e, if_neg e, (t2 b hb), if_neg e, k2 b hb, if_neg e]
      exact ⟨rfl, rfl⟩
  · obtain ⟨t1, t2⟩ := k4 hc
    obtain ⟨hpT, hnT⟩ := Seg_mid _ pre post bf 0 0 lim t1.phys.seg
    have hnextT : post.headD 0 ≠ 0 →
        blk_is_free (kmalloc_take s size bf).2.mem (post.headD 0) = false := by
      intro hz
      rw [k2 _ (l4 hz), if_neg l2]
      rcases hnext with a | a | a
      · exact absurd a hc
      · exact absurd a hz
      · exact a
    obtain ⟨f1, f2⟩ := kfree_exact_none t1 bf hbf hfbf (by
        rw [hpT]
        by_cases hz : lastD pre 0 = 0
        · left; exact hz
        · right; exact ⟨l1, hprevT hz⟩) (by
        rw [hnT]
        by_cases hz : post.headD 0 = 0
        · left; exact hz
        · right; exact ⟨l2, hnextT hz⟩)
    refine ⟨f1, ?_⟩
    intro b hb
    obtain ⟨g1, g2⟩ := f2 b hb
    rw [g1, g2, t2 b hb, k2 b hb]
    by_cases e : b = bf
    · rw [if_pos e, e, hflag]
      exact ⟨rfl, rfl⟩
    · rw [if_neg e, if_neg e]
      exact ⟨rfl, rfl⟩

/-- In a heap state that satisfies the heap invariant and for every `n > 0`:
when the first-fit walk of `kmalloc(n)` finds a block `bf` on the free list
(so the heap is not expanded), the block physically before `bf` is absent or
not flagged free, and either `bf` is split (its size is at least the rounded
request plus 96) or the block physically after `bf` is absent or not flagged
free, then `kmalloc(n)` returns a non-null pointer `p`, and after `kfree(p)`
the sum of the payload sizes of the blocks of the chain that are flagged free
equals its value before the `kmalloc` call. -/
theorem free_sum_restored_of_inv {s : KState} {chain : List Nat} {lim : Nat}
    (h : HeapInv s chain lim)
    (fuel n bf : Nat) (hn : 0 < n)
    (hff : first_fit s.mem (round_size n) fuel s.free_list_head = some bf) (hbf : bf ≠ 0)
    (hprev : blk_prev s.mem bf = 0 ∨ blk_is_free s.mem (blk_prev s.mem bf) = false)
    (hnext : round_size n + 96 ≤ blk_size s.mem bf ∨ blk_next s.mem bf = 0 ∨
      blk_is_free s.mem (blk_next s.mem bf) = false) :
    ∃ p s1, kmalloc fuel s n = some (p, s1) ∧ p ≠ 0 ∧
      ∀ fuel2, free_sum (kfree s1 p) fuel2 = free_sum s fuel2 := by
  have hfl : FLf _ _ _ _ _ := h.fl
  obtain ⟨q1, q2⟩ := first_fit_spec h (round_size n) fuel _ bf
    (fun h0 => (hfl.head_ok h0).1) hff hbf
  have q3 := first_fit_flagged h (round_size n) fuel _ bf
    (fun h0 => ⟨(hfl.head_ok h0).1, (hfl.head_ok h0).2.2⟩) hff hbf
  obtain ⟨f1, f2⟩ := malloc_free_chain h (round_size n) bf q1 q3 (round_size_spec n).1 q2
    hprev hnext
  have hk : kmalloc fuel s n = some ((kmalloc_take s (round_size n) bf).1,
      (kmalloc_take s (round_size n) bf).2) := by
    rw [kmalloc_eq, if_neg (by omega), hff]
    simp only
    rw [if_neg hbf]
  refine ⟨_, _, hk, ?_, ?_⟩
  · have := (kmalloc_take_inv h (round_size n) bf q1 (round_size_spec n).1 q2)
    obtain ⟨_, _, e, _⟩ := this
    rw [e]; omega
  · intro fuel2
    rw [free_sum_chain f1, free_sum_chain h]
    exact free_sum_list_congr _ _ _ (fun b hb => f2 b (List.mem_of_mem_take hb))

/-! ## The heap after boot on the `virt` layout -/

theorem boot_heap_eq : boot_heap = kheap_init virt_boot_state := by
  unfold boot_heap
  rw [frame_alloc_init_virt_eq]

/-- C4 fails for requests above `2 ^ 64 - 8`: right after boot,
`kmalloc(2 ^ 64 - 1)` rounds the request to 0, splits the first free block and
returns the non-null pointer `0x40000030`, whose block is not flagged free but
has payload size 0. -/
theorem C4_huge_request_gets_empty_block :
    round_size (2 ^ 64 - 1) = 0 ∧
    (kmalloc 16 boot_heap (2 ^ 64 - 1)).map
      (fun r => (r.1, blk_is_free r.2.mem (r.1 - 48), blk_size r.2.mem (r.1 - 48)))
      = some (0x40000030, false, 0) := by
  rw [boot_heap_eq]
  decide

/-- C6 as stated fails.  First, without any heap expansion: right after boot
the blocks flagged free have payload sizes summing to 20240 (4048 on the free
list); `kmalloc(4000)` returns `0x40000030` without splitting, and after
`kfree(0x40000030)` the sum is 20288 (8144 on the free list), because `kfree`
merged the block with its flagged successor and gained the successor's header.
Second, with a heap expansion: after three calls `kmalloc(4000)` the sum is
12192 and the last block, at `0x40005FA0`, is a free block of 48 bytes; a
fourth `kmalloc(4000)` expands the heap by one page, merges the new page into
that block and returns `0x40005FD0`, and after `kfree(0x40005FD0)` the sum is
16288. -/
theorem C6_counterexample :
    free_sum boot_heap 16 = 20240 ∧
    free_sum_list boot_heap.mem (walk_free boot_heap.mem 16 boot_heap.free_list_head) = 4048 ∧
    (kmalloc 16 boot_heap 4000).map (fun r => (r.1, free_sum (kfree r.2 r.1) 16,
      free_sum_list (kfree r.2 r.1).mem
        (walk_free (kfree r.2 r.1).mem 16 (kfree r.2 r.1).free_list_head)))
      = some (0x40000030, 20288, 8144) ∧
    (kmalloc 16 boot_heap 4000).bind (fun r1 => (kmalloc 16 r1.2 4000).bind (fun r2 =>
      (kmalloc 16 r2.2 4000).bind (fun r3 => (kmalloc 16 r3.2 4000).map (fun r4 =>
        (free_sum r3.2 16, r3.2.heap_end, r4.1, r4.2.heap_end,
          free_sum (kfree r4.2 r4.1) 16)))))
      = some (12192, 0x40005FA0, 0x40005FD0, 0x40006F70, 16288) := by
  rw [boot_heap_eq]
  decide

/-- C7 fails right after `kheap_init`: the first two blocks, at `0x40000000`
and `0x40001000`, are physically adjacent and both flagged free; and it fails
after a `kfree` of a live pointer: after `kmalloc(4000)` and `kfree` of its
result the blocks at `0x40000000` (size 8144) and `0x40002000` are adjacent
and both flagged free. -/
theorem C7_adjacent_free_blocks :
    (blk_is_free boot_heap.mem 0x40000000 = true ∧
      blk_next boot_heap.mem 0x40000000 = 0x40001000 ∧
      0x40000000 + 48 + blk_size boot_heap.mem 0x40000000 = 0x40001000 ∧
      blk_is_free boot_heap.mem 0x40001000 = true) ∧
    (kmalloc 16 boot_heap 4000).map (fun r => (r.1,
      blk_is_free (kfree r.2 r.1).mem 0x40000000,
      blk_next (kfree r.2 r.1).mem 0x40000000,
      0x40000000 + 48 + blk_size (kfree r.2 r.1).mem 0x40000000,
      blk_is_free (kfree r.2 r.1).mem 0x40002000))
      = some (0x40000030, true, 0x40002000, 0x40002000, true) := by
  rw [boot_heap_eq]
  decide

/-- C9 fails right after `kheap_init`: the physical chain has five blocks, all
flagged free, and only the first one is reachable from `free_list_head`. -/
theorem C9_flagged_blocks_off_the_free_list :
    walk_next boot_heap.mem 16 boot_heap.heap_start
      = [0x40000000, 0x40001000, 0x40002000, 0x40003000, 0x40004000] ∧
    (walk_next boot_heap.mem 16 boot_heap.heap_start).map (blk_is_free boot_heap.mem)
      = [true, true, true, true, true] ∧
    walk_free boot_heap.mem 16 boot_heap.free_list_head = [0x40000000] := by
  rw [boot_heap_eq]
  decide

/-- In a reachable heap state, for `n ≤ 2 ^ 64 - 8`, a non-null result of `kmalloc(n)` is the payload address of a block that is not
flagged free and whose size is at least `n` rounded up to a multiple of 8. -/
theorem kmalloc_block_large_enough {s0 s : KState} {live : List Nat} (hr : Reach s0 s live)
    (fuel n p : Nat) (s2 : KState) (hn : n + 8 ≤ 2 ^ 64)
    (hk : kmalloc fuel s n = some (p, s2)) (hp : p ≠ 0) :
    blk_is_free s2.mem (p - 48) = false ∧ n ≤ blk_size s2.mem (p - 48) ∧
      (n + 7) / 8 * 8 ≤ blk_size s2.mem (p - 48) := by
  obtain ⟨chain, lim, h, _⟩ := reach_inv hr
  obtain ⟨c2, l2, _, k2, _⟩ := kmalloc_inv h fuel n p s2 hk
  obtain ⟨_, _, a3, a4⟩ := k2 hp
  obtain ⟨r1, _, r3⟩ := round_size_spec n
  have := r3 hn
  exact ⟨a3, by omega, by omega⟩

/-- In a reachable heap state every block reachable
from `free_list_head` through `next_free` is flagged free. -/
theorem free_list_blocks_flagged {s0 s : KState} {live : List Nat} (hr : Reach s0 s live)
    (fuel b : Nat) (hb : b ∈ walk_free s.mem fuel s.free_list_head) :
    blk_is_free s.mem b = true := by
  obtain ⟨chain, lim, h, _⟩ := reach_inv hr
  have hfl : FLf _ _ _ _ _ := h.fl
  have key : ∀ fuel c, (c ≠ 0 → c ∈ chain ∧ blk_is_free s.mem c = true) →
      ∀ b, b ∈ walk_free s.mem fuel c → blk_is_free s.mem b = true := by
    intro fuel
    induction fuel with
    | zero => intro c _ b hb; simp [walk_free] at hb
    | succ f ih =>
      intro c hc b hb
      by_cases h0 : c = 0
      · simp [walk_free, h0] at hb
      · have hb2 : b ∈ c :: walk_free s.mem f (blk_next_free s.mem c) := by
          simpa [walk_free, h0] using hb
        rcases List.mem_cons.1 hb2 with e | hm
        · rw [e]; exact (hc h0).2
        · refine ih _ ?_ b hm
          intro hne
          obtain ⟨q1, q2⟩ := hfl.nf_ok c (hc h0).1 hne
          refine ⟨q1, ?_⟩
          cases hq : blk_is_free s.mem (blk_next_free s.mem c) with
          | true => rfl
          | false =>
            have := (hfl.flag_ok _ q1 hq).2
            rw [q2] at this
            exact absurd this h0
  exact key fuel _ (fun h0 => ⟨(hfl.head_ok h0).1, (hfl.head_ok h0).2.2⟩) b hb

/-- C10 fails when the frames handed to the heap are not contiguous.  On the
`low_linker` layout, where frames 8 .. 31 hold the kernel image, `kheap_init`
takes frames 0 .. 4 and `kmalloc(16000)` expands the heap by four pages,
frames 5, 6, 7 and 32, and returns null.  The block of frame 7, at
`0x40007000`, is then in the physical chain with `next = 0x40020000`, while
its header and payload end at `0x40008000`, the start of the kernel image. -/
theorem C10_chain_crosses_kernel_image :
    (kmalloc 4 low_boot_heap 16000).map (fun r => (r.1,
      walk_next r.2.mem 16 r.2.heap_start,
      blk_next r.2.mem 0x40007000,
      0x40007000 + 48 + blk_size r.2.mem 0x40007000))
      = some (0, [0x40000000, 0x40001000, 0x40002000, 0x40003000, 0x40004000, 0x40006000,
          0x40007000, 0x40020000], 0x40020000, 0x40008000) := by
  rw [low_boot_heap_eq]
  decide

set_option maxRecDepth 100000 in
/-- Blocks that are linked across a gap are merged like adjacent ones.  On the
`low_linker` layout, after boot and a failed `kmalloc(16000)`, three rounds of
`kmalloc` and `kfree` (8100, 16300 and 24500 bytes) merge the blocks of frames
7 and 32 into one block, and `kmalloc(32700)` then returns `0x40001030` with a
payload of 32720 bytes, which `kmalloc` zeroes and which ends at `0x40009000`,
one page into the kernel image. -/
theorem heap_block_over_kernel_image :
    (kmalloc 4 low_boot_heap 16000).bind (fun r0 =>
      (kmalloc 4 r0.2 8100).bind (fun r1 =>
      (kmalloc 4 (kfree r1.2 r1.1) 16300).bind (fun r2 =>
      (kmalloc 4 (kfree r2.2 r2.1) 24500).bind (fun r3 =>
      (kmalloc 4 (kfree r3.2 r3.1) 32700).map (fun r4 =>
        (r0.1, r4.1, blk_size r4.2.mem (r4.1 - 48),
          r4.1 + blk_size r4.2.mem (r4.1 - 48)))))))
      = some (0, 0x40001030, 32720, 0x40009000) := by
  rw [low_boot_heap_eq]
  decide

/-! ## Rejected calls and round trips of the frame allocator -/

/-- The byte loop of `memset` in `lib/string.c` stores `c` truncated to a byte
at each of the `n` addresses from `p` on and nothing else. -/
theorem memset_loop_eq (m : Nat → Nat) (p c n : Nat) :
    memset_loop m p (c % 256) n = memset m p (c % 256) n := by
  induction n generalizing m p with
  | zero =>
    funext a
    have : ¬ (p ≤ a ∧ a < p + 0) := by omega
    simp only [memset_loop, memset, if_neg this]
  | succ n ih =>
    simp only [memset_loop]
    rw [ih]
    funext a
    simp only [memset, write8]
    by_cases h1 : p + 1 ≤ a ∧ a < p + 1 + n
    · have h2 : p ≤ a ∧ a < p + (n + 1) := by omega
      rw [if_pos h1, if_pos h2]
    · rw [if_neg h1]
      by_cases h3 : a = p
      · have h2 : p ≤ a ∧ a < p + (n + 1) := by omega
        rw [if_pos h3, if_pos h2, Nat.mod_mod]
      · have h2 : ¬ (p ≤ a ∧ a < p + (n + 1)) := by omega
        rw [if_neg h3, if_neg h2]

/-- C11: for every state and every argument that is null, or below
`RAM_BASE`, or at or above `RAM_BASE + 1 GiB`, or not a multiple of 4096, or
whose frame bit is already clear, `free_frame` changes nothing: the bitmap,
`free_memory`, `total_memory` and `highest_usable_address` (and everything
else) are as before. -/
theorem C11_free_frame_rejects (s : KState) (frame : Nat)
    (h : frame = 0 ∨ frame < PMM_RAM_BASE ∨ PMM_RAM_BASE + 1073741824 ≤ frame ∨
      frame % 4096 ≠ 0 ∨
      test_bit s.frame_bitmap ((frame - PMM_RAM_BASE) / 4096) = false) :
    free_frame s frame = s ∧
    (free_frame s frame).frame_bitmap = s.frame_bitmap ∧
    (free_frame s frame).free_memory = s.free_memory ∧
    (free_frame s frame).total_memory = s.total_memory ∧
    (free_frame s frame).highest_usable_address = s.highest_usable_address := by
  have e : free_frame s frame = s := by
    unfold free_frame
    by_cases h0 : frame = 0
    · rw [if_pos h0]
    rw [if_neg h0]
    simp only
    by_cases h1 : frame < PMM_RAM_BASE ∨ frame ≥ PMM_MAX_ADDRESS
    · rw [if_pos h1]
    rw [if_neg h1]
    by_cases h2 : frame % PAGE_SIZE ≠ 0
    · rw [if_pos h2]
    rw [if_neg h2]
    by_cases h3 : (frame - PMM_RAM_BASE) / PAGE_SIZE ≥ PMM_TOTAL_FRAMES
    · rw [if_pos h3]
    rw [if_neg h3]
    by_cases h4 : (!test_bit s.frame_bitmap ((frame - PMM_RAM_BASE) / PAGE_SIZE)) = true
    · rw [if_pos h4]
    exfalso
    rcases h with h | h | h | h | h
    · exact h0 h
    · exact h1 (Or.inl h)
    · exact h1 (Or.inr (by
        simp only [PMM_MAX_ADDRESS, PMM_MANAGEABLE_SIZE, PMM_RAM_BASE] at *; omega))
    · exact h2 h
    · apply h4
      simp only [PAGE_SIZE]
      rw [h]; rfl
  rw [e]
  exact ⟨rfl, rfl, rfl, rfl, rfl⟩

theorem C11_witness :
    (0x40000000 = 0 ∨ 0x40000000 < PMM_RAM_BASE ∨ PMM_RAM_BASE + 1073741824 ≤ 0x40000000 ∨
      0x40000000 % 4096 ≠ 0 ∨
      test_bit virt_boot_state.frame_bitmap ((0x40000000 - PMM_RAM_BASE) / 4096) = false) ∧
    (free_frame virt_boot_state 0x40000000 = virt_boot_state ∧
    (free_frame virt_boot_state 0x40000000).frame_bitmap = virt_boot_state.frame_bitmap ∧
    (free_frame virt_boot_state 0x40000000).free_memory = virt_boot_state.free_memory ∧
    (free_frame virt_boot_state 0x40000000).total_memory = virt_boot_state.total_memory ∧
    (free_frame virt_boot_state 0x40000000).highest_usable_address
      = virt_boot_state.highest_usable_address) :=
  ⟨by decide, C11_free_frame_rejects virt_boot_state 0x40000000 (by decide)⟩

theorem set_then_clear_bit (bm : Nat → Nat) (i : Nat) (hb : ∀ k, bm k < 256)
    (hc : test_bit bm i = false) : clear_bit (set_bit bm i) i = bm := by
  funext k
  by_cases hk : k = i / 8
  · apply bitmap_byte_ext _ _ k
    · show clear_bit (set_bit bm i) i k < 256
      unfold clear_bit
      rw [if_pos hk]
      exact Nat.mod_lt _ (by decide)
    · exact hb k
    · intro j _
      rw [test_bit_clear_bit, test_bit_set_bit]
      by_cases e : 8 * k + j = i
      · rw [e, hc]; simp
      · simp [e]
  · show clear_bit (set_bit bm i) i k = bm k
    unfold clear_bit set_bit
    rw [if_neg hk, if_neg hk]

/-- With the bitmap held apart from RAM: in every state (whose variables hold
values of their C types) in which `alloc_frame` returns a non-null address
`p`, calling `free_frame(p)` right afterwards restores the bitmap,
`free_memory`, `total_memory` and `highest_usable_address` to their values
before the `alloc_frame` call; in particular bit `(p - RAM_BASE) / 4096` is
clear again. -/
theorem alloc_then_free_restores (s : KState) (ht : PmmTyped s)
    (hp : (alloc_frame s).1 ≠ 0) :
    (free_frame (alloc_frame s).2 (alloc_frame s).1).frame_bitmap = s.frame_bitmap ∧
    (free_frame (alloc_frame s).2 (alloc_frame s).1).free_memory = s.free_memory ∧
    (free_frame (alloc_frame s).2 (alloc_frame s).1).total_memory = s.total_memory ∧
    (free_frame (alloc_frame s).2 (alloc_frame s).1).highest_usable_address
      = s.highest_usable_address ∧
    test_bit (free_frame (alloc_frame s).2 (alloc_frame s).1).frame_bitmap
      (((alloc_frame s).1 - PMM_RAM_BASE) / 4096) = false := by
  rcases alloc_frame_cases s with h0 | ⟨i, hi, hc, hmin, he⟩
  · rw [h0] at hp; exact absurd rfl hp
  rw [he]
  simp only
  have hi2 : i < 262144 := hi
  have e1 : free_frame
      { s with
        frame_bitmap := set_bit s.frame_bitmap i
        free_memory := sub64 s.free_memory PAGE_SIZE
        mem := memset s.mem (PMM_RAM_BASE + i * PAGE_SIZE) 0 PAGE_SIZE }
      (PMM_RAM_BASE + i * PAGE_SIZE)
      = { s with
          frame_bitmap := clear_bit (set_bit s.frame_bitmap i) i
          free_memory := u64 (sub64 s.free_memory PAGE_SIZE + PAGE_SIZE)
          mem := memset s.mem (PMM_RAM_BASE + i * PAGE_SIZE) 0 PAGE_SIZE } := by
    have a1 : ¬ (PMM_RAM_BASE + i * PAGE_SIZE = 0) := by
      simp only [PMM_RAM_BASE]; omega
    have a2 : ¬ (PMM_RAM_BASE + i * PAGE_SIZE < PMM_RAM_BASE ∨
        PMM_RAM_BASE + i * PAGE_SIZE ≥ PMM_MAX_ADDRESS) := by
      simp only [PMM_RAM_BASE, PAGE_SIZE, PMM_MAX_ADDRESS, PMM_MANAGEABLE_SIZE]; omega
    have a3 : ¬ ((PMM_RAM_BASE + i * PAGE_SIZE) % PAGE_SIZE ≠ 0) := by
      simp only [PMM_RAM_BASE, PAGE_SIZE]; omega
    have a4 : (PMM_RAM_BASE + i * PAGE_SIZE - PMM_RAM_BASE) / PAGE_SIZE = i := by
      simp only [PMM_RAM_BASE, PAGE_SIZE]; omega
    have a5 : ¬ (i ≥ PMM_TOTAL_FRAMES) := by omega
    have a6 : test_bit (set_bit s.frame_bitmap i) i = true := by
      rw [test_bit_set_bit]; simp
    unfold free_frame
    rw [if_neg a1]
    simp only
    rw [if_neg a2, if_neg a3, a4, if_neg a5, a6]
    rfl
  rw [e1]
  have e2 : clear_bit (set_bit s.frame_bitmap i) i = s.frame_bitmap :=
    set_then_clear_bit _ i ht.1 hc
  have e3 : u64 (sub64 s.free_memory PAGE_SIZE + PAGE_SIZE) = s.free_memory := by
    have := ht.2
    simp only [u64, sub64, PAGE_SIZE]
    omega
  have a4 : (PMM_RAM_BASE + i * PAGE_SIZE - PMM_RAM_BASE) / 4096 = i := by
    simp only [PMM_RAM_BASE, PAGE_SIZE]; omega
  refine ⟨e2, e3, rfl, rfl, ?_⟩
  show test_bit (clear_bit (set_bit s.frame_bitmap i) i) _ = false
  rw [e2, a4]
  exact hc

/-- C13: in every state `kmalloc(0)` returns null, whatever the fuel, and
`kfree(NULL)` returns, and each leaves the whole state as it was: the heap
variables, every byte of RAM (so every block header) and the frame
allocator's state. -/
theorem C13_kmalloc_zero_kfree_null (s : KState) (fuel : Nat) :
    kmalloc fuel s 0 = some (0, s) ∧ kfree s 0 = s :=
  ⟨rfl, rfl⟩

/-- C15: `alloc_frame` returns null if and only if all 262144 bitmap bits are
set, and in that case the whole state, in particular the bitmap,
`free_memory`, `total_memory` and `highest_usable_address`, is unchanged. -/
theorem C15_alloc_frame_null_iff_full (s : KState) :
    ((alloc_frame s).1 = 0 ↔ ∀ i, i < 262144 → test_bit s.frame_bitmap i = true) ∧
    ((alloc_frame s).1 = 0 →
      (alloc_frame s).2 = s ∧
      (alloc_frame s).2.frame_bitmap = s.frame_bitmap ∧
      (alloc_frame s).2.free_memory = s.free_memory ∧
      (alloc_frame s).2.total_memory = s.total_memory ∧
      (alloc_frame s).2.highest_usable_address = s.highest_usable_address) := by
  have key : (alloc_frame s).1 = 0 → alloc_frame s = (0, s) ∧
      ∀ i, i < 262144 → test_bit s.frame_bitmap i = true := by
    intro h0
    rcases alloc_frame_cases s with h | ⟨i, hi, hc, _, he⟩
    · refine ⟨h, ?_⟩
      intro i hi
      cases hb : test_bit s.frame_bitmap i with
      | true => rfl
      | false =>
        exact absurd (h ▸ rfl : (alloc_frame s).1 = 0)
          (alloc_frame_ne_zero s ⟨i, hi, hb⟩)
    · rw [he] at h0
      simp only [PMM_RAM_BASE] at h0
      omega
  refine ⟨⟨fun h0 => (key h0).2, ?_⟩, ?_⟩
  · intro hall
    rcases alloc_frame_cases s with h | ⟨i, hi, hc, _, _⟩
    · rw [h]
    · rw [hall i hi] at hc
      exact Bool.noConfusion hc
  · intro h0
    rw [(key h0).1]
    exact ⟨rfl, rfl, rfl, rfl, rfl⟩

/-- In `full_state` every bit is set, so `alloc_frame` returns null there. -/
theorem alloc_frame_full_state : (alloc_frame full_state).1 = 0 ∧
    (alloc_frame full_state).2 = full_state := by
  have hall : ∀ i, i < 262144 → test_bit full_state.frame_bitmap i = true := by
    intro i _
    rw [test_bit_eq]
    show (255 : Nat).testBit (i % 8) = true
    have h8 : i % 8 < 8 := Nat.mod_lt _ (by decide)
    rw [show (255 : Nat) = 2 ^ 8 - 1 from rfl, Nat.testBit_two_pow_sub_one]
    simp [h8]
  rcases alloc_frame_cases full_state with h | ⟨i, hi, hc, _, _⟩
  · rw [h]; exact ⟨rfl, rfl⟩
  · rw [hall i hi] at hc
    exact Bool.noConfusion hc

/-- C16: in every state, after `alloc_frame` returns a non-null address `a`,
each of the 4096 bytes at `a .. a + 4095` is zero and every byte of RAM
outside that range is as before the call. -/
theorem C16_alloc_frame_zeroes_frame (s : KState) (hp : (alloc_frame s).1 ≠ 0) :
    (∀ x, (alloc_frame s).1 ≤ x → x < (alloc_frame s).1 + 4096 →
      (alloc_frame s).2.mem x = 0) ∧
    (∀ x, ¬ ((alloc_frame s).1 ≤ x ∧ x < (alloc_frame s).1 + 4096) →
      (alloc_frame s).2.mem x = s.mem x) ∧
    (alloc_frame s).2.mem = memset_loop s.mem (alloc_frame s).1 0 4096 := by
  rcases alloc_frame_cases s with h0 | ⟨i, hi, hc, hmin, he⟩
  · rw [h0] at hp; exact absurd rfl hp
  rw [he]
  simp only
  refine ⟨?_, ?_, ?_⟩
  · intro x h1 h2
    show memset s.mem _ 0 PAGE_SIZE x = 0
    unfold memset
    rw [if_pos ⟨h1, by simp only [PAGE_SIZE] at h2 ⊢; omega⟩]
  · intro x hx
    show memset s.mem _ 0 PAGE_SIZE x = s.mem x
    unfold memset
    rw [if_neg (by simp only [PAGE_SIZE] at hx ⊢; exact hx)]
  · show memset s.mem _ 0 PAGE_SIZE = _
    exact (memset_loop_eq s.mem _ 0 4096).symm

theorem C16_witness :
    (alloc_frame virt_boot_state).1 ≠ 0 ∧
    ((∀ x, (alloc_frame virt_boot_state).1 ≤ x → x < (alloc_frame virt_boot_state).1 + 4096 →
      (alloc_frame virt_boot_state).2.mem x = 0) ∧
    (∀ x, ¬ ((alloc_frame virt_boot_state).1 ≤ x ∧
        x < (alloc_frame virt_boot_state).1 + 4096) →
      (alloc_frame virt_boot_state).2.mem x = virt_boot_state.mem x) ∧
    (alloc_frame virt_boot_state).2.mem
      = memset_loop virt_boot_state.mem (alloc_frame virt_boot_state).1 0 4096) :=
  ⟨alloc_frame_ne_zero _ ⟨0, by decide, by decide⟩,
    C16_alloc_frame_zeroes_frame virt_boot_state
      (alloc_frame_ne_zero _ ⟨0, by decide, by decide⟩)⟩

/-! ## The heap right after `kheap_init` -/

/-- With `n` free frames in a row at the bottom of the free frames, the loop
of `expand_heap` over `n` pages does not fail. -/
theorem expand_pages_ok (n : Nat) : ∀ (nb i0 : Nat) (s : KState), FreeRun s i0 n →
    (expand_pages n nb s).1 = true := by
  induction n with
  | zero => intro nb i0 s _; rfl
  | succ n ih =>
    intro nb i0 s h
    obtain ⟨h1, h2, h3⟩ := h
    have hc : test_bit s.frame_bitmap i0 = false := h2 0 (by omega)
    have e := alloc_frame_of_least s i0 (by omega) hc h1
    rw [expand_pages_succ, e]
    dsimp only
    have hf0 : PMM_RAM_BASE + i0 * PAGE_SIZE ≠ 0 := by simp only [PMM_RAM_BASE]; omega
    rw [if_neg hf0]
    apply ih _ (i0 + 1)
    have hbm := (link_block_state
      { s with
        frame_bitmap := set_bit s.frame_bitmap i0
        free_memory := sub64 s.free_memory PAGE_SIZE
        mem := memset s.mem (PMM_RAM_BASE + i0 * PAGE_SIZE) 0 PAGE_SIZE }
      (PMM_RAM_BASE + i0 * PAGE_SIZE)).2.2.2.1
    refine ⟨?_, ?_, by omega⟩
    · intro j hj
      rw [hbm]
      show test_bit (set_bit s.frame_bitmap i0) j = true
      rw [test_bit_set_bit]
      by_cases e : j = i0
      · simp [e]
      · rw [h1 j (by omega)]; simp
    · intro k hk
      rw [hbm]
      show test_bit (set_bit s.frame_bitmap i0) (i0 + 1 + k) = false
      rw [test_bit_set_bit]
      have := h2 (k + 1) (by omega)
      rw [show i0 + 1 + k = i0 + (k + 1) by omega, this]
      have : ¬ (i0 + (k + 1) = i0) := by omega
      simp [this]

theorem map_fst_describe (m : Nat → Nat) (l : List Nat) :
    (l.map (fun b => (b, blk_size m b, blk_is_free m b))).map Prod.fst = l := by
  induction l with
  | nil => rfl
  | cons a r ih => simp only [List.map_cons, ih]

/-- Every state that satisfies the heap invariant has a description. -/
theorem view_of_inv {s : KState} {chain : List Nat} {lim : Nat} (h : HeapInv s chain lim) :
    View s (chain.map (fun b => (b, blk_size s.mem b, blk_is_free s.mem b))) lim
      s.free_list_head := by
  refine ⟨by rw [map_fst_describe]; exact h, rfl, ?_⟩
  intro x hx
  obtain ⟨b, _, e⟩ := List.mem_map.1 hx
  rw [← e]
  exact ⟨rfl, rfl⟩

/-- When the five lowest free frames are frames `i0 .. i0 + 4`, `kheap_init`
leaves a heap whose first block is the whole first frame, flagged free, at
the head of the free list. -/
theorem kheap_init_view (s : KState) (i0 : Nat) (h : FreeRun s i0 5) :
    ∃ post lim, View (kheap_init s)
      ((PMM_RAM_BASE + i0 * PAGE_SIZE, 4048, true) :: post) lim
      (PMM_RAM_BASE + i0 * PAGE_SIZE) := by
  obtain ⟨h1, h2, h3⟩ := h
  have hi : i0 < PMM_TOTAL_FRAMES := by omega
  have hc : test_bit s.frame_bitmap i0 = false := h2 0 (by omega)
  generalize hs0 : ({ s with free_list_head := 0, heap_start := 0, heap_end := 0 } : KState) = t
  have hbm : t.frame_bitmap = s.frame_bitmap := by rw [← hs0]
  have hhd : t.free_list_head = 0 := by rw [← hs0]
  have hen : t.heap_end = 0 := by rw [← hs0]
  have h0 : HeapInv t [] 0 := by
    rw [← hs0]
    refine ⟨⟨trivial, rfl, rfl, Nat.zero_le _, ?_⟩, ⟨?_, ?_, ?_, ?_⟩⟩
    · intro i _ hlt; omega
    · intro h; exact absurd rfl h
    · intro b hb; simp at hb
    · intro b hb; simp at hb
    · intro b hb; simp at hb
  have hk : kheap_init s = (expand_heap t (PAGE_SIZE * 4)).2 := by rw [← hs0]; rfl
  have hp : pages_needed (PAGE_SIZE * 4) = 5 := by decide
  have hct : test_bit t.frame_bitmap i0 = false := by rw [hbm]; exact hc
  have hmt : ∀ j, j < i0 → test_bit t.frame_bitmap j = true := by rw [hbm]; exact h1
  have e := alloc_frame_of_least t i0 hi hct hmt
  obtain ⟨l1, _, l3, l4, _⟩ := link_step h0 i0 hi hct hmt _ rfl
  have hF : PMM_RAM_BASE ≤ PMM_RAM_BASE + i0 * PAGE_SIZE ∧
      PMM_RAM_BASE + i0 * PAGE_SIZE < 2 ^ 32 := by
    simp only [PMM_RAM_BASE, PAGE_SIZE, PMM_TOTAL_FRAMES, PMM_MANAGEABLE_SIZE] at *
    omega
  have hnew := link_block_fields
    { t with
      frame_bitmap := set_bit t.frame_bitmap i0
      free_memory := sub64 t.free_memory PAGE_SIZE
      mem := memset t.mem (PMM_RAM_BASE + i0 * PAGE_SIZE) 0 PAGE_SIZE }
    (PMM_RAM_BASE + i0 * PAGE_SIZE) (PMM_RAM_BASE + i0 * PAGE_SIZE) (SepH_refl _)
    (fun hne => absurd hen hne) (by omega) (by
      show t.heap_end < 2 ^ 64
      rw [hen]; norm_num)
  have hrun : FreeRun (link_block
      { t with
        frame_bitmap := set_bit t.frame_bitmap i0
        free_memory := sub64 t.free_memory PAGE_SIZE
        mem := memset t.mem (PMM_RAM_BASE + i0 * PAGE_SIZE) 0 PAGE_SIZE }
      (PMM_RAM_BASE + i0 * PAGE_SIZE)) (i0 + 1) 4 := by
    have hb2 := (link_block_state
      { t with
        frame_bitmap := set_bit t.frame_bitmap i0
        free_memory := sub64 t.free_memory PAGE_SIZE
        mem := memset t.mem (PMM_RAM_BASE + i0 * PAGE_SIZE) 0 PAGE_SIZE }
      (PMM_RAM_BASE + i0 * PAGE_SIZE)).2.2.2.1
    refine ⟨?_, ?_, by omega⟩
    · intro j hj
      rw [hb2]
      show test_bit (set_bit t.frame_bitmap i0) j = true
      rw [test_bit_set_bit]
      by_cases e : j = i0
      · simp [e]
      · rw [hmt j (by omega)]; simp
    · intro k hk
      rw [hb2]
      show test_bit (set_bit t.frame_bitmap i0) (i0 + 1 + k) = false
      rw [test_bit_set_bit, hbm]
      have := h2 (k + 1) (by omega)
      rw [show i0 + 1 + k = i0 + (k + 1) by omega, this]
      have : ¬ (i0 + (k + 1) = i0) := by omega
      simp [this]
  generalize hfd : PMM_RAM_BASE + i0 * PAGE_SIZE = f at *
  have hf0 : f ≠ 0 := by simp only [PMM_RAM_BASE] at hF; omega
  generalize hL : link_block _ f = L at *
  have hpages : expand_pages 5 0 t = expand_pages 4 f L := by
    rw [expand_pages_succ, e]
    dsimp only
    rw [if_neg hf0, if_pos rfl, hL]
  have l1' : HeapInv L [f] (f + 4096) := l1
  obtain ⟨new, lim2, r1, r2, r3, _, r5, r6⟩ :=
    expand_pages_inv 4 f L [f] _ l1' (Or.inr ⟨List.mem_singleton_self f, l3⟩)
  have hok := expand_pages_ok 4 f (i0 + 1) L hrun
  have hnb := r3 hf0
  generalize hE : expand_pages 4 f L = E at *
  have hdE : Detached E.2.2 f := by
    rcases r2 with r2 | r2
    · rw [hnb] at r2; exact absurd r2 hf0
    · rw [hnb] at r2; exact r2.2
  have hprev : blk_prev E.2.2.mem f = 0 := (Seg_mid _ [] new f 0 0 lim2 r1.phys.seg).1
  have hfin : kheap_init s = add_to_free_list E.2.2 f := by
    rw [hk, expand_heap_eq, hp, hpages, hok, hnb]
    simp only [Bool.not_true, Bool.false_eq_true, if_false, if_neg hf0]
    unfold expand_finish
    rw [if_neg]
    rw [hprev]
    exact fun hh => hh.1 rfl
  have hfm : f ∈ [f] ++ new := by simp
  obtain ⟨a1, a2, a3⟩ := add_to_free_list_inv r1.phys f hfm (FL_erase r1 f hdE)
  rw [hfin]
  refine ⟨new.map (fun b => (b, blk_size (add_to_free_list E.2.2 f).mem b,
    blk_is_free (add_to_free_list E.2.2 f).mem b)), lim2, ?_, a2, ?_⟩
  · show HeapInv _ (f :: (new.map _).map Prod.fst) lim2
    rw [map_fst_describe]
    exact a1
  · intro x hx
    rcases List.mem_cons.1 hx with e1 | e1
    · rw [e1]
      show blk_size _ f = 4048 ∧ blk_is_free _ f = true
      rw [(a3 f hfm).1, (a3 f hfm).2.2.2, if_pos rfl, (r6 f (List.mem_singleton_self f)).1,
        hnew.1, if_pos rfl]
      exact ⟨rfl, rfl⟩
    · obtain ⟨b, _, e2⟩ := List.mem_map.1 e1
      rw [← e2]
      exact ⟨rfl, rfl⟩

/-! ## The two halves of `coalesce`, with the chain made explicit -/

theorem coalesce_fwd_exact {s : KState} {lim : Nat} (pre post : List Nat) (x y : Nat)
    (h : HeapInv s (pre ++ x :: y :: post) lim) (hd : Detached s x)
    (hy : blk_is_free s.mem y = true) :
    HeapInv (coalesce_fwd s x) (pre ++ x :: post) lim ∧
    Detached (coalesce_fwd s x) x ∧
    (∀ b, b ∈ pre ++ x :: post →
      blk_size (coalesce_fwd s x).mem b
        = (if b = x then blk_size s.mem x + blk_size s.mem y + 48 else blk_size s.mem b) ∧
      blk_is_free (coalesce_fwd s x).mem b = blk_is_free s.mem b) := by
  have hx : x ∈ pre ++ x :: y :: post := by simp
  have hym : y ∈ pre ++ x :: y :: post := by simp
  have hH := h.phys.hdrs
  have hnd := Seg_nodup _ _ _ _ _ h.phys.seg
  have hy0 : y ≠ 0 := fun e => not_mem_zero h.phys (e ▸ hym)
  obtain ⟨_, hxy⟩ := nodup_mid pre post x y hnd
  have hnx : blk_next s.mem x = y := (Seg_mid _ pre (y :: post) x 0 0 lim h.phys.seg).2
  have efwd : coalesce_fwd s x = absorb (remove_from_free_list s y) x y true := by
    rw [coalesce_fwd_eq s x (by
      intro _
      rw [hnx]
      exact ⟨hH.sep x y hx hym, Ne.symm hxy⟩)]
    rw [hnx, if_pos ⟨hy0, hy⟩]
  obtain ⟨r1, r2, r3, r4⟩ := remove_from_free_list_inv h y hym
  obtain ⟨a1, a2⟩ := absorb_step pre post x y true r1 r2
  have hsub : ∀ b, b ∈ pre ++ x :: post → b ∈ pre ++ x :: y :: post ∧ b ≠ y :=
    fun b hb => (mem_mid_ne pre post x y hnd b).1 hb
  have hxm : x ∈ pre ++ x :: post := by simp
  have hdx := r3 x hx hxy hd
  have hst := absorb_state (remove_from_free_list s y) x y true
  rw [efwd]
  refine ⟨a1, ⟨by rw [hst.1]; exact hdx.1, ?_, ?_⟩, ?_⟩
  · rw [(a2 x hxm).2.1]; exact hdx.2.1
  · rw [(a2 x hxm).2.2.1]; exact hdx.2.2
  · intro b hb
    constructor
    · rw [(a2 b hb).1, (r4 x hx).1, (r4 y hym).1, (r4 b (hsub b hb).1).1]
    · rw [(a2 b hb).2.2.2, (r4 b (hsub b hb).1).2.2.2, if_neg (hsub b hb).2]

theorem coalesce_bwd_exact {s : KState} {lim : Nat} (pre post : List Nat) (w x : Nat)
    (h : HeapInv s (pre ++ w :: x :: post) lim) (hd : Detached s x)
    (hw : blk_is_free s.mem w = true) :
    (coalesce_bwd s x).1 = w ∧
    HeapInv (coalesce_bwd s x).2 (pre ++ w :: post) lim ∧
    Detached (coalesce_bwd s x).2 w ∧
    (∀ b, b ∈ pre ++ w :: post →
      blk_size (coalesce_bwd s x).2.mem b
        = (if b = w then blk_size s.mem w + blk_size s.mem x + 48 else blk_size s.mem b) ∧
      (b ≠ w → blk_is_free (coalesce_bwd s x).2.mem b = blk_is_free s.mem b)) := by
  have hwm : w ∈ pre ++ w :: x :: post := by simp
  have hx : x ∈ pre ++ w :: x :: post := by simp
  have hH := h.phys.hdrs
  have hnd := Seg_nodup _ _ _ _ _ h.phys.seg
  have hw0 : w ≠ 0 := fun e => not_mem_zero h.phys (e ▸ hwm)
  obtain ⟨_, hwx⟩ := nodup_mid pre post w x hnd
  have hre : pre ++ w :: x :: post = (pre ++ [w]) ++ x :: post := by simp
  have hpx : blk_prev s.mem x = w := by
    have hseg := h.phys.seg
    rw [hre] at hseg
    have := (Seg_mid _ (pre ++ [w]) post x 0 0 lim hseg).1
    rw [this, lastD_append]
    rfl
  have ebwd : coalesce_bwd s x = (w, absorb (remove_from_free_list s w) w x true) := by
    rw [coalesce_bwd_eq s x (by
      intro _
      rw [hpx]
      exact ⟨hH.sep w x hwm hx, Ne.symm hwx⟩)]
    rw [hpx, if_pos ⟨hw0, hw⟩]
  obtain ⟨r1, r2, r3, r4⟩ := remove_from_free_list_inv h w hwm
  have hdx := r3 x hx (Ne.symm hwx) hd
  obtain ⟨a1, a2⟩ := absorb_step pre post w x true r1 hdx
  have hsub : ∀ b, b ∈ pre ++ w :: post → b ∈ pre ++ w :: x :: post ∧ b ≠ x :=
    fun b hb => (mem_mid_ne pre post w x hnd b).1 hb
  have hwm2 : w ∈ pre ++ w :: post := by simp
  have hst := absorb_state (remove_from_free_list s w) w x true
  rw [ebwd]
  refine ⟨rfl, a1, ⟨by rw [hst.1]; exact r2.1, ?_, ?_⟩, ?_⟩
  · show blk_next_free (absorb (remove_from_free_list s w) w x true).mem w = 0
    rw [(a2 w hwm2).2.1]; exact r2.2.1
  · show blk_prev_free (absorb (remove_from_free_list s w) w x true).mem w = 0
    rw [(a2 w hwm2).2.2.1]; exact r2.2.2
  · intro b hb
    constructor
    · show blk_size (absorb (remove_from_free_list s w) w x true).mem b = _
      rw [(a2 b hb).1, (r4 w hwm).1, (r4 x hx).1, (r4 b (hsub b hb).1).1]
    · intro hbw
      show blk_is_free (absorb (remove_from_free_list s w) w x true).mem b = _
      rw [(a2 b hb).2.2.2, (r4 b (hsub b hb).1).2.2.2, if_neg hbw]

/-- The state in which `kfree` calls `coalesce`: the flag of the block is
set, everything else is as before. -/
theorem kfree_prelude {s : KState} {chain : List Nat} {lim : Nat} (h : HeapInv s chain lim)
    (x : Nat) (hx : x ∈ chain) (hf : blk_is_free s.mem x = false) :
    ∃ s0, kfree s (x + 48) =
        add_to_free_list (coalesce_bwd (coalesce_fwd s0 x) x).2
          (coalesce_bwd (coalesce_fwd s0 x) x).1 ∧
      HeapInv s0 chain lim ∧ Detached s0 x ∧
      (∀ b, b ∈ chain → blk_size s0.mem b = blk_size s.mem b ∧
        blk_next s0.mem b = blk_next s.mem b ∧ blk_prev s0.mem b = blk_prev s.mem b ∧
        blk_is_free s0.mem b = (if b = x then true else blk_is_free s.mem b)) := by
  obtain ⟨e, h0, hd0⟩ := kfree_unfold h x hx hf
  have hH := h.phys.hdrs
  refine ⟨_, e, h0, hd0, ?_⟩
  intro b hb
  exact ⟨blk_size_set_is_free _ _ _ _ (hH.sep x b hx hb),
    blk_next_set_is_free _ _ _ _ (hH.sep x b hx hb),
    blk_prev_set_is_free _ _ _ _ (hH.sep x b hx hb), blk_is_free_set_is_free _ _ _ _⟩

/-! ## The four cases of `kfree` on a live block -/

theorem kfree_case_none {s : KState} {lim : Nat} (pre post : List Nat) (x : Nat)
    (h : HeapInv s (pre ++ x :: post) lim) (hf : blk_is_free s.mem x = false)
    (hprev : lastD pre 0 = 0 ∨ blk_is_free s.mem (lastD pre 0) = false)
    (hnext : post.headD 0 = 0 ∨ blk_is_free s.mem (post.headD 0) = false) :
    HeapInv (kfree s (x + 48)) (pre ++ x :: post) lim ∧
    (kfree s (x + 48)).free_list_head = x ∧
    (∀ b, b ∈ pre ++ x :: post →
      blk_size (kfree s (x + 48)).mem b = blk_size s.mem b ∧
      blk_is_free (kfree s (x + 48)).mem b = (if b = x then true else blk_is_free s.mem b)) := by
  have hx : x ∈ pre ++ x :: post := by simp
  have hnd := Seg_nodup _ _ _ _ _ h.phys.seg
  have hx0 : x ≠ 0 := fun e => not_mem_zero h.phys (e ▸ hx)
  obtain ⟨l1, l2, l3, l4⟩ := lastD_ne_of_nodup pre post x hnd hx0
  obtain ⟨hpS, hnS⟩ := Seg_mid _ pre post x 0 0 lim h.phys.seg
  obtain ⟨s0, e, h0, hd0, f0⟩ := kfree_prelude h x hx hf
  have e1 : coalesce_fwd s0 x = s0 := by
    apply coalesce_fwd_none
    rw [(f0 x hx).2.1, hnS]
    by_cases hz : post.headD 0 = 0
    · left; exact hz
    · right
      rw [(f0 _ (l4 hz)).2.2.2, if_neg l2]
      rcases hnext with a | a
      · exact absurd a hz
      · exact a
  have e2 : coalesce_bwd s0 x = (x, s0) := by
    apply coalesce_bwd_none
    rw [(f0 x hx).2.2.1, hpS]
    by_cases hz : lastD pre 0 = 0
    · left; exact hz
    · right
      rw [(f0 _ (l3 hz)).2.2.2, if_neg l1]
      rcases hprev with a | a
      · exact absurd a hz
      · exact a
  rw [e, e1, e2]
  obtain ⟨a1, a2, a3⟩ := add_to_free_list_inv h0.phys x hx (FL_erase h0 x hd0)
  refine ⟨a1, a2, ?_⟩
  intro b hb
  refine ⟨((a3 b hb).1).trans (f0 b hb).1, ?_⟩
  refine ((a3 b hb).2.2.2).trans ?_
  by_cases hbx : b = x
  · rw [if_pos hbx, if_pos hbx]
  · rw [if_neg hbx, if_neg hbx, (f0 b hb).2.2.2, if_neg hbx]

theorem kfree_case_fwd {s : KState} {lim : Nat} (pre post : List Nat) (x y : Nat)
    (h : HeapInv s (pre ++ x :: y :: post) lim) (hf : blk_is_free s.mem x = false)
    (hy : blk_is_free s.mem y = true)
    (hprev : lastD pre 0 = 0 ∨ blk_is_free s.mem (lastD pre 0) = false) :
    HeapInv (kfree s (x + 48)) (pre ++ x :: post) lim ∧
    (kfree s (x + 48)).free_list_head = x ∧
    (∀ b, b ∈ pre ++ x :: post →
      blk_size (kfree s (x + 48)).mem b
        = (if b = x then blk_size s.mem x + blk_size s.mem y + 48 else blk_size s.mem b) ∧
      blk_is_free (kfree s (x + 48)).mem b = (if b = x then true else blk_is_free s.mem b)) := by
  have hx : x ∈ pre ++ x :: y :: post := by simp
  have hym : y ∈ pre ++ x :: y :: post := by simp
  have hnd := Seg_nodup _ _ _ _ _ h.phys.seg
  have hx0 : x ≠ 0 := fun e => not_mem_zero h.phys (e ▸ hx)
  obtain ⟨_, hxy⟩ := nodup_mid pre post x y hnd
  have hsub : ∀ b, b ∈ pre ++ x :: post → b ∈ pre ++ x :: y :: post ∧ b ≠ y :=
    fun b hb => (mem_mid_ne pre post x y hnd b).1 hb
  obtain ⟨s0, e, h0, hd0, f0⟩ := kfree_prelude h x hx hf
  obtain ⟨c1, c2, c3⟩ := coalesce_fwd_exact pre post x y h0 hd0 (by
    rw [(f0 y hym).2.2.2, if_neg (Ne.symm hxy)]; exact hy)
  have hnd2 := Seg_nodup _ _ _ _ _ c1.phys.seg
  obtain ⟨l1, _, l3, _⟩ := lastD_ne_of_nodup pre post x hnd2 hx0
  have hxm : x ∈ pre ++ x :: post := by simp
  have e2 : coalesce_bwd (coalesce_fwd s0 x) x = (x, coalesce_fwd s0 x) := by
    apply coalesce_bwd_none
    rw [(Seg_mid _ pre post x 0 0 lim c1.phys.seg).1]
    by_cases hz : lastD pre 0 = 0
    · left; exact hz
    · right
      have hm := l3 hz
      rw [(c3 _ hm).2, (f0 _ (hsub _ hm).1).2.2.2, if_neg l1]
      rcases hprev with a | a
      · exact absurd a hz
      · exact a
  rw [e, e2]
  obtain ⟨a1, a2, a3⟩ := add_to_free_list_inv c1.phys x hxm (FL_erase c1 x c2)
  refine ⟨a1, a2, ?_⟩
  intro b hb
  constructor
  · rw [(a3 b hb).1, (c3 b hb).1, (f0 x hx).1, (f0 y hym).1, (f0 b (hsub b hb).1).1]
  · refine ((a3 b hb).2.2.2).trans ?_
    by_cases hbx : b = x
    · rw [if_pos hbx, if_pos hbx]
    · rw [if_neg hbx, if_neg hbx, (c3 b hb).2, (f0 b (hsub b hb).1).2.2.2, if_neg hbx]

theorem kfree_case_bwd {s : KState} {lim : Nat} (pre post : List Nat) (w x : Nat)
    (h : HeapInv s (pre ++ w :: x :: post) lim) (hf : blk_is_free s.mem x = false)
    (hw : blk_is_free s.mem w = true)
    (hnext : post.headD 0 = 0 ∨ blk_is_free s.mem (post.headD 0) = false) :
    HeapInv (kfree s (x + 48)) (pre ++ w :: post) lim ∧
    (kfree s (x + 48)).free_list_head = w ∧
    (∀ b, b ∈ pre ++ w :: post →
      blk_size (kfree s (x + 48)).mem b
        = (if b = w then blk_size s.mem w + blk_size s.mem x + 48 else blk_size s.mem b) ∧
      blk_is_free (kfree s (x + 48)).mem b = (if b = w then true else blk_is_free s.mem b)) := by
  have hwm : w ∈ pre ++ w :: x :: post := by simp
  have hx : x ∈ pre ++ w :: x :: post := by simp
  have hnd := Seg_nodup _ _ _ _ _ h.phys.seg
  have hx0 : x ≠ 0 := fun e => not_mem_zero h.phys (e ▸ hx)
  obtain ⟨_, hwx⟩ := nodup_mid pre post w x hnd
  have hsub : ∀ b, b ∈ pre ++ w :: post → b ∈ pre ++ w :: x :: post ∧ b ≠ x :=
    fun b hb => (mem_mid_ne pre post w x hnd b).1 hb
  have hre : pre ++ w :: x :: post = (pre ++ [w]) ++ x :: post := by simp
  obtain ⟨s0, e, h0, hd0, f0⟩ := kfree_prelude h x hx hf
  have hnd3 : ((pre ++ [w]) ++ x :: post).Nodup := by rw [← hre]; exact hnd
  obtain ⟨_, l2, _, l4⟩ := lastD_ne_of_nodup (pre ++ [w]) post x hnd3 hx0
  have hnS : blk_next s.mem x = post.headD 0 := by
    have hseg := h.phys.seg
    rw [hre] at hseg
    exact (Seg_mid _ (pre ++ [w]) post x 0 0 lim hseg).2
  have e1 : coalesce_fwd s0 x = s0 := by
    apply coalesce_fwd_none
    rw [(f0 x hx).2.1, hnS]
    by_cases hz : post.headD 0 = 0
    · left; exact hz
    · right
      have hm : post.headD 0 ∈ pre ++ w :: x :: post := by rw [hre]; exact l4 hz
      rw [(f0 _ hm).2.2.2, if_neg l2]
      rcases hnext with a | a
      · exact absurd a hz
      · exact a
  rw [e, e1]
  obtain ⟨b1, b2, b3, b4⟩ := coalesce_bwd_exact pre post w x h0 hd0 (by
    rw [(f0 w hwm).2.2.2, if_neg hwx]; exact hw)
  rw [b1]
  have hwm2 : w ∈ pre ++ w :: post := by simp
  obtain ⟨a1, a2, a3⟩ := add_to_free_list_inv b2.phys w hwm2 (FL_erase b2 w b3)
  refine ⟨a1, a2, ?_⟩
  intro b hb
  constructor
  · rw [(a3 b hb).1, (b4 b hb).1, (f0 w hwm).1, (f0 x hx).1, (f0 b (hsub b hb).1).1]
  · refine ((a3 b hb).2.2.2).trans ?_
    by_cases hbw : b = w
    · rw [if_pos hbw, if_pos hbw]
    · rw [if_neg hbw, if_neg hbw, (b4 b hb).2 hbw, (f0 b (hsub b hb).1).2.2.2,
        if_neg (hsub b hb).2]

theorem kfree_case_both {s : KState} {lim : Nat} (pre post : List Nat) (w x y : Nat)
    (h : HeapInv s (pre ++ w :: x :: y :: post) lim) (hf : blk_is_free s.mem x = false)
    (hw : blk_is_free s.mem w = true) (hy : blk_is_free s.mem y = true) :
    HeapInv (kfree s (x + 48)) (pre ++ w :: post) lim ∧
    (kfree s (x + 48)).free_list_head = w ∧
    (∀ b, b ∈ pre ++ w :: post →
      blk_size (kfree s (x + 48)).mem b
        = (if b = w then blk_size s.mem w + blk_size s.mem x + blk_size s.mem y + 96
           else blk_size s.mem b) ∧
      blk_is_free (kfree s (x + 48)).mem b = (if b = w then true else blk_is_free s.mem b)) := by
  have hre : pre ++ w :: x :: y :: post = (pre ++ [w]) ++ x :: y :: post := by simp
  have hre2 : (pre ++ [w]) ++ x :: post = pre ++ w :: x :: post := by simp
  have hwm : w ∈ pre ++ w :: x :: y :: post := by simp
  have hx : x ∈ pre ++ w :: x :: y :: post := by simp
  have hym : y ∈ pre ++ w :: x :: y :: post := by simp
  have hnd := Seg_nodup _ _ _ _ _ h.phys.seg
  obtain ⟨s0, e, h0, hd0, f0⟩ := kfree_prelude h x hx hf
  have hnd1 : ((pre ++ [w]) ++ x :: y :: post).Nodup := by rw [← hre]; exact hnd
  obtain ⟨_, hxy⟩ := nodup_mid (pre ++ [w]) post x y hnd1
  have hwx : w ≠ x := by
    have := (List.nodup_append.1 hnd).2.1
    exact fun e => (List.nodup_cons.1 this).1 (e ▸ List.mem_cons_self _ _)
  have hwy : w ≠ y := by
    have := (List.nodup_append.1 hnd).2.1
    exact fun e => (List.nodup_cons.1 this).1
      (e ▸ List.mem_cons_of_mem _ (List.mem_cons_self _ _))
  have h0' : HeapInv s0 ((pre ++ [w]) ++ x :: y :: post) lim := by rw [← hre]; exact h0
  obtain ⟨c1, c2, c3⟩ := coalesce_fwd_exact (pre ++ [w]) post x y h0' hd0 (by
    rw [(f0 y hym).2.2.2, if_neg (Ne.symm hxy)]; exact hy)
  rw [hre2] at c1 c3
  have hwm1 : w ∈ pre ++ w :: x :: post := by simp
  have hxm1 : x ∈ pre ++ w :: x :: post := by simp
  have hnd2 := Seg_nodup _ _ _ _ _ c1.phys.seg
  have hsub1 : ∀ b, b ∈ pre ++ w :: x :: post → b ∈ pre ++ w :: x :: y :: post := by
    intro b hb
    simp only [List.mem_append, List.mem_cons] at hb ⊢
    tauto
  have hsub2 : ∀ b, b ∈ pre ++ w :: post → b ∈ pre ++ w :: x :: post ∧ b ≠ x :=
    fun b hb => (mem_mid_ne pre post w x hnd2 b).1 hb
  obtain ⟨b1, b2, b3, b4⟩ := coalesce_bwd_exact pre post w x c1 c2 (by
    rw [(c3 w hwm1).2, (f0 w hwm).2.2.2, if_neg hwx]; exact hw)
  rw [e, b1]
  have hwm2 : w ∈ pre ++ w :: post := by simp
  obtain ⟨a1, a2, a3⟩ := add_to_free_list_inv b2.phys w hwm2 (FL_erase b2 w b3)
  refine ⟨a1, a2, ?_⟩
  intro b hb
  have hb1 := (hsub2 b hb).1
  have hbx := (hsub2 b hb).2
  constructor
  · rw [(a3 b hb).1, (b4 b hb).1, (c3 w hwm1).1, if_neg hwx, (c3 x hxm1).1, if_pos rfl,
      (c3 b hb1).1, if_neg hbx, (f0 w hwm).1, (f0 x hx).1, (f0 y hym).1,
      (f0 b (hsub1 b hb1)).1]
    by_cases hbw : b = w
    · rw [if_pos hbw, if_pos hbw]; omega
    · rw [if_neg hbw, if_neg hbw]
  · refine ((a3 b hb).2.2.2).trans ?_
    by_cases hbw : b = w
    · rw [if_pos hbw, if_pos hbw]
    · rw [if_neg hbw, if_neg hbw, (b4 b hb).2 hbw, (c3 b hb1).2,
        (f0 b (hsub1 b hb1)).2.2.2, if_neg hbx]

/-! ## Steps on heap descriptions -/

theorem kmalloc_take_head {s : KState} {lim : Nat} (pre post : List Nat) (bf size : Nat)
    (h : HeapInv s (pre ++ bf :: post) lim) (hc : size + 96 ≤ blk_size s.mem bf) :
    (kmalloc_take s size bf).2.free_list_head = bf + 48 + size := by
  have hbf : bf ∈ pre ++ bf :: post := by simp
  have hbnd := h.phys.bound bf hbf
  obtain ⟨_, _, _, r4⟩ := remove_from_free_list_inv h bf hbf
  have hsize1 : blk_size (remove_from_free_list s bf).mem bf = blk_size s.mem bf := (r4 bf hbf).1
  have hu1 : u64 (bf + HEAP_HEADER_SIZE) = bf + 48 := by unfold u64 HEAP_HEADER_SIZE; omega
  have hu2 : u64 (size + HEAP_MIN_BLOCK_SIZE) = size + 96 := by
    unfold u64 HEAP_MIN_BLOCK_SIZE HEAP_HEADER_SIZE; omega
  have hu3 : u64 (bf + HEAP_HEADER_SIZE + size) = bf + 48 + size := by
    unfold u64 HEAP_HEADER_SIZE; omega
  rw [kmalloc_take_eq, hu1, hu2, hu3, hsize1, if_pos hc]
  rfl

theorem side_notin (P mid Q : List Nat) (hnd : (P ++ mid ++ Q).Nodup) (b : Nat)
    (hb : b ∈ P ∨ b ∈ Q) : b ∉ mid := by
  intro hm
  rw [List.nodup_append] at hnd
  obtain ⟨n1, _, n3⟩ := hnd
  rcases hb with hb | hb
  · exact (List.nodup_append.1 n1).2.2 hb hm
  · exact n3 (List.mem_append_right _ hm) hb

theorem side_fst {pre post : List (Nat × Nat × Bool)} {x : Nat × Nat × Bool}
    (hx : x ∈ pre ∨ x ∈ post) : x.1 ∈ pre.map Prod.fst ∨ x.1 ∈ post.map Prod.fst := by
  rcases hx with hx | hx
  · exact Or.inl (List.mem_map_of_mem _ hx)
  · exact Or.inr (List.mem_map_of_mem _ hx)

theorem prev_flag (s : KState) (pre : List (Nat × Nat × Bool))
    (hf : ∀ x, x ∈ pre → blk_is_free s.mem x.1 = x.2.2)
    (hprev : (pre.reverse.headD (0, 0, false)).2.2 = false) :
    lastD (pre.map Prod.fst) 0 = 0 ∨
      blk_is_free s.mem (lastD (pre.map Prod.fst) 0) = false := by
  rcases List.eq_nil_or_concat pre with e | ⟨l, w, e⟩
  · left; rw [e]; rfl
  · right
    have e2 : pre = l ++ [w] := by rw [e]; simp
    rw [e2] at hprev ⊢
    simp only [List.reverse_append, List.reverse_cons, List.reverse_nil, List.nil_append,
      List.singleton_append, List.headD_cons] at hprev
    rw [List.map_append, lastD_append]
    show blk_is_free s.mem w.1 = false
    rw [hf w (by rw [e2]; simp)]
    exact hprev

theorem next_flag (s : KState) (post : List (Nat × Nat × Bool))
    (hf : ∀ x, x ∈ post → blk_is_free s.mem x.1 = x.2.2)
    (hnext : (post.headD (0, 0, false)).2.2 = false) :
    (post.map Prod.fst).headD 0 = 0 ∨
      blk_is_free s.mem ((post.map Prod.fst).headD 0) = false := by
  cases post with
  | nil => left; rfl
  | cons y r =>
    right
    show blk_is_free s.mem y.1 = false
    rw [hf y (List.mem_cons_self _ _)]
    exact hnext

/-- `kmalloc(n)` when the head of the free list fits and is split. -/
theorem view_malloc_split {s : KState} {lim : Nat} (pre post : List (Nat × Nat × Bool))
    (bf sz n fuel : Nat) (hv : View s (pre ++ (bf, sz, true) :: post) lim bf)
    (hn : n ≠ 0) (hfit : round_size n + 96 ≤ sz) :
    ∃ s2, kmalloc (fuel + 1) s n = some (bf + 48, s2) ∧
      View s2 (pre ++ (bf, round_size n, false) ::
        (bf + 48 + round_size n, sz - round_size n - 48, true) :: post) lim
        (bf + 48 + round_size n) := by
  obtain ⟨hinv, hhead, hfld⟩ := hv
  have hmap : (pre ++ (bf, sz, true) :: post).map Prod.fst
      = pre.map Prod.fst ++ bf :: post.map Prod.fst := by simp
  rw [hmap] at hinv
  have hsz : blk_size s.mem bf = sz := (hfld (bf, sz, true) (by simp)).1
  have hbfm : bf ∈ pre.map Prod.fst ++ bf :: post.map Prod.fst := by simp
  have hbf0 : bf ≠ 0 := fun e => not_mem_zero hinv.phys (e ▸ hbfm)
  have hnd := Seg_nodup _ _ _ _ _ hinv.phys.seg
  have hr := round_size_spec n
  have hff : first_fit s.mem (round_size n) (fuel + 1) s.free_list_head = some bf := by
    rw [hhead]
    simp only [first_fit]
    rw [if_neg hbf0, if_pos (by rw [hsz]; omega)]
  have hk : kmalloc (fuel + 1) s n = some (kmalloc_take s (round_size n) bf) := by
    rw [kmalloc_eq, if_neg hn, hff]
    simp only
    rw [if_neg hbf0]
  obtain ⟨k1, k2, k3, _⟩ := kmalloc_take_exact (pre.map Prod.fst) (post.map Prod.fst) bf
    (round_size n) hinv hr.1 (by rw [hsz]; omega)
  obtain ⟨t1, t2, t3, t4⟩ := k3 (by rw [hsz]; exact hfit)
  have hhd := kmalloc_take_head (pre.map Prod.fst) (post.map Prod.fst) bf (round_size n) hinv
    (by rw [hsz]; exact hfit)
  refine ⟨(kmalloc_take s (round_size n) bf).2, hk.trans (congrArg some (Prod.ext k1 rfl)),
    ?_, hhd, ?_⟩
  · have hmap2 : (pre ++ (bf, round_size n, false) ::
        (bf + 48 + round_size n, sz - round_size n - 48, true) :: post).map Prod.fst
        = pre.map Prod.fst ++ bf :: (bf + 48 + round_size n) :: post.map Prod.fst := by simp
    rw [hmap2]
    exact t1
  · have hside : ∀ x, x ∈ pre ∨ x ∈ post →
        blk_size (kmalloc_take s (round_size n) bf).2.mem x.1 = x.2.1 ∧
        blk_is_free (kmalloc_take s (round_size n) bf).2.mem x.1 = x.2.2 := by
      intro x hx
      have hne : x.1 ≠ bf := fun e =>
        side_notin (pre.map Prod.fst) [bf] (post.map Prod.fst) (by simpa using hnd) x.1
          (side_fst hx) (by rw [e]; simp)
      have hm : x.1 ∈ pre.map Prod.fst ++ bf :: post.map Prod.fst := by
        rcases side_fst hx with a | a <;> simp [a]
      have hxm : x ∈ pre ++ (bf, sz, true) :: post := by
        rcases hx with a | a <;> simp [a]
      rw [t2 x.1 hm, if_neg hne, k2 x.1 hm, if_neg hne]
      exact hfld x hxm
    intro x hx
    simp only [List.mem_append, List.mem_cons] at hx
    rcases hx with hx | hx | hx | hx
    · exact hside x (Or.inl hx)
    · rw [hx]
      show blk_size _ bf = round_size n ∧ blk_is_free _ bf = false
      rw [t2 bf hbfm, if_pos rfl, k2 bf hbfm, if_pos rfl]
      exact ⟨rfl, rfl⟩
    · rw [hx]
      show blk_size _ (bf + 48 + round_size n) = sz - round_size n - 48 ∧
        blk_is_free _ (bf + 48 + round_size n) = true
      rw [t3, t4, hsz]
      exact ⟨rfl, rfl⟩
    · exact hside x (Or.inr hx)

/-- `kmalloc(n)` when the head of the free list fits and is too small to be
split. -/
theorem view_malloc_whole {s : KState} {lim : Nat} (pre post : List (Nat × Nat × Bool))
    (bf sz n fuel : Nat) (hv : View s (pre ++ (bf, sz, true) :: post) lim bf)
    (hn : n ≠ 0) (h1 : round_size n ≤ sz) (h2 : sz < round_size n + 96) :
    ∃ s2 head2, kmalloc (fuel + 1) s n = some (bf + 48, s2) ∧
      View s2 (pre ++ (bf, sz, false) :: post) lim head2 := by
  obtain ⟨hinv, hhead, hfld⟩ := hv
  have hmap : (pre ++ (bf, sz, true) :: post).map Prod.fst
      = pre.map Prod.fst ++ bf :: post.map Prod.fst := by simp
  rw [hmap] at hinv
  have hsz : blk_size s.mem bf = sz := (hfld (bf, sz, true) (by simp)).1
  have hbfm : bf ∈ pre.map Prod.fst ++ bf :: post.map Prod.fst := by simp
  have hbf0 : bf ≠ 0 := fun e => not_mem_zero hinv.phys (e ▸ hbfm)
  have hnd := Seg_nodup _ _ _ _ _ hinv.phys.seg
  have hr := round_size_spec n
  have hff : first_fit s.mem (round_size n) (fuel + 1) s.free_list_head = some bf := by
    rw [hhead]
    simp only [first_fit]
    rw [if_neg hbf0, if_pos (by rw [hsz]; omega)]
  have hk : kmalloc (fuel + 1) s n = some (kmalloc_take s (round_size n) bf) := by
    rw [kmalloc_eq, if_neg hn, hff]
    simp only
    rw [if_neg hbf0]
  obtain ⟨k1, k2, _, k4⟩ := kmalloc_take_exact (pre.map Prod.fst) (post.map Prod.fst) bf
    (round_size n) hinv hr.1 (by rw [hsz]; omega)
  obtain ⟨t1, t2⟩ := k4 (by rw [hsz]; omega)
  refine ⟨(kmalloc_take s (round_size n) bf).2, _,
    hk.trans (congrArg some (Prod.ext k1 rfl)), ?_, rfl, ?_⟩
  · have hmap2 : (pre ++ (bf, sz, false) :: post).map Prod.fst
        = pre.map Prod.fst ++ bf :: post.map Prod.fst := by simp
    rw [hmap2]
    exact t1
  · intro x hx
    simp only [List.mem_append, List.mem_cons] at hx
    have hside : ∀ x, x ∈ pre ∨ x ∈ post →
        blk_size (kmalloc_take s (round_size n) bf).2.mem x.1 = x.2.1 ∧
        blk_is_free (kmalloc_take s (round_size n) bf).2.mem x.1 = x.2.2 := by
      intro x hx
      have hne : x.1 ≠ bf := fun e =>
        side_notin (pre.map Prod.fst) [bf] (post.map Prod.fst) (by simpa using hnd) x.1
          (side_fst hx) (by rw [e]; simp)
      have hm : x.1 ∈ pre.map Prod.fst ++ bf :: post.map Prod.fst := by
        rcases side_fst hx with a | a <;> simp [a]
      have hxm : x ∈ pre ++ (bf, sz, true) :: post := by
        rcases hx with a | a <;> simp [a]
      rw [t2 x.1 hm, k2 x.1 hm, if_neg hne]
      exact hfld x hxm
    rcases hx with hx | hx | hx
    · exact hside x (Or.inl hx)
    · rw [hx]
      show blk_size _ bf = sz ∧ blk_is_free _ bf = false
      rw [t2 bf hbfm, k2 bf hbfm, if_pos rfl, hsz]
      exact ⟨rfl, rfl⟩
    · exact hside x (Or.inr hx)

/-- `kfree` of a block neither of whose neighbours is flagged free. -/
theorem view_free_none {s : KState} {lim head : Nat} (pre post : List (Nat × Nat × Bool))
    (x sx : Nat) (hv : View s (pre ++ (x, sx, false) :: post) lim head)
    (hprev : (pre.reverse.headD (0, 0, false)).2.2 = false)
    (hnext : (post.headD (0, 0, false)).2.2 = false) :
    View (kfree s (x + 48)) (pre ++ (x, sx, true) :: post) lim x := by
  obtain ⟨hinv, _, hfld⟩ := hv
  have hmap : (pre ++ (x, sx, false) :: post).map Prod.fst
      = pre.map Prod.fst ++ x :: post.map Prod.fst := by simp
  rw [hmap] at hinv
  have hnd := Seg_nodup _ _ _ _ _ hinv.phys.seg
  have hxm : x ∈ pre.map Prod.fst ++ x :: post.map Prod.fst := by simp
  obtain ⟨hsx, hfx⟩ := hfld (x, sx, false) (by simp)
  obtain ⟨c1, c2, c3⟩ := kfree_case_none (pre.map Prod.fst) (post.map Prod.fst) x hinv hfx
    (prev_flag s pre (fun y hy => (hfld y (by simp [hy])).2) hprev)
    (next_flag s post (fun y hy => (hfld y (by simp [hy])).2) hnext)
  refine ⟨?_, c2, ?_⟩
  · have hmap2 : (pre ++ (x, sx, true) :: post).map Prod.fst
        = pre.map Prod.fst ++ x :: post.map Prod.fst := by simp
    rw [hmap2]
    exact c1
  · have hside : ∀ y, y ∈ pre ∨ y ∈ post →
        blk_size (kfree s (x + 48)).mem y.1 = y.2.1 ∧
        blk_is_free (kfree s (x + 48)).mem y.1 = y.2.2 := by
      intro y hy
      have hne : y.1 ≠ x := fun e =>
        side_notin (pre.map Prod.fst) [x] (post.map Prod.fst) (by simpa using hnd) y.1
          (side_fst hy) (by rw [e]; simp)
      have hm : y.1 ∈ pre.map Prod.fst ++ x :: post.map Prod.fst := by
        rcases side_fst hy with a | a <;> simp [a]
      have hym : y ∈ pre ++ (x, sx, false) :: post := by
        rcases hy with a | a <;> simp [a]
      rw [(c3 y.1 hm).1, (c3 y.1 hm).2, if_neg hne]
      exact hfld y hym
    intro y hy
    simp only [List.mem_append, List.mem_cons] at hy
    rcases hy with hy | hy | hy
    · exact hside y (Or.inl hy)
    · rw [hy]
      show blk_size _ x = sx ∧ blk_is_free _ x = true
      rw [(c3 x hxm).1, (c3 x hxm).2, if_pos rfl]
      exact ⟨hsx, rfl⟩
    · exact hside y (Or.inr hy)

/-- `kfree` of a block whose successor is flagged free and whose predecessor
is not. -/
theorem view_free_fwd {s : KState} {lim head : Nat} (pre post : List (Nat × Nat × Bool))
    (x sx y sy : Nat)
    (hv : View s (pre ++ (x, sx, false) :: (y, sy, true) :: post) lim head)
    (hprev : (pre.reverse.headD (0, 0, false)).2.2 = false) :
    View (kfree s (x + 48)) (pre ++ (x, sx + sy + 48, true) :: post) lim x := by
  obtain ⟨hinv, _, hfld⟩ := hv
  have hmap : (pre ++ (x, sx, false) :: (y, sy, true) :: post).map Prod.fst
      = pre.map Prod.fst ++ x :: y :: post.map Prod.fst := by simp
  rw [hmap] at hinv
  have hnd := Seg_nodup _ _ _ _ _ hinv.phys.seg
  have hxm : x ∈ pre.map Prod.fst ++ x :: post.map Prod.fst := by simp
  obtain ⟨hsx, hfx⟩ := hfld (x, sx, false) (by simp)
  obtain ⟨hsy, hfy⟩ := hfld (y, sy, true) (by simp)
  obtain ⟨c1, c2, c3⟩ := kfree_case_fwd (pre.map Prod.fst) (post.map Prod.fst) x y hinv hfx hfy
    (prev_flag s pre (fun z hz => (hfld z (by simp [hz])).2) hprev)
  refine ⟨?_, c2, ?_⟩
  · have hmap2 : (pre ++ (x, sx + sy + 48, true) :: post).map Prod.fst
        = pre.map Prod.fst ++ x :: post.map Prod.fst := by simp
    rw [hmap2]
    exact c1
  · have hside : ∀ z, z ∈ pre ∨ z ∈ post →
        blk_size (kfree s (x + 48)).mem z.1 = z.2.1 ∧
        blk_is_free (kfree s (x + 48)).mem z.1 = z.2.2 := by
      intro z hz
      have hne : z.1 ≠ x := fun e =>
        side_notin (pre.map Prod.fst) [x, y] (post.map Prod.fst) (by simpa using hnd) z.1
          (side_fst hz) (by rw [e]; simp)
      have hm : z.1 ∈ pre.map Prod.fst ++ x :: post.map Prod.fst := by
        rcases side_fst hz with a | a <;> simp [a]
      have hzm : z ∈ pre ++ (x, sx, false) :: (y, sy, true) :: post := by
        rcases hz with a | a <;> simp [a]
      rw [(c3 z.1 hm).1, (c3 z.1 hm).2, if_neg hne, if_neg hne]
      exact hfld z hzm
    intro z hz
    simp only [List.mem_append, List.mem_cons] at hz
    rcases hz with hz | hz | hz
    · exact hside z (Or.inl hz)
    · rw [hz]
      show blk_size _ x = sx + sy + 48 ∧ blk_is_free _ x = true
      rw [(c3 x hxm).1, (c3 x hxm).2, if_pos rfl, if_pos rfl, hsx, hsy]
      exact ⟨rfl, rfl⟩
    · exact hside z (Or.inr hz)

/-- `kfree` of a block whose predecessor is flagged free and whose successor
is not. -/
theorem view_free_bwd {s : KState} {lim head : Nat} (pre post : List (Nat × Nat × Bool))
    (w sw x sx : Nat)
    (hv : View s (pre ++ (w, sw, true) :: (x, sx, false) :: post) lim head)
    (hnext : (post.headD (0, 0, false)).2.2 = false) :
    View (kfree s (x + 48)) (pre ++ (w, sw + sx + 48, true) :: post) lim w := by
  obtain ⟨hinv, _, hfld⟩ := hv
  have hmap : (pre ++ (w, sw, true) :: (x, sx, false) :: post).map Prod.fst
      = pre.map Prod.fst ++ w :: x :: post.map Prod.fst := by simp
  rw [hmap] at hinv
  have hnd := Seg_nodup _ _ _ _ _ hinv.phys.seg
  have hwm : w ∈ pre.map Prod.fst ++ w :: post.map Prod.fst := by simp
  obtain ⟨hsx, hfx⟩ := hfld (x, sx, false) (by simp)
  obtain ⟨hsw, hfw⟩ := hfld (w, sw, true) (by simp)
  obtain ⟨c1, c2, c3⟩ := kfree_case_bwd (pre.map Prod.fst) (post.map Prod.fst) w x hinv hfx hfw
    (next_flag s post (fun z hz => (hfld z (by simp [hz])).2) hnext)
  refine ⟨?_, c2, ?_⟩
  · have hmap2 : (pre ++ (w, sw + sx + 48, true) :: post).map Prod.fst
        = pre.map Prod.fst ++ w :: post.map Prod.fst := by simp
    rw [hmap2]
    exact c1
  · have hside : ∀ z, z ∈ pre ∨ z ∈ post →
        blk_size (kfree s (x + 48)).mem z.1 = z.2.1 ∧
        blk_is_free (kfree s (x + 48)).mem z.1 = z.2.2 := by
      intro z hz
      have hne : z.1 ≠ w := fun e =>
        side_notin (pre.map Prod.fst) [w, x] (post.map Prod.fst) (by simpa using hnd) z.1
          (side_fst hz) (by rw [e]; simp)
      have hm : z.1 ∈ pre.map Prod.fst ++ w :: post.map Prod.fst := by
        rcases side_fst hz with a | a <;> simp [a]
      have hzm : z ∈ pre ++ (w, sw, true) :: (x, sx, false) :: post := by
        rcases hz with a | a <;> simp [a]
      rw [(c3 z.1 hm).1, (c3 z.1 hm).2, if_neg hne, if_neg hne]
      exact hfld z hzm
    intro z hz
    simp only [List.mem_append, List.mem_cons] at hz
    rcases hz with hz | hz | hz
    · exact hside z (Or.inl hz)
    · rw [hz]
      show blk_size _ w = sw + sx + 48 ∧ blk_is_free _ w = true
      rw [(c3 w hwm).1, (c3 w hwm).2, if_pos rfl, if_pos rfl, hsx, hsw]
      exact ⟨rfl, rfl⟩
    · exact hside z (Or.inr hz)

/-- `kfree` of a block both of whose neighbours are flagged free. -/
theorem view_free_both {s : KState} {lim head : Nat} (pre post : List (Nat × Nat × Bool))
    (w sw x sx y sy : Nat)
    (hv : View s (pre ++ (w, sw, true) :: (x, sx, false) :: (y, sy, true) :: post) lim head) :
    View (kfree s (x + 48)) (pre ++ (w, sw + sx + sy + 96, true) :: post) lim w := by
  obtain ⟨hinv, _, hfld⟩ := hv
  have hmap : (pre ++ (w, sw, true) :: (x, sx, false) :: (y, sy, true) :: post).map Prod.fst
      = pre.map Prod.fst ++ w :: x :: y :: post.map Prod.fst := by simp
  rw [hmap] at hinv
  have hnd := Seg_nodup _ _ _ _ _ hinv.phys.seg
  have hwm : w ∈ pre.map Prod.fst ++ w :: post.map Prod.fst := by simp
  obtain ⟨hsx, hfx⟩ := hfld (x, sx, false) (by simp)
  obtain ⟨hsw, hfw⟩ := hfld (w, sw, true) (by simp)
  obtain ⟨hsy, hfy⟩ := hfld (y, sy, true) (by simp)
  obtain ⟨c1, c2, c3⟩ := kfree_case_both (pre.map Prod.fst) (post.map Prod.fst) w x y hinv
    hfx hfw hfy
  refine ⟨?_, c2, ?_⟩
  · have hmap2 : (pre ++ (w, sw + sx + sy + 96, true) :: post).map Prod.fst
        = pre.map Prod.fst ++ w :: post.map Prod.fst := by simp
    rw [hmap2]
    exact c1
  · have hside : ∀ z, z ∈ pre ∨ z ∈ post →
        blk_size (kfree s (x + 48)).mem z.1 = z.2.1 ∧
        blk_is_free (kfree s (x + 48)).mem z.1 = z.2.2 := by
      intro z hz
      have hne : z.1 ≠ w := fun e =>
        side_notin (pre.map Prod.fst) [w, x, y] (post.map Prod.fst) (by simpa using hnd) z.1
          (side_fst hz) (by rw [e]; simp)
      have hm : z.1 ∈ pre.map Prod.fst ++ w :: post.map Prod.fst := by
        rcases side_fst hz with a | a <;> simp [a]
      have hzm : z ∈ pre ++ (w, sw, true) :: (x, sx, false) :: (y, sy, true) :: post := by
        rcases hz with a | a <;> simp [a]
      rw [(c3 z.1 hm).1, (c3 z.1 hm).2, if_neg hne, if_neg hne]
      exact hfld z hzm
    intro z hz
    simp only [List.mem_append, List.mem_cons] at hz
    rcases hz with hz | hz | hz
    · exact hside z (Or.inl hz)
    · rw [hz]
      show blk_size _ w = sw + sx + sy + 96 ∧ blk_is_free _ w = true
      rw [(c3 w hwm).1, (c3 w hwm).2, if_pos rfl, if_pos rfl, hsx, hsw, hsy]
      exact ⟨rfl, rfl⟩
    · exact hside z (Or.inr hz)

/-! ## The scenarios of the specification, from a description of the heap -/

/-- The run `a = kmalloc(64); b = kmalloc(128); kfree(a); c = kmalloc(32)` on
a heap whose first block is a free block of 4048 bytes at `F`, at the head of
the free list. -/
theorem reuse_run {s : KState} {lim : Nat} (post : List (Nat × Nat × Bool)) (F fuel : Nat)
    (v0 : View s ((F, 4048, true) :: post) lim F) :
    ∃ sa sb sc head,
      kmalloc (fuel + 1) s 64 = some (F + 48, sa) ∧
      kmalloc (fuel + 1) sa 128 = some (F + 160, sb) ∧
      View (kfree sb (F + 48))
        ((F, 64, true) :: (F + 112, 128, false) :: (F + 288, 3760, true) :: post) lim F ∧
      kmalloc (fuel + 1) (kfree sb (F + 48)) 32 = some (F + 48, sc) ∧
      View sc ((F, 64, false) :: (F + 112, 128, false) :: (F + 288, 3760, true) :: post)
        lim head := by
  have r64 : round_size 64 = 64 := by decide
  have r128 : round_size 128 = 128 := by decide
  have r32 : round_size 32 = 32 := by decide
  have e1 : F + 48 + 64 = F + 112 := by omega
  have e2 : F + 112 + 48 = F + 160 := by omega
  have e3 : F + 112 + 48 + 128 = F + 288 := by omega
  obtain ⟨sa, ka, va⟩ := view_malloc_split [] post F 4048 64 fuel v0 (by decide)
    (by rw [r64]; decide)
  rw [r64, e1] at va
  have va' : View sa ([(F, 64, false)] ++ (F + 112, 3936, true) :: post) lim (F + 112) := va
  obtain ⟨sb, kb, vb⟩ := view_malloc_split [(F, 64, false)] post (F + 112) 3936 128 fuel va'
    (by decide) (by rw [r128]; decide)
  rw [e2] at kb
  rw [r128, e3] at vb
  have vb' : View sb ([] ++ (F, 64, false) :: (F + 112, 128, false) :: (F + 288, 3760, true)
      :: post) lim (F + 288) := vb
  have vf := view_free_none [] ((F + 112, 128, false) :: (F + 288, 3760, true) :: post) F 64
    vb' rfl rfl
  have vf' : View (kfree sb (F + 48)) ([] ++ (F, 64, true) :: (F + 112, 128, false) ::
      (F + 288, 3760, true) :: post) lim F := vf
  obtain ⟨sc, head, kc, vc⟩ := view_malloc_whole []
    ((F + 112, 128, false) :: (F + 288, 3760, true) :: post) F 64 32 fuel vf' (by decide)
    (by rw [r32]; decide) (by rw [r32]; decide)
  exact ⟨sa, sb, sc, head, ka, kb, vf, kc, vc⟩

/-- The run `a = kmalloc(64); b = kmalloc(64); c = kmalloc(64); kfree(a);
kfree(c); kfree(b)` on a heap whose first block is a free block of 4048 bytes
at `F`, at the head of the free list. -/
theorem coalesce_run {s : KState} {lim : Nat} (post : List (Nat × Nat × Bool)) (F fuel : Nat)
    (v0 : View s ((F, 4048, true) :: post) lim F) :
    ∃ sa sb sc,
      kmalloc (fuel + 1) s 64 = some (F + 48, sa) ∧
      kmalloc (fuel + 1) sa 64 = some (F + 160, sb) ∧
      kmalloc (fuel + 1) sb 64 = some (F + 272, sc) ∧
      View sc ((F, 64, false) :: (F + 112, 64, false) :: (F + 224, 64, false) ::
        (F + 336, 3712, true) :: post) lim (F + 336) ∧
      View (kfree (kfree sc (F + 48)) (F + 272))
        ((F, 64, true) :: (F + 112, 64, false) :: (F + 224, 3824, true) :: post) lim
        (F + 224) ∧
      View (kfree (kfree (kfree sc (F + 48)) (F + 272)) (F + 160))
        ((F, 4048, true) :: post) lim F := by
  have r64 : round_size 64 = 64 := by decide
  have e1 : F + 48 + 64 = F + 112 := by omega
  have e2 : F + 112 + 48 = F + 160 := by omega
  have e3 : F + 112 + 48 + 64 = F + 224 := by omega
  have e4 : F + 224 + 48 = F + 272 := by omega
  have e5 : F + 224 + 48 + 64 = F + 336 := by omega
  obtain ⟨sa, ka, va⟩ := view_malloc_split [] post F 4048 64 fuel v0 (by decide)
    (by rw [r64]; decide)
  rw [r64, e1] at va
  have va' : View sa ([(F, 64, false)] ++ (F + 112, 3936, true) :: post) lim (F + 112) := va
  obtain ⟨sb, kb, vb⟩ := view_malloc_split [(F, 64, false)] post (F + 112) 3936 64 fuel va'
    (by decide) (by rw [r64]; decide)
  rw [e2] at kb
  rw [r64, e3] at vb
  have vb' : View sb ([(F, 64, false), (F + 112, 64, false)] ++ (F + 224, 3824, true) :: post)
      lim (F + 224) := vb
  obtain ⟨sc, kc, vc⟩ := view_malloc_split [(F, 64, false), (F + 112, 64, false)] post
    (F + 224) 3824 64 fuel vb' (by decide) (by rw [r64]; decide)
  rw [e4] at kc
  rw [r64, e5] at vc
  have vc' : View sc ([] ++ (F, 64, false) :: (F + 112, 64, false) :: (F + 224, 64, false) ::
      (F + 336, 3712, true) :: post) lim (F + 336) := vc
  have v1 := view_free_none [] ((F + 112, 64, false) :: (F + 224, 64, false) ::
    (F + 336, 3712, true) :: post) F 64 vc' rfl rfl
  have v1' : View (kfree sc (F + 48)) ([(F, 64, true), (F + 112, 64, false)] ++
      (F + 224, 64, false) :: (F + 336, 3712, true) :: post) lim F := v1
  have v2 := view_free_fwd [(F, 64, true), (F + 112, 64, false)] post (F + 224) 64 (F + 336)
    3712 v1' rfl
  rw [e4] at v2
  have v2' : View (kfree (kfree sc (F + 48)) (F + 272)) ([] ++ (F, 64, true) ::
      (F + 112, 64, false) :: (F + 224, 3824, true) :: post) lim (F + 224) := v2
  have v3 := view_free_both [] post F 64 (F + 112) 64 (F + 224) 3824 v2'
  rw [e2] at v3
  exact ⟨sa, sb, sc, ka, kb, kc, vc, v2, v3⟩

/-! ## The scenarios of the specification after `kheap_init` -/

theorem virt_free_run :
    FreeRun (frame_alloc_init virt_linker (some virt_params) zero_state) 0 5 := by
  rw [frame_alloc_init_virt_eq]
  unfold FreeRun
  decide

theorem walk_next_chain {s : KState} {chain : List Nat} {lim : Nat} (h : HeapInv s chain lim)
    (fuel : Nat) : walk_next s.mem fuel s.heap_start = chain.take fuel := by
  rw [h.phys.hstart, walk_next_seg _ _ _ _ fuel h.phys.seg]

/-- C14 fails when the first `kfree` merged the block into its predecessor.
After boot, `a = kmalloc(64)` and `b = kmalloc(64)` return `0x40000030` and
`0x400000A0`; `kfree(a)` and `kfree(b)` leave `free_list_head = 0x40000000`,
and the header of `b`'s block at `0x40000070`, merged into its predecessor,
is zeroed, so its `is_free` reads false.  A second `kfree(b)` is not
rejected: it puts the stale header on the free list, and `free_list_head`
becomes `0x40000070`. -/
theorem C14_double_free_after_backward_merge :
    (kmalloc 4 boot_heap 64).bind (fun ra => (kmalloc 4 ra.2 64).map (fun rb =>
      (rb.1, (kfree (kfree rb.2 ra.1) rb.1).free_list_head,
        blk_is_free (kfree (kfree rb.2 ra.1) rb.1).mem (rb.1 - 48),
        (kfree (kfree (kfree rb.2 ra.1) rb.1) rb.1).free_list_head,
        walk_free (kfree (kfree (kfree rb.2 ra.1) rb.1) rb.1).mem 8
          (kfree (kfree (kfree rb.2 ra.1) rb.1) rb.1).free_list_head)))
      = some (0x400000A0, 0x40000000, false, 0x40000070, [0x40000070, 0x40000000]) := by
  rw [boot_heap_eq]
  decide

/-- C17 fails: after boot, `kmalloc(10000)` finds no block on the free list,
`expand_heap(10048)` succeeds (three pages are added), and `kmalloc` still
returns null, because the new pages are separate blocks of 4048 bytes and
the largest block, the old tail merged with the first new page, has 8144
bytes. -/
theorem C17_null_after_successful_expansion :
    (first_fit boot_heap.mem (round_size 10000) 4 boot_heap.free_list_head,
      (expand_heap boot_heap (u64 (round_size 10000 + HEAP_HEADER_SIZE))).1,
      (kmalloc 4 boot_heap 10000).map (fun r => (r.1,
        (walk_next r.2.mem 16 r.2.heap_start).map (blk_size r.2.mem))))
      = (some 0, true, some (0, [4048, 4048, 4048, 4048, 8144, 4048, 4048])) := by
  rw [boot_heap_eq]
  decide

/-- C18: when the five lowest free frames are contiguous (frames `i0` to
`i0 + 4`), then after `kheap_init`, with any positive fuel, `a = kmalloc(64)`
returns `p`, the payload address of the first frame's block,
`b = kmalloc(128)` returns `p + 48 + 64`, and after `kfree(a)` the call
`c = kmalloc(32)` returns `p` again. -/
theorem C18_first_fit_split_and_reuse (s : KState) (i0 fuel : Nat) (h : FreeRun s i0 5) :
    ∃ p sa sb sc, p = PMM_RAM_BASE + i0 * PAGE_SIZE + 48 ∧
      kmalloc (fuel + 1) (kheap_init s) 64 = some (p, sa) ∧
      kmalloc (fuel + 1) sa 128 = some (p + 48 + 64, sb) ∧
      kmalloc (fuel + 1) (kfree sb p) 32 = some (p, sc) := by
  obtain ⟨post, lim, v0⟩ := kheap_init_view s i0 h
  generalize PMM_RAM_BASE + i0 * PAGE_SIZE = F at v0 ⊢
  obtain ⟨sa, sb, sc, _, ka, kb, _, kc, _⟩ := reuse_run post F fuel v0
  refine ⟨F + 48, sa, sb, sc, rfl, ka, ?_, kc⟩
  rw [show F + 48 + 48 + 64 = F + 160 by omega]
  exact kb

theorem C18_witness :
    FreeRun (frame_alloc_init virt_linker (some virt_params) zero_state) 0 5 ∧
    ∃ p sa sb sc, p = PMM_RAM_BASE + 0 * PAGE_SIZE + 48 ∧
      kmalloc (0 + 1) boot_heap 64 = some (p, sa) ∧
      kmalloc (0 + 1) sa 128 = some (p + 48 + 64, sb) ∧
      kmalloc (0 + 1) (kfree sb p) 32 = some (p, sc) :=
  ⟨virt_free_run, C18_first_fit_split_and_reuse _ 0 0 virt_free_run⟩

/-- C19 as stated fails: after boot, in the run `a = kmalloc(64);
b = kmalloc(128); kfree(a); c = kmalloc(32)`, `c` is `0x40000030` and the block
at `c - 48` has payload size 64, not 32; the block after it in the chain, at
`0x40000070`, is `b`'s block, which is not free, and the only block on the
free list is the remainder behind `b`'s block. -/
theorem C19_counterexample :
    (kmalloc 4 boot_heap 64).bind (fun ra => (kmalloc 4 ra.2 128).bind (fun rb =>
      (kmalloc 4 (kfree rb.2 ra.1) 32).map (fun rc =>
        (rc.1, blk_size rc.2.mem (rc.1 - 48), blk_next rc.2.mem (rc.1 - 48),
          blk_is_free rc.2.mem (blk_next rc.2.mem (rc.1 - 48)),
          walk_free rc.2.mem 8 rc.2.free_list_head))))
      = some (0x40000030, 64, 0x40000070, false, [0x40000120]) := by
  rw [boot_heap_eq]
  decide

/-- C19 (amended): when the five lowest free frames are contiguous, in the
run `kheap_init; a = kmalloc(64); b = kmalloc(128); kfree(a); c = kmalloc(32)`
the last `kmalloc` takes the freed 64-byte block whole, because
`64 < 32 + 96`: afterwards the block at `c - 48` still has payload size 64 and
is not free, the block after it in the physical chain is `b`'s block, which is
not free, and the physical chain has the same blocks as before the call. -/
theorem C19_reuse_takes_whole_block (s : KState) (i0 fuel : Nat) (h : FreeRun s i0 5) :
    ∃ F sa sb sc, F = PMM_RAM_BASE + i0 * PAGE_SIZE ∧
      kmalloc (fuel + 1) (kheap_init s) 64 = some (F + 48, sa) ∧
      kmalloc (fuel + 1) sa 128 = some (F + 160, sb) ∧
      kmalloc (fuel + 1) (kfree sb (F + 48)) 32 = some (F + 48, sc) ∧
      blk_size sc.mem F = 64 ∧ blk_is_free sc.mem F = false ∧
      blk_next sc.mem F = F + 112 ∧ blk_is_free sc.mem (F + 112) = false ∧
      blk_size sc.mem (F + 112) = 128 ∧
      (∀ fuel2, walk_next sc.mem fuel2 sc.heap_start
        = walk_next (kfree sb (F + 48)).mem fuel2 (kfree sb (F + 48)).heap_start) := by
  obtain ⟨post, lim, v0⟩ := kheap_init_view s i0 h
  generalize PMM_RAM_BASE + i0 * PAGE_SIZE = F at v0 ⊢
  obtain ⟨sa, sb, sc, head, ka, kb, vf, kc, vc⟩ := reuse_run post F fuel v0
  obtain ⟨c1, _, c3⟩ := vc
  obtain ⟨f1, _, _⟩ := vf
  have m1 := c3 (F, 64, false) (by simp)
  have m2 := c3 (F + 112, 128, false) (by simp)
  have hn : blk_next sc.mem F = F + 112 :=
    (Seg_mid _ [] ((F + 112) :: (F + 288) :: post.map Prod.fst) F 0 0 lim (by
      simpa using c1.phys.seg)).2
  refine ⟨F, sa, sb, sc, rfl, ka, kb, kc, m1.1, m1.2, hn, m2.2, m2.1, ?_⟩
  intro fuel2
  rw [walk_next_chain c1, walk_next_chain f1]
  rfl

theorem C19_witness :
    FreeRun (frame_alloc_init virt_linker (some virt_params) zero_state) 0 5 ∧
    ∃ F sa sb sc, F = PMM_RAM_BASE + 0 * PAGE_SIZE ∧
      kmalloc (0 + 1) boot_heap 64 = some (F + 48, sa) ∧
      kmalloc (0 + 1) sa 128 = some (F + 160, sb) ∧
      kmalloc (0 + 1) (kfree sb (F + 48)) 32 = some (F + 48, sc) ∧
      blk_size sc.mem F = 64 ∧ blk_is_free sc.mem F = false ∧
      blk_next sc.mem F = F + 112 ∧ blk_is_free sc.mem (F + 112) = false ∧
      blk_size sc.mem (F + 112) = 128 ∧
      (∀ fuel2, walk_next sc.mem fuel2 sc.heap_start
        = walk_next (kfree sb (F + 48)).mem fuel2 (kfree sb (F + 48)).heap_start) :=
  ⟨virt_free_run, C19_reuse_takes_whole_block _ 0 0 virt_free_run⟩

/-- C20 as stated fails: after boot and `a = kmalloc(64); b = kmalloc(64);
c = kmalloc(64); kfree(a); kfree(c); kfree(b)`, the free block at `a`'s header
`0x40000000` has payload size 4048, not `3 * 64 + 2 * 48 = 288`: `kfree(c)` had
already merged `c`'s block with the free remainder behind it (3824 bytes at
`0x400000E0`). -/
theorem C20_counterexample :
    (kmalloc 4 boot_heap 64).bind (fun ra => (kmalloc 4 ra.2 64).bind (fun rb =>
      (kmalloc 4 rb.2 64).map (fun rc =>
        (ra.1, rc.1, blk_size (kfree (kfree rc.2 ra.1) rc.1).mem (rc.1 - 48),
          blk_size (kfree (kfree (kfree rc.2 ra.1) rc.1) rb.1).mem (ra.1 - 48),
          blk_is_free (kfree (kfree (kfree rc.2 ra.1) rc.1) rb.1).mem (ra.1 - 48)))))
      = some (0x40000030, 0x40000110, 3824, 4048, true) := by
  rw [boot_heap_eq]
  decide

/-- C20 (amended): when the five lowest free frames are contiguous, after
`kheap_init; a = kmalloc(64); b = kmalloc(64); c = kmalloc(64); kfree(a);
kfree(c)` the block of `a` is free with 64 bytes and the block of `c`, merged
with the free remainder behind it, is free with 3824 bytes; the final
`kfree(b)` merges `b`'s block with both neighbours, and the resulting block,
at `a`'s header, is free, is the head of the free list and has payload size
4048, the whole first frame again; the physical chain is the one `kheap_init`
had built. -/
theorem C20_two_sided_coalesce (s : KState) (i0 fuel : Nat) (h : FreeRun s i0 5) :
    ∃ F sa sb sc, F = PMM_RAM_BASE + i0 * PAGE_SIZE ∧
      kmalloc (fuel + 1) (kheap_init s) 64 = some (F + 48, sa) ∧
      kmalloc (fuel + 1) sa 64 = some (F + 160, sb) ∧
      kmalloc (fuel + 1) sb 64 = some (F + 272, sc) ∧
      blk_is_free (kfree (kfree sc (F + 48)) (F + 272)).mem F = true ∧
      blk_size (kfree (kfree sc (F + 48)) (F + 272)).mem F = 64 ∧
      blk_is_free (kfree (kfree sc (F + 48)) (F + 272)).mem (F + 224) = true ∧
      blk_size (kfree (kfree sc (F + 48)) (F + 272)).mem (F + 224) = 3824 ∧
      blk_size (kfree (kfree (kfree sc (F + 48)) (F + 272)) (F + 160)).mem F = 4048 ∧
      blk_is_free (kfree (kfree (kfree sc (F + 48)) (F + 272)) (F + 160)).mem F = true ∧
      (kfree (kfree (kfree sc (F + 48)) (F + 272)) (F + 160)).free_list_head = F ∧
      (∀ fuel2,
        walk_next (kfree (kfree (kfree sc (F + 48)) (F + 272)) (F + 160)).mem fuel2
          (kfree (kfree (kfree sc (F + 48)) (F + 272)) (F + 160)).heap_start
        = walk_next (kheap_init s).mem fuel2 (kheap_init s).heap_start) := by
  obtain ⟨post, lim, v0⟩ := kheap_init_view s i0 h
  generalize PMM_RAM_BASE + i0 * PAGE_SIZE = F at v0 ⊢
  obtain ⟨sa, sb, sc, ka, kb, kc, _, v2, v3⟩ := coalesce_run post F fuel v0
  obtain ⟨_, _, c3⟩ := v2
  obtain ⟨d1, d2, d3⟩ := v3
  have m1 := c3 (F, 64, true) (by simp)
  have m2 := c3 (F + 224, 3824, true) (by simp)
  have m3 := d3 (F, 4048, true) (by simp)
  refine ⟨F, sa, sb, sc, rfl, ka, kb, kc, m1.2, m1.1, m2.2, m2.1, m3.1, m3.2, d2, ?_⟩
  intro fuel2
  rw [walk_next_chain d1, walk_next_chain v0.1]

theorem C20_witness :
    FreeRun (frame_alloc_init virt_linker (some virt_params) zero_state) 0 5 ∧
    ∃ F sa sb sc, F = PMM_RAM_BASE + 0 * PAGE_SIZE ∧
      kmalloc (0 + 1) boot_heap 64 = some (F + 48, sa) ∧
      kmalloc (0 + 1) sa 64 = some (F + 160, sb) ∧
      kmalloc (0 + 1) sb 64 = some (F + 272, sc) ∧
      blk_is_free (kfree (kfree sc (F + 48)) (F + 272)).mem F = true ∧
      blk_size (kfree (kfree sc (F + 48)) (F + 272)).mem F = 64 ∧
      blk_is_free (kfree (kfree sc (F + 48)) (F + 272)).mem (F + 224) = true ∧
      blk_size (kfree (kfree sc (F + 48)) (F + 272)).mem (F + 224) = 3824 ∧
      blk_size (kfree (kfree (kfree sc (F + 48)) (F + 272)) (F + 160)).mem F = 4048 ∧
      blk_is_free (kfree (kfree (kfree sc (F + 48)) (F + 272)) (F + 160)).mem F = true ∧
      (kfree (kfree (kfree sc (F + 48)) (F + 272)) (F + 160)).free_list_head = F ∧
      (∀ fuel2,
        walk_next (kfree (kfree (kfree sc (F + 48)) (F + 272)) (F + 160)).mem fuel2
          (kfree (kfree (kfree sc (F + 48)) (F + 272)) (F + 160)).heap_start
        = walk_next boot_heap.mem fuel2 boot_heap.heap_start) :=
  ⟨virt_free_run, C20_two_sided_coalesce _ 0 0 virt_free_run⟩

/-- A second `kfree` of the same pointer is rejected, and changes nothing,
when the first `kfree` did not merge the block into its predecessor: that is,
when the predecessor of the block of a live pointer is absent or not flagged
free. -/
theorem double_free_rejected {s0 s : KState} {live : List Nat} (hr : Reach s0 s live)
    (p : Nat) (hp : p ∈ live)
    (hprev : blk_prev s.mem (p - 48) = 0 ∨
      blk_is_free s.mem (blk_prev s.mem (p - 48)) = false) :
    kfree (kfree s p) p = kfree s p := by
  obtain ⟨chain, lim, h, hl⟩ := reach_inv hr
  obtain ⟨a1, a2, a3⟩ := hl p hp
  generalize hx : p - 48 = x at a2 a3 hprev
  have hpx : p = x + 48 := by omega
  rw [hpx]
  obtain ⟨pre, post, hch⟩ := List.append_of_mem a2
  subst hch
  have hbnd := h.phys.bound x a2
  rw [(Seg_mid _ pre post x 0 0 lim h.phys.seg).1] at hprev
  have hflag : blk_is_free (kfree s (x + 48)).mem x = true := by
    cases post with
    | nil =>
      obtain ⟨_, _, c3⟩ := kfree_case_none pre [] x h a3 hprev (Or.inl rfl)
      rw [(c3 x (by simp)).2, if_pos rfl]
    | cons y r =>
      cases hy : blk_is_free s.mem y with
      | true =>
        obtain ⟨_, _, c3⟩ := kfree_case_fwd pre r x y h a3 hy hprev
        rw [(c3 x (by simp)).2, if_pos rfl]
      | false =>
        obtain ⟨_, _, c3⟩ := kfree_case_none pre (y :: r) x h a3 hprev (Or.inr hy)
        rw [(c3 x (by simp)).2, if_pos rfl]
  have hsub : sub64 (x + 48) HEAP_HEADER_SIZE = x := by
    unfold sub64 HEAP_HEADER_SIZE; omega
  generalize kfree s (x + 48) = t at hflag ⊢
  unfold kfree
  rw [if_neg (by omega), hsub]
  simp only
  rw [if_pos hflag]

/-! ## The ranges of `mark_range_used` and `mark_range_free` -/

theorem total_frames_eq : PMM_TOTAL_FRAMES = 262144 := rfl

theorem mark_range_used_eq (s : KState) (base size : Nat) :
    mark_range_used s base size
      = mark_used_loop (range_count base size) (start_frame base) s := by
  have key : ∀ (c : Prop) [Decidable c] (n i : Nat),
      (if c then s else mark_used_loop n i s) = mark_used_loop (if c then 0 else n) i s := by
    intro c _ n i; split <;> rfl
  unfold mark_range_used range_count start_frame end_frame
  exact key _ _ _

theorem mark_range_free_eq (s : KState) (base size : Nat) :
    mark_range_free s base size
      = mark_free_loop (range_count base size) (start_frame base) s := by
  have key : ∀ (c : Prop) [Decidable c] (n i : Nat),
      (if c then s else mark_free_loop n i s) = mark_free_loop (if c then 0 else n) i s := by
    intro c _ n i; split <;> rfl
  unfold mark_range_free range_count start_frame end_frame
  exact key _ _ _

/-- The frames visited by the loops lie in the managed window. -/
theorem range_count_le (base size : Nat) :
    range_count base size = 0 ∨ start_frame base + range_count base size ≤ PMM_TOTAL_FRAMES := by
  unfold range_count end_frame
  simp only [total_frames_eq, PAGE_SIZE]
  generalize start_frame base = sf
  generalize (if u64 (base + size) > PMM_RAM_BASE then
    (u64 (base + size) - 1 - PMM_RAM_BASE) / 4096 else 0) = ef
  split
  · left; rfl
  · split <;> omega

/-- For a range that starts at or above `RAM_BASE`, is not empty and does not
wrap around, the loops visit exactly the frames of the window that intersect
the range. -/
theorem range_visits (base size i : Nat) (hb : PMM_RAM_BASE ≤ base) (hs : 0 < size)
    (ho : base + size < 2 ^ 64) :
    (start_frame base ≤ i ∧ i < start_frame base + range_count base size)
      ↔ (i < PMM_TOTAL_FRAMES ∧ frame_overlaps i base (base + size)) := by
  have e : u64 (base + size) = base + size := Nat.mod_eq_of_lt ho
  unfold range_count end_frame start_frame frame_overlaps
  simp only [e]
  simp only [total_frames_eq, PAGE_SIZE, PMM_RAM_BASE, UINT64_MAX] at *
  rw [if_pos (by omega : base ≥ 1073741824), if_pos (by omega : base + size > 1073741824)]
  constructor
  · intro ⟨h1, h2⟩
    split at h2
    · omega
    · split at h2 <;> omega
  · intro ⟨h1, h2, h3, h4⟩
    split
    · omega
    · split <;> omega

theorem range_below_base (base size : Nat) (hb : base < PMM_RAM_BASE) :
    range_count base size = 0 := by
  have e : start_frame base = UINT64_MAX := by
    unfold start_frame
    rw [if_neg (by omega : ¬ base ≥ PMM_RAM_BASE)]
  unfold range_count
  rw [e, if_pos (by simp only [UINT64_MAX, total_frames_eq]; omega)]

theorem range_above_window (base size : Nat) (hb : PMM_MAX_ADDRESS ≤ base) :
    range_count base size = 0 := by
  have e : start_frame base = (base - PMM_RAM_BASE) / PAGE_SIZE := by
    unfold start_frame
    simp only [PMM_RAM_BASE, PMM_MAX_ADDRESS, PMM_MANAGEABLE_SIZE] at *
    rw [if_pos (by omega : base ≥ 1073741824)]
  unfold range_count
  rw [e, if_pos]
  simp only [total_frames_eq, PAGE_SIZE, PMM_RAM_BASE, PMM_MAX_ADDRESS,
    PMM_MANAGEABLE_SIZE] at *
  omega

theorem mark_range_used_bits (s : KState) (base size j : Nat) :
    test_bit (mark_range_used s base size).frame_bitmap j
      = if start_frame base ≤ j ∧ j < start_frame base + range_count base size then true
        else test_bit s.frame_bitmap j := by
  rw [mark_range_used_eq, mark_used_loop_bits]

theorem mark_range_free_bits (s : KState) (base size j : Nat) :
    test_bit (mark_range_free s base size).frame_bitmap j
      = if start_frame base ≤ j ∧ j < start_frame base + range_count base size then false
        else test_bit s.frame_bitmap j := by
  rw [mark_range_free_eq, mark_free_loop_bits]

/-! ## The counters across the range-marking loops -/

theorem mark_used_loop_highest (n i : Nat) (s : KState) :
    (mark_used_loop n i s).highest_usable_address = s.highest_usable_address := by
  induction n generalizing i s with
  | zero => rfl
  | succ n ih =>
    simp only [mark_used_loop]
    rw [ih]
    split <;> rfl

theorem mark_used_loop_total_free (n i : Nat) (s : KState)
    (h : s.total_memory = s.free_memory) :
    (mark_used_loop n i s).total_memory = (mark_used_loop n i s).free_memory := by
  induction n generalizing i s with
  | zero => exact h
  | succ n ih =>
    simp only [mark_used_loop]
    apply ih
    split
    · simp only [h]
    · exact h

theorem mark_free_loop_total_free (n i : Nat) (s : KState)
    (h : s.total_memory = s.free_memory) :
    (mark_free_loop n i s).total_memory = (mark_free_loop n i s).free_memory := by
  induction n generalizing i s with
  | zero => exact h
  | succ n ih =>
    simp only [mark_free_loop]
    apply ih
    split
    · simp only [h]
    · exact h

/-- After `frame_alloc_init` the two counters are equal, whatever the
parameters. -/
theorem init_total_eq_free (ld : Linker) (params : Option KERNEL_BOOT_PARAMS) (s : KState) :
    (frame_alloc_init ld params s).total_memory = (frame_alloc_init ld params s).free_memory := by
  unfold frame_alloc_init
  simp only [mark_range_used_eq, mark_range_free_eq]
  apply mark_used_loop_total_free
  cases params with
  | none =>
    apply mark_used_loop_total_free
    apply mark_free_loop_total_free
    rfl
  | some p =>
    apply mark_used_loop_total_free
    apply mark_free_loop_total_free
    rfl


/-- The state after the first loop of `frame_alloc_init`, when the bitmap
storage holds at least one bit per frame: every frame is free and counted. -/
theorem init_free_loop (s : KState) (bsz : Nat) (hsize : 32768 ≤ bsz) :
    (∀ j, j < 262144 → test_bit (mark_range_free
      { s with
        frame_bitmap := memset s.frame_bitmap 0 0xFF bsz
        total_memory := 0
        free_memory := 0
        highest_usable_address := PMM_RAM_BASE } PMM_RAM_BASE PMM_MANAGEABLE_SIZE).frame_bitmap j
        = false) ∧
    (mark_range_free
      { s with
        frame_bitmap := memset s.frame_bitmap 0 0xFF bsz
        total_memory := 0
        free_memory := 0
        highest_usable_address := PMM_RAM_BASE } PMM_RAM_BASE PMM_MANAGEABLE_SIZE).total_memory
      = 1073741824 ∧
    (mark_range_free
      { s with
        frame_bitmap := memset s.frame_bitmap 0 0xFF bsz
        total_memory := 0
        free_memory := 0
        highest_usable_address := PMM_RAM_BASE } PMM_RAM_BASE PMM_MANAGEABLE_SIZE).free_memory
      = 1073741824 ∧
    (mark_range_free
      { s with
        frame_bitmap := memset s.frame_bitmap 0 0xFF bsz
        total_memory := 0
        free_memory := 0
        highest_usable_address := PMM_RAM_BASE } PMM_RAM_BASE PMM_MANAGEABLE_SIZE).highest_usable_address
      = 0x80000000 := by
  have e1 : start_frame PMM_RAM_BASE = 0 := by decide
  have e2 : range_count PMM_RAM_BASE PMM_MANAGEABLE_SIZE = 262144 := by decide
  rw [mark_range_free_eq, e1, e2]
  generalize hs0 : ({ s with
      frame_bitmap := memset s.frame_bitmap 0 0xFF bsz
      total_memory := 0
      free_memory := 0
      highest_usable_address := PMM_RAM_BASE } : KState) = s0
  have b0 : s0.frame_bitmap = memset s.frame_bitmap 0 0xFF bsz := by rw [← hs0]
  have c1 : s0.total_memory = 0 := by rw [← hs0]
  have c2 : s0.free_memory = 0 := by rw [← hs0]
  have c3 : s0.highest_usable_address = PMM_RAM_BASE := by rw [← hs0]
  obtain ⟨a1, a2, a3, _⟩ := mark_free_loop_all_set 262144 0 s0
    (fun j _ hj => by rw [b0]; exact test_bit_memset_ff _ _ _ (by omega))
    (by rw [c1]; decide) (by rw [c2]; decide) (by rw [c3]; decide) (by decide)
  refine ⟨?_, ?_, ?_, ?_⟩
  · intro j hj
    rw [mark_free_loop_bits, if_pos ⟨by omega, by omega⟩]
  · rw [a1, c1]; rfl
  · rw [a2, c2]; rfl
  · rw [a3]; rfl

theorem sub64_of_le (a b : Nat) (h : b ≤ a) (ha : a < 2 ^ 64) : sub64 a b = a - b := by
  unfold sub64; omega

/-- `frame_alloc_init` with boot parameters, as three range calls on the
reset state. -/
theorem frame_alloc_init_some (ld : Linker) (p : KERNEL_BOOT_PARAMS) (s : KState) :
    frame_alloc_init ld (some p) s =
      mark_range_used (mark_range_used (mark_range_free
        { s with
          frame_bitmap := memset s.frame_bitmap 0 0xFF (sub64 ld.pmm_bitmap_end ld.pmm_bitmap_start)
          total_memory := 0
          free_memory := 0
          highest_usable_address := PMM_RAM_BASE } PMM_RAM_BASE PMM_MANAGEABLE_SIZE)
        p.kernel_phys_start (sub64 p.kernel_phys_end p.kernel_phys_start))
        ld.pmm_bitmap_start (sub64 ld.pmm_bitmap_end ld.pmm_bitmap_start) := rfl

theorem mark_free_loop_add (a b i : Nat) (s : KState) :
    mark_free_loop (a + b) i s = mark_free_loop b (i + a) (mark_free_loop a i s) := by
  induction a generalizing i s with
  | zero => simp [mark_free_loop]
  | succ a ih =>
    rw [show a + 1 + b = (a + b) + 1 from by omega]
    simp only [mark_free_loop]
    rw [ih, show i + 1 + a = i + (a + 1) from by omega]

/-- The free loop over frames whose bits are all clear changes no counter. -/
theorem mark_free_loop_all_clear (n i : Nat) (s : KState)
    (hclr : ∀ j, i ≤ j → j < i + n → test_bit s.frame_bitmap j = false) :
    (mark_free_loop n i s).total_memory = s.total_memory ∧
    (mark_free_loop n i s).free_memory = s.free_memory ∧
    (mark_free_loop n i s).highest_usable_address = s.highest_usable_address := by
  induction n generalizing i s with
  | zero => exact ⟨rfl, rfl, rfl⟩
  | succ n ih =>
    have hi := hclr i (Nat.le_refl _) (by omega)
    simp only [mark_free_loop, hi, Bool.false_eq_true, if_false]
    exact ih (i + 1) { s with frame_bitmap := clear_bit s.frame_bitmap i }
      (fun j h1 h2 => by
        show test_bit (clear_bit s.frame_bitmap i) j = false
        rw [test_bit_clear_bit, hclr j (by omega) (by omega)]
        simp)

/-- C21 as stated fails for a bitmap storage that is not empty but holds
fewer than `N` bits.  With a storage of 4096 bytes inside the kernel image,
started from the all-zero state, `frame_alloc_init` sets 4096 bytes of the
bitmap to `0xFF`; the loop of `mark_range_free` then finds only the first
32768 bits set and counts only those frames.  At the end `total_memory` and
`free_memory` are `128 MiB - 512 KiB`, not `1 GiB - 512 KiB`, and
`highest_usable_address` is `0x48000000`, not `RAM_BASE + 1 GiB`, although
frame 0x10000, like every frame outside the kernel image, has its bit
clear. -/
theorem C21_counterexample :
    (PMM_RAM_BASE ≤ short_bitmap_linker.pmm_bitmap_start ∧
      short_bitmap_linker.pmm_bitmap_start < short_bitmap_linker.pmm_bitmap_end ∧
      short_bitmap_linker.pmm_bitmap_end ≤ PMM_RAM_BASE + 1073741824) ∧
    (frame_alloc_init short_bitmap_linker (some virt_params) zero_state).total_memory
      = 133693440 ∧
    (frame_alloc_init short_bitmap_linker (some virt_params) zero_state).free_memory
      = 133693440 ∧
    (frame_alloc_init short_bitmap_linker (some virt_params) zero_state).highest_usable_address
      = 0x48000000 ∧
    test_bit (frame_alloc_init short_bitmap_linker (some virt_params) zero_state).frame_bitmap
      0x10000 = false := by
  have e1 : ∀ t : KState, mark_range_used t 0x400F0000 (sub64 0x400F1000 0x400F0000)
      = mark_used_loop 1 240 t := fun t => by
    rw [mark_range_used_eq]
    have a : start_frame 0x400F0000 = 240 := by decide
    have b : range_count 0x400F0000 (sub64 0x400F1000 0x400F0000) = 1 := by decide
    rw [a, b]
  have e2 : ∀ t : KState, mark_range_used t 0x40080000 (sub64 0x40100000 0x40080000)
      = mark_used_loop 128 128 t := fun t => by
    rw [mark_range_used_eq]
    have a : start_frame 0x40080000 = 128 := by decide
    have b : range_count 0x40080000 (sub64 0x40100000 0x40080000) = 128 := by decide
    rw [a, b]
  have e3 : ∀ t : KState, mark_range_free t PMM_RAM_BASE PMM_MANAGEABLE_SIZE
      = mark_free_loop 229376 (0 + 32768) (mark_free_loop 32768 0 t) := fun t => by
    rw [mark_range_free_eq, ← mark_free_loop_add]
    have a : start_frame PMM_RAM_BASE = 0 := by decide
    have b : range_count PMM_RAM_BASE PMM_MANAGEABLE_SIZE = 32768 + 229376 := by decide
    rw [a, b]
  have e4 : sub64 0x400F1000 0x400F0000 = 4096 := by decide
  refine ⟨by decide, ?_⟩
  rw [frame_alloc_init_some]
  simp only [short_bitmap_linker, virt_params]
  rw [e1, e2, e3, e4]
  generalize hs0 : ({ zero_state with
      frame_bitmap := memset zero_state.frame_bitmap 0 0xFF 4096
      total_memory := 0
      free_memory := 0
      highest_usable_address := PMM_RAM_BASE } : KState) = s0
  have b0 : s0.frame_bitmap = memset (fun _ => 0) 0 0xFF 4096 := by rw [← hs0]; rfl
  have c1 : s0.total_memory = 0 := by rw [← hs0]
  have c2 : s0.free_memory = 0 := by rw [← hs0]
  have c3 : s0.highest_usable_address = PMM_RAM_BASE := by rw [← hs0]
  have bits0 : ∀ j, test_bit s0.frame_bitmap j = decide (j < 32768) := by
    intro j
    by_cases hj : j < 32768
    · rw [b0, test_bit_memset_ff _ _ _ (by omega)]; simp [hj]
    · rw [b0, test_bit_eq]
      have : ¬ (0 ≤ j / 8 ∧ j / 8 < 0 + 4096) := by omega
      simp only [memset, if_neg this, Nat.zero_testBit]
      simp [hj]
  obtain ⟨a1, a2, a3, _⟩ := mark_free_loop_all_set 32768 0 s0
    (fun j _ hj => by rw [bits0]; simp; omega)
    (by rw [c1]; decide) (by rw [c2]; decide) (by rw [c3]; decide) (by decide)
  rw [c1] at a1; rw [c2] at a2
  generalize hA : mark_free_loop 32768 0 s0 = A at a1 a2 a3
  have bitsA : ∀ j, test_bit A.frame_bitmap j = false := by
    intro j
    rw [← hA, mark_free_loop_bits, bits0]
    by_cases hj : j < 32768
    · rw [if_pos ⟨by omega, by omega⟩]
    · rw [if_neg (by omega)]; simp [hj]
  obtain ⟨f1, f2, f3⟩ := mark_free_loop_all_clear 229376 (0 + 32768) A (fun j _ _ => bitsA j)
  generalize hB : mark_free_loop 229376 (0 + 32768) A = B at f1 f2 f3
  have bitsB : ∀ j, test_bit B.frame_bitmap j = false := by
    intro j
    rw [← hB, mark_free_loop_bits, bitsA]
    split <;> rfl
  obtain ⟨d1, d2, d3, _⟩ := mark_used_loop_all_clear 128 128 B (fun j _ _ => bitsB j)
    (by rw [f1, a1]; decide) (by rw [f2, a2]; decide)
  generalize hC : mark_used_loop 128 128 B = C at d1 d2 d3
  have bitsC : ∀ j, test_bit C.frame_bitmap j = decide (128 ≤ j ∧ j < 256) := by
    intro j
    rw [← hC, mark_used_loop_bits, bitsB]
    by_cases hj : 128 ≤ j ∧ j < 128 + 128
    · rw [if_pos hj]; simp; omega
    · rw [if_neg hj]; simp; omega
  rw [mark_used_loop_all_set 1 240 C (fun j h1 h2 => by rw [bitsC]; simp; omega)]
  refine ⟨?_, ?_, ?_, ?_⟩
  · rw [d1, f1, a1]; rfl
  · rw [d2, f2, a2]; rfl
  · rw [d3, f3, a3]; rfl
  · rw [bitsC]; decide

/-- C21 (amended): for boot parameters with
`RAM_BASE ≤ kernel_phys_start < kernel_phys_end ≤ RAM_BASE + 1 GiB` and a
bitmap storage inside the managed window that holds one bit per frame (at
least `N / 8 = 32768` bytes, as the data model has it), after
`frame_alloc_init` bit `i < N` is set if and only if frame `i` intersects the
kernel range or the bitmap storage, `total_memory` and `free_memory` both are
4096 times the number of clear bits, and `highest_usable_address` is
`RAM_BASE + 1 GiB`; with the kernel at `0x40080000 .. 0x40100000` and the
bitmap inside the kernel image, `free_memory` is `1 GiB - 512 KiB`. -/
theorem C21_init_bits_and_counters (ld : Linker) (p : KERNEL_BOOT_PARAMS) (s : KState)
    (hk1 : PMM_RAM_BASE ≤ p.kernel_phys_start)
    (hk2 : p.kernel_phys_start < p.kernel_phys_end)
    (hk3 : p.kernel_phys_end ≤ PMM_RAM_BASE + 1073741824)
    (hb1 : PMM_RAM_BASE ≤ ld.pmm_bitmap_start)
    (hb2 : ld.pmm_bitmap_start + 32768 ≤ ld.pmm_bitmap_end)
    (hb3 : ld.pmm_bitmap_end ≤ PMM_RAM_BASE + 1073741824) :
    (∀ i, i < 262144 →
      (test_bit (frame_alloc_init ld (some p) s).frame_bitmap i = true ↔ reserved_frame ld p i)) ∧
    (frame_alloc_init ld (some p) s).total_memory
      = 4096 * clear_count (frame_alloc_init ld (some p) s).frame_bitmap 262144 ∧
    (frame_alloc_init ld (some p) s).free_memory
      = 4096 * clear_count (frame_alloc_init ld (some p) s).frame_bitmap 262144 ∧
    (frame_alloc_init ld (some p) s).highest_usable_address = PMM_RAM_BASE + 1073741824 ∧
    (p.kernel_phys_start = 0x40080000 → p.kernel_phys_end = 0x40100000 →
      0x40080000 ≤ ld.pmm_bitmap_start → ld.pmm_bitmap_end ≤ 0x40100000 →
      (frame_alloc_init ld (some p) s).free_memory = 1073741824 - 524288) := by
  simp only [PMM_RAM_BASE] at hk1 hk3 hb1 hb3
  have eks : sub64 p.kernel_phys_end p.kernel_phys_start
      = p.kernel_phys_end - p.kernel_phys_start := sub64_of_le _ _ (by omega) (by omega)
  have ebs : sub64 ld.pmm_bitmap_end ld.pmm_bitmap_start
      = ld.pmm_bitmap_end - ld.pmm_bitmap_start := sub64_of_le _ _ (by omega) (by omega)
  have hfree : (frame_alloc_init ld (some p) s).free_memory
      = 4096 * clear_count (frame_alloc_init ld (some p) s).frame_bitmap 262144 :=
    frame_alloc_init_inv ld (some p) s (by rw [ebs, total_frames_eq]; omega)
  have htf := init_total_eq_free ld (some p) s
  obtain ⟨A1, A2, A3, A4⟩ := init_free_loop s (ld.pmm_bitmap_end - ld.pmm_bitmap_start) (by omega)
  have hinit := frame_alloc_init_some ld p s
  rw [eks, ebs] at hinit
  generalize mark_range_free
      { s with
        frame_bitmap := memset s.frame_bitmap 0 0xFF (ld.pmm_bitmap_end - ld.pmm_bitmap_start)
        total_memory := 0
        free_memory := 0
        highest_usable_address := PMM_RAM_BASE } PMM_RAM_BASE PMM_MANAGEABLE_SIZE = A at *
  have ek2 : p.kernel_phys_start + (p.kernel_phys_end - p.kernel_phys_start)
      = p.kernel_phys_end := by omega
  have eb2 : ld.pmm_bitmap_start + (ld.pmm_bitmap_end - ld.pmm_bitmap_start)
      = ld.pmm_bitmap_end := by omega
  have vk := fun i => range_visits p.kernel_phys_start (p.kernel_phys_end - p.kernel_phys_start) i
    (by simp only [PMM_RAM_BASE]; omega) (by omega) (by omega)
  have vb := fun i => range_visits ld.pmm_bitmap_start (ld.pmm_bitmap_end - ld.pmm_bitmap_start) i
    (by simp only [PMM_RAM_BASE]; omega) (by omega) (by omega)
  rw [ek2] at vk
  rw [eb2] at vb
  refine ⟨?_, ?_, hfree, ?_, ?_⟩
  · intro i hi
    rw [hinit, mark_range_used_bits, mark_range_used_bits, A1 i hi]
    unfold reserved_frame
    have hiN : i < PMM_TOTAL_FRAMES := by rw [total_frames_eq]; exact hi
    by_cases c1 : start_frame ld.pmm_bitmap_start ≤ i ∧ i < start_frame ld.pmm_bitmap_start
        + range_count ld.pmm_bitmap_start (ld.pmm_bitmap_end - ld.pmm_bitmap_start)
    · rw [if_pos c1]
      exact ⟨fun _ => Or.inr ((vb i).1 c1).2, fun _ => rfl⟩
    · rw [if_neg c1]
      by_cases c2 : start_frame p.kernel_phys_start ≤ i ∧ i < start_frame p.kernel_phys_start
          + range_count p.kernel_phys_start (p.kernel_phys_end - p.kernel_phys_start)
      · rw [if_pos c2]
        exact ⟨fun _ => Or.inl ((vk i).1 c2).2, fun _ => rfl⟩
      · rw [if_neg c2]
        constructor
        · intro h; exact Bool.noConfusion h
        · intro h
          rcases h with h | h
          · exact absurd ((vk i).2 ⟨hiN, h⟩) c2
          · exact absurd ((vb i).2 ⟨hiN, h⟩) c1
  · rw [htf]; exact hfree
  · rw [hinit, mark_range_used_eq, mark_range_used_eq, mark_used_loop_highest,
      mark_used_loop_highest, A4]
    rfl
  · intro e1 e2 e3 e4
    rw [hinit]
    rw [e1, e2] at vk
    have hsk : start_frame 0x40080000 = 128 := by decide
    have hck : range_count 0x40080000 (0x40100000 - 0x40080000) = 128 := by decide
    rw [e1, e2]
    rw [mark_range_used_eq A, hsk, hck]
    obtain ⟨d1, d2, _⟩ := mark_used_loop_all_clear 128 128 A
      (fun j _ hj => A1 j (by omega)) (by rw [A2]; decide) (by rw [A3]; decide)
    rw [mark_range_used_eq, mark_used_loop_all_set]
    · rw [d2, A3]; rfl
    · intro j h1 h2
      rw [mark_used_loop_bits, A1 j]
      · have hv := ((vb j).1 ⟨h1, h2⟩).2
        unfold frame_overlaps at hv
        simp only [PMM_RAM_BASE, PAGE_SIZE] at hv
        rw [if_pos (by omega)]
      · have hv := ((vb j).1 ⟨h1, h2⟩).1
        rw [total_frames_eq] at hv
        exact hv

/-- Witness of C21: the `virt` layout. -/
theorem C21_witness :
    (PMM_RAM_BASE ≤ virt_params.kernel_phys_start ∧
      virt_params.kernel_phys_start < virt_params.kernel_phys_end ∧
      virt_linker.pmm_bitmap_start + 32768 ≤ virt_linker.pmm_bitmap_end) ∧
    (frame_alloc_init virt_linker (some virt_params) zero_state).free_memory
      = 1073741824 - 524288 ∧
    (frame_alloc_init virt_linker (some virt_params) zero_state).highest_usable_address
      = PMM_RAM_BASE + 1073741824 :=
  ⟨by decide,
    (C21_init_bits_and_counters virt_linker virt_params zero_state (by decide) (by decide)
      (by decide) (by decide) (by decide) (by decide)).2.2.2.2 rfl rfl (by decide) (by decide),
    (C21_init_bits_and_counters virt_linker virt_params zero_state (by decide) (by decide)
      (by decide) (by decide) (by decide) (by decide)).2.2.2.1⟩

/-! ## Frames that stay in use -/

theorem alloc_frame_bits_mono (s : KState) (j : Nat) (h : test_bit s.frame_bitmap j = true) :
    test_bit (alloc_frame s).2.frame_bitmap j = true := by
  unfold alloc_frame
  cases hs : alloc_scan s.frame_bitmap PMM_TOTAL_FRAMES 0 with
  | none => exact h
  | some k =>
    show test_bit (set_bit s.frame_bitmap k) j = true
    rw [test_bit_set_bit, h]
    simp

/-- The frames of a set `R` keep their bits set along a sequence of calls in
which `free_frame` is never passed the address of a frame of `R`. -/
theorem pmm_run_keeps_set (R : Nat → Prop) (ops : List PmmOp) (s : KState)
    (hs : ∀ i, R i → test_bit s.frame_bitmap i = true)
    (hops : ∀ f i, PmmOp.free f ∈ ops → R i → f ≠ PMM_RAM_BASE + i * PAGE_SIZE) :
    ∀ i, R i → test_bit (pmm_run s ops).frame_bitmap i = true := by
  induction ops generalizing s with
  | nil => exact hs
  | cons op ops ih =>
    simp only [pmm_run, List.foldl_cons] at *
    apply ih
    · intro i hi
      cases op with
      | alloc => exact alloc_frame_bits_mono s i (hs i hi)
      | free f =>
        show test_bit (free_frame s f).frame_bitmap i = true
        rw [free_frame_bits _ _ _ (fun e => hops f i (List.mem_cons_self _ _) hi e.symm)]
        exact hs i hi
    · intro f i hf hi
      exact hops f i (List.mem_cons_of_mem _ hf) hi

/-- C23 as stated fails: in the state with every frame free,
`mark_range_free(RAM_BASE, 4096)` finds bit 0 clear and counts nothing, and
`mark_range_used(RAM_BASE, 4096)` then sets the bit and takes one page from
both counters. -/
theorem C23_counterexample :
    all_free_state.total_memory = 1073741824 ∧ all_free_state.free_memory = 1073741824 ∧
    (mark_range_used (mark_range_free all_free_state PMM_RAM_BASE 4096)
      PMM_RAM_BASE 4096).total_memory = 1073737728 ∧
    (mark_range_used (mark_range_free all_free_state PMM_RAM_BASE 4096)
      PMM_RAM_BASE 4096).free_memory = 1073737728 := by
  decide

/-- C23 (amended): when every frame that the loop of `mark_range_free(base,
size)` visits (frames `start_frame` to `end_frame` as the function computes
them) is marked used beforehand, and neither counter overflows 64 bits when
one page per visited frame is added, `mark_range_free(base, size)` followed by
`mark_range_used(base, size)` leaves `total_memory` and `free_memory` equal to
their values before the two calls. -/
theorem C23_free_then_used_restores (s : KState) (base size : Nat)
    (hset : ∀ i, start_frame base ≤ i → i < start_frame base + range_count base size →
      test_bit s.frame_bitmap i = true)
    (ht : s.total_memory + range_count base size * 4096 < 2 ^ 64)
    (hf : s.free_memory + range_count base size * 4096 < 2 ^ 64) :
    (mark_range_used (mark_range_free s base size) base size).total_memory = s.total_memory ∧
    (mark_range_used (mark_range_free s base size) base size).free_memory = s.free_memory := by
  rw [mark_range_used_eq, mark_range_free_eq]
  rcases range_count_le base size with h0 | hle
  · rw [h0]; exact ⟨rfl, rfl⟩
  · generalize range_count base size = n at *
    generalize start_frame base = i0 at *
    have hh : ∀ t : KState, (mark_free_loop n i0 t).total_memory
        = (mark_free_loop n i0 { t with highest_usable_address := 0 }).total_memory ∧
        (mark_free_loop n i0 t).free_memory
        = (mark_free_loop n i0 { t with highest_usable_address := 0 }).free_memory ∧
        (mark_free_loop n i0 t).frame_bitmap
        = (mark_free_loop n i0 { t with highest_usable_address := 0 }).frame_bitmap := by
      clear hset ht hf hle
      induction n generalizing i0 with
      | zero => intro t; exact ⟨rfl, rfl, rfl⟩
      | succ n ih =>
        intro t
        simp only [mark_free_loop]
        by_cases hb : test_bit t.frame_bitmap i0 = true
        · simp only [hb, if_true]
          have a := ih (i0 + 1) { t with
            total_memory := u64 (t.total_memory + PAGE_SIZE)
            free_memory := u64 (t.free_memory + PAGE_SIZE)
            highest_usable_address :=
              (if u64 (PMM_RAM_BASE + (i0 + 1) * PAGE_SIZE) > t.highest_usable_address then
                u64 (PMM_RAM_BASE + (i0 + 1) * PAGE_SIZE)
              else t.highest_usable_address)
            frame_bitmap := clear_bit t.frame_bitmap i0 }
          have b := ih (i0 + 1) { t with
            total_memory := u64 (t.total_memory + PAGE_SIZE)
            free_memory := u64 (t.free_memory + PAGE_SIZE)
            highest_usable_address :=
              (if u64 (PMM_RAM_BASE + (i0 + 1) * PAGE_SIZE) > 0 then
                u64 (PMM_RAM_BASE + (i0 + 1) * PAGE_SIZE)
              else 0)
            frame_bitmap := clear_bit t.frame_bitmap i0 }
          exact ⟨a.1.trans b.1.symm, a.2.1.trans b.2.1.symm, a.2.2.trans b.2.2.symm⟩
        · have hb2 : test_bit t.frame_bitmap i0 = false := by simpa using hb
          simp only [hb2, Bool.false_eq_true, if_false]
          exact ih (i0 + 1) { t with frame_bitmap := clear_bit t.frame_bitmap i0 }
    obtain ⟨q1, q2, q3⟩ := hh s
    obtain ⟨a1, a2, _⟩ := mark_free_loop_all_set n i0 { s with highest_usable_address := 0 }
      hset (by simp only [PAGE_SIZE]; exact ht) (by simp only [PAGE_SIZE]; exact hf)
      (Nat.zero_le _)
      (by simp only [PMM_RAM_BASE, PAGE_SIZE, total_frames_eq] at *; omega)
    have hclr : ∀ j, i0 ≤ j → j < i0 + n →
        test_bit (mark_free_loop n i0 s).frame_bitmap j = false := by
      intro j h1 h2
      rw [mark_free_loop_bits, if_pos ⟨h1, h2⟩]
    obtain ⟨d1, d2, _⟩ := mark_used_loop_all_clear n i0 (mark_free_loop n i0 s) hclr
      (by rw [q1, a1]; exact Nat.le_add_left _ _) (by rw [q2, a2]; exact Nat.le_add_left _ _)
    rw [d1, d2, q1, q2, a1, a2]
    exact ⟨Nat.add_sub_cancel _ _, Nat.add_sub_cancel _ _⟩

/-- Witness of C23: the frames of the kernel image on the `virt` layout. -/
theorem C23_witness :
    (mark_range_used (mark_range_free virt_boot_state 0x40080000 0x80000)
      0x40080000 0x80000).total_memory = virt_boot_state.total_memory ∧
    (mark_range_used (mark_range_free virt_boot_state 0x40080000 0x80000)
      0x40080000 0x80000).free_memory = virt_boot_state.free_memory :=
  C23_free_then_used_restores virt_boot_state 0x40080000 0x80000
    (fun i h1 h2 => by
      have e1 : start_frame 0x40080000 = 128 := by decide
      have e2 : range_count 0x40080000 0x80000 = 128 := by decide
      rw [e1] at h1 h2
      rw [e2] at h2
      rw [test_bit_eq]
      have hk : 16 ≤ i / 8 ∧ i / 8 < 32 := by omega
      show (if 16 ≤ i / 8 ∧ i / 8 < 32 then 255 else 0).testBit (i % 8) = true
      rw [if_pos hk, show (255 : Nat) = 2 ^ 8 - 1 from rfl, Nat.testBit_two_pow_sub_one]
      simp
      omega)
    (by decide) (by decide)

/-! ## Which bits the range calls change -/

/-- C24 as stated fails in both of the cases that it singles out.  A range
that starts below `RAM_BASE` changes nothing, even where it reaches into the
window: `mark_range_used(0x3FFFF000, 0x2000)` covers the first 4096 bytes of
frame 0 and leaves bit 0 clear, and `mark_range_free` of the same range leaves
bit 0 set.  A range of size 0 can touch a frame:
`mark_range_used(0x40000000, 0)` sets bit 0, and
`mark_range_used(0x40001234, 0)` sets bit 1. -/
theorem C24_counterexample :
    frame_overlaps 0 0x3FFFF000 (0x3FFFF000 + 0x2000) ∧
    test_bit (mark_range_used all_free_state 0x3FFFF000 0x2000).frame_bitmap 0 = false ∧
    test_bit (mark_range_free full_state 0x3FFFF000 0x2000).frame_bitmap 0 = true ∧
    ¬ frame_overlaps 0 0x40000000 (0x40000000 + 0) ∧
    test_bit all_free_state.frame_bitmap 0 = false ∧
    test_bit (mark_range_used all_free_state 0x40000000 0).frame_bitmap 0 = true ∧
    test_bit (mark_range_used all_free_state 0x40001234 0).frame_bitmap 1 = true := by
  decide

/-- C24 (amended): for every `(base, size)` with `base ≥ RAM_BASE`,
`size > 0` and `base + size < 2 ^ 64`, `mark_range_used` (resp.
`mark_range_free`) sets (resp. clears) the bit of frame `i` if and only if
`i < N` and frame `i` intersects `[base, base + size)`; the part of the range
above the window is ignored and every other bit is unchanged.  A range that
starts below `RAM_BASE` is ignored as a whole: neither function changes the
state. -/
theorem C24_range_marks_touched_frames (s : KState) (base size : Nat)
    (hb : PMM_RAM_BASE ≤ base) (hs : 0 < size) (ho : base + size < 2 ^ 64) :
    (∀ i, i < 262144 → frame_overlaps i base (base + size) →
      test_bit (mark_range_used s base size).frame_bitmap i = true ∧
      test_bit (mark_range_free s base size).frame_bitmap i = false) ∧
    (∀ i, ¬ (i < 262144 ∧ frame_overlaps i base (base + size)) →
      test_bit (mark_range_used s base size).frame_bitmap i = test_bit s.frame_bitmap i ∧
      test_bit (mark_range_free s base size).frame_bitmap i = test_bit s.frame_bitmap i) ∧
    (∀ base2 size2, base2 < PMM_RAM_BASE →
      mark_range_used s base2 size2 = s ∧ mark_range_free s base2 size2 = s) := by
  refine ⟨?_, ?_, ?_⟩
  · intro i hi hov
    have v := (range_visits base size i hb hs ho).2 ⟨hi, hov⟩
    rw [mark_range_used_bits, mark_range_free_bits, if_pos v, if_pos v]
    exact ⟨rfl, rfl⟩
  · intro i hn
    have v : ¬ (start_frame base ≤ i ∧ i < start_frame base + range_count base size) :=
      fun h => hn ((range_visits base size i hb hs ho).1 h)
    rw [mark_range_used_bits, mark_range_free_bits, if_neg v, if_neg v]
    exact ⟨rfl, rfl⟩
  · intro base2 size2 h2
    rw [mark_range_used_eq, mark_range_free_eq, range_below_base base2 size2 h2]
    exact ⟨rfl, rfl⟩

/-- Witness of C24: the range `0x40001800 .. 0x40003000` in the state with
every frame free touches frames 1 and 2. -/
theorem C24_witness :
    frame_overlaps 1 0x40001800 (0x40001800 + 0x1800) ∧
    test_bit (mark_range_used all_free_state 0x40001800 0x1800).frame_bitmap 1 = true ∧
    test_bit (mark_range_used all_free_state 0x40001800 0x1800).frame_bitmap 3
      = test_bit all_free_state.frame_bitmap 3 :=
  ⟨by decide,
    ((C24_range_marks_touched_frames all_free_state 0x40001800 0x1800 (by decide) (by decide)
      (by decide)).1 1 (by decide) (by decide)).1,
    ((C24_range_marks_touched_frames all_free_state 0x40001800 0x1800 (by decide) (by decide)
      (by decide)).2.1 3 (by decide)).1⟩

/-! ## The counters along a sequence of calls -/

theorem clear_count_mono (bm0 bm : Nat → Nat) (n : Nat)
    (h : ∀ j, j < n → test_bit bm0 j = true → test_bit bm j = true) :
    clear_count bm n ≤ clear_count bm0 n := by
  induction n with
  | zero => exact Nat.le_refl _
  | succ n ih =>
    simp only [clear_count]
    have := ih (fun j hj => h j (by omega))
    cases h0 : test_bit bm0 n with
    | true => rw [h n (by omega) h0]; simpa using this
    | false => split <;> simp <;> omega

theorem pmm_run_total (s : KState) (ops : List PmmOp) :
    (pmm_run s ops).total_memory = s.total_memory := by
  induction ops generalizing s with
  | nil => rfl
  | cons op ops ih =>
    simp only [pmm_run, List.foldl_cons] at *
    rw [ih]
    cases op with
    | alloc =>
      show (alloc_frame s).2.total_memory = _
      rcases alloc_frame_cases s with e | ⟨i, _, _, _, e⟩ <;> rw [e]
    | free f =>
      show (free_frame s f).total_memory = _
      unfold free_frame
      simp only
      repeat' split
      all_goals rfl

/-- C25 as stated fails: on the `virt` layout `free_frame(0x40080000)`, the
first frame of the kernel image, passes every validation and adds one page to
`free_memory`, which then exceeds `total_memory`. -/
theorem C25_counterexample :
    (pmm_run (frame_alloc_init virt_linker (some virt_params) zero_state)
      [PmmOp.free 0x40080000]).total_memory = 1073217536 ∧
    (pmm_run (frame_alloc_init virt_linker (some virt_params) zero_state)
      [PmmOp.free 0x40080000]).free_memory = 1073221632 := by
  rw [frame_alloc_init_virt_eq]
  decide

/-- C25 (amended): after `frame_alloc_init` (the bitmap storage holding one
bit per frame) and after every subsequent sequence of `alloc_frame` and
`free_frame` calls in which `free_frame` is never passed the base address of a
frame that `frame_alloc_init` left marked used, `free_memory` and
`total_memory` are multiples of 4096 and `free_memory ≤ total_memory`, so that
`used_memory = total_memory - free_memory` is a multiple of 4096 with
`free_memory + used_memory = total_memory`. -/
theorem C25_counters_page_multiples (ld : Linker) (params : Option KERNEL_BOOT_PARAMS)
    (s : KState) (ops : List PmmOp)
    (hsize : 32768 ≤ sub64 ld.pmm_bitmap_end ld.pmm_bitmap_start)
    (hops : ∀ f i, PmmOp.free f ∈ ops → i < 262144 →
      test_bit (frame_alloc_init ld params s).frame_bitmap i = true →
      f ≠ PMM_RAM_BASE + i * PAGE_SIZE) :
    (pmm_run (frame_alloc_init ld params s) ops).free_memory % 4096 = 0 ∧
    (pmm_run (frame_alloc_init ld params s) ops).total_memory % 4096 = 0 ∧
    (pmm_run (frame_alloc_init ld params s) ops).free_memory
      ≤ (pmm_run (frame_alloc_init ld params s) ops).total_memory ∧
    ((pmm_run (frame_alloc_init ld params s) ops).total_memory
      - (pmm_run (frame_alloc_init ld params s) ops).free_memory) % 4096 = 0 ∧
    (pmm_run (frame_alloc_init ld params s) ops).free_memory
      + ((pmm_run (frame_alloc_init ld params s) ops).total_memory
        - (pmm_run (frame_alloc_init ld params s) ops).free_memory)
      = (pmm_run (frame_alloc_init ld params s) ops).total_memory := by
  have h0 : PInv (frame_alloc_init ld params s) :=
    frame_alloc_init_inv ld params s (by rw [total_frames_eq]; omega)
  have h1 : PInv (pmm_run (frame_alloc_init ld params s) ops) := pmm_run_inv _ ops h0
  have ht := pmm_run_total (frame_alloc_init ld params s) ops
  have he := init_total_eq_free ld params s
  have hk := pmm_run_keeps_set
    (fun j => j < 262144 ∧ test_bit (frame_alloc_init ld params s).frame_bitmap j = true) ops
    (frame_alloc_init ld params s) (fun j hj => hj.2) (fun f j hf hj => hops f j hf hj.1 hj.2)
  have hm := clear_count_mono (frame_alloc_init ld params s).frame_bitmap
    (pmm_run (frame_alloc_init ld params s) ops).frame_bitmap 262144
    (fun j hj hb => hk j ⟨hj, hb⟩)
  unfold PInv at h0 h1
  simp only [total_frames_eq, PAGE_SIZE] at h0 h1
  rw [ht, he, h0, h1]
  omega

/-- Witness of C25 on the `virt` layout: one allocation, then the release of
the allocated frame. -/
theorem C25_witness :
    32768 ≤ sub64 virt_linker.pmm_bitmap_end virt_linker.pmm_bitmap_start ∧
    (pmm_run (frame_alloc_init virt_linker (some virt_params) zero_state)
      [PmmOp.alloc, PmmOp.free 0x40000000]).free_memory
      ≤ (pmm_run (frame_alloc_init virt_linker (some virt_params) zero_state)
      [PmmOp.alloc, PmmOp.free 0x40000000]).total_memory :=
  ⟨by decide,
    (C25_counters_page_multiples virt_linker (some virt_params) zero_state
      [PmmOp.alloc, PmmOp.free 0x40000000] (by decide)
      (fun f i hf _ hb => by
        have hf2 : f = 0x40000000 := by simpa using hf
        subst hf2
        intro heq
        simp only [PMM_RAM_BASE, PAGE_SIZE] at heq
        have hi0 : i = 0 := by omega
        subst hi0
        rw [virt_init_bit0] at hb
        exact Bool.noConfusion hb)).2.2.1⟩

/-! ## The synchronous exception dispatcher -/

theorem decode_ec_eq (esr : Nat) : decode_ec esr = esr / 2 ^ 26 % 64 := by
  unfold decode_ec
  rw [Nat.shiftRight_eq_div_pow, show (0x3F : Nat) = 2 ^ 6 - 1 from rfl,
    Nat.and_pow_two_sub_one_eq_mod]
  have : esr / 2 ^ 26 % 2 ^ 6 < 2 ^ 6 := Nat.mod_lt _ (by norm_num)
  omega

theorem decode_iss_eq (esr : Nat) : decode_iss esr = esr % 2 ^ 25 := by
  unfold decode_iss
  rw [show (0x1FFFFFF : Nat) = 2 ^ 25 - 1 from rfl, Nat.and_pow_two_sub_one_eq_mod]
  have : esr % 2 ^ 25 < 2 ^ 25 := Nat.mod_lt _ (by norm_num)
  omega

theorem decode_svc_imm_eq (esr : Nat) : decode_svc_imm (decode_iss esr) = esr % 2 ^ 16 := by
  unfold decode_svc_imm
  rw [decode_iss_eq, show (0xFFFF : Nat) = 2 ^ 16 - 1 from rfl, Nat.and_pow_two_sub_one_eq_mod]
  omega

theorem Keeps.refl (c : Cpu) : Keeps c c := ⟨rfl, rfl, fun _ h => h⟩

theorem Keeps.kprintf {c c2 : Cpu} (h : Keeps c c2) (fmt : String) (args : List KArg) :
    Keeps c (kprintf c2 fmt args) :=
  ⟨h.1, h.2.1, fun x hx => List.mem_append_left _ (h.2.2 x hx)⟩

theorem kprintf_self (c : Cpu) (fmt : String) (args : List KArg) :
    ({ fmt := fmt, args := args } : KPrint) ∈ (kprintf c fmt args).console :=
  List.mem_append_right _ (List.mem_singleton.2 rfl)

theorem Keeps.trans {a b c : Cpu} (h1 : Keeps a b) (h2 : Keeps b c) : Keeps a c :=
  ⟨h2.1.trans h1.1, h2.2.1.trans h1.2.1, fun x hx => h2.2.2 x (h1.2.2 x hx)⟩

theorem foldl_keeps (f : Cpu → Nat → Cpu) (hf : ∀ c k, Keeps c (f c k)) (l : List Nat) :
    ∀ c, Keeps c (l.foldl f c) := by
  induction l with
  | nil => intro c; exact Keeps.refl c
  | cons k l ih => intro c; exact Keeps.trans (hf c k) (ih _)

theorem print_registers_keeps (c : Cpu) (r : saved_registers_t) :
    Keeps c (print_registers c r) := by
  unfold print_registers
  dsimp only
  apply Keeps.kprintf
  apply Keeps.kprintf
  apply Keeps.kprintf
  refine Keeps.trans ?_ (foldl_keeps _ (fun c0 k => Keeps.kprintf (Keeps.refl c0) _ _) _ _)
  exact Keeps.kprintf (Keeps.refl c) _ _

/-- The diagnostic part leaves the saved context and the interrupt mask as
they were, and prints the line with `esr`, `ec` and `iss`. -/
theorem sync_report_keeps (esr far : Nat) (c : Cpu) :
    Keeps c (sync_report esr far c) ∧
    ({ fmt := " ESR_EL1: %016llx (EC: 0x%x, ISS: 0x%x)\n",
       args := [KArg.num esr, KArg.num (decode_ec esr), KArg.num (decode_iss esr)] } : KPrint)
      ∈ (sync_report esr far c).console := by
  unfold sync_report
  dsimp only
  generalize hc2 : kprintf (kprintf c "\n--- Synchronous Exception Taken ---\n" [])
      " ESR_EL1: %016llx (EC: 0x%x, ISS: 0x%x)\n"
      [KArg.num esr, KArg.num (decode_ec esr), KArg.num (decode_iss esr)] = c2
  have h2 : Keeps c c2 := by
    rw [← hc2]; exact Keeps.kprintf (Keeps.kprintf (Keeps.refl c) _ _) _ _
  have m2 : ({ fmt := " ESR_EL1: %016llx (EC: 0x%x, ISS: 0x%x)\n",
               args := [KArg.num esr, KArg.num (decode_ec esr), KArg.num (decode_iss esr)] }
      : KPrint) ∈ c2.console := by
    rw [← hc2]; exact kprintf_self _ _ _
  generalize hc3 : kprintf (kprintf c2 " ELR_EL1: %016llx (Return Address)\n"
      [KArg.num c.context.elr_el1]) " Type: %s\n" [KArg.str (ec_class (decode_ec esr)).1] = c3
  have h3 : Keeps c2 c3 := by
    rw [← hc3]; exact Keeps.kprintf (Keeps.kprintf (Keeps.refl c2) _ _) _ _
  generalize hc4 : (if (ec_class (decode_ec esr)).2 = true then
      kprintf c3 " FAR_EL1: %016llx (Faulting Virtual Address)\n" [KArg.num far] else c3) = c4
  have h4 : Keeps c3 c4 := by
    rw [← hc4]
    split
    · exact Keeps.kprintf (Keeps.refl c3) _ _
    · exact Keeps.refl c3
  have h5 : Keeps c4 (kprintf (print_registers c4 c4.context)
      "-------------------------------------\n" []) :=
    Keeps.kprintf (print_registers_keeps c4 c4.context) _ _
  have h25 := Keeps.trans h3 (Keeps.trans h4 h5)
  exact ⟨Keeps.trans h2 h25, h25.2.2 _ m2⟩

theorem panic_keeps (c : Cpu) (message : String) :
    (panic c message).1 = Exit.halted ∧ (panic c message).2.context = c.context ∧
    (panic c message).2.daif_masked = true ∧
    ({ fmt := "\nKERNEL PANIC: %s\n", args := [KArg.str message] } : KPrint)
      ∈ (panic c message).2.console ∧
    ∀ x, x ∈ c.console → x ∈ (panic c message).2.console := by
  unfold panic
  dsimp only
  have h := Keeps.kprintf (Keeps.kprintf (Keeps.refl c) "\nKERNEL PANIC: %s\n"
    [KArg.str message]) "System halted.\n" []
  exact ⟨rfl, h.1, rfl,
    (Keeps.kprintf (Keeps.refl _) "System halted.\n" []).2.2 _ (kprintf_self c _ _), h.2.2⟩

theorem handle_sync_exception_eq (esr far : Nat) (c : Cpu) :
    handle_sync_exception esr far c =
      if decode_ec esr = 0b111100 then
        (Exit.returned,
          { kprintf (sync_report esr far c)
              "BRK instruction encountered. Continuing execution.\n" [] with
            context := { (sync_report esr far c).context with
              elr_el1 := u64 ((sync_report esr far c).context.elr_el1 + 4) } })
      else if decode_ec esr = 0b010101 then
        (Exit.returned,
          { kprintf (sync_report esr far c)
              "SVC instruction encountered (Imm: 0x%x). Implement SVC handler.\n"
              [KArg.num (decode_svc_imm (decode_iss esr))] with
            context := { (sync_report esr far c).context with
              elr_el1 := u64 ((sync_report esr far c).context.elr_el1 + 4) } })
      else panic (sync_report esr far c) "Unhandled synchronous exception" := rfl

/-- C26: for every `ESR_EL1` value whose bits 31:26 are `0x3C` (BRK) or `0x15`
(SVC64) and every saved register frame, `handle_sync_exception` returns, with
`elr_el1` equal to the old `elr_el1 + 4` modulo `2 ^ 64` and with `regs`,
`spsr_el1` and `sp_el0` unchanged. -/
theorem C26_brk_svc_advance_elr (esr far : Nat) (c : Cpu)
    (h : esr / 2 ^ 26 % 64 = 0x3C ∨ esr / 2 ^ 26 % 64 = 0x15) :
    (handle_sync_exception esr far c).1 = Exit.returned ∧
    (handle_sync_exception esr far c).2.context.elr_el1 = (c.context.elr_el1 + 4) % 2 ^ 64 ∧
    (∀ i, (handle_sync_exception esr far c).2.context.regs i = c.context.regs i) ∧
    (handle_sync_exception esr far c).2.context.spsr_el1 = c.context.spsr_el1 ∧
    (handle_sync_exception esr far c).2.context.sp_el0 = c.context.sp_el0 := by
  rw [handle_sync_exception_eq, decode_ec_eq]
  obtain ⟨k1, _, _⟩ := (sync_report_keeps esr far c).1
  have e : u64 ((sync_report esr far c).context.elr_el1 + 4) = (c.context.elr_el1 + 4) % 2 ^ 64 := by
    rw [k1]; rfl
  rcases h with h | h
  · rw [if_pos h]
    refine ⟨rfl, e, fun i => ?_, ?_, ?_⟩
    · show (sync_report esr far c).context.regs i = _
      rw [k1]
    · show (sync_report esr far c).context.spsr_el1 = _
      rw [k1]
    · show (sync_report esr far c).context.sp_el0 = _
      rw [k1]
  · rw [if_neg (by omega), if_pos h]
    refine ⟨rfl, e, fun i => ?_, ?_, ?_⟩
    · show (sync_report esr far c).context.regs i = _
      rw [k1]
    · show (sync_report esr far c).context.spsr_el1 = _
      rw [k1]
    · show (sync_report esr far c).context.sp_el0 = _
      rw [k1]

/-- Witness of C26: a `BRK #0` taken at `0x40001000` (`ESR_EL1 = 0xF2000000`). -/
theorem C26_witness :
    (0xF2000000 / 2 ^ 26 % 64 = 0x3C) ∧
    (handle_sync_exception 0xF2000000 0 sample_cpu).1 = Exit.returned ∧
    (handle_sync_exception 0xF2000000 0 sample_cpu).2.context.elr_el1 = 0x40001004 :=
  ⟨by decide,
    (C26_brk_svc_advance_elr 0xF2000000 0 sample_cpu (Or.inl (by decide))).1,
    (C26_brk_svc_advance_elr 0xF2000000 0 sample_cpu (Or.inl (by decide))).2.1⟩

/-- C27: for every `ESR_EL1` value whose bits 31:26 are neither `0x3C` nor
`0x15`, `handle_sync_exception` ends in `panic`: it does not return, the
message of the panic is printed and the interrupts are masked; no field of
the saved register frame is modified. -/
theorem C27_other_classes_panic (esr far : Nat) (c : Cpu)
    (h : esr / 2 ^ 26 % 64 ≠ 0x3C ∧ esr / 2 ^ 26 % 64 ≠ 0x15) :
    (handle_sync_exception esr far c).1 = Exit.halted ∧
    (handle_sync_exception esr far c).2.context = c.context ∧
    (handle_sync_exception esr far c).2.daif_masked = true ∧
    ({ fmt := "\nKERNEL PANIC: %s\n", args := [KArg.str "Unhandled synchronous exception"] }
      : KPrint) ∈ (handle_sync_exception esr far c).2.console := by
  rw [handle_sync_exception_eq, decode_ec_eq, if_neg h.1, if_neg h.2]
  obtain ⟨p1, p2, p3, p4, _⟩ := panic_keeps (sync_report esr far c) "Unhandled synchronous exception"
  exact ⟨p1, p2.trans (sync_report_keeps esr far c).1.1, p3, p4⟩

/-- Witness of C27: a data abort from the current exception level
(`EC = 0x25`) on a load from address 0. -/
theorem C27_witness :
    (0x96000004 / 2 ^ 26 % 64 = 0x25) ∧
    (handle_sync_exception 0x96000004 0 sample_cpu).1 = Exit.halted ∧
    (handle_sync_exception 0x96000004 0 sample_cpu).2.context = sample_cpu.context :=
  ⟨by decide,
    (C27_other_classes_panic 0x96000004 0 sample_cpu ⟨by decide, by decide⟩).1,
    (C27_other_classes_panic 0x96000004 0 sample_cpu ⟨by decide, by decide⟩).2.1⟩

/-- C28: for every `ESR_EL1` value `esr`, the exception class that the
dispatcher decodes is bits 31:26 of `esr`, a value below 64 that does not
depend on bits 63:32 and 25:0; its `iss` is bits 24:0 of `esr`; both are
passed to `kprintf` together with `esr`; and for an SVC the immediate that it
logs is bits 15:0 of `esr`. -/
theorem C28_esr_decoding (esr far : Nat) (c : Cpu) :
    decode_ec esr = esr / 2 ^ 26 % 64 ∧ decode_ec esr < 64 ∧
    (∀ hi lo, decode_ec (hi * 2 ^ 32 + decode_ec esr * 2 ^ 26 + lo % 2 ^ 26) = decode_ec esr) ∧
    decode_iss esr = esr % 2 ^ 25 ∧
    decode_svc_imm (decode_iss esr) = esr % 2 ^ 16 ∧
    ({ fmt := " ESR_EL1: %016llx (EC: 0x%x, ISS: 0x%x)\n",
       args := [KArg.num esr, KArg.num (esr / 2 ^ 26 % 64), KArg.num (esr % 2 ^ 25)] } : KPrint)
      ∈ (handle_sync_exception esr far c).2.console ∧
    (esr / 2 ^ 26 % 64 = 0x15 →
      ({ fmt := "SVC instruction encountered (Imm: 0x%x). Implement SVC handler.\n",
         args := [KArg.num (esr % 2 ^ 16)] } : KPrint)
        ∈ (handle_sync_exception esr far c).2.console) := by
  have hlt : esr / 2 ^ 26 % 64 < 64 := Nat.mod_lt _ (by norm_num)
  refine ⟨decode_ec_eq esr, by rw [decode_ec_eq]; exact hlt, ?_, decode_iss_eq esr,
    decode_svc_imm_eq esr, ?_, ?_⟩
  · intro hi lo
    rw [decode_ec_eq, decode_ec_eq]
    have hl : lo % 2 ^ 26 < 2 ^ 26 := Nat.mod_lt _ (by norm_num)
    generalize esr / 2 ^ 26 % 64 = e at *
    generalize lo % 2 ^ 26 = l at *
    omega
  · have k3 := (sync_report_keeps esr far c).2
    rw [decode_ec_eq, decode_iss_eq] at k3
    rw [handle_sync_exception_eq]
    split
    · exact (Keeps.kprintf (Keeps.refl _) _ _).2.2 _ k3
    · split
      · exact (Keeps.kprintf (Keeps.refl _) _ _).2.2 _ k3
      · exact (panic_keeps _ _).2.2.2.2 _ k3
  · intro h
    rw [handle_sync_exception_eq, decode_ec_eq, if_neg (by omega), if_pos h, decode_svc_imm_eq]
    exact kprintf_self _ _ _

/-- Witness of C28: an `SVC #0x42` (`ESR_EL1 = 0x56000042`). -/
theorem C28_witness :
    (0x56000042 / 2 ^ 26 % 64 = 0x15) ∧
    ({ fmt := "SVC instruction encountered (Imm: 0x%x). Implement SVC handler.\n",
       args := [KArg.num (0x56000042 % 2 ^ 16)] } : KPrint)
      ∈ (handle_sync_exception 0x56000042 0 sample_cpu).2.console :=
  ⟨by decide, (C28_esr_decoding 0x56000042 0 sample_cpu).2.2.2.2.2.2 (by decide)⟩

/-! ## `uart_putc` -/

/-- The wait loop ends when a read with `TXFF` clear lies ahead: with any
fuel above the distance to that read the loop returns, and the result does not
depend on the fuel. -/
theorem uart_wait_ends (fr : Nat → Nat) (k : Nat) :
    ∀ t, fr (t + k) &&& UART_FR_TXFF = 0 →
      ∃ r, ∀ fuel, k < fuel → uart_wait fr fuel t = some r := by
  induction k with
  | zero =>
    intro t h
    refine ⟨t + 1, fun fuel hf => ?_⟩
    obtain ⟨f, rfl⟩ : ∃ f, fuel = f + 1 := ⟨fuel - 1, by omega⟩
    simp only [uart_wait]
    rw [if_neg (by rw [Nat.add_zero] at h; simp [h])]
  | succ k ih =>
    intro t h
    by_cases h0 : fr t &&& UART_FR_TXFF = 0
    · refine ⟨t + 1, fun fuel hf => ?_⟩
      obtain ⟨f, rfl⟩ : ∃ f, fuel = f + 1 := ⟨fuel - 1, by omega⟩
      simp only [uart_wait]
      rw [if_neg (by simp [h0])]
    · obtain ⟨r, hr⟩ := ih (t + 1) (by rw [show t + 1 + k = t + (k + 1) from by omega]; exact h)
      refine ⟨r, fun fuel hf => ?_⟩
      obtain ⟨f, rfl⟩ : ∃ f, fuel = f + 1 := ⟨fuel - 1, by omega⟩
      simp only [uart_wait]
      rw [if_pos h0]
      exact hr f (by omega)

/-- C29: when from every point on some later read of `UART_FR` has `TXFF`
clear, `uart_putc(c)` returns (with every large enough fuel) and the values it
writes to the data register are exactly `c` when `c` is not the newline, and
the newline followed by the carriage return when it is. -/
theorem C29_uart_putc_writes (fr : Nat → Nat) (u : Uart) (c : Nat)
    (h : ∀ t, ∃ k, fr (t + k) &&& UART_FR_TXFF = 0) :
    ∃ fuel0, ∀ fuel, fuel0 ≤ fuel → ∃ u2, uart_putc fr fuel u c = some u2 ∧
      u2.dr_writes = u.dr_writes ++ (if c = 10 then [10, 13] else [c]) := by
  obtain ⟨k1, hk1⟩ := h u.fr_reads
  obtain ⟨r1, hr1⟩ := uart_wait_ends fr k1 u.fr_reads hk1
  by_cases hc : c = 10
  · obtain ⟨k2, hk2⟩ := h r1
    obtain ⟨r2, hr2⟩ := uart_wait_ends fr k2 r1 hk2
    refine ⟨k1 + k2 + 2, fun fuel hf => ?_⟩
    obtain ⟨f, rfl⟩ : ∃ f, fuel = f + 2 := ⟨fuel - 2, by omega⟩
    refine ⟨{ fr_reads := r2, dr_writes := u.dr_writes ++ [10] ++ [13] }, ?_, ?_⟩
    · simp only [uart_putc]
      rw [hr1 (f + 1 + 1) (by omega)]
      simp only [hc, if_true]
      rw [hr2 (f + 1) (by omega)]
      simp
    · rw [if_pos hc]; simp
  · refine ⟨k1 + 1, fun fuel hf => ?_⟩
    obtain ⟨f, rfl⟩ : ∃ f, fuel = f + 1 := ⟨fuel - 1, by omega⟩
    refine ⟨{ fr_reads := r1, dr_writes := u.dr_writes ++ [c] }, ?_, ?_⟩
    · simp only [uart_putc]
      rw [hr1 (f + 1) (by omega)]
      simp only [hc, if_false]
    · rw [if_neg hc]

/-- Witness of C29: a device whose transmit FIFO is full for the first three
reads of the flag register; `uart_putc` of the newline makes five reads and
writes the newline, then the carriage return. -/
theorem C29_witness :
    (∀ t, ∃ k, (fun n : Nat => if n < 3 then 0x20 else 0) (t + k) &&& UART_FR_TXFF = 0) ∧
    uart_putc (fun n => if n < 3 then 0x20 else 0) 5 { fr_reads := 0, dr_writes := [] } 10
      = some { fr_reads := 5, dr_writes := [10, 13] } ∧
    ∃ fuel0, ∀ fuel, fuel0 ≤ fuel → ∃ u2,
      uart_putc (fun n => if n < 3 then 0x20 else 0) fuel { fr_reads := 0, dr_writes := [] } 10
        = some u2 ∧
      u2.dr_writes = ([] : List Nat) ++ (if (10 : Nat) = 10 then [10, 13] else [10]) :=
  ⟨fun t => ⟨3, by simp⟩, by rfl,
    C29_uart_putc_writes (fun n => if n < 3 then 0x20 else 0) { fr_reads := 0, dr_writes := [] }
      10 (fun t => ⟨3, by simp⟩)⟩

/-! ## First fit in the order of the free list -/

theorem walk_free_ne_zero (m : Nat → Nat) (n : Nat) :
    ∀ cur b, b ∈ walk_free m n cur → b ≠ 0 := by
  induction n with
  | zero => intro cur b hb; simp [walk_free] at hb
  | succ n ih =>
    intro cur b hb
    by_cases h0 : cur = 0
    · simp [walk_free, h0] at hb
    · have hb2 : b ∈ cur :: walk_free m n (blk_next_free m cur) := by
        simpa [walk_free, h0] using hb
      rcases List.mem_cons.1 hb2 with e | hm
      · rw [e]; exact h0
      · exact ih _ b hm

/-- What the first-fit loop returns, when it returns a block, is the first
block of the walk over the free list that is large enough. -/
theorem first_fit_find (m : Nat → Nat) (size : Nat) :
    ∀ fuel cur b, first_fit m size fuel cur = some b → b ≠ 0 →
      (walk_free m fuel cur).find? (fun x => decide (size ≤ blk_size m x)) = some b := by
  intro fuel
  induction fuel with
  | zero => intro cur b h; simp [first_fit] at h
  | succ f ih =>
    intro cur b h hb
    simp only [first_fit] at h
    by_cases h0 : cur = 0
    · rw [if_pos h0] at h
      exact absurd (Option.some.inj h).symm hb
    · rw [if_neg h0] at h
      simp only [walk_free, if_neg h0]
      by_cases hs : blk_size m cur ≥ size
      · rw [if_pos hs] at h
        rw [List.find?_cons_of_pos _ (by simpa using hs)]
        exact h
      · rw [if_neg hs] at h
        rw [List.find?_cons_of_neg _ (by simpa using hs)]
        exact ih _ b h hb

/-- When the walk over the free list ends at the null pointer within `n`
steps, the first-fit loop returns with every fuel from `n` on: the first
block of the walk that is large enough, or null when there is none. -/
theorem first_fit_of_walk (m : Nat → Nat) (size : Nat) :
    ∀ n cur, (walk_free m n cur).length < n → ∀ fuel, n ≤ fuel →
      first_fit m size fuel cur
        = some (((walk_free m n cur).find? (fun x => decide (size ≤ blk_size m x))).getD 0) := by
  intro n
  induction n with
  | zero => intro cur h; exact absurd h (Nat.not_lt_zero _)
  | succ n ih =>
    intro cur h fuel hf
    obtain ⟨f, rfl⟩ : ∃ f, fuel = f + 1 := ⟨fuel - 1, by omega⟩
    simp only [first_fit]
    by_cases h0 : cur = 0
    · rw [if_pos h0]
      simp [walk_free, h0]
    · rw [if_neg h0]
      simp only [walk_free, if_neg h0] at h ⊢
      by_cases hs : blk_size m cur ≥ size
      · rw [if_pos hs, List.find?_cons_of_pos _ (by simpa using hs)]
        rfl
      · rw [if_neg hs, List.find?_cons_of_neg _ (by simpa using hs)]
        exact ih _ (by simpa using h) f (by omega)

theorem kmalloc_of_first_fit (fuel : Nat) (s : KState) (size b : Nat) (hsz : size ≠ 0)
    (hff : first_fit s.mem (round_size size) fuel s.free_list_head = some b) (hb : b ≠ 0) :
    kmalloc fuel s size = some (kmalloc_take s (round_size size) b) := by
  rw [kmalloc_eq, if_neg hsz, hff]
  simp only
  rw [if_neg hb]

/-- When the first walk finds no block, what `kmalloc` returns comes from the
walk over the free list of the expanded heap. -/
theorem kmalloc_after_expand (fuel : Nat) (s : KState) (size p : Nat) (s2 : KState)
    (hsz : size ≠ 0)
    (hff : first_fit s.mem (round_size size) fuel s.free_list_head = some 0)
    (hk : kmalloc fuel s size = some (p, s2)) (hp : p ≠ 0) :
    ∃ b, b ≠ 0 ∧
      first_fit (expand_heap s (u64 (round_size size + HEAP_HEADER_SIZE))).2.mem (round_size size)
        fuel (expand_heap s (u64 (round_size size + HEAP_HEADER_SIZE))).2.free_list_head = some b ∧
      p = u64 (b + HEAP_HEADER_SIZE) := by
  rw [kmalloc_eq, if_neg hsz, hff] at hk
  simp only [if_true] at hk
  split at hk
  · exact absurd (Prod.mk.inj (Option.some.inj hk)).1.symm hp
  · split at hk
    · exact Option.noConfusion hk
    · rename_i b hb
      split at hk
      · exact absurd (Prod.mk.inj (Option.some.inj hk)).1.symm hp
      · rename_i hb0
        exact ⟨b, hb0, hb, (Prod.mk.inj (Option.some.inj hk)).1.symm⟩

theorem lastD_concat (pre : List Nat) (h : pre ≠ []) : ∃ l, pre = l ++ [lastD pre 0] := by
  rcases List.eq_nil_or_concat pre with e | ⟨l, w, e⟩
  · exact absurd e h
  · refine ⟨l, ?_⟩
    rw [e, List.concat_eq_append, lastD_append]
    rfl

/-- After `kfree` of a live pointer the head of the free list is the block
that results: the block of the pointer, or its predecessor when that one was
flagged free and has absorbed it.  The head is flagged free and its payload
is at least as large as that of the freed block. -/
theorem kfree_head {s0 s : KState} {live : List Nat} (hr : Reach s0 s live)
    (p : Nat) (hp : p ∈ live) :
    (kfree s p).free_list_head =
      (if blk_prev s.mem (p - 48) ≠ 0 ∧ blk_is_free s.mem (blk_prev s.mem (p - 48)) = true then
        blk_prev s.mem (p - 48) else p - 48) ∧
    (kfree s p).free_list_head ≠ 0 ∧
    blk_is_free (kfree s p).mem (kfree s p).free_list_head = true ∧
    blk_size s.mem (p - 48) ≤ blk_size (kfree s p).mem (kfree s p).free_list_head := by
  obtain ⟨chain, lim, h, hl⟩ := reach_inv hr
  obtain ⟨a1, a2, a3⟩ := hl p hp
  generalize hx : p - 48 = x at a2 a3 ⊢
  have hpx : p = x + 48 := by omega
  rw [hpx]
  obtain ⟨pre, post, hch⟩ := List.append_of_mem a2
  subst hch
  have hx0 : x ≠ 0 := fun e => not_mem_zero h.phys (e ▸ a2)
  rw [(Seg_mid _ pre post x 0 0 lim h.phys.seg).1]
  by_cases hprev : lastD pre 0 = 0 ∨ blk_is_free s.mem (lastD pre 0) = false
  · have hc : ¬ (lastD pre 0 ≠ 0 ∧ blk_is_free s.mem (lastD pre 0) = true) := by
      intro ⟨c1, c2⟩
      rcases hprev with e | e
      · exact c1 e
      · rw [e] at c2; exact Bool.noConfusion c2
    rw [if_neg hc]
    have fin : ∀ post2 : List Nat, (kfree s (x + 48)).free_list_head = x →
        (∀ b, b ∈ pre ++ x :: post2 →
          blk_size s.mem x ≤ (if b = x then blk_size (kfree s (x + 48)).mem b else blk_size s.mem x) ∧
          blk_is_free (kfree s (x + 48)).mem b = (if b = x then true else blk_is_free s.mem b)) →
        (kfree s (x + 48)).free_list_head = x ∧ (kfree s (x + 48)).free_list_head ≠ 0 ∧
        blk_is_free (kfree s (x + 48)).mem (kfree s (x + 48)).free_list_head = true ∧
        blk_size s.mem x ≤ blk_size (kfree s (x + 48)).mem (kfree s (x + 48)).free_list_head := by
      intro post2 c2 c3
      have := c3 x (by simp)
      rw [if_pos rfl, if_pos rfl] at this
      rw [c2]
      exact ⟨rfl, hx0, this.2, this.1⟩
    cases post with
    | nil =>
      obtain ⟨_, c2, c3⟩ := kfree_case_none pre [] x h a3 hprev (Or.inl rfl)
      refine fin [] c2 (fun b hb => ⟨?_, (c3 b hb).2⟩)
      split
      · rename_i e; rw [e, (c3 x (by simp)).1]
      · exact Nat.le_refl _
    | cons y r =>
      cases hy : blk_is_free s.mem y with
      | true =>
        obtain ⟨_, c2, c3⟩ := kfree_case_fwd pre r x y h a3 hy hprev
        refine fin r c2 (fun b hb => ⟨?_, (c3 b hb).2⟩)
        split
        · rename_i e; rw [e, (c3 x (by simp)).1, if_pos rfl]; omega
        · exact Nat.le_refl _
      | false =>
        obtain ⟨_, c2, c3⟩ := kfree_case_none pre (y :: r) x h a3 hprev (Or.inr hy)
        refine fin (y :: r) c2 (fun b hb => ⟨?_, (c3 b hb).2⟩)
        split
        · rename_i e; rw [e, (c3 x (by simp)).1]
        · exact Nat.le_refl _
  · have hw0 : lastD pre 0 ≠ 0 := fun e => hprev (Or.inl e)
    have hwf : blk_is_free s.mem (lastD pre 0) = true := by
      cases e : blk_is_free s.mem (lastD pre 0) with
      | true => rfl
      | false => exact absurd (Or.inr e) hprev
    rw [if_pos ⟨hw0, hwf⟩]
    have hne : pre ≠ [] := by
      intro e; rw [e] at hw0; exact hw0 rfl
    obtain ⟨l, hl2⟩ := lastD_concat pre hne
    generalize lastD pre 0 = w at *
    subst hl2
    have hre : (l ++ [w]) ++ x :: post = l ++ w :: x :: post := by simp
    rw [hre] at h
    have fin : ∀ post2 : List Nat, (kfree s (x + 48)).free_list_head = w →
        (∀ b, b ∈ l ++ w :: post2 →
          blk_size s.mem x ≤ (if b = w then blk_size (kfree s (x + 48)).mem b else blk_size s.mem x) ∧
          blk_is_free (kfree s (x + 48)).mem b = (if b = w then true else blk_is_free s.mem b)) →
        (kfree s (x + 48)).free_list_head = w ∧ (kfree s (x + 48)).free_list_head ≠ 0 ∧
        blk_is_free (kfree s (x + 48)).mem (kfree s (x + 48)).free_list_head = true ∧
        blk_size s.mem x ≤ blk_size (kfree s (x + 48)).mem (kfree s (x + 48)).free_list_head := by
      intro post2 c2 c3
      have := c3 w (by simp)
      rw [if_pos rfl, if_pos rfl] at this
      rw [c2]
      exact ⟨rfl, hw0, this.2, this.1⟩
    cases post with
    | nil =>
      obtain ⟨_, c2, c3⟩ := kfree_case_bwd l [] w x h a3 hwf (Or.inl rfl)
      refine fin [] c2 (fun b hb => ⟨?_, (c3 b hb).2⟩)
      split
      · rename_i e; rw [e, (c3 w (by simp)).1, if_pos rfl]; omega
      · exact Nat.le_refl _
    | cons y r =>
      cases hy : blk_is_free s.mem y with
      | true =>
        obtain ⟨_, c2, c3⟩ := kfree_case_both l r w x y h a3 hwf hy
        refine fin r c2 (fun b hb => ⟨?_, (c3 b hb).2⟩)
        split
        · rename_i e; rw [e, (c3 w (by simp)).1, if_pos rfl]; omega
        · exact Nat.le_refl _
      | false =>
        obtain ⟨_, c2, c3⟩ := kfree_case_bwd l (y :: r) w x h a3 hwf (Or.inr hy)
        refine fin (y :: r) c2 (fun b hb => ⟨?_, (c3 b hb).2⟩)
        split
        · rename_i e; rw [e, (c3 w (by simp)).1, if_pos rfl]; omega
        · exact Nat.le_refl _

/-- C30: in every heap state whose free list, walked from `free_list_head`
through `next_free`, ends at the null pointer, and for every `size > 0`, the
block that `kmalloc(size)` allocates is the first block in that order whose
payload size is at least the rounded size (`size` rounded up to a multiple
of 8 when `size ≤ 2 ^ 64 - 8`; above that the 64-bit sum wraps): when such a
block exists `kmalloc` returns its payload address, and when none exists the
heap is expanded and a non-null result is the first such block of the free
list of the expanded heap.  After `kfree` of a live pointer the resulting
block (the freed block, or the predecessor that absorbed it) is
`free_list_head`, is flagged free, and is the block that the next `kmalloc`
takes whenever it is large enough. -/
theorem C30_first_fit_in_free_list_order (s : KState) (size n fuel : Nat) (hsz : size ≠ 0)
    (hwf : (walk_free s.mem n s.free_list_head).length < n) (hfuel : n ≤ fuel) :
    (∀ b, (walk_free s.mem n s.free_list_head).find?
        (fun x => decide (round_size size ≤ blk_size s.mem x)) = some b →
      kmalloc fuel s size = some (kmalloc_take s (round_size size) b) ∧
      (kmalloc_take s (round_size size) b).1 = u64 (b + HEAP_HEADER_SIZE)) ∧
    ((walk_free s.mem n s.free_list_head).find?
        (fun x => decide (round_size size ≤ blk_size s.mem x)) = none →
      ∀ p s2, kmalloc fuel s size = some (p, s2) → p ≠ 0 →
        ∃ b, (walk_free (expand_heap s (u64 (round_size size + HEAP_HEADER_SIZE))).2.mem fuel
            (expand_heap s (u64 (round_size size + HEAP_HEADER_SIZE))).2.free_list_head).find?
          (fun x => decide (round_size size
            ≤ blk_size (expand_heap s (u64 (round_size size + HEAP_HEADER_SIZE))).2.mem x))
          = some b ∧ p = u64 (b + HEAP_HEADER_SIZE)) ∧
    (size + 8 ≤ 2 ^ 64 → round_size size = (size + 7) / 8 * 8) ∧
    (∀ s0 live p, Reach s0 s live → p ∈ live →
      (kfree s p).free_list_head =
        (if blk_prev s.mem (p - 48) ≠ 0 ∧ blk_is_free s.mem (blk_prev s.mem (p - 48)) = true then
          blk_prev s.mem (p - 48) else p - 48) ∧
      (kfree s p).free_list_head ≠ 0 ∧
      blk_is_free (kfree s p).mem (kfree s p).free_list_head = true ∧
      blk_size s.mem (p - 48) ≤ blk_size (kfree s p).mem (kfree s p).free_list_head ∧
      (round_size size ≤ blk_size (kfree s p).mem (kfree s p).free_list_head →
        ∀ fuel2, kmalloc (fuel2 + 1) (kfree s p) size
          = some (kmalloc_take (kfree s p) (round_size size) (kfree s p).free_list_head))) := by
  have hff := first_fit_of_walk s.mem (round_size size) n s.free_list_head hwf fuel hfuel
  refine ⟨?_, ?_, ?_, ?_⟩
  · intro b hb
    rw [hb] at hff
    have hb0 : b ≠ 0 := walk_free_ne_zero _ _ _ _ (List.mem_of_find?_eq_some hb)
    exact ⟨kmalloc_of_first_fit fuel s size b hsz hff hb0, rfl⟩
  · intro hnone p s2 hk hp
    rw [hnone] at hff
    obtain ⟨b, hb0, hb, e⟩ := kmalloc_after_expand fuel s size p s2 hsz hff hk hp
    exact ⟨b, first_fit_find _ _ _ _ _ hb hb0, e⟩
  · intro hn
    unfold round_size
    have hlt : u64 (size + 8 - 1) < 2 ^ 64 := Nat.mod_lt _ (by norm_num)
    rw [show (8 - 1 : Nat) = 7 from rfl, align_mask _ hlt]
    unfold u64
    omega
  · intro s0 live p hr hp
    obtain ⟨k1, k2, k3, k4⟩ := kfree_head hr p hp
    refine ⟨k1, k2, k3, k4, ?_⟩
    intro hfit fuel2
    apply kmalloc_of_first_fit _ _ _ _ hsz _ k2
    simp only [first_fit]
    rw [if_neg k2, if_pos hfit]

theorem virt_heap_free_walk :
    walk_free (kheap_init virt_boot_state).mem 2 (kheap_init virt_boot_state).free_list_head
      = [0x40000000] := by
  decide

theorem virt_heap_first_fit :
    (walk_free (kheap_init virt_boot_state).mem 2
      (kheap_init virt_boot_state).free_list_head).find?
      (fun x => decide (round_size 64 ≤ blk_size (kheap_init virt_boot_state).mem x))
      = some 0x40000000 := by
  decide

/-- Witness of C30: the heap after `kheap_init` on the boot state of the
`virt` layout, whose free list holds the block at `0x40000000` alone, and
`kmalloc(64)`. -/
theorem C30_witness :
    (walk_free (kheap_init virt_boot_state).mem 2
      (kheap_init virt_boot_state).free_list_head).length < 2 ∧
    kmalloc 2 (kheap_init virt_boot_state) 64
      = some (kmalloc_take (kheap_init virt_boot_state) (round_size 64) 0x40000000) ∧
    (kmalloc_take (kheap_init virt_boot_state) (round_size 64) 0x40000000).1
      = u64 (0x40000000 + HEAP_HEADER_SIZE) :=
  ⟨by rw [virt_heap_free_walk]; decide,
    (C30_first_fit_in_free_list_order (kheap_init virt_boot_state) 64 2 2 (by decide)
      (by rw [virt_heap_free_walk]; decide) (Nat.le_refl _)).1 0x40000000 virt_heap_first_fit⟩

/-! ## The split of `kmalloc` -/

theorem lastD_cons_ne (l : List Nat) (b : Nat) (hl : l ≠ []) : lastD l b = lastD l 0 := by
  cases l with
  | nil => exact absurd rfl hl
  | cons c r => rfl

theorem take_all_of_length_lt (l : List Nat) (fuel : Nat) (h : (l.take fuel).length < fuel) :
    l.length < fuel := by
  rw [List.length_take] at h
  omega

/-- The effect of the second part of `kmalloc` on a block of the chain that is
large enough. -/
theorem kmalloc_take_effect {t : KState} {lim : Nat} (pre post : List Nat) (bf r : Nat)
    (h : HeapInv t (pre ++ bf :: post) lim) (h8 : r % 8 = 0) (hsz : r ≤ blk_size t.mem bf) :
    (kmalloc_take t r bf).1 = bf + 48 ∧ SplitEffect t (kmalloc_take t r bf).2 r bf := by
  obtain ⟨x1, x2, x3, x4⟩ := kmalloc_take_exact pre post bf r h h8 hsz
  have hbf : bf ∈ pre ++ bf :: post := by simp
  have hnd := Seg_nodup _ _ _ _ _ h.phys.seg
  have hold := Seg_mid _ pre post bf 0 0 lim h.phys.seg
  have hend : t.heap_end = lastD post bf := by
    rw [h.phys.hend, lastD_append]; rfl
  have hbn : bf ∉ post := by
    intro hm
    rw [List.nodup_append] at hnd
    exact (List.nodup_cons.1 hnd.2.1).1 hm
  refine ⟨x1, ⟨?_, ?_, ?_, ?_⟩⟩
  · rw [x2 bf hbf, if_pos rfl]
  · intro hc
    have hc' : r + 96 ≤ blk_size t.mem bf := hc
    simp only [HEAP_HEADER_SIZE]
    obtain ⟨y1, y2, y3, y4⟩ := x3 hc'
    have hhead := kmalloc_take_head pre post bf r h hc'
    have hm1 := Seg_mid _ pre ((bf + 48 + r) :: post) bf 0 0 lim y1.phys.seg
    have hm2 := Seg_mid _ (pre ++ [bf]) post (bf + 48 + r) 0 0 lim (by
      rw [List.append_assoc]; exact y1.phys.seg)
    rw [lastD_append] at hm2
    refine ⟨by rw [y2 bf hbf, if_pos rfl], y3, y4, hm1.2, hm2.1, by rw [hm2.2, hold.2], ?_,
      hhead, ?_⟩
    · intro hne
      rw [hold.2] at hne ⊢
      cases post with
      | nil => exact absurd rfl hne
      | cons c rest =>
        exact (Seg_mid _ (pre ++ [bf, bf + 48 + r]) rest c 0 0 lim (by
          rw [List.append_assoc]; exact y1.phys.seg)).1.trans (by
            rw [lastD_append]; rfl)
    · have he2 : (kmalloc_take t r bf).2.heap_end = lastD post (bf + 48 + r) := by
        rw [y1.phys.hend, lastD_append]; rfl
      rw [he2, hend]
      cases post with
      | nil => exact (if_pos rfl).symm
      | cons c rest =>
        have hl : lastD (c :: rest) bf ∈ c :: rest := by
          rw [lastD_cons_ne _ _ (by simp)]; exact lastD_mem _ _ (by simp)
        rw [if_neg (fun e => hbn (by rw [e] at hl; exact hl))]
        rfl
  · intro hc
    have hc' : ¬ r + 96 ≤ blk_size t.mem bf := hc
    obtain ⟨y1, y2⟩ := x4 hc'
    refine ⟨y2 bf hbf, by rw [y1.phys.hend, h.phys.hend], ?_⟩
    intro fuel
    rw [walk_next_chain y1, walk_next_chain h]
  · intro fuel hlen
    rw [walk_next_chain h] at hlen
    have hl := take_all_of_length_lt _ _ hlen
    unfold chain_bytes
    rw [walk_next_chain h, List.take_of_length_le (by omega)]
    by_cases hc : r + 96 ≤ blk_size t.mem bf
    · obtain ⟨y1, y2, y3, y4⟩ := x3 hc
      rw [walk_next_chain y1, List.take_of_length_le (by
        simp only [List.length_append, List.length_cons] at hl ⊢; omega)]
      have hpre : ∀ b, b ∈ pre → blk_size (kmalloc_take t r bf).2.mem b = blk_size t.mem b := by
        intro b hb
        rw [y2 b (List.mem_append_left _ hb), if_neg]
        intro e
        rw [List.nodup_append] at hnd
        exact hnd.2.2 hb (by rw [e]; simp)
      have hpost : ∀ b, b ∈ post → blk_size (kmalloc_take t r bf).2.mem b = blk_size t.mem b := by
        intro b hb
        rw [y2 b (List.mem_append_right _ (List.mem_cons_of_mem _ hb)), if_neg]
        intro e
        exact hbn (e ▸ hb)
      simp only [List.map_append, List.map_cons, List.sum_append, List.sum_cons]
      rw [List.map_congr_left (fun b hb => by rw [hpre b hb]),
        List.map_congr_left (fun b hb => by rw [hpost b hb] :
          ∀ b ∈ post, HEAP_HEADER_SIZE + blk_size (kmalloc_take t r bf).2.mem b
            = HEAP_HEADER_SIZE + blk_size t.mem b),
        y2 bf hbf, if_pos rfl, y3]
      simp only [HEAP_HEADER_SIZE]
      omega
    · obtain ⟨y1, y2⟩ := x4 hc
      rw [walk_next_chain y1, List.take_of_length_le (by omega)]
      exact congrArg List.sum (List.map_congr_left (fun b hb => by rw [y2 b hb]))

/-- With the bitmap held apart from RAM: in a reachable heap state, when
`kmalloc(n)` returns a non-null pointer, it has chosen a block `bf` with
`p = bf + HEADER` in the heap `t` at hand (the heap before the call, or the
heap after the expansion when the first walk found nothing), and with `r` the
rounded size and `S` the size of `bf` in `t`: if `S ≥ r + 2 * HEADER` then `bf`
gets size `r` and a new free block of size `S - r - HEADER` is created at
`bf + HEADER + r`, linked between `bf` and its old successor, put at the head
of the free list, and made `heap_end` when `bf` was the tail; otherwise no
block is created and `bf` keeps the size `S`; in both cases the sum of
`HEADER + size` over the physical chain is the same as in `t`. -/
theorem reach_split_or_whole {s0 s : KState} {live : List Nat} (hr : Reach s0 s live)
    (fuel n p : Nat) (s2 : KState) (hk : kmalloc fuel s n = some (p, s2)) (hp : p ≠ 0) :
    48 ≤ p ∧
    ((first_fit s.mem (round_size n) fuel s.free_list_head = some (p - 48) ∧
        SplitEffect s s2 (round_size n) (p - 48)) ∨
      (first_fit s.mem (round_size n) fuel s.free_list_head = some 0 ∧
        SplitEffect (expand_heap s (u64 (round_size n + HEAP_HEADER_SIZE))).2 s2
          (round_size n) (p - 48))) := by
  obtain ⟨chain, lim, h, _⟩ := reach_inv hr
  obtain ⟨q1, _, _⟩ := round_size_spec n
  have hn : n ≠ 0 := by
    intro e
    rw [e] at hk
    simp only [kmalloc, if_true] at hk
    exact hp (Prod.mk.inj (Option.some.inj hk)).1.symm
  rw [kmalloc_eq, if_neg hn] at hk
  have core : ∀ (t : KState) (c : List Nat) (l bf : Nat), HeapInv t c l →
      first_fit t.mem (round_size n) fuel t.free_list_head = some bf → bf ≠ 0 →
      some (kmalloc_take t (round_size n) bf) = some (p, s2) →
      48 ≤ p ∧ bf = p - 48 ∧ SplitEffect t s2 (round_size n) (p - 48) := by
    intro t c l bf ht hff hbf hkk
    have hfl : FLf _ _ _ _ _ := ht.fl
    obtain ⟨m1, m2⟩ := first_fit_spec ht (round_size n) fuel t.free_list_head bf
      (fun h0 => (hfl.head_ok h0).1) hff hbf
    obtain ⟨pre, post, hc⟩ := List.append_of_mem m1
    rw [hc] at ht
    obtain ⟨e1, e2⟩ := kmalloc_take_effect pre post bf (round_size n) ht q1 m2
    have hkk' : kmalloc_take t (round_size n) bf = (p, s2) := Option.some.inj hkk
    rw [hkk'] at e1 e2
    simp only at e1 e2
    have hb : bf = p - 48 := by omega
    rw [hb] at e2
    exact ⟨by omega, hb, e2⟩
  cases hff : first_fit s.mem (round_size n) fuel s.free_list_head with
  | none => rw [hff] at hk; exact absurd hk (by simp)
  | some bf =>
    rw [hff] at hk
    simp only at hk
    by_cases hb0 : bf = 0
    · rw [if_pos hb0] at hk
      split at hk
      · exact absurd (Prod.mk.inj (Option.some.inj hk)).1.symm hp
      · obtain ⟨c2, l2, h2, _⟩ := expand_heap_inv h (u64 (round_size n + HEAP_HEADER_SIZE))
        cases hff2 : first_fit (expand_heap s (u64 (round_size n + HEAP_HEADER_SIZE))).2.mem
            (round_size n) fuel
            (expand_heap s (u64 (round_size n + HEAP_HEADER_SIZE))).2.free_list_head with
        | none => rw [hff2] at hk; exact absurd hk (by simp)
        | some bf2 =>
          rw [hff2] at hk
          simp only at hk
          by_cases hb2 : bf2 = 0
          · rw [if_pos hb2] at hk
            exact absurd (Prod.mk.inj (Option.some.inj hk)).1.symm hp
          · rw [if_neg hb2] at hk
            obtain ⟨c1, _, c3⟩ := core _ c2 l2 bf2 h2 hff2 hb2 hk
            exact ⟨c1, Or.inr ⟨by rw [hb0], c3⟩⟩
    · rw [if_neg hb0] at hk
      obtain ⟨c1, c2, c3⟩ := core s chain lim bf h hff hb0 hk
      exact ⟨c1, Or.inl ⟨by rw [c2], c3⟩⟩

/-- After boot on the `virt` layout, `kmalloc(64)` and `kmalloc(128)` return
`0x40000030` and `0x400000A0`, and both pointers are live in the state
reached. -/
theorem boot_two_live :
    ∃ sa sb, kmalloc 1 boot_heap 64 = some (0x40000030, sa) ∧
      Reach (frame_alloc_init virt_linker (some virt_params) zero_state) sa [0x40000030] ∧
      kmalloc 1 sa 128 = some (0x400000A0, sb) ∧
      Reach (frame_alloc_init virt_linker (some virt_params) zero_state) sb
        [0x400000A0, 0x40000030] := by
  obtain ⟨post, lim, v0⟩ := kheap_init_view _ 0 virt_free_run
  obtain ⟨sa, sb, _, _, ka, kb, _⟩ := reuse_run post _ 0 v0
  have ra := Reach.malloc _ [] 1 64 _ sa Reach.init ka
  have rb := Reach.malloc _ _ 1 128 _ sb ra kb
  exact ⟨sa, sb, ka, ra, kb, rb⟩

/-! ## Merging across a gap -/

set_option maxRecDepth 100000 in
/-- C32 fails: `coalesce` tests only the `is_free` flag of the neighbour, not
its address.  On the `low_linker` layout (kernel image in frames 8 .. 31),
after boot, a failed `kmalloc(16000)` (which expands the heap by frames 5, 6,
7 and 32) and two rounds of `kmalloc` and `kfree` (8100 and 16300 bytes),
`kmalloc(24500)` returns `0x40002030`.  Its block at `0x40002000` has payload
24528 and ends at `0x40008000`; its successor in the chain is the block of
frame 32 at `0x40020000`, flagged free and not adjacent.  `kfree(0x40002030)`
absorbs that block all the same: afterwards the chain has two blocks, and the
second one, at `0x40001000`, has payload `32720 = 4048 + 48 + 24528 + 48 + 4048`,
which counts the bytes of the block of frame 32. -/
theorem C32_merge_across_a_gap :
    (kmalloc 4 low_boot_heap 16000).bind (fun r0 =>
      (kmalloc 4 r0.2 8100).bind (fun r1 =>
      (kmalloc 4 (kfree r1.2 r1.1) 16300).bind (fun r2 =>
      (kmalloc 4 (kfree r2.2 r2.1) 24500).map (fun r3 =>
        (r3.1, blk_is_free r3.2.mem 0x40020000,
          walk_next r3.2.mem 16 r3.2.heap_start,
          (walk_next r3.2.mem 16 r3.2.heap_start).map (blk_size r3.2.mem),
          (walk_next (kfree r3.2 r3.1).mem 16 (kfree r3.2 r3.1).heap_start).map
            (blk_size (kfree r3.2 r3.1).mem))))))
      = some (0x40002030, true, [0x40000000, 0x40001000, 0x40002000, 0x40020000],
          [4048, 4048, 24528, 4048], [4048, 32720]) := by
  rw [low_boot_heap_eq]
  decide

/-! ## The pages acquired by `expand_heap` -/

/-- The block made of a newly acquired frame has payload size 4048 and is
flagged free. -/
theorem link_block_new {s : KState} {chain : List Nat} {lim : Nat} (h : HeapInv s chain lim)
    (i : Nat) (hi : i < PMM_TOTAL_FRAMES) (hc : test_bit s.frame_bitmap i = false)
    (hmin : ∀ j, j < i → test_bit s.frame_bitmap j = true) (s1 : KState)
    (hs1 : s1 = { s with
      frame_bitmap := set_bit s.frame_bitmap i
      free_memory := sub64 s.free_memory PAGE_SIZE
      mem := memset s.mem (PMM_RAM_BASE + i * PAGE_SIZE) 0 PAGE_SIZE }) :
    blk_size (link_block s1 (PMM_RAM_BASE + i * PAGE_SIZE)).mem (PMM_RAM_BASE + i * PAGE_SIZE)
      = 4048 ∧
    blk_is_free (link_block s1 (PMM_RAM_BASE + i * PAGE_SIZE)).mem
      (PMM_RAM_BASE + i * PAGE_SIZE) = true := by
  obtain ⟨l1, l2, _, _, _⟩ := link_step h i hi hc hmin s1 hs1
  have hH := l1.phys.hdrs
  have he : s1.heap_end = lastD chain 0 := by rw [hs1]; exact h.phys.hend
  generalize PMM_RAM_BASE + i * PAGE_SIZE = f at *
  have hfm : f ∈ chain ++ [f] := by simp
  have hf := link_block_fields s1 f f (SepH_refl f)
    (fun hne => by
      have hl : lastD chain 0 ∈ chain := by
        apply lastD_mem
        intro e
        rw [e] at he
        exact hne he
      rw [he]
      exact ⟨hH.sep _ _ (List.mem_append_left _ hl) hfm, fun e => l2 (e ▸ hl)⟩)
    (by have := (hH.pos f hfm).2; omega)
    (by
      rw [he]
      by_cases e : chain = []
      · rw [e]; exact Nat.pos_of_ne_zero (by decide)
      · have := (hH.pos _ (List.mem_append_left [f] (lastD_mem chain 0 e))).2
        omega)
  exact ⟨by rw [hf.1, if_pos rfl], by rw [hf.2.2.2.2.2, if_pos rfl]⟩

/-- The loop of `expand_heap` over `n` pages when at least `n` frames are
free: it does not fail, it appends `n` blocks to the chain, one for each of the
`n` frames taken from the frame allocator, each with payload size 4048,
flagged free and on no list; the number of free frames and `free_memory` drop
by `n` frames. -/
theorem expand_pages_exact (n : Nat) : ∀ (nb : Nat) (s : KState) (chain : List Nat) (lim : Nat),
    HeapInv s chain lim → (nb = 0 ∨ (nb ∈ chain ∧ Detached s nb)) → PInv s →
    n ≤ clear_count s.frame_bitmap PMM_TOTAL_FRAMES →
    ∃ new lim2, (expand_pages n nb s).1 = true ∧
      HeapInv (expand_pages n nb s).2.2 (chain ++ new) lim2 ∧
      new.length = n ∧
      (∀ b, b ∈ new →
        blk_size (expand_pages n nb s).2.2.mem b = 4048 ∧
        blk_is_free (expand_pages n nb s).2.2.mem b = true ∧
        Detached (expand_pages n nb s).2.2 b ∧
        ∃ i, i < PMM_TOTAL_FRAMES ∧ b = PMM_RAM_BASE + i * PAGE_SIZE ∧
          test_bit s.frame_bitmap i = false ∧
          test_bit (expand_pages n nb s).2.2.frame_bitmap i = true) ∧
      (expand_pages n nb s).2.1 = (if nb = 0 then new.headD 0 else nb) ∧
      (expand_pages n nb s).2.2.free_list_head = s.free_list_head ∧
      (∀ b, b ∈ chain →
        blk_size (expand_pages n nb s).2.2.mem b = blk_size s.mem b ∧
        blk_next_free (expand_pages n nb s).2.2.mem b = blk_next_free s.mem b ∧
        blk_prev_free (expand_pages n nb s).2.2.mem b = blk_prev_free s.mem b ∧
        blk_is_free (expand_pages n nb s).2.2.mem b = blk_is_free s.mem b) ∧
      PInv (expand_pages n nb s).2.2 ∧
      clear_count (expand_pages n nb s).2.2.frame_bitmap PMM_TOTAL_FRAMES + n
        = clear_count s.frame_bitmap PMM_TOTAL_FRAMES ∧
      (∀ j, test_bit s.frame_bitmap j = true →
        test_bit (expand_pages n nb s).2.2.frame_bitmap j = true) := by
  induction n with
  | zero =>
    intro nb s chain lim h hnb hP _
    refine ⟨[], lim, rfl, by rw [List.append_nil]; exact h, rfl, ?_, ?_, rfl,
      fun b _ => ⟨rfl, rfl, rfl, rfl⟩, hP, Nat.add_zero _, fun _ hj => hj⟩
    · intro b hb; simp at hb
    · show nb = if nb = 0 then 0 else nb
      split
      · assumption
      · rfl
  | succ n ih =>
    intro nb s chain lim h hnb hP hn
    have hex : ∃ i, i < PMM_TOTAL_FRAMES ∧ test_bit s.frame_bitmap i = false := by
      by_contra hno
      have hall : ∀ j, j < PMM_TOTAL_FRAMES → test_bit s.frame_bitmap j = true := by
        intro j hj
        cases hb : test_bit s.frame_bitmap j with
        | true => rfl
        | false => exact absurd ⟨j, hj, hb⟩ hno
      have := clear_count_eq_zero _ _ hall
      omega
    obtain ⟨i, hi, hc, hmin⟩ := exists_least_clear _ _ hex
    have hok := alloc_frame_of_least s i hi hc hmin
    have hP1 : PInv (alloc_frame s).2 := alloc_frame_inv s hP
    rw [expand_pages_succ, hok] at *
    dsimp only at hP1 ⊢
    have hf0 : PMM_RAM_BASE + i * PAGE_SIZE ≠ 0 := by simp only [PMM_RAM_BASE]; omega
    rw [if_neg hf0]
    obtain ⟨l1, l2, l3, l4, l5⟩ := link_step h i hi hc hmin _ rfl
    obtain ⟨n1, n2⟩ := link_block_new h i hi hc hmin _ rfl
    obtain ⟨_, _, _, b4, b5, _, _⟩ := link_block_state
      { s with
        frame_bitmap := set_bit s.frame_bitmap i
        free_memory := sub64 s.free_memory PAGE_SIZE
        mem := memset s.mem (PMM_RAM_BASE + i * PAGE_SIZE) 0 PAGE_SIZE }
      (PMM_RAM_BASE + i * PAGE_SIZE)
    have hcc := clear_count_set_bit s.frame_bitmap PMM_TOTAL_FRAMES i hi hc
    generalize hfd : PMM_RAM_BASE + i * PAGE_SIZE = f at *
    generalize hs2 : link_block _ f = s2 at *
    have b4' : s2.frame_bitmap = set_bit s.frame_bitmap i := b4
    have hP2 : PInv s2 := by
      unfold PInv at hP1 ⊢
      rw [b5, b4']
      exact hP1
    have hnb2 : (if nb = 0 then f else nb) = 0 ∨
        ((if nb = 0 then f else nb) ∈ chain ++ [f] ∧ Detached s2 (if nb = 0 then f else nb)) := by
      right
      by_cases e : nb = 0
      · rw [if_pos e]; exact ⟨by simp, l3⟩
      · rw [if_neg e]
        rcases hnb with h0 | ⟨h1, h2⟩
        · exact absurd h0 e
        · refine ⟨by simp [h1], ?_, ?_, ?_⟩
          · rw [l4]; exact h2.1
          · rw [(l5 nb h1).2.1]; exact h2.2.1
          · rw [(l5 nb h1).2.2.1]; exact h2.2.2
    obtain ⟨new, lim2, r0, r1, r2, r3, r4, r5, r6, r7, r8, r9⟩ :=
      ih _ s2 (chain ++ [f]) _ l1 hnb2 hP2 (by rw [b4']; omega)
    have hfm : f ∈ chain ++ [f] := by simp
    refine ⟨f :: new, lim2, r0, by simpa using r1, by simp [r2], ?_, ?_, by rw [r5, l4], ?_,
      r7, by rw [b4'] at r8; omega, ?_⟩
    · intro b hb
      rcases List.mem_cons.1 hb with e | hb
      · obtain ⟨q1, q2, q3, q4⟩ := r6 f hfm
        rw [e]
        refine ⟨by rw [q1]; exact n1, by rw [q4]; exact n2, ⟨?_, ?_, ?_⟩,
          i, hi, hfd.symm, hc, r9 i (by rw [b4', test_bit_set_bit]; simp)⟩
        · rw [r5]; exact l3.1
        · rw [q2]; exact l3.2.1
        · rw [q3]; exact l3.2.2
      · obtain ⟨q1, q2, q3, k, k1, k2, k3, k4⟩ := r3 b hb
        refine ⟨q1, q2, q3, k, k1, k2, ?_, k4⟩
        rw [b4', test_bit_set_bit] at k3
        simp only [Bool.or_eq_false_iff] at k3
        exact k3.2
    · rw [r4]
      by_cases e : nb = 0
      · rw [if_pos e, if_pos e, if_neg hf0]; rfl
      · rw [if_neg e, if_neg e, if_neg e]
    · intro b hb
      obtain ⟨q1, q2, q3, q4⟩ := r6 b (by simp [hb])
      obtain ⟨o1, o2, o3, o4⟩ := l5 b hb
      exact ⟨by rw [q1, o1], by rw [q2, o2], by rw [q3, o3], by rw [q4, o4]⟩
    · intro j hj
      apply r9
      rw [b4', test_bit_set_bit, hj]
      simp

/-- The end of `expand_heap` with the chain made explicit: `nb` is the first
new block, `chain` the blocks before it and `rest` the blocks after it.  When
the old tail exists and is flagged free it absorbs `nb` and becomes the head of
the free list; otherwise `nb` becomes the head of the free list. -/
theorem expand_finish_exact {s : KState} {lim : Nat} (chain rest : List Nat) (nb : Nat)
    (h : HeapInv s (chain ++ nb :: rest) lim) (hd : Detached s nb) :
    (expand_finish s nb).frame_bitmap = s.frame_bitmap ∧
    (expand_finish s nb).free_memory = s.free_memory ∧
    ((chain ≠ [] ∧ blk_is_free s.mem (lastD chain 0) = true) →
      HeapInv (expand_finish s nb) (chain ++ rest) lim ∧
      (expand_finish s nb).free_list_head = lastD chain 0 ∧
      (∀ b, b ∈ chain ++ rest →
        blk_size (expand_finish s nb).mem b
          = (if b = lastD chain 0 then blk_size s.mem b + blk_size s.mem nb + 48
             else blk_size s.mem b) ∧
        blk_is_free (expand_finish s nb).mem b = blk_is_free s.mem b)) ∧
    (¬ (chain ≠ [] ∧ blk_is_free s.mem (lastD chain 0) = true) →
      HeapInv (expand_finish s nb) (chain ++ nb :: rest) lim ∧
      (expand_finish s nb).free_list_head = nb ∧
      (∀ b, b ∈ chain ++ nb :: rest →
        blk_size (expand_finish s nb).mem b = blk_size s.mem b ∧
        blk_is_free (expand_finish s nb).mem b
          = (if b = nb then true else blk_is_free s.mem b))) := by
  have hnd := Seg_nodup _ _ _ _ _ h.phys.seg
  have hprev : blk_prev s.mem nb = lastD chain 0 := (Seg_mid _ chain rest nb 0 0 lim h.phys.seg).1
  have hnbm : nb ∈ chain ++ nb :: rest := by simp
  have hne : chain ≠ [] ↔ lastD chain 0 ≠ 0 := by
    constructor
    · intro hc e
      have hm := lastD_mem chain 0 hc
      rw [e] at hm
      exact not_mem_zero h.phys (List.mem_append_left _ hm)
    · intro hl e
      rw [e] at hl
      exact hl rfl
  unfold expand_finish
  rw [hprev]
  by_cases hc : chain ≠ [] ∧ blk_is_free s.mem (lastD chain 0) = true
  · have hc2 : lastD chain 0 ≠ 0 ∧ blk_is_free s.mem (lastD chain 0) = true :=
      ⟨hne.1 hc.1, hc.2⟩
    rw [if_pos hc2]
    obtain ⟨pre, hpre⟩ := lastD_concat chain hc.1
    generalize lastD chain 0 = x at *
    have hch : chain ++ nb :: rest = pre ++ x :: nb :: rest := by
      rw [hpre]; simp
    have hch2 : chain ++ rest = pre ++ x :: rest := by
      rw [hpre]; simp
    have hN : x ∈ chain ++ nb :: rest := by rw [hch]; simp
    have hNx : nb ≠ x := by
      intro e
      rw [hch, ← e] at hnd
      have := (List.nodup_append.1 hnd).2.1
      simp at this
    obtain ⟨r1, r2, r3, r4⟩ := remove_from_free_list_inv h x hN
    have r1' := r1
    rw [hch] at r1'
    have hdx := r3 nb hnbm hNx hd
    obtain ⟨a1, a2⟩ := absorb_step pre rest x nb false r1' hdx
    have hpm : x ∈ pre ++ x :: rest := by simp
    have hdp : Detached (absorb (remove_from_free_list s x) x nb false) x := by
      refine ⟨r2.1, ?_, ?_⟩
      · rw [(a2 _ hpm).2.1]; exact r2.2.1
      · rw [(a2 _ hpm).2.2.1]; exact r2.2.2
    obtain ⟨b1, b2, b3⟩ := add_to_free_list_inv a1.phys _ hpm (FL_erase a1 _ hdp)
    have s1 := add_to_free_list_state (absorb (remove_from_free_list s x) x nb false) x
    have s2 := absorb_state (remove_from_free_list s x) x nb false
    have s3 := remove_from_free_list_state s x
    refine ⟨by rw [s1.2.2.2.1, s2.2.2.2.1, s3.2.2.2.1],
      by rw [s1.2.2.2.2.1, s2.2.2.2.2.1, s3.2.2.2.2.1], ?_, fun hn => absurd hc hn⟩
    intro _
    rw [hch2]
    refine ⟨b1, b2, ?_⟩
    intro b hb
    have hbm : b ∈ chain ++ nb :: rest := by
      rw [hch]
      simp only [List.mem_append, List.mem_cons] at hb ⊢
      tauto
    rw [(b3 b hb).1, (a2 b hb).1, (b3 b hb).2.2.2, (a2 b hb).2.2.2, (r4 b hbm).2.2.2,
      (r4 b hbm).1, (r4 x hN).1, (r4 nb hnbm).1]
    by_cases e : b = x
    · simp only [e, if_true]
      exact ⟨trivial, hc.2.symm⟩
    · simp only [e, if_false]
      exact ⟨trivial, trivial⟩
  · have hc2 : ¬ (lastD chain 0 ≠ 0 ∧ blk_is_free s.mem (lastD chain 0) = true) :=
      fun q => hc ⟨hne.2 q.1, q.2⟩
    rw [if_neg hc2]
    obtain ⟨b1, b2, b3⟩ := add_to_free_list_inv h.phys nb hnbm (FL_erase h nb hd)
    have s1 := add_to_free_list_state s nb
    refine ⟨s1.2.2.2.1, s1.2.2.2.2.1, fun hp => absurd hp hc, fun _ => ⟨b1, b2, ?_⟩⟩
    intro b hb
    exact ⟨(b3 b hb).1, (b3 b hb).2.2.2⟩

theorem pages_needed_eq (m : Nat) (hm : m + HEAP_HEADER_SIZE + PAGE_SIZE - 1 < 2 ^ 64) :
    pages_needed m = (m + HEAP_HEADER_SIZE + PAGE_SIZE - 1) / PAGE_SIZE ∧ 1 ≤ pages_needed m := by
  unfold pages_needed u64
  simp only [HEAP_HEADER_SIZE, PAGE_SIZE] at *
  rw [Nat.mod_eq_of_lt hm]
  have : 1 ≤ (m + 48 + 4096 - 1) / 4096 := by omega
  rw [if_neg (by omega)]
  exact ⟨rfl, this⟩

theorem free_memory_of_count (s t : KState) (n : Nat) (hs : PInv s) (ht : PInv t)
    (h : clear_count t.frame_bitmap PMM_TOTAL_FRAMES + n
      = clear_count s.frame_bitmap PMM_TOTAL_FRAMES) :
    t.free_memory + n * PAGE_SIZE = s.free_memory := by
  unfold PInv at hs ht
  rw [hs, ht, ← h]
  simp only [PAGE_SIZE]
  omega

/-- The exact effect of `expand_heap(m)` on a heap that satisfies the heap
invariant, with consistent counters of the frame allocator and at least
`pages_needed m` free frames: the call succeeds, that many frames are taken,
each is linked at the tail as a block of payload 4048 flagged free, and at the
return the first new block has been absorbed by the old tail when that one
was flagged free. -/
theorem expand_heap_exact {s : KState} {chain : List Nat} {lim : Nat}
    (h : HeapInv s chain lim) (hP : PInv s) (m : Nat)
    (hp2 : 1 ≤ pages_needed m)
    (hfree : pages_needed m ≤ clear_count s.frame_bitmap PMM_TOTAL_FRAMES) :
    (expand_heap s m).1 = true ∧ PInv (expand_heap s m).2 ∧
    clear_count (expand_heap s m).2.frame_bitmap PMM_TOTAL_FRAMES + pages_needed m
      = clear_count s.frame_bitmap PMM_TOTAL_FRAMES ∧
    (expand_heap s m).2.free_memory + pages_needed m * PAGE_SIZE = s.free_memory ∧
    ∃ new : List Nat, new.length = pages_needed m ∧
      (∀ b, b ∈ new → ∃ i, i < PMM_TOTAL_FRAMES ∧ b = PMM_RAM_BASE + i * PAGE_SIZE ∧
        test_bit s.frame_bitmap i = false ∧
        test_bit (expand_heap s m).2.frame_bitmap i = true) ∧
      (∀ fuel, walk_next (expand_pages (pages_needed m) 0 s).2.2.mem fuel
          (expand_pages (pages_needed m) 0 s).2.2.heap_start = (chain ++ new).take fuel) ∧
      (∀ b, b ∈ new → blk_size (expand_pages (pages_needed m) 0 s).2.2.mem b = 4048 ∧
        blk_is_free (expand_pages (pages_needed m) 0 s).2.2.mem b = true) ∧
      ((chain ≠ [] ∧ blk_is_free s.mem (lastD chain 0) = true) →
        (∀ fuel, walk_next (expand_heap s m).2.mem fuel (expand_heap s m).2.heap_start
          = (chain ++ new.tail).take fuel) ∧
        blk_size (expand_heap s m).2.mem (lastD chain 0)
          = blk_size s.mem (lastD chain 0) + 4096 ∧
        (∀ b, b ∈ new.tail → blk_size (expand_heap s m).2.mem b = 4048) ∧
        (expand_heap s m).2.free_list_head = lastD chain 0) ∧
      (¬ (chain ≠ [] ∧ blk_is_free s.mem (lastD chain 0) = true) →
        (∀ fuel, walk_next (expand_heap s m).2.mem fuel (expand_heap s m).2.heap_start
          = (chain ++ new).take fuel) ∧
        (∀ b, b ∈ new → blk_size (expand_heap s m).2.mem b = 4048 ∧
          blk_is_free (expand_heap s m).2.mem b = true) ∧
        (expand_heap s m).2.free_list_head = new.headD 0 ∧
        blk_next_free (expand_heap s m).2.mem (new.headD 0) = s.free_list_head) := by
  obtain ⟨new, lim2, r0, r1, r2, r3, r4, r5, r6, r7, r8, r9⟩ :=
    expand_pages_exact (pages_needed m) 0 s chain lim h (Or.inl rfl) hP hfree
  rw [if_pos rfl] at r4
  obtain ⟨nb, rest, hnew⟩ : ∃ nb rest, new = nb :: rest := by
    cases new with
    | nil => simp at r2; omega
    | cons nb rest => exact ⟨nb, rest, rfl⟩
  have hnbm : nb ∈ new := by rw [hnew]; simp
  have hnb0 : nb ≠ 0 := by
    intro e
    exact not_mem_zero r1.phys (List.mem_append_right _ (e ▸ hnbm))
  have hE : expand_heap s m = (true, expand_finish (expand_pages (pages_needed m) 0 s).2.2 nb) := by
    rw [expand_heap_eq, r0, r4, hnew]
    simp only [Bool.not_true, Bool.false_eq_true, if_false, List.headD_cons, if_neg hnb0]
  generalize hL : (expand_pages (pages_needed m) 0 s).2.2 = L at *
  have r1' : HeapInv L (chain ++ nb :: rest) lim2 := by rw [← hnew]; exact r1
  obtain ⟨f1, f2, f3, f4⟩ := expand_finish_exact chain rest nb r1' (r3 nb hnbm).2.2.1
  have hlast : chain ≠ [] → blk_is_free L.mem (lastD chain 0) = blk_is_free s.mem (lastD chain 0) :=
    fun hc => (r6 _ (lastD_mem chain 0 hc)).2.2.2
  have hcond : (chain ≠ [] ∧ blk_is_free L.mem (lastD chain 0) = true) ↔
      (chain ≠ [] ∧ blk_is_free s.mem (lastD chain 0) = true) := by
    constructor
    · intro q; exact ⟨q.1, by rw [← hlast q.1]; exact q.2⟩
    · intro q; exact ⟨q.1, by rw [hlast q.1]; exact q.2⟩
  have hnd := Seg_nodup _ _ _ _ _ r1'.phys.seg
  rw [hE]
  dsimp only
  have hcnt : clear_count (expand_finish L nb).frame_bitmap PMM_TOTAL_FRAMES + pages_needed m
      = clear_count s.frame_bitmap PMM_TOTAL_FRAMES := by rw [f1]; exact r8
  have hPE : PInv (expand_finish L nb) := by
    unfold PInv at r7 ⊢
    rw [f1, f2]; exact r7
  refine ⟨rfl, hPE, hcnt, free_memory_of_count s _ _ hP hPE hcnt, new, r2, ?_, ?_, ?_, ?_, ?_⟩
  · intro b hb
    obtain ⟨_, _, _, i, i1, i2, i3, i4⟩ := r3 b hb
    exact ⟨i, i1, i2, i3, by rw [f1]; exact i4⟩
  · intro fuel
    exact walk_next_chain r1 fuel
  · intro b hb
    exact ⟨(r3 b hb).1, (r3 b hb).2.1⟩
  · intro hc
    obtain ⟨g1, g2, g3⟩ := f3 (hcond.2 hc)
    have hxm : lastD chain 0 ∈ chain := lastD_mem chain 0 hc.1
    rw [hnew]
    refine ⟨fun fuel => walk_next_chain g1 fuel, ?_, ?_, g2⟩
    · rw [(g3 _ (List.mem_append_left _ hxm)).1, if_pos rfl, (r3 nb hnbm).1, (r6 _ hxm).1]
    · intro b hb
      simp only [List.tail_cons] at hb
      have hbx : b ≠ lastD chain 0 := by
        intro e
        rw [List.nodup_append] at hnd
        exact hnd.2.2 hxm (by rw [← e]; exact List.mem_cons_of_mem _ hb)
      rw [(g3 b (List.mem_append_right _ hb)).1, if_neg hbx]
      exact (r3 b (by rw [hnew]; exact List.mem_cons_of_mem _ hb)).1
  · intro hc
    obtain ⟨g1, g2, g3⟩ := f4 (fun q => hc (hcond.1 q))
    have hH := r1'.phys.hdrs
    have hnbc : nb ∈ chain ++ nb :: rest := by simp
    have hhead : L.free_list_head ≠ 0 → L.free_list_head ∈ chain := by
      intro hne
      rw [r5] at hne ⊢
      exact (h.fl.head_ok hne).1
    have hnf : blk_next_free (expand_finish L nb).mem nb = s.free_list_head := by
      have hcE : ¬ (blk_prev L.mem nb ≠ 0 ∧ blk_is_free L.mem (blk_prev L.mem nb) = true) := by
        rw [(Seg_mid _ chain rest nb 0 0 lim2 r1'.phys.seg).1]
        intro q
        apply hc
        refine hcond.1 ⟨?_, q.2⟩
        intro e
        rw [e] at q
        exact q.1 rfl
      unfold expand_finish
      rw [if_neg hcE]
      have := (add_to_free_list_fields L nb nb (SepH_refl nb)
        (fun hne => hH.sep _ _ (List.mem_append_left _ (hhead hne)) hnbc)
        (r3 nb hnbm).2.2.1.1 (by have := (hH.pos nb hnbc).2; omega)
        (by
          by_cases e : L.free_list_head = 0
          · rw [e]; exact Nat.pos_of_ne_zero (by decide)
          · have := (hH.pos _ (List.mem_append_left _ (hhead e))).2
            omega)).2.2.2.1
      rw [this, if_pos rfl, r5]
    refine ⟨fun fuel => by rw [hnew]; exact walk_next_chain g1 fuel, ?_, by rw [g2, hnew]; rfl,
      by rw [hnew]; exact hnf⟩
    intro b hb
    have hbm : b ∈ chain ++ nb :: rest := by rw [← hnew]; exact List.mem_append_right _ hb
    rw [(g3 b hbm).1, (g3 b hbm).2]
    refine ⟨(r3 b hb).1, ?_⟩
    split
    · rfl
    · exact (r3 b hb).2.1

/-- C33 as stated fails for requests close to `2 ^ 64`.  On the heap right
after `kheap_init` on the `virt` boot state, `expand_heap(2 ^ 64 - 48)`
succeeds and takes exactly one frame (`free_memory` drops by 4096), while
`max(1, ceil((min_bytes + HEADER) / 4096))` is `2 ^ 52`: the sum
`min_bytes + HEADER + 4095` wraps around to 4095 in 64 bits, the quotient is 0
and is replaced by 1. -/
theorem C33_counterexample :
    (pages_needed (2 ^ 64 - 48), (2 ^ 64 - 48 + HEAP_HEADER_SIZE + PAGE_SIZE - 1) / PAGE_SIZE)
      = (1, 2 ^ 52) ∧
    ((expand_heap (kheap_init virt_boot_state) (2 ^ 64 - 48)).1,
      (kheap_init virt_boot_state).free_memory
        - (expand_heap (kheap_init virt_boot_state) (2 ^ 64 - 48)).2.free_memory,
      (walk_next (expand_heap (kheap_init virt_boot_state) (2 ^ 64 - 48)).2.mem 16
        (expand_heap (kheap_init virt_boot_state) (2 ^ 64 - 48)).2.heap_start).map
        (blk_size (expand_heap (kheap_init virt_boot_state) (2 ^ 64 - 48)).2.mem))
      = (true, 4096, [4048, 4048, 4048, 4048, 8144]) := by
  refine ⟨by decide, by decide⟩

/-- C33 (amended): for a request `m` with `m + HEADER + 4095 < 2 ^ 64`, on a
heap that satisfies the heap invariant and a frame allocator with consistent
counters and at least `pages_needed m` free frames, `expand_heap(m)` succeeds;
the number of pages is `(m + 48 + 4095) / 4096`, the ceiling of
`(m + HEADER) / 4096`, and at least 1; exactly that many frames are taken from
the frame allocator; inside the loop each of them is linked at the tail of the
chain as a block of payload 4048 flagged free; and at the return the first of
them has been absorbed by the old tail when that one was flagged free (the old
tail then has grown by 4096 bytes), while the others are still blocks of
payload 4048. -/
theorem C33_expand_heap_page_count {s : KState} {chain : List Nat} {lim : Nat}
    (h : HeapInv s chain lim) (hP : PInv s) (m : Nat)
    (hm : m + HEAP_HEADER_SIZE + PAGE_SIZE - 1 < 2 ^ 64)
    (hfree : pages_needed m ≤ clear_count s.frame_bitmap PMM_TOTAL_FRAMES) :
    pages_needed m = (m + HEAP_HEADER_SIZE + PAGE_SIZE - 1) / PAGE_SIZE ∧
    1 ≤ pages_needed m ∧
    (expand_heap s m).1 = true ∧
    clear_count (expand_heap s m).2.frame_bitmap PMM_TOTAL_FRAMES + pages_needed m
      = clear_count s.frame_bitmap PMM_TOTAL_FRAMES ∧
    (expand_heap s m).2.free_memory + pages_needed m * PAGE_SIZE = s.free_memory ∧
    ∃ new : List Nat, new.length = pages_needed m ∧
      (∀ b, b ∈ new → ∃ i, i < PMM_TOTAL_FRAMES ∧ b = PMM_RAM_BASE + i * PAGE_SIZE ∧
        test_bit s.frame_bitmap i = false ∧
        test_bit (expand_heap s m).2.frame_bitmap i = true) ∧
      (∀ fuel, walk_next (expand_pages (pages_needed m) 0 s).2.2.mem fuel
          (expand_pages (pages_needed m) 0 s).2.2.heap_start = (chain ++ new).take fuel) ∧
      (∀ b, b ∈ new → blk_size (expand_pages (pages_needed m) 0 s).2.2.mem b = 4048 ∧
        blk_is_free (expand_pages (pages_needed m) 0 s).2.2.mem b = true) ∧
      ((chain ≠ [] ∧ blk_is_free s.mem (lastD chain 0) = true) →
        (∀ fuel, walk_next (expand_heap s m).2.mem fuel (expand_heap s m).2.heap_start
          = (chain ++ new.tail).take fuel) ∧
        blk_size (expand_heap s m).2.mem (lastD chain 0)
          = blk_size s.mem (lastD chain 0) + 4096 ∧
        (∀ b, b ∈ new.tail → blk_size (expand_heap s m).2.mem b = 4048)) ∧
      (¬ (chain ≠ [] ∧ blk_is_free s.mem (lastD chain 0) = true) →
        (∀ fuel, walk_next (expand_heap s m).2.mem fuel (expand_heap s m).2.heap_start
          = (chain ++ new).take fuel) ∧
        (∀ b, b ∈ new → blk_size (expand_heap s m).2.mem b = 4048)) := by
  obtain ⟨hp1, hp2⟩ := pages_needed_eq m hm
  obtain ⟨e1, _, e2, e3, new, n1, n2, n3, n4, n5, n6⟩ := expand_heap_exact h hP m hp2 hfree
  refine ⟨hp1, hp2, e1, e2, e3, new, n1, n2, n3, n4, ?_, ?_⟩
  · intro hc
    obtain ⟨a1, a2, a3, _⟩ := n5 hc
    exact ⟨a1, a2, a3⟩
  · intro hc
    obtain ⟨a1, a2, _⟩ := n6 hc
    exact ⟨a1, fun b hb => (a2 b hb).1⟩

theorem walk_free_zero (m : Nat → Nat) (fuel : Nat) : walk_free m fuel 0 = [] := by
  cases fuel <;> rfl

/-- A run of `n` clear bits below `PMM_TOTAL_FRAMES` gives at least `n` free
frames. -/
theorem free_run_count (s : KState) (i0 n : Nat) (h : FreeRun s i0 n) :
    n ≤ clear_count s.frame_bitmap PMM_TOTAL_FRAMES := by
  obtain ⟨_, h2, h3⟩ := h
  have key : ∀ k, k ≤ n → k ≤ clear_count s.frame_bitmap (i0 + k) := by
    intro k
    induction k with
    | zero => intro _; exact Nat.zero_le _
    | succ k ih =>
      intro hk
      have := ih (by omega)
      have hc := h2 k (by omega)
      show k + 1 ≤ clear_count s.frame_bitmap (i0 + k) + (if test_bit s.frame_bitmap (i0 + k)
        then 0 else 1)
      rw [hc]
      simp only [Bool.false_eq_true, if_false]
      omega
  have hmono : ∀ a b, clear_count s.frame_bitmap a ≤ clear_count s.frame_bitmap (a + b) := by
    intro a b
    induction b with
    | zero => exact Nat.le_refl _
    | succ b ih =>
      show _ ≤ clear_count s.frame_bitmap (a + b) + _
      omega
  have := hmono (i0 + n) (PMM_TOTAL_FRAMES - (i0 + n))
  rw [show i0 + n + (PMM_TOTAL_FRAMES - (i0 + n)) = PMM_TOTAL_FRAMES by omega] at this
  exact le_trans (key n (Nat.le_refl _)) this

/-- The exact effect of `kheap_init` on a frame allocator with consistent
counters and at least five free frames. -/
theorem kheap_init_exact (s : KState) (hP : PInv s)
    (h5 : 5 ≤ clear_count s.frame_bitmap PMM_TOTAL_FRAMES) :
    PInv (kheap_init s) ∧
    (kheap_init s).free_memory + 5 * PAGE_SIZE = s.free_memory ∧
    clear_count (kheap_init s).frame_bitmap PMM_TOTAL_FRAMES + 5
      = clear_count s.frame_bitmap PMM_TOTAL_FRAMES ∧
    ∃ chain : List Nat, chain.length = 5 ∧
      (∀ fuel, walk_next (kheap_init s).mem fuel (kheap_init s).heap_start = chain.take fuel) ∧
      (∀ b, b ∈ chain → blk_size (kheap_init s).mem b = 4048 ∧
        blk_is_free (kheap_init s).mem b = true ∧
        ∃ i, i < PMM_TOTAL_FRAMES ∧ b = PMM_RAM_BASE + i * PAGE_SIZE ∧
          test_bit s.frame_bitmap i = false ∧ test_bit (kheap_init s).frame_bitmap i = true) ∧
      (kheap_init s).free_list_head = chain.headD 0 ∧
      (∀ fuel, walk_free (kheap_init s).mem (fuel + 1) (kheap_init s).free_list_head
        = [chain.headD 0]) ∧
      (∀ size fuel, first_fit (kheap_init s).mem size (fuel + 2) (kheap_init s).free_list_head
        = some (if size ≤ 4048 then chain.headD 0 else 0)) := by
  generalize hs0 : ({ s with free_list_head := 0, heap_start := 0, heap_end := 0 } : KState) = t
  have hbm : t.frame_bitmap = s.frame_bitmap := by rw [← hs0]
  have hfm : t.free_memory = s.free_memory := by rw [← hs0]
  have hhd : t.free_list_head = 0 := by rw [← hs0]
  have h0 : HeapInv t [] 0 := by
    rw [← hs0]
    refine ⟨⟨trivial, rfl, rfl, Nat.zero_le _, ?_⟩, ⟨?_, ?_, ?_, ?_⟩⟩
    · intro i _ hlt; omega
    · intro h; exact absurd rfl h
    · intro b hb; simp at hb
    · intro b hb; simp at hb
    · intro b hb; simp at hb
  have hPt : PInv t := by
    unfold PInv at hP ⊢
    rw [hbm, hfm]; exact hP
  have hk : kheap_init s = (expand_heap t (PAGE_SIZE * 4)).2 := by rw [← hs0]; rfl
  have hp : pages_needed (PAGE_SIZE * 4) = 5 := by decide
  obtain ⟨e1, e0, e2, e3, new, n1, n2, n3, n4, n5, n6⟩ :=
    expand_heap_exact h0 hPt (PAGE_SIZE * 4) (by rw [hp]; decide) (by rw [hp, hbm]; exact h5)
  obtain ⟨a1, a2, a3, a4⟩ := n6 (fun q => q.1 rfl)
  rw [hp] at e2 e3 n1
  rw [hbm] at e2
  rw [hfm] at e3
  rw [← hk] at e0 e2 e3 n2 a1 a2 a3 a4
  rw [hhd] at a4
  obtain ⟨f, rest, hnew⟩ : ∃ f rest, new = f :: rest := by
    cases new with
    | nil => simp at n1
    | cons f rest => exact ⟨f, rest, rfl⟩
  have hf0 : f ≠ 0 := by
    obtain ⟨i, _, hi, _⟩ := n2 f (by rw [hnew]; simp)
    rw [hi]; simp only [PMM_RAM_BASE]; omega
  have hsz : blk_size (kheap_init s).mem f = 4048 := (a2 f (by rw [hnew]; simp)).1
  rw [hnew] at a3 a4
  simp only [List.headD_cons] at a3 a4
  refine ⟨e0, e3, e2, new, n1, ?_, ?_, by rw [a3, hnew]; rfl, ?_, ?_⟩
  · intro fuel
    have := a1 fuel
    rwa [List.nil_append] at this
  · intro b hb
    obtain ⟨i, i1, i2, i3, i4⟩ := n2 b hb
    exact ⟨(a2 b hb).1, (a2 b hb).2, i, i1, i2, by rw [← hbm]; exact i3, i4⟩
  · intro fuel
    rw [a3, hnew]
    simp only [walk_free, if_neg hf0, a4, List.headD_cons]
    rw [walk_free_zero]
  · intro size fuel
    rw [a3, hnew]
    simp only [first_fit, if_neg hf0, hsz, a4, List.headD_cons, ge_iff_le, if_true]
    split <;> rfl

theorem virt_free_run_six :
    FreeRun (frame_alloc_init virt_linker (some virt_params) zero_state) 0 6 := by
  rw [frame_alloc_init_virt_eq]
  unfold FreeRun
  decide

/-- Witness of C33: the heap after boot on the `virt` layout and
`expand_heap(100)`, which takes one page. -/
theorem C33_witness :
    ∃ chain lim,
      HeapInv (kheap_init (frame_alloc_init virt_linker (some virt_params) zero_state))
        chain lim ∧
      PInv (kheap_init (frame_alloc_init virt_linker (some virt_params) zero_state)) ∧
      100 + HEAP_HEADER_SIZE + PAGE_SIZE - 1 < 2 ^ 64 ∧
      pages_needed 100 ≤ clear_count
        (kheap_init (frame_alloc_init virt_linker (some virt_params) zero_state)).frame_bitmap
        PMM_TOTAL_FRAMES ∧
      pages_needed 100 = (100 + HEAP_HEADER_SIZE + PAGE_SIZE - 1) / PAGE_SIZE ∧
      (expand_heap (kheap_init (frame_alloc_init virt_linker (some virt_params) zero_state))
        100).1 = true ∧
      (expand_heap (kheap_init (frame_alloc_init virt_linker (some virt_params) zero_state))
        100).2.free_memory + pages_needed 100 * PAGE_SIZE
        = (kheap_init (frame_alloc_init virt_linker (some virt_params) zero_state)).free_memory := by
  obtain ⟨chain, lim, h⟩ :=
    kheap_init_inv (frame_alloc_init virt_linker (some virt_params) zero_state)
  have hP0 : PInv (frame_alloc_init virt_linker (some virt_params) zero_state) :=
    frame_alloc_init_inv _ _ _ (by decide)
  have h6 := free_run_count _ 0 6 virt_free_run_six
  obtain ⟨k1, _, k3, _⟩ := kheap_init_exact _ hP0 (by omega)
  have hp : pages_needed 100 = 1 := by decide
  have hfree : pages_needed 100 ≤ clear_count
      (kheap_init (frame_alloc_init virt_linker (some virt_params) zero_state)).frame_bitmap
      PMM_TOTAL_FRAMES := by
    rw [hp]
    omega
  have hm : 100 + HEAP_HEADER_SIZE + PAGE_SIZE - 1 < 2 ^ 64 := by decide
  have hc := C33_expand_heap_page_count h k1 100 hm hfree
  exact ⟨chain, lim, h, k1, hm, hfree, hc.1, hc.2.2.1, hc.2.2.2.2.1⟩

/-- C34: on a frame allocator with consistent counters and at least five free
frames, `kheap_init` takes exactly five frames (`free_memory` drops by
`5 * 4096`); the physical chain then has exactly five blocks, each with payload
4048 and flagged free, each made of a frame that was free; the free list holds
exactly one block, the first of the chain; and a first-fit walk finds that
block for every size up to 4048 and no block for a larger size, so that 4048
bytes can be allocated before the heap has to be expanded. -/
theorem C34_kheap_init_five_blocks (s : KState) (hP : PInv s)
    (h5 : 5 ≤ clear_count s.frame_bitmap PMM_TOTAL_FRAMES) :
    (kheap_init s).free_memory + 5 * PAGE_SIZE = s.free_memory ∧
    clear_count (kheap_init s).frame_bitmap PMM_TOTAL_FRAMES + 5
      = clear_count s.frame_bitmap PMM_TOTAL_FRAMES ∧
    ∃ chain : List Nat, chain.length = 5 ∧
      (∀ fuel, walk_next (kheap_init s).mem fuel (kheap_init s).heap_start = chain.take fuel) ∧
      (∀ b, b ∈ chain → blk_size (kheap_init s).mem b = 4048 ∧
        blk_is_free (kheap_init s).mem b = true ∧
        ∃ i, i < PMM_TOTAL_FRAMES ∧ b = PMM_RAM_BASE + i * PAGE_SIZE ∧
          test_bit s.frame_bitmap i = false ∧ test_bit (kheap_init s).frame_bitmap i = true) ∧
      (kheap_init s).free_list_head = chain.headD 0 ∧
      (∀ fuel, walk_free (kheap_init s).mem (fuel + 1) (kheap_init s).free_list_head
        = [chain.headD 0]) ∧
      (∀ size fuel, first_fit (kheap_init s).mem size (fuel + 2) (kheap_init s).free_list_head
        = some (if size ≤ 4048 then chain.headD 0 else 0)) :=
  (kheap_init_exact s hP h5).2

/-- Witness of C34: the state after `frame_alloc_init` on the `virt` layout,
where frames 0 to 4 are free. -/
theorem C34_witness :
    PInv (frame_alloc_init virt_linker (some virt_params) zero_state) ∧
    5 ≤ clear_count (frame_alloc_init virt_linker (some virt_params) zero_state).frame_bitmap
      PMM_TOTAL_FRAMES ∧
    (kheap_init (frame_alloc_init virt_linker (some virt_params) zero_state)).free_memory
        + 5 * PAGE_SIZE
      = (frame_alloc_init virt_linker (some virt_params) zero_state).free_memory ∧
    clear_count
        (kheap_init (frame_alloc_init virt_linker (some virt_params) zero_state)).frame_bitmap
        PMM_TOTAL_FRAMES + 5
      = clear_count (frame_alloc_init virt_linker (some virt_params) zero_state).frame_bitmap
        PMM_TOTAL_FRAMES :=
  ⟨frame_alloc_init_inv _ _ _ (by decide), free_run_count _ 0 5 virt_free_run,
    (C34_kheap_init_five_blocks _ (frame_alloc_init_inv _ _ _ (by decide))
      (free_run_count _ 0 5 virt_free_run)).1,
    (C34_kheap_init_five_blocks _ (frame_alloc_init_inv _ _ _ (by decide))
      (free_run_count _ 0 5 virt_free_run)).2.1⟩

/-! ## Live payloads -/

/-- With the bitmap held apart from RAM: in every heap state reached from
`kheap_init` by calls of `kmalloc` and `kfree` of live pointers, the payload
ranges `[p, p + size)` of two distinct live pointers are disjoint, and the
payload of a live pointer does not overlap the header `[b, b + 48)` of any
block `b` of the physical chain. -/
theorem reach_payloads_disjoint {s0 s : KState} {live : List Nat} (hr : Reach s0 s live) :
    (∀ p q, p ∈ live → q ∈ live → p ≠ q →
      p + blk_size s.mem (p - 48) ≤ q ∨ q + blk_size s.mem (q - 48) ≤ p) ∧
    (∀ p fuel b, p ∈ live → b ∈ walk_next s.mem fuel s.heap_start →
      p + blk_size s.mem (p - 48) ≤ b ∨ b + 48 ≤ p) := by
  obtain ⟨chain, lim, h, hl⟩ := reach_inv hr
  constructor
  · intro p q hp hq hne
    obtain ⟨p1, p2, _⟩ := hl p hp
    obtain ⟨q1, q2, _⟩ := hl q hq
    rcases chain_apart h.phys (p - 48) (q - 48) p2 q2 with e | e | e
    · exact absurd (by omega : p = q) hne
    · left; omega
    · right; omega
  · intro p fuel b hp hb
    obtain ⟨p1, p2, _⟩ := hl p hp
    rw [walk_next_chain h] at hb
    rcases chain_apart h.phys (p - 48) b p2 (List.mem_of_mem_take hb) with e | e | e
    · right; omega
    · left; omega
    · right; omega

/-! ## `kprintf`: the formatting loop -/

theorem kprintf_loop_stop (format : Nat → Nat) (fuel i : Nat) (args : List KArg)
    (buf : List Nat) (h : format i = 0 ∨ PRINTF_BUFFER_SIZE - 1 ≤ buf.length) :
    kprintf_loop format (fuel + 1) i args buf = some (buf, i) := by
  have hc : ¬ (format i ≠ 0 ∧ buf.length < PRINTF_BUFFER_SIZE - 1) := by
    rcases h with h | h
    · exact fun q => q.1 h
    · exact fun q => absurd q.2 (by omega)
  simp only [kprintf_loop, if_neg hc]

theorem kprintf_loop_plain (format : Nat → Nat) (fuel i : Nat) (args : List KArg)
    (buf : List Nat) (h0 : format i ≠ 0) (h1 : format i ≠ 37)
    (hb : buf.length < PRINTF_BUFFER_SIZE - 1) :
    kprintf_loop format (fuel + 1) i args buf
      = kprintf_loop format fuel (i + 1) args (buf ++ [format i]) := by
  simp only [kprintf_loop, if_pos (And.intro h0 hb), if_neg h1]

theorem kprintf_conv_default (c : Nat) (a b : Bool) (args : List KArg) (pos : Nat)
    (hc : unsupported c = true) : kprintf_conv c a b args pos = some ([37, c], args) := by
  simp only [unsupported, Bool.and_eq_true, bne_iff_ne, ne_eq] at hc
  obtain ⟨⟨⟨⟨⟨⟨⟨⟨⟨c1, c2⟩, c3⟩, c4⟩, c5⟩, c6⟩, c7⟩, c8⟩, c9⟩, c10⟩ := hc
  simp only [kprintf_conv, if_neg c2, if_neg c3, if_neg c6, if_neg c9, if_neg c10,
    if_neg (not_or.2 ⟨c4, c5⟩), if_neg (not_or.2 ⟨c7, c8⟩)]

theorem kprintf_loop_default (format : Nat → Nat) (fuel i : Nat) (args : List KArg)
    (buf : List Nat) (h0 : format i = 37) (hc : unsupported (format (i + 1)) = true)
    (hb : buf.length < PRINTF_BUFFER_SIZE - 1) :
    kprintf_loop format (fuel + 1) i args buf
      = kprintf_loop format fuel (i + 2) args (buf ++ [37, format (i + 1)]) := by
  have h1 : format i ≠ 0 := by rw [h0]; decide
  have hl : format (i + 1) ≠ 108 := by
    simp only [unsupported, Bool.and_eq_true, bne_iff_ne, ne_eq] at hc
    exact hc.1.1.1.1.1.1.1.1.1
  simp only [kprintf_loop, if_pos (And.intro h1 hb), if_pos h0, decide_eq_false hl,
    Bool.false_and, Bool.false_eq_true, if_false, kprintf_conv_default _ _ _ _ _ hc]

/-- A run of characters without supported conversion is copied to the buffer
as it is, whatever the arguments are: when `l` is such a run found at position
`i` of the format and the buffer has room for it, at most `l.length`
iterations of the loop append `l` to the buffer and leave the arguments
untouched. -/
theorem kprintf_loop_literal (format : Nat → Nat) (args : List KArg) :
    ∀ (n : Nat) (l : List Nat) (i : Nat) (buf : List Nat), l.length = n →
      literal_format l = true → (∀ k, k < l.length → format (i + k) = l.getD k 0) →
      buf.length + l.length ≤ PRINTF_BUFFER_SIZE - 1 →
      ∃ m, m ≤ l.length ∧ ∀ fuel, kprintf_loop format (fuel + m) i args buf
        = kprintf_loop format fuel (i + l.length) args (buf ++ l) := by
  intro n
  induction n using Nat.strong_induction_on with
  | _ n ih =>
    intro l i buf hn hl hf hb
    match l, hn, hl, hf, hb with
    | [], _, _, _, _ => exact ⟨0, le_refl _, fun fuel => by simp⟩
    | [c], _, hl, hf, hb =>
      have e := hf 0 (by simp)
      simp only [List.getD_cons_zero, Nat.add_zero] at e
      simp only [literal_format, Bool.and_eq_true, bne_iff_ne, ne_eq] at hl
      simp only [List.length_singleton] at hb
      refine ⟨1, le_refl _, fun fuel => ?_⟩
      rw [kprintf_loop_plain format fuel i args buf (by rw [e]; exact hl.1)
        (by rw [e]; exact hl.2) (by omega), e]
      rfl
    | c :: d :: rest, hn, hl, hf, hb =>
      have e0 := hf 0 (by simp)
      have e1 := hf 1 (by simp)
      simp only [List.getD_cons_zero, Nat.add_zero] at e0
      simp only [List.getD_cons_succ, List.getD_cons_zero] at e1
      simp only [List.length_cons] at hb hn
      by_cases hc : c = 37
      · simp only [literal_format, if_pos hc, Bool.and_eq_true, bne_iff_ne, ne_eq] at hl
        obtain ⟨m, hm, hrun⟩ := ih rest.length (by omega) rest (i + 2) (buf ++ [37, d]) rfl
          hl.2 (fun k hk => by
            have := hf (k + 2) (by simp only [List.length_cons]; omega)
            simp only [List.getD_cons_succ] at this
            rw [← this]; congr 1; omega)
          (by simp only [List.length_append, List.length_cons, List.length_nil]; omega)
        refine ⟨m + 1, by simp only [List.length_cons]; omega, fun fuel => ?_⟩
        rw [← Nat.add_assoc, kprintf_loop_default format (fuel + m) i args buf (by rw [e0, hc])
          (by rw [e1]; exact hl.1.2) (by omega), e1, hrun fuel]
        have ea : i + 2 + rest.length = i + (c :: d :: rest).length := by
          simp only [List.length_cons]; omega
        rw [ea, hc]
        simp
      · simp only [literal_format, if_neg hc, Bool.and_eq_true, bne_iff_ne, ne_eq] at hl
        obtain ⟨m, hm, hrun⟩ := ih (rest.length + 1) (by omega) (d :: rest) (i + 1)
          (buf ++ [c]) rfl hl.2 (fun k hk => by
            have := hf (k + 1) (by simp only [List.length_cons] at hk ⊢; omega)
            simp only [List.getD_cons_succ] at this
            rw [← this]; congr 1; omega)
          (by simp only [List.length_append, List.length_cons, List.length_nil]; omega)
        refine ⟨m + 1, by simp only [List.length_cons] at hm ⊢; omega, fun fuel => ?_⟩
        rw [← Nat.add_assoc, kprintf_loop_plain format (fuel + m) i args buf (by rw [e0]; exact hl.1)
          (by rw [e0]; exact hc) (by omega), e0, hrun fuel]
        have ea : i + 1 + (d :: rest).length = i + (c :: d :: rest).length := by
          simp only [List.length_cons]; omega
        rw [ea]
        simp

theorem kprintf_loop_fuel (format : Nat → Nat) :
    ∀ (fuel i : Nat) (args : List KArg) (buf : List Nat) (r : List Nat × Nat),
      kprintf_loop format fuel i args buf = some r →
      kprintf_loop format (fuel + 1) i args buf = some r := by
  intro fuel
  induction fuel with
  | zero => intro i args buf r h; simp [kprintf_loop] at h
  | succ f ih =>
    intro i args buf r h
    rw [kprintf_loop] at h ⊢
    split
    · rename_i hc
      rw [if_pos hc] at h
      split
      · rename_i h37
        rw [if_pos h37] at h
        revert h
        simp only []
        split
        · intro h; exact absurd h (by simp)
        · intro h; exact ih _ _ _ _ h
      · rename_i h37
        rw [if_neg h37] at h
        exact ih _ _ _ _ h
    · rename_i hc
      rw [if_neg hc] at h
      exact h

theorem kprintf_loop_more (format : Nat → Nat) (fuel k i : Nat) (args : List KArg)
    (buf : List Nat) (r : List Nat × Nat) (h : kprintf_loop format fuel i args buf = some r) :
    kprintf_loop format (fuel + k) i args buf = some r := by
  induction k with
  | zero => exact h
  | succ k ih => exact kprintf_loop_fuel format _ _ _ _ _ ih

theorem literal_format_ne_zero :
    ∀ (l : List Nat), literal_format l = true → ∀ c, c ∈ l → c ≠ 0 := by
  have key : ∀ (n : Nat) (l : List Nat), l.length = n → literal_format l = true →
      ∀ c, c ∈ l → c ≠ 0 := by
    intro n
    induction n using Nat.strong_induction_on with
    | _ n ih =>
      intro l hn hl x hx
      match l, hn, hl, hx with
      | [], _, _, hx => simp at hx
      | [c], _, hl, hx =>
        simp only [literal_format, Bool.and_eq_true, bne_iff_ne, ne_eq] at hl
        simp only [List.mem_singleton] at hx
        rw [hx]; exact hl.1
      | c :: d :: rest, hn, hl, hx =>
        simp only [List.length_cons] at hn
        by_cases hc : c = 37
        · simp only [literal_format, if_pos hc, Bool.and_eq_true, bne_iff_ne, ne_eq] at hl
          rcases List.mem_cons.1 hx with e | hx
          · rw [e, hc]; decide
          · rcases List.mem_cons.1 hx with e | hx
            · rw [e]; exact hl.1.1
            · exact ih rest.length (by omega) rest rfl hl.2 x hx
        · simp only [literal_format, if_neg hc, Bool.and_eq_true, bne_iff_ne, ne_eq] at hl
          rcases List.mem_cons.1 hx with e | hx
          · rw [e]; exact hl.1
          · exact ih (rest.length + 1) (by omega) (d :: rest) rfl hl.2 x hx
  exact fun l => key l.length l rfl

/-- A format that consists of a run without supported conversion and its NUL
is emitted literally: with more fuel than the format has characters, `kprintf`
stores and emits exactly the characters of the format and returns their
number, for every list of arguments. -/
theorem kprintf_literal (l : List Nat) (args : List KArg) (fuel : Nat)
    (hl : literal_format l = true) (hlen : l.length ≤ PRINTF_BUFFER_SIZE - 1)
    (hfuel : l.length < fuel) :
    stdio.kprintf (c_chars l) args fuel
      = some { stored := l, last_read := l.length, emitted := l, ret := l.length } := by
  obtain ⟨m, hm, hrun⟩ := kprintf_loop_literal (c_chars l) args l.length l 0 [] rfl hl
    (fun k _ => by simp [c_chars]) (by simpa using hlen)
  have h1 := hrun 1
  rw [kprintf_loop_stop _ 0 _ _ _ (Or.inl (by simp [c_chars]))] at h1
  have h2 := kprintf_loop_more _ _ (fuel - (1 + m)) _ _ _ _ h1
  have ef : 1 + m + (fuel - (1 + m)) = fuel := by omega
  rw [ef] at h2
  have hnz := literal_format_ne_zero
  have htw : l.takeWhile (fun c => c != 0) = l := by
    rw [List.takeWhile_eq_self_iff]
    intro c hc
    simpa using hnz l hl c hc
  simp only [stdio.kprintf, h2, Option.map_some', List.nil_append, Nat.zero_add, htw]

theorem far_record_printed (esr far : Nat) (c : Cpu) (h : (ec_class (decode_ec esr)).2 = true) :
    ({ fmt := " FAR_EL1: %016llx (Faulting Virtual Address)\n", args := [KArg.num far] } : KPrint)
      ∈ (sync_report esr far c).console := by
  unfold sync_report
  dsimp only
  rw [if_pos h]
  exact (Keeps.kprintf (print_registers_keeps _ _) _ _).2.2 _ (kprintf_self _ _ _)

set_option maxRecDepth 10000 in
/-- C36 fails: `kprintf` knows no flags and no field width.  In
`" FAR_EL1: %016llx ..."` the character after `%` is `0`, which falls into the
`default` case of the `switch`: `%0` is copied and the rest, `16llx`, is
ordinary text.  So for a data abort (`ESR_EL1 = 0x96000004`, class `0x25`) and
every `FAR_EL1` value the dispatcher does call `kprintf` with that format and
the value, but what the call emits is the format itself, the same text for
every value.  For `FAR_EL1 = 0` and for `FAR_EL1 = 0xFFFF0000DEADBEEF` the
whole text emitted by the dispatcher (941 characters) contains the sixteen
hexadecimal digits of the value nowhere. -/
theorem C36_far_is_not_formatted :
    (∀ (far : Nat) (c : Cpu),
      ({ fmt := " FAR_EL1: %016llx (Faulting Virtual Address)\n", args := [KArg.num far] }
        : KPrint) ∈ (handle_sync_exception 0x96000004 far c).2.console ∧
      (stdio.kprintf (c_str " FAR_EL1: %016llx (Faulting Virtual Address)\n")
          [KArg.num far] 64).map (fun r => r.emitted)
        = some (" FAR_EL1: %016llx (Faulting Virtual Address)\n".toList.map Char.toNat)) ∧
    hex16 0 = List.replicate 16 48 ∧
    (console_text 64 (handle_sync_exception 0x96000004 0 sample_cpu).2.console).map
      (fun t => (t.length, occurs_in (hex16 0) t)) = some (941, false) ∧
    (console_text 64 (handle_sync_exception 0x96000004 0xFFFF0000DEADBEEF sample_cpu).2.console).map
      (fun t => (t.length, occurs_in (hex16 0xFFFF0000DEADBEEF) t)) = some (941, false) := by
  refine ⟨fun far c => ⟨?_, ?_⟩, by decide, by decide, by decide⟩
  · rw [handle_sync_exception_eq, if_neg (by decide), if_neg (by decide)]
    exact (panic_keeps _ _).2.2.2.2 _ (far_record_printed _ far c (by decide))
  · have hl : literal_format (" FAR_EL1: %016llx (Faulting Virtual Address)\n".toList.map
        Char.toNat) = true := by decide
    rw [c_str, kprintf_literal _ [KArg.num far] 64 hl (by decide) (by decide)]
    rfl

theorem literal_replicate (n : Nat) : literal_format (List.replicate n 97) = true := by
  induction n with
  | zero => rfl
  | succ n ih =>
    cases n with
    | zero => rfl
    | succ k =>
      rw [List.replicate_succ, List.replicate_succ] at *
      simpa [literal_format] using ih

/-- A format of `n` letters `a` followed by `%q`, with `n + 1` the last index
of the buffer that the loop condition admits: the `default` case stores two
characters. -/
theorem kprintf_default_overrun (n : Nat) (hn : n + 1 = PRINTF_BUFFER_SIZE - 1)
    (args : List KArg) (fuel : Nat) (hfuel : n + 2 ≤ fuel) :
    (stdio.kprintf (c_chars (List.replicate n 97 ++ [37, 113])) args fuel).map
      (fun r => (r.stored.length, r.last_read, r.ret)) = some (n + 2, n + 2, n + 2) := by
  obtain ⟨m, hm, hrun⟩ := kprintf_loop_literal
    (c_chars (List.replicate n 97 ++ [37, 113])) args n (List.replicate n 97) 0 []
    (by simp) (literal_replicate n)
    (fun k hk => by
      simp only [List.length_replicate] at hk
      simp only [c_chars, List.getD_eq_getElem?_getD, Nat.zero_add]
      rw [List.getElem?_append_left (by simpa using hk)])
    (by simp only [List.length_nil, List.length_replicate]; omega)
  simp only [List.length_replicate] at hm hrun
  have e : fuel = (fuel - m - 2) + 1 + 1 + m := by omega
  have f0 : c_chars (List.replicate n 97 ++ [37, 113]) n = 37 := by
    simp only [c_chars, List.getD_eq_getElem?_getD]
    rw [List.getElem?_append_right (by simp)]
    simp
  have f1 : c_chars (List.replicate n 97 ++ [37, 113]) (n + 1) = 113 := by
    simp only [c_chars, List.getD_eq_getElem?_getD]
    rw [List.getElem?_append_right (by simp)]
    simp
  simp only [stdio.kprintf]
  rw [e, hrun, Nat.zero_add,
    kprintf_loop_default _ _ n _ _ f0 (by rw [f1]; decide)
      (by simp only [List.nil_append, List.length_replicate]; omega),
    kprintf_loop_stop _ _ _ _ _ (Or.inr (by
      simp only [List.nil_append, List.length_append, List.length_replicate,
        List.length_cons, List.length_nil]; omega))]
  simp

/-- C37 fails on both counts, whatever the arguments are.  For the format
`"%"` the `default` case copies `%` and the terminating NUL, and the
`format++` at the end of the iteration steps over the NUL: with the bytes `A`,
NUL behind the string the loop goes on, stores `A` and reads position 3; the
call returns 3.  For a format of 1022 letters `a` followed by `%q` the loop
condition admits the iteration at `buf_ptr - buffer = 1022`, the `default`
case stores two characters, and `kprintf` returns 1024: the terminating NUL is
stored at `buffer[1024]`, behind the 1024-byte buffer. -/
theorem C37_kprintf_overruns (args : List KArg) :
    (stdio.kprintf (c_chars [37, 0, 65]) args 8).map (fun r => (r.stored, r.last_read, r.ret))
      = some ([37, 0, 65], 3, 3) ∧
    (stdio.kprintf (c_chars (List.replicate 1022 97 ++ [37, 113])) args 1100).map
      (fun r => (r.stored.length, r.last_read, r.ret)) = some (1024, 1024, 1024) := by
  constructor
  · simp only [stdio.kprintf]
    rw [show (8 : Nat) = 5 + 1 + 1 + 1 from rfl,
      kprintf_loop_default _ _ 0 _ _ (by decide) (by decide) (by decide),
      kprintf_loop_plain _ _ 2 _ _ (by decide) (by decide) (by decide),
      kprintf_loop_stop _ _ 3 _ _ (Or.inl (by decide))]
    rfl
  · exact kprintf_default_overrun 1022 (by decide) args 1100 (by decide)

/-! ## `simple_strtoull` -/

theorem c_chars_append_left (a b : List Nat) (k : Nat) (hk : k < a.length) :
    c_chars (a ++ b) k = c_chars a k := by
  simp only [c_chars, List.getD_eq_getElem?_getD]
  rw [List.getElem?_append_left hk]

theorem c_chars_append_right (a b : List Nat) (k : Nat) :
    c_chars (a ++ b) (a.length + k) = c_chars b k := by
  simp only [c_chars, List.getD_eq_getElem?_getD]
  rw [List.getElem?_append_right (by omega)]
  congr 2
  omega

theorem c_chars_mem (a : List Nat) (k : Nat) (hk : k < a.length) : c_chars a k ∈ a := by
  simp only [c_chars, List.getD_eq_getElem?_getD]
  rw [List.getElem?_eq_getElem hk]
  exact List.getElem_mem _

theorem c_chars_end (a : List Nat) (k : Nat) (hk : a.length ≤ k) : c_chars a k = 0 := by
  simp only [c_chars, List.getD_eq_getElem?_getD]
  rw [List.getElem?_eq_none hk]
  rfl

theorem skip_space_run (nptr : Nat → Nat) :
    ∀ (n i fuel : Nat), (∀ k, k < n → is_space (nptr (i + k)) = true) →
      is_space (nptr (i + n)) = false → n < fuel → skip_space nptr fuel i = some (i + n) := by
  intro n
  induction n with
  | zero =>
    intro i fuel _ h0 hf
    obtain ⟨f, rfl⟩ : ∃ f, fuel = f + 1 := ⟨fuel - 1, by omega⟩
    rw [Nat.add_zero] at h0
    simp only [skip_space, h0, Bool.false_eq_true, if_false, Nat.add_zero]
  | succ n ih =>
    intro i fuel hs h0 hf
    obtain ⟨f, rfl⟩ : ∃ f, fuel = f + 1 := ⟨fuel - 1, by omega⟩
    have h1 := hs 0 (by omega)
    rw [Nat.add_zero] at h1
    simp only [skip_space, h1, if_true]
    rw [ih (i + 1) f (fun k hk => by
      have := hs (k + 1) (by omega)
      rwa [show i + (k + 1) = i + 1 + k by omega] at this)
      (by rwa [show i + (n + 1) = i + 1 + n by omega] at h0) (by omega)]
    congr 1
    omega

theorem skip_digits_run (nptr : Nat → Nat) (base : Nat) :
    ∀ (n i fuel : Nat),
      (∀ k, k < n → ∃ d, digit_value (nptr (i + 1 + k)) = some d ∧ d < base) →
      (∀ d, digit_value (nptr (i + 1 + n)) = some d → base ≤ d) → n < fuel →
      skip_digits nptr base fuel i = some (i + 1 + n) := by
  intro n
  induction n with
  | zero =>
    intro i fuel _ h0 hf
    obtain ⟨f, rfl⟩ : ∃ f, fuel = f + 1 := ⟨fuel - 1, by omega⟩
    rw [Nat.add_zero] at h0
    rw [skip_digits]
    cases hd : digit_value (nptr (i + 1)) with
    | none => rfl
    | some d => simp only [ge_iff_le, if_pos (h0 d hd), Nat.add_zero]
  | succ n ih =>
    intro i fuel hs h0 hf
    obtain ⟨f, rfl⟩ : ∃ f, fuel = f + 1 := ⟨fuel - 1, by omega⟩
    obtain ⟨d, hd, hlt⟩ := hs 0 (by omega)
    rw [Nat.add_zero] at hd
    rw [skip_digits]
    simp only [hd, ge_iff_le, if_neg (by omega : ¬ base ≤ d)]
    rw [ih (i + 1) f (fun k hk => by
      have := hs (k + 1) (by omega)
      rwa [show i + 1 + (k + 1) = i + 1 + 1 + k by omega] at this)
      (by rwa [show i + 1 + (n + 1) = i + 1 + 1 + n by omega] at h0) (by omega)]
    congr 1
    omega

/-- The value of a digit run read after the value `a`. -/
theorem digits_fold_ge (b : Nat) (hb : 1 ≤ b) (ds : List Nat) :
    ∀ a, a ≤ ds.foldl (fun acc c => acc * b + (digit_value c).getD 0) a := by
  induction ds with
  | nil => intro a; exact le_refl _
  | cons c rest ih =>
    intro a
    simp only [List.foldl_cons]
    refine le_trans ?_ (ih _)
    calc a = a * 1 := (Nat.mul_one a).symm
      _ ≤ a * b := Nat.mul_le_mul_left a hb
      _ ≤ _ := Nat.le_add_right _ _

/-- The overflow test of `simple_strtoull` is exact. -/
theorem cutoff_test (base result d : Nat) (hb : 0 < base) (hd : d < base) :
    (result > UINT64_MAX / base ∨ (result = UINT64_MAX / base ∧ d > UINT64_MAX % base))
      ↔ UINT64_MAX < result * base + d := by
  have hm := Nat.div_add_mod UINT64_MAX base
  have hl := Nat.mod_lt UINT64_MAX hb
  generalize UINT64_MAX / base = q at *
  generalize UINT64_MAX % base = r at *
  generalize UINT64_MAX = M at *
  constructor
  · rintro (h | ⟨h1, h2⟩)
    · have : (q + 1) * base ≤ result * base := Nat.mul_le_mul_right base h
      rw [Nat.add_mul, Nat.one_mul, Nat.mul_comm q base] at this
      omega
    · rw [h1, Nat.mul_comm q base]; omega
  · intro h
    by_contra hn
    have hn1 : result ≤ q := by
      by_contra hq; exact hn (Or.inl (by omega))
    rcases Nat.lt_or_ge result q with hlt | hge
    · have : (result + 1) * base ≤ q * base := Nat.mul_le_mul_right base hlt
      rw [Nat.add_mul, Nat.one_mul, Nat.mul_comm q base] at this
      omega
    · have he : result = q := by omega
      have : ¬ d > r := fun hgt => hn (Or.inr ⟨he, hgt⟩)
      rw [he, Nat.mul_comm q base] at h
      omega

theorem parse_digits_run (nptr : Nat → Nat) (base : Nat) (hb : 0 < base) :
    ∀ (ds : List Nat) (i result fuel : Nat),
      (∀ k, k < ds.length → nptr (i + k) = ds.getD k 0) →
      (∀ c, c ∈ ds → ∃ d, digit_value c = some d ∧ d < base) →
      (∀ d, digit_value (nptr (i + ds.length)) = some d → base ≤ d) →
      result ≤ UINT64_MAX → ds.length < fuel →
      parse_digits nptr base (UINT64_MAX / base) (UINT64_MAX % base) fuel i result
        = some (min (ds.foldl (fun acc c => acc * base + (digit_value c).getD 0) result)
            UINT64_MAX, i + ds.length) := by
  intro ds
  induction ds with
  | nil =>
    intro i result fuel _ _ h0 hr hf
    obtain ⟨f, rfl⟩ : ∃ f, fuel = f + 1 := ⟨fuel - 1, by omega⟩
    simp only [List.length_nil, Nat.add_zero] at h0
    rw [parse_digits]
    simp only [List.foldl_nil, List.length_nil, Nat.add_zero, Nat.min_eq_left hr]
    cases hd : digit_value (nptr i) with
    | none => rfl
    | some d => simp only [ge_iff_le, if_pos (h0 d hd)]
  | cons c rest ih =>
    intro i result fuel hs hv h0 hr hf
    obtain ⟨f, rfl⟩ : ∃ f, fuel = f + 1 := ⟨fuel - 1, by omega⟩
    simp only [List.length_cons] at hs h0 hf
    have e0 := hs 0 (by omega)
    simp only [Nat.add_zero, List.getD_cons_zero] at e0
    obtain ⟨d, hd, hlt⟩ := hv c (List.mem_cons_self _ _)
    have hrest : ∀ k, k < rest.length → nptr (i + 1 + k) = rest.getD k 0 := by
      intro k hk
      have := hs (k + 1) (by omega)
      simp only [List.getD_cons_succ] at this
      rw [← this]; congr 1; omega
    have hend : ∀ d, digit_value (nptr (i + 1 + rest.length)) = some d → base ≤ d := by
      intro d hd
      exact h0 d (by rwa [show i + (rest.length + 1) = i + 1 + rest.length by omega])
    rw [parse_digits]
    simp only [e0, hd, ge_iff_le, if_neg (by omega : ¬ base ≤ d), List.foldl_cons,
      Option.getD_some, List.length_cons]
    by_cases hov : result > UINT64_MAX / base ∨ (result = UINT64_MAX / base ∧ d > UINT64_MAX % base)
    · rw [if_pos hov]
      have hgt := (cutoff_test base result d hb hlt).1 hov
      rw [skip_digits_run nptr base rest.length i f (fun k hk => by
        rw [hrest k hk]
        have hm : rest.getD k 0 ∈ rest := by
          have := c_chars_mem rest k hk
          simpa [c_chars] using this
        exact hv _ (List.mem_cons_of_mem _ hm)) hend (by omega)]
      have hge := digits_fold_ge base hb rest (result * base + d)
      simp only []
      rw [Nat.min_eq_right (by omega)]
      congr 2
      omega
    · rw [if_neg hov]
      have hle : result * base + d ≤ UINT64_MAX := by
        by_contra hc
        exact hov ((cutoff_test base result d hb hlt).2 (by omega))
      have hu : u64 (result * base + d) = result * base + d := by
        unfold u64
        exact Nat.mod_eq_of_lt (by unfold UINT64_MAX at hle; omega)
      rw [hu, ih (i + 1) (result * base + d) f hrest
        (fun c hc => hv c (List.mem_cons_of_mem _ hc)) hend hle (by omega)]
      congr 2
      omega

theorem digit_value_range (c d : Nat) (h : digit_value c = some d) :
    48 ≤ c ∧ c ≠ 88 ∧ c ≠ 120 ∨ 16 < d := by
  unfold digit_value at h
  split at h
  · left; omega
  · split at h
    · simp only [Option.some.injEq] at h
      by_cases hx : c = 120
      · right; omega
      · left; omega
    · split at h
      · simp only [Option.some.injEq] at h
        by_cases hx : c = 88
        · right; omega
        · left; omega
      · exact absurd h (by simp)

theorem not_space_of_ge (c : Nat) (h : 33 ≤ c) : is_space c = false := by
  unfold is_space
  simp only [decide_eq_false_iff_not, not_or]
  omega

theorem strtoull_core (nptr : Nat → Nat) (base : Int) (fuel n s p B : Nat) (ds : List Nat)
    (hbase : base = 0 ∨ base = 10 ∨ base = 16)
    (hskip : skip_space nptr fuel 0 = some n)
    (hsign : (s = 0 ∧ nptr n ≠ 43 ∧ nptr n ≠ 45) ∨ (s = 1 ∧ nptr n = 43))
    (hpre : (p = 0 ∧ B = (if base = 0 then 10 else base.toNat) ∧
        ¬ ((base = 0 ∨ base = 16) ∧ nptr (n + s) = 48 ∧
          (nptr (n + s + 1) = 120 ∨ nptr (n + s + 1) = 88))) ∨
      (p = 2 ∧ B = 16 ∧ ((base = 0 ∨ base = 16) ∧ nptr (n + s) = 48 ∧
          (nptr (n + s + 1) = 120 ∨ nptr (n + s + 1) = 88))))
    (hd : ∀ k, k < ds.length → nptr (n + s + p + k) = ds.getD k 0)
    (hv : ∀ c, c ∈ ds → ∃ d, digit_value c = some d ∧ d < B)
    (hend : ∀ d, digit_value (nptr (n + s + p + ds.length)) = some d → B ≤ d)
    (hf : ds.length < fuel) :
    simple_strtoull nptr base fuel
      = some (min (digits_value B ds) (2 ^ 64 - 1), n + s + p + ds.length) := by
  have hi : (if nptr n = 43 then n + 1 else if nptr n = 45 then n + 1 else n) = n + s := by
    rcases hsign with ⟨h1, h2, h3⟩ | ⟨h1, h2⟩
    · rw [if_neg h2, if_neg h3, h1]; rfl
    · rw [if_pos h2, h1]
  have hB : B = 10 ∨ B = 16 := by
    rcases hpre with ⟨_, h, _⟩ | ⟨_, h, _⟩
    · rcases hbase with hb | hb | hb <;> rw [hb] at h <;> simp at h <;> omega
    · exact Or.inr h
  have key := parse_digits_run nptr B (by omega) ds (n + s + p) 0 fuel hd hv hend (by decide) hf
  unfold simple_strtoull
  rw [hskip]
  dsimp only
  rw [hi]
  rcases hpre with ⟨h1, h2, h3⟩ | ⟨h1, h2, h3⟩
  · simp only [decide_eq_false h3, Bool.false_eq_true, if_false]
    have hb2 : ((if base = 0 then (10 : Int) else base)) = (B : Int) := by
      rcases hbase with hb | hb | hb <;> rw [hb] at h2 ⊢ <;> simp at h2 ⊢ <;> omega
    subst h1
    simp only [Nat.add_zero] at key ⊢
    rw [hb2, if_neg (by omega), Int.toNat_ofNat, key]
    rfl
  · simp only [decide_eq_true h3, if_true]
    rw [if_neg (by omega)]
    have e16 : (16 : Int).toNat = B := by rw [h2]; rfl
    subst h1
    rw [e16, key]
    rfl

/-- C38: for `base` 0, 10 or 16 and a NUL-terminated string made of
whitespace `ws`, an optional `+` (`sign`), an optional prefix `0x` or `0X`
(`pre`, for base 0 or 16 only) and a non-empty run `ds` of digits that are
valid in the resulting base, `simple_strtoull` returns the value of the digit
run in that base, capped at `2 ^ 64 - 1`, and sets `*endptr` to the position
right after the digit run. -/
theorem C38_strtoull_value_and_end (base : Int) (ws sign pre ds : List Nat) (fuel : Nat)
    (hbase : base = 0 ∨ base = 10 ∨ base = 16)
    (hws : ∀ c, c ∈ ws → is_space c = true)
    (hsign : sign = [] ∨ sign = [43])
    (hpre : pre = [] ∨ ((base = 0 ∨ base = 16) ∧ (pre = [48, 120] ∨ pre = [48, 88])))
    (hne : ds ≠ [])
    (hds : ∀ c, c ∈ ds → ∃ d, digit_value c = some d ∧ d < resulting_base base pre)
    (hfuel : (ws ++ sign ++ pre ++ ds).length < fuel) :
    simple_strtoull (c_chars (ws ++ sign ++ pre ++ ds)) base fuel
      = some (min (digits_value (resulting_base base pre) ds) (2 ^ 64 - 1),
          (ws ++ sign ++ pre ++ ds).length) := by
  have hB : resulting_base base pre = 10 ∨ resulting_base base pre = 16 := by
    unfold resulting_base
    rcases hpre with h | ⟨_, h | h⟩
    · rw [if_pos h]
      rcases hbase with h | h | h <;> simp [h]
    · right; rw [if_neg (by rw [h]; simp)]
    · right; rw [if_neg (by rw [h]; simp)]
  have hdig : ∀ c, c ∈ ds → 48 ≤ c ∧ c ≠ 88 ∧ c ≠ 120 := by
    intro c hc
    obtain ⟨d, h1, h2⟩ := hds c hc
    rcases digit_value_range c d h1 with h | h
    · exact h
    · omega
  obtain ⟨c0, rest, hcons⟩ : ∃ c0 rest, ds = c0 :: rest := by
    cases ds with
    | nil => exact absurd rfl hne
    | cons c0 rest => exact ⟨c0, rest, rfl⟩
  have hc0 := hdig c0 (by rw [hcons]; exact List.mem_cons_self _ _)
  have eL : ws ++ sign ++ pre ++ ds = ws ++ (sign ++ (pre ++ ds)) := by
    simp only [List.append_assoc]
  rw [eL] at hfuel ⊢
  simp only [List.length_append] at hfuel ⊢
  have hW : ∀ k, k < ws.length →
      is_space (c_chars (ws ++ (sign ++ (pre ++ ds))) (0 + k)) = true := by
    intro k hk
    rw [Nat.zero_add, c_chars_append_left _ _ _ hk]
    exact hws _ (c_chars_mem ws k hk)
  have hF : ∀ k, c_chars (ws ++ (sign ++ (pre ++ ds))) (ws.length + k)
      = c_chars (sign ++ (pre ++ ds)) k := fun k => c_chars_append_right _ _ _
  have hS : ∀ k, c_chars (ws ++ (sign ++ (pre ++ ds))) (ws.length + sign.length + k)
      = c_chars (pre ++ ds) k := by
    intro k
    rw [Nat.add_assoc, hF, c_chars_append_right]
  have hD : ∀ k, c_chars (ws ++ (sign ++ (pre ++ ds))) (ws.length + sign.length + pre.length + k)
      = c_chars ds k := by
    intro k
    rw [Nat.add_assoc, hS, c_chars_append_right]
  -- the first character after the prefix position
  have hP0 : c_chars (pre ++ ds) 0 ≠ 43 ∧ c_chars (pre ++ ds) 0 ≠ 45 ∧ 33 ≤ c_chars (pre ++ ds) 0 := by
    rcases hpre with h | ⟨_, h | h⟩ <;> rw [h, hcons]
    · simp only [List.nil_append, c_chars, List.getD_cons_zero]; omega
    · simp [c_chars]
    · simp [c_chars]
  have hfirst : is_space (c_chars (sign ++ (pre ++ ds)) 0) = false := by
    rcases hsign with h | h <;> rw [h]
    · rw [List.nil_append]; exact not_space_of_ge _ hP0.2.2
    · rfl
  have hskip := skip_space_run (c_chars (ws ++ (sign ++ (pre ++ ds)))) ws.length 0 fuel hW
    (by rw [Nat.zero_add]; have := hF 0; rw [Nat.add_zero] at this; rw [this]; exact hfirst)
    (by omega)
  rw [Nat.zero_add] at hskip
  have hsg : (sign.length = 0 ∧ c_chars (ws ++ (sign ++ (pre ++ ds))) ws.length ≠ 43 ∧
        c_chars (ws ++ (sign ++ (pre ++ ds))) ws.length ≠ 45) ∨
      (sign.length = 1 ∧ c_chars (ws ++ (sign ++ (pre ++ ds))) ws.length = 43) := by
    have h0 := hF 0
    rw [Nat.add_zero] at h0
    rw [h0]
    rcases hsign with h | h <;> rw [h]
    · left; rw [List.nil_append]; exact ⟨rfl, hP0.1, hP0.2.1⟩
    · right; exact ⟨rfl, rfl⟩
  have hpr : (pre.length = 0 ∧ resulting_base base pre = (if base = 0 then 10 else base.toNat) ∧
        ¬ ((base = 0 ∨ base = 16) ∧
          c_chars (ws ++ (sign ++ (pre ++ ds))) (ws.length + sign.length) = 48 ∧
          (c_chars (ws ++ (sign ++ (pre ++ ds))) (ws.length + sign.length + 1) = 120 ∨
            c_chars (ws ++ (sign ++ (pre ++ ds))) (ws.length + sign.length + 1) = 88))) ∨
      (pre.length = 2 ∧ resulting_base base pre = 16 ∧ ((base = 0 ∨ base = 16) ∧
          c_chars (ws ++ (sign ++ (pre ++ ds))) (ws.length + sign.length) = 48 ∧
          (c_chars (ws ++ (sign ++ (pre ++ ds))) (ws.length + sign.length + 1) = 120 ∨
            c_chars (ws ++ (sign ++ (pre ++ ds))) (ws.length + sign.length + 1) = 88))) := by
    have h0 := hS 0
    rw [Nat.add_zero] at h0
    rw [h0, hS 1]
    rcases hpre with h | ⟨hb, h | h⟩
    · left
      refine ⟨by rw [h]; rfl, by rw [h]; simp [resulting_base], ?_⟩
      rintro ⟨_, _, h3⟩
      rw [h, List.nil_append, hcons] at h3
      cases rest with
      | nil => simp [c_chars] at h3
      | cons c1 r2 =>
        simp only [c_chars, List.getD_cons_succ, List.getD_cons_zero] at h3
        have := hdig c1 (by rw [hcons]; exact List.mem_cons_of_mem _ (List.mem_cons_self _ _))
        omega
    · right
      rw [h]
      exact ⟨rfl, rfl, hb, rfl, Or.inl rfl⟩
    · right
      rw [h]
      exact ⟨rfl, rfl, hb, rfl, Or.inr rfl⟩
  have hres := strtoull_core (c_chars (ws ++ (sign ++ (pre ++ ds)))) base fuel ws.length
    sign.length pre.length (resulting_base base pre) ds hbase hskip hsg hpr
    (fun k _ => by rw [hD]; rfl) hds
    (fun d hd => by
      rw [hD, c_chars_end _ _ (le_refl _)] at hd
      exact absurd hd (by simp [digit_value]))
    (by omega)
  rw [hres]
  simp only [Nat.add_assoc]

theorem space_chars : ∀ c, c ∈ [32, 9] → is_space c = true := by decide

/-- Witness of C38: `" \t+0x1F"` read in base 0 has the value 31 and ends at
index 7. -/
theorem C38_witness :
    (∀ c, c ∈ [32, 9] → is_space c = true) ∧
    (∀ c, c ∈ [49, 70] → ∃ d, digit_value c = some d ∧ d < resulting_base 0 [48, 120]) ∧
    simple_strtoull (c_chars [32, 9, 43, 48, 120, 49, 70]) 0 16 = some (31, 7) :=
  ⟨space_chars, by decide,
    C38_strtoull_value_and_end 0 [32, 9] [43] [48, 120] [49, 70] 16 (Or.inl rfl) space_chars
      (Or.inr rfl) (Or.inr ⟨Or.inl rfl, Or.inl rfl⟩) (by decide) (by decide) (by decide)⟩

/-! ## `is_address_valid` -/

/-- A range that does not wrap around `2 ^ 64` is accepted only if it lies in
`[PMM_RAM_BASE, highest_usable_address]`. -/
theorem is_address_valid_no_wrap (s : KState) (addr len : Nat) (hw : addr + len ≤ 2 ^ 64)
    (h : is_address_valid s addr len = true) :
    PMM_RAM_BASE ≤ addr ∧ addr + len ≤ s.highest_usable_address := by
  unfold is_address_valid at h
  simp only at h
  split at h
  · exact absurd h (by simp)
  · rename_i h1
    split at h
    · split at h <;> exact absurd h (by simp)
    · rename_i h2
      have hu : len > 0 → u64 (addr + len - 1) = addr + len - 1 := by
        intro hl
        unfold u64
        exact Nat.mod_eq_of_lt (by omega)
      by_cases hl : len > 0
      · rw [hu hl] at h2
        omega
      · omega

/-- C39 fails: the sum `addr + len - 1` is formed in 64 bits before it is
compared, and the test for overflow is made only when the wrapped sum is already
at or above `highest_ram`.  With `highest_usable_address = 0x80000000`,
`is_address_valid(0x40000000, 2 ^ 64 - 1)` is true: `addr + len - 1` wraps to
`0x3FFFFFFE`, which is below `highest_ram`, while the end of the range,
`0x40000000 + 2 ^ 64 - 1`, lies far above it. -/
theorem C39_wrapped_range_accepted :
    is_address_valid virt_boot_state 0x40000000 (2 ^ 64 - 1) = true ∧
    u64 (0x40000000 + (2 ^ 64 - 1) - 1) = 0x3FFFFFFE ∧
    ¬ (0x40000000 + (2 ^ 64 - 1) ≤ virt_boot_state.highest_usable_address) := by
  decide

/-! ## The frame allocator with the bitmap in RAM -/

theorem load_load_bitmap (ld : Linker) (s : KState) :
    load_bitmap ld (load_bitmap ld s) = load_bitmap ld s := rfl

theorem load_zero_state (ld : Linker) : load_bitmap ld zero_state = zero_state := rfl

theorem ram_init_low_eq :
    ram.frame_alloc_init low_linker (some low_params) zero_state
      = store_bitmap low_linker low_boot_state := by
  unfold ram.frame_alloc_init
  rw [load_zero_state, frame_alloc_init_low_eq]

theorem ram_init_virt_eq :
    ram.frame_alloc_init virt_linker (some virt_params) zero_state
      = store_bitmap virt_linker virt_boot_state := by
  unfold ram.frame_alloc_init
  rw [load_zero_state, frame_alloc_init_virt_eq]

theorem low_ram_heap_eq :
    low_ram_heap = ram.kheap_init low_linker (store_bitmap low_linker low_boot_state) := by
  unfold low_ram_heap
  rw [ram_init_low_eq]

set_option maxRecDepth 1000000 in
/-- The heap `low_grown_heap`: its chain has seven blocks, all flagged free;
the last one, at `0x40007000`, has payload 40912, is the only block of the free
list and is `heap_end`; frames 0 .. 40 are marked used in the bitmap (bytes
0 .. 4 are `0xFF`, byte 5 is 1). -/
theorem low_grown_heap_view :
    low_grown_heap.map (fun s =>
      (walk_next s.mem 16 s.heap_start,
        (walk_next s.mem 16 s.heap_start).map (blk_size s.mem),
        (walk_next s.mem 16 s.heap_start).map (blk_is_free s.mem),
        walk_free s.mem 16 s.free_list_head ++ [s.heap_end],
        (List.range 8).map (bitmap_view low_linker s.mem)))
      = some ([0x40000000, 0x40001000, 0x40002000, 0x40003000, 0x40004000, 0x40006000,
          0x40007000],
        [4048, 4048, 4048, 4048, 8144, 4048, 40912],
        [true, true, true, true, true, true, true],
        [0x40007000, 0x40007000],
        [255, 255, 255, 255, 255, 1, 0, 0]) := by
  unfold low_grown_heap
  rw [low_ram_heap_eq]
  decide!

set_option maxRecDepth 1000000 in
/-- C35 fails.  In `low_grown_heap` the free block at `0x40007000` has payload
40912 and ends at `0x40011000`, beyond the start `0x40010000` of the bitmap.
`kmalloc(40900)` hands it out whole, `p = 0x40007030`, and zeroes its payload,
so the first 4096 bytes of the bitmap: every frame below 32768 now counts as
free (the first eight bytes of the bitmap are 0).  `kmalloc(24600)` finds no
block, expands the heap by 7 pages, is given frames 0 .. 6 again and returns
null.  `kmalloc(8000)` expands the heap by frames 7 and 8, and returns
`t = 0x40006030` with a block of payload 8000: the range `[t, t + 8000)`
holds `p`, a live pointer, never passed to `kfree`, whose block had payload
40912 when it was returned.  The header of the chain block at `0x40008000`
lies inside `[p, p + 40912)` as well. -/
theorem C35_live_payloads_overlap :
    low_grown_heap.bind (fun s =>
      (ram.kmalloc low_linker 4 s 40900).bind (fun r1 =>
      (ram.kmalloc low_linker 4 r1.2 24600).bind (fun r2 =>
      (ram.kmalloc low_linker 4 r2.2 8000).map (fun r3 =>
        ([r1.1, blk_size r1.2.mem (r1.1 - 48), r2.1, blk_size r2.2.mem (r1.1 - 48),
            r3.1, blk_size r3.2.mem (r3.1 - 48)],
          (List.range 8).map (bitmap_view low_linker r1.2.mem),
          walk_next r2.2.mem 16 r2.2.heap_start,
          walk_next r3.2.mem 16 r3.2.heap_start)))))
      = some ([0x40007030, 40912, 0, 40912, 0x40006030, 8000],
        [0, 0, 0, 0, 0, 0, 0, 0],
        [0x40000000, 0x40001000, 0x40002000, 0x40003000, 0x40004000, 0x40005000,
          0x40006000],
        [0x40000000, 0x40001000, 0x40002000, 0x40003000, 0x40004000, 0x40005000,
          0x40006000, 0x40007F70, 0x40008000]) ∧
    0x40006030 ≤ 0x40007030 ∧ 0x40007030 < 0x40006030 + 8000 ∧
    0x40007030 ≤ 0x40008000 ∧ 0x40008000 + 48 ≤ 0x40007030 + 40912 := by
  refine ⟨?_, by decide, by decide, by decide, by decide⟩
  unfold low_grown_heap
  rw [low_ram_heap_eq]
  decide!

set_option maxRecDepth 1000000 in
/-- C8 fails.  In `low_grown_heap`, `kmalloc(40900)` returns `0x40007030`,
the payload of the block at `0x40007000`, which is `heap_end`, and zeroes the
first 4096 bytes of the bitmap with it.  `kmalloc(24600)` then expands the
heap by 7 pages and is given frames 0 .. 6 again; it links them behind
`heap_end` and returns null.  Afterwards the walk along `next` from
`heap_start = 0x40000000` visits the seven new blocks and ends at
`heap_end = 0x40006000`, but `heap_start->prev` is `0x40007000`, not null, and
the walk along `prev` from `heap_end` does not end: after `0x40000000` it goes
on to `0x40007000` and from there to `0x40006000` again. -/
theorem C8_prev_walk_does_not_end :
    low_grown_heap.bind (fun s =>
      (ram.kmalloc low_linker 4 s 40900).bind (fun r1 =>
      (ram.kmalloc low_linker 4 r1.2 24600).map (fun r2 =>
        ([r1.1, r2.1, r2.2.heap_start, r2.2.heap_end, blk_prev r2.2.mem r2.2.heap_start],
          walk_next r2.2.mem 16 r2.2.heap_start,
          walk_prev r2.2.mem 16 r2.2.heap_end))))
      = some ([0x40007030, 0, 0x40000000, 0x40006000, 0x40007000],
        [0x40000000, 0x40001000, 0x40002000, 0x40003000, 0x40004000, 0x40005000,
          0x40006000],
        [0x40006000, 0x40005000, 0x40004000, 0x40003000, 0x40002000, 0x40001000,
          0x40000000, 0x40007000, 0x40006000, 0x40005000, 0x40004000, 0x40003000,
          0x40002000, 0x40001000, 0x40000000, 0x40007000]) := by
  unfold low_grown_heap
  rw [low_ram_heap_eq]
  decide!

set_option maxRecDepth 1000000 in
/-- C5 fails.  In `low_grown_heap`, `kmalloc(36816)` splits the free block at
`0x40007000`: it returns `0x40007030` and writes the header of the remainder
at `0x40007000 + 48 + 36816 = 0x40010000`, the start of the bitmap; its `size`
field, 4048, now is the bytes `0xD0, 0x0F, 0, ..` of the bitmap, the bits of
frames 0 .. 63.  `kmalloc(5000)` finds no block and expands the heap by two
pages: `alloc_frame` sets bits 0 and 1, which makes that `size` field 4051,
and `expand_heap` merges the first new page into that block, flagged free:
`4051 + 4096 = 8147`.  The block is then split for the request and
`0x40010030`, an address inside the bitmap, is returned.  The remainder, at
`0x400113B8`, is the head of the free list, and its payload size is 3099,
which is not a multiple of 8. -/
theorem C5_block_size_not_aligned :
    low_grown_heap.bind (fun s =>
      (ram.kmalloc low_linker 4 s 36816).bind (fun r1 =>
      (ram.kmalloc low_linker 4 r1.2 5000).map (fun r2 =>
        ([r1.1, blk_next r1.2.mem 0x40007000, r1.2.free_list_head,
            blk_size r1.2.mem 0x40010000],
          (List.range 8).map (bitmap_view low_linker r1.2.mem),
          [r2.1, blk_size r2.2.mem 0x40010000, r2.2.free_list_head,
            blk_size r2.2.mem r2.2.free_list_head,
            blk_size r2.2.mem r2.2.free_list_head % 8],
          walk_free r2.2.mem 4 r2.2.free_list_head))))
      = some ([0x40007030, 0x40010000, 0x40010000, 4048],
        [208, 15, 0, 0, 0, 0, 0, 0],
        [0x40010030, 5000, 0x400113B8, 3099, 3],
        [0x400113B8]) := by
  unfold low_grown_heap
  rw [low_ram_heap_eq]
  decide!

set_option maxRecDepth 1000000 in
/-- C31 fails.  In `low_grown_heap`, `a = kmalloc(36816)` returns
`0x40007030` and puts the header of the remainder at `0x40010000`, into the
bitmap, where its bytes make frames 0 .. 3, 5 and 12 .. 15 count as free.  A
second `kmalloc(36816)` finds no block, expands the heap by 10 pages, which
are frames 0, 1, 2, 3, 5, 12, 13, 14, 15 and 16, and returns null.
`kfree(a)` then leaves at `0x40006000` a free block of payload 49104, the only
block of the free list, whose payload holds the blocks of frames 12 .. 15.
`kmalloc(40912)` chooses it without expanding the heap (`49104 ≥ 40912 + 96`,
so it is split) and returns `0x40006030`; the zeroing of its payload wipes the
headers at `0x4000C000 .. 0x4000F000`.  The walk along `next` from
`heap_start` had 10 blocks with `HEADER + size` summing to 36912 before the
call; after the call it has 6 blocks summing to 20528. -/
theorem C31_split_changes_chain_sum :
    low_grown_heap.bind (fun s =>
      (ram.kmalloc low_linker 4 s 36816).bind (fun r1 =>
      (ram.kmalloc low_linker 4 r1.2 36816).bind (fun r2 =>
      (ram.kmalloc low_linker 4 (kfree r2.2 r1.1) 40912).map (fun r3 =>
        ([r1.1, r2.1, r3.1, blk_size (kfree r2.2 r1.1).mem 0x40006000,
            chain_bytes (kfree r2.2 r1.1) 16, chain_bytes r3.2 17],
          first_fit (kfree r2.2 r1.1).mem (round_size 40912) 4
            (kfree r2.2 r1.1).free_list_head,
          walk_next (kfree r2.2 r1.1).mem 16 (kfree r2.2 r1.1).heap_start,
          walk_next r3.2.mem 17 r3.2.heap_start)))))
      = some ([0x40007030, 0, 0x40006030, 49104, 36912, 20528],
        some 0x40006000,
        [0x40000000, 0x40001000, 0x40002000, 0x40003000, 0x40005000, 0x4000C000,
          0x4000D000, 0x4000E000, 0x4000F000, 0x40010000],
        [0x40000000, 0x40001000, 0x40002000, 0x40003000, 0x40005000, 0x4000C000]) := by
  unfold low_grown_heap
  rw [low_ram_heap_eq]
  decide!

/-! ## The heap calls do not read the frame bitmap -/

theorem test_bit_full (i : Nat) : test_bit (fun _ => 255) i = true := by
  rw [test_bit_eq]
  show (255 : Nat).testBit (i % 8) = true
  have h8 : i % 8 < 8 := Nat.mod_lt _ (by decide)
  rw [show (255 : Nat) = 2 ^ 8 - 1 from rfl, Nat.testBit_two_pow_sub_one]
  exact decide_eq_true h8

theorem ChainInv_of_HeapInv {s : KState} {chain : List Nat} {lim : Nat}
    (h : HeapInv s chain lim) : ChainInv s chain lim :=
  ⟨⟨h.phys.seg, h.phys.hstart, h.phys.hend, h.phys.lim_le, fun i _ _ => test_bit_full i⟩, h.fl⟩

theorem add_to_free_list_bitmap (s : KState) (B : Nat → Nat) (b : Nat) :
    add_to_free_list { s with frame_bitmap := B } b =
      { add_to_free_list s b with frame_bitmap := B } := rfl

theorem remove_from_free_list_bitmap (s : KState) (B : Nat → Nat) (b : Nat) :
    remove_from_free_list { s with frame_bitmap := B } b =
      { remove_from_free_list s b with frame_bitmap := B } := by
  unfold remove_from_free_list
  simp only
  split <;> rfl

theorem kmalloc_take_bitmap (s : KState) (B : Nat → Nat) (size b : Nat) :
    kmalloc_take { s with frame_bitmap := B } size b =
      ((kmalloc_take s size b).1, { (kmalloc_take s size b).2 with frame_bitmap := B }) := by
  unfold kmalloc_take
  simp only [remove_from_free_list_bitmap, add_to_free_list_bitmap]
  split
  · split <;> rfl
  · rfl

theorem coalesce_fwd_bitmap (s : KState) (B : Nat → Nat) (b : Nat) :
    coalesce_fwd { s with frame_bitmap := B } b =
      { coalesce_fwd s b with frame_bitmap := B } := by
  unfold coalesce_fwd
  simp only [remove_from_free_list_bitmap]
  split <;> rfl

theorem coalesce_bwd_bitmap (s : KState) (B : Nat → Nat) (b : Nat) :
    coalesce_bwd { s with frame_bitmap := B } b =
      ((coalesce_bwd s b).1, { (coalesce_bwd s b).2 with frame_bitmap := B }) := by
  unfold coalesce_bwd
  simp only [remove_from_free_list_bitmap]
  split <;> rfl

theorem coalesce_bitmap (s : KState) (B : Nat → Nat) (b : Nat) :
    coalesce { s with frame_bitmap := B } b =
      ((coalesce s b).1, { (coalesce s b).2 with frame_bitmap := B }) := by
  rw [coalesce_eq, coalesce_eq]
  simp only
  split
  · rfl
  · rw [coalesce_fwd_bitmap, coalesce_bwd_bitmap]

theorem kfree_of_used (s : KState) (p : Nat) (hp : p ≠ 0)
    (hf : blk_is_free s.mem (sub64 p HEAP_HEADER_SIZE) = false) :
    kfree s p = add_to_free_list
      (coalesce { s with mem := set_is_free s.mem (sub64 p HEAP_HEADER_SIZE) true }
        (sub64 p HEAP_HEADER_SIZE)).2
      (coalesce { s with mem := set_is_free s.mem (sub64 p HEAP_HEADER_SIZE) true }
        (sub64 p HEAP_HEADER_SIZE)).1 := by
  unfold kfree
  rw [if_neg hp]
  simp only
  rw [hf]
  rfl

theorem add_pair_bitmap (c d : Nat × KState) (B : Nat → Nat)
    (h : d = (c.1, { c.2 with frame_bitmap := B })) :
    add_to_free_list d.2 d.1 = { add_to_free_list c.2 c.1 with frame_bitmap := B } := by
  subst h
  rfl

theorem kfree_bitmap (s : KState) (B : Nat → Nat) (p : Nat) :
    kfree { s with frame_bitmap := B } p = { kfree s p with frame_bitmap := B } := by
  by_cases hp : p = 0
  · unfold kfree
    rw [if_pos hp, if_pos hp]
  · cases hf : blk_is_free s.mem (sub64 p HEAP_HEADER_SIZE)
    · have e2 := kfree_of_used { s with frame_bitmap := B } p hp hf
      have e3 := coalesce_bitmap { s with mem := set_is_free s.mem (sub64 p HEAP_HEADER_SIZE) true }
        B (sub64 p HEAP_HEADER_SIZE)
      have e4 : coalesce { ({ s with frame_bitmap := B } : KState) with
          mem := set_is_free s.mem (sub64 p HEAP_HEADER_SIZE) true } (sub64 p HEAP_HEADER_SIZE) = _ :=
        e3
      exact e2.trans ((add_pair_bitmap _ _ B e4).trans
        (congrArg (fun k => ({ k with frame_bitmap := B } : KState)) (kfree_of_used s p hp hf).symm))
    · unfold kfree
      rw [if_neg hp, if_neg hp]
      simp only
      rw [hf]
      rfl

theorem ram_kmalloc_of_first_fit (ld : Linker) (fuel : Nat) (s : KState) (n bf : Nat) (hn : 0 < n)
    (hff : first_fit s.mem (round_size n) fuel s.free_list_head = some bf) (hbf : bf ≠ 0) :
    ram.kmalloc ld fuel s n = some (kmalloc_take s (round_size n) bf) := by
  have hff2 : first_fit s.mem (u64 (n + 8 - 1) &&& (UINT64_MAX ^^^ (8 - 1))) fuel
      s.free_list_head = some bf := hff
  unfold ram.kmalloc
  rw [if_neg (by omega)]
  simp only
  rw [hff2]
  simp only
  rw [if_neg hbf]
  rfl


theorem free_sum_bitmap (s : KState) (B : Nat → Nat) (fuel : Nat) :
    free_sum { s with frame_bitmap := B } fuel = free_sum s fuel := rfl

theorem ChainInv_congr {s s2 : KState} {chain : List Nat} {lim : Nat} (h : HeapInv s chain lim)
    (hf : ∀ b, b ∈ chain → blk_size s2.mem b = blk_size s.mem b ∧
      blk_next s2.mem b = blk_next s.mem b ∧ blk_prev s2.mem b = blk_prev s.mem b ∧
      blk_next_free s2.mem b = blk_next_free s.mem b ∧
      blk_prev_free s2.mem b = blk_prev_free s.mem b ∧
      blk_is_free s2.mem b = blk_is_free s.mem b)
    (h1 : s2.heap_start = s.heap_start) (h2 : s2.heap_end = s.heap_end)
    (h3 : s2.free_list_head = s.free_list_head) : ChainInv s2 chain lim := by
  have hfl : FLf (blk_next_free s2.mem) (blk_prev_free s2.mem) (blk_is_free s2.mem)
      s.free_list_head (fun b => b ∈ chain) :=
    FLf_congr h.fl (fun b hb => (hf b hb).2.2.2.1) (fun b hb => (hf b hb).2.2.2.2.1)
      (fun b hb => (hf b hb).2.2.2.2.2)
  rw [← h3] at hfl
  exact ⟨⟨Seg_congr _ _ _ _ _ _ (fun b hb => ⟨(hf b hb).1, (hf b hb).2.1, (hf b hb).2.2.1⟩)
      h.phys.seg, h1.trans h.phys.hstart, h2.trans h.phys.hend, h.phys.lim_le,
      fun i _ _ => test_bit_full i⟩, hfl⟩

theorem virt_ram_heap_eq :
    virt_ram_heap = ram.kheap_init virt_linker (store_bitmap virt_linker virt_boot_state) := by
  unfold virt_ram_heap
  rw [ram_init_virt_eq]

set_option maxRecDepth 1000000 in
/-- The heap right after boot on the `virt` layout, with the bitmap in RAM,
has a well-formed chain: the five blocks of frames 0 .. 4. -/
theorem virt_ram_heap_chain : ∃ chain lim, ChainInv virt_ram_heap chain lim := by
  obtain ⟨chain, lim, h⟩ := kheap_init_inv virt_boot_state
  have hw := walk_next_chain h 16
  have hv : walk_next (kheap_init virt_boot_state).mem 16 (kheap_init virt_boot_state).heap_start
      = [0x40000000, 0x40001000, 0x40002000, 0x40003000, 0x40004000] := by decide!
  rw [hv] at hw
  have hl : chain.length < 16 := take_all_of_length_lt chain 16 (by rw [← hw]; decide)
  have hc : chain = [0x40000000, 0x40001000, 0x40002000, 0x40003000, 0x40004000] := by
    rw [hw, List.take_of_length_le (by omega)]
  subst hc
  have hf : ∀ b, b ∈ [0x40000000, 0x40001000, 0x40002000, 0x40003000, 0x40004000] →
      blk_size virt_ram_heap.mem b = blk_size (kheap_init virt_boot_state).mem b ∧
      blk_next virt_ram_heap.mem b = blk_next (kheap_init virt_boot_state).mem b ∧
      blk_prev virt_ram_heap.mem b = blk_prev (kheap_init virt_boot_state).mem b ∧
      blk_next_free virt_ram_heap.mem b = blk_next_free (kheap_init virt_boot_state).mem b ∧
      blk_prev_free virt_ram_heap.mem b = blk_prev_free (kheap_init virt_boot_state).mem b ∧
      blk_is_free virt_ram_heap.mem b = blk_is_free (kheap_init virt_boot_state).mem b := by
    rw [virt_ram_heap_eq]
    decide!
  have h1 : virt_ram_heap.heap_start = (kheap_init virt_boot_state).heap_start := by
    rw [virt_ram_heap_eq]
    decide!
  have h2 : virt_ram_heap.heap_end = (kheap_init virt_boot_state).heap_end := by
    rw [virt_ram_heap_eq]
    decide!
  have h3 : virt_ram_heap.free_list_head = (kheap_init virt_boot_state).free_list_head := by
    rw [virt_ram_heap_eq]
    decide!
  exact ⟨_, lim, ChainInv_congr h hf h1 h2 h3⟩

/-! ## C6 -/

/-- C6 (amended): in every heap state whose chain is well formed (`ChainInv`:
the blocks from `heap_start` to `heap_end` are linked by `next` and `prev` in
address order, each is 8-byte aligned with a payload size that is a multiple
of 8 and ends at or before the start of the following block, and the free-list
links among them are consistent) and for every `n > 0`: when the first-fit
walk of `kmalloc(n)` finds a block `bf` on the free list (so the heap is not
expanded), the block physically before `bf` is absent or not flagged free, and
either `bf` is split (its size is at least the rounded request plus 96) or the
block physically after `bf` is absent or not flagged free, then `kmalloc(n)`
returns a non-null pointer `p`, and after `kfree(p)` the sum of the payload
sizes of the blocks of the chain that are flagged free equals its value before
the `kmalloc` call.  The bitmap is in RAM here (`ram.kmalloc`), wherever the
linker script puts it. -/
theorem C6_free_sum_restored (ld : Linker) {s : KState} {chain : List Nat} {lim : Nat}
    (h : ChainInv s chain lim)
    (fuel n bf : Nat) (hn : 0 < n)
    (hff : first_fit s.mem (round_size n) fuel s.free_list_head = some bf) (hbf : bf ≠ 0)
    (hprev : blk_prev s.mem bf = 0 ∨ blk_is_free s.mem (blk_prev s.mem bf) = false)
    (hnext : round_size n + 96 ≤ blk_size s.mem bf ∨ blk_next s.mem bf = 0 ∨
      blk_is_free s.mem (blk_next s.mem bf) = false) :
    ∃ p s1, ram.kmalloc ld fuel s n = some (p, s1) ∧ p ≠ 0 ∧
      ∀ fuel2, free_sum (kfree s1 p) fuel2 = free_sum s fuel2 := by
  have h0 : HeapInv { s with frame_bitmap := fun _ => 255 } chain lim := h
  obtain ⟨p, s1, hk, hp, hsum⟩ := free_sum_restored_of_inv h0 fuel n bf hn hff hbf hprev hnext
  rw [kmalloc_of_first_fit fuel { s with frame_bitmap := fun _ => 255 } n bf (by omega) hff hbf,
    kmalloc_take_bitmap] at hk
  have hk2 := Option.some.inj hk
  have e1 : p = (kmalloc_take s (round_size n) bf).1 := (congrArg Prod.fst hk2).symm
  have e2 : s1 = { (kmalloc_take s (round_size n) bf).2 with frame_bitmap := fun _ => 255 } :=
    (congrArg Prod.snd hk2).symm
  subst e1
  refine ⟨_, _, ram_kmalloc_of_first_fit ld fuel s n bf hn hff hbf, hp, ?_⟩
  intro fuel2
  have := hsum fuel2
  rw [e2, kfree_bitmap, free_sum_bitmap, free_sum_bitmap] at this
  exact this

set_option maxRecDepth 1000000 in
/-- Witness of C6: the heap right after boot on the `virt` layout, with the
bitmap in RAM, and `kmalloc(64)`, which splits the first block. -/
theorem C6_witness :
    (∃ chain lim, ChainInv virt_ram_heap chain lim) ∧
    0 < 64 ∧
    first_fit virt_ram_heap.mem (round_size 64) 16 virt_ram_heap.free_list_head
      = some 0x40000000 ∧
    0x40000000 ≠ 0 ∧
    (blk_prev virt_ram_heap.mem 0x40000000 = 0 ∨
      blk_is_free virt_ram_heap.mem (blk_prev virt_ram_heap.mem 0x40000000) = false) ∧
    (round_size 64 + 96 ≤ blk_size virt_ram_heap.mem 0x40000000 ∨
      blk_next virt_ram_heap.mem 0x40000000 = 0 ∨
      blk_is_free virt_ram_heap.mem (blk_next virt_ram_heap.mem 0x40000000) = false) ∧
    ∃ p s1, ram.kmalloc virt_linker 16 virt_ram_heap 64 = some (p, s1) ∧ p ≠ 0 ∧
      ∀ fuel2, free_sum (kfree s1 p) fuel2 = free_sum virt_ram_heap fuel2 := by
  have hff : first_fit virt_ram_heap.mem (round_size 64) 16 virt_ram_heap.free_list_head
      = some 0x40000000 := by rw [virt_ram_heap_eq]; decide!
  have hprev : blk_prev virt_ram_heap.mem 0x40000000 = 0 ∨
      blk_is_free virt_ram_heap.mem (blk_prev virt_ram_heap.mem 0x40000000) = false := by
    rw [virt_ram_heap_eq]; decide!
  have hnext : round_size 64 + 96 ≤ blk_size virt_ram_heap.mem 0x40000000 ∨
      blk_next virt_ram_heap.mem 0x40000000 = 0 ∨
      blk_is_free virt_ram_heap.mem (blk_next virt_ram_heap.mem 0x40000000) = false := by
    rw [virt_ram_heap_eq]; decide!
  obtain ⟨chain, lim, h⟩ := virt_ram_heap_chain
  exact ⟨⟨chain, lim, h⟩, by decide, hff, by decide, hprev, hnext,
    C6_free_sum_restored virt_linker h 16 64 0x40000000 (by decide) hff (by decide) hprev hnext⟩

end MeringueOS
